import Mathlib

/-!
# A shallow embedding of the text-editing engine (`TextEditor.cpp`)

The C++ class `TextEditor` is embedded as a record of the member variables the
editing logic reads and writes, and each member function as a function on that
record.

Conventions of the embedding
* `int` values are unbounded `Int`s: buffers are taken to be small enough that
  no 32-bit overflow occurs.
* A text byte (`TextEditor::Char`, a `uint8_t`, and `char` in strings) is a `Nat`;
  a `std::string` is a `List Char8`.
* `std::vector` is a `List`; an access outside the vector, a failed `assert`
  and a division by zero end the call with a `Fault`.
* `while`/`for` loops are recursive functions on a step budget; every caller
  passes a budget at least as large as the number of iterations the loop can
  make, so the budget never cuts a loop short.
* The token loop of `ColorizeRange`, which the code does not bound, ends with
  the fault `nonTermination` at a turn that the code would repeat without end.
-/

namespace TextEditor

/-! ## Definitions -/

/-- How a call can end other than by returning; `nonTermination` stands for a call that
does not end. -/
inductive Fault where
  | assertion
  | outOfBounds
  | divideByZero
  | nonTermination
  deriving DecidableEq, Repr

/-- The result of a call that may fail. -/
abbrev Res (α : Type) := Except Fault α

deriving instance DecidableEq for Except

/-- A text byte. -/
abbrev Char8 := Nat

/-- The C `assert`. -/
def assertThat (b : Bool) : Res Unit :=
  if b then pure () else throw Fault.assertion

/-- Element access `v[i]` of a vector with an `int` index. -/
def vecAt {α : Type} (v : List α) (i : Int) : Res α :=
  if i < 0 then throw Fault.outOfBounds
  else match v[i.toNat]? with
    | some x => pure x
    | none => throw Fault.outOfBounds

/-- Palette categories, in the order of the palette tables. -/
inductive PaletteIndex where
  | Default
  | Keyword
  | Number
  | String
  | CharLiteral
  | Punctuation
  | Preprocessor
  | Identifier
  | KnownIdentifier
  | PreprocIdentifier
  | Comment
  | MultiLineComment
  | Background
  | Cursor
  | Selection
  | ErrorMarker
  | Breakpoint
  | LineNumber
  | CurrentLineFill
  | CurrentLineFillInactive
  | CurrentLineEdge
  | Max
  deriving DecidableEq, Repr

/-- Modelled from the spec: the declaration of `Glyph` is in the header, which
is not among the sources. One character with its style index and the three flags. -/
structure Glyph where
  mChar : Char8
  mColorIndex : PaletteIndex
  mComment : Bool
  mMultiLineComment : Bool
  mPreprocessor : Bool
  deriving DecidableEq, Repr

/-- The constructor `Glyph(aChar, aColorIndex)`: all flags cleared. -/
def Glyph.mk2 (c : Char8) (idx : PaletteIndex) : Glyph :=
  { mChar := c, mColorIndex := idx, mComment := false,
    mMultiLineComment := false, mPreprocessor := false }

abbrev Line := List Glyph

abbrev Lines := List Line

/-- Modelled from the spec: the declaration of `Coordinates` is in the header,
which is not among the sources. A `(line, column)` pair of `int`s, ordered line
major, column minor. -/
structure Coordinates where
  mLine : Int
  mColumn : Int
  deriving DecidableEq, Repr

/-- Modelled from the spec: the comparison operators of `Coordinates` are in the header,
which is not among the sources. The comparison `a < b` of coordinates, line major. -/
def Coordinates.lt (a b : Coordinates) : Bool :=
  if a.mLine ≠ b.mLine then decide (a.mLine < b.mLine) else decide (a.mColumn < b.mColumn)

/-- The comparison `a <= b` of coordinates. -/
def Coordinates.le (a b : Coordinates) : Bool :=
  if a.mLine ≠ b.mLine then decide (a.mLine < b.mLine) else decide (a.mColumn ≤ b.mColumn)

/-- The comparison `a > b` of coordinates. -/
def Coordinates.gt (a b : Coordinates) : Bool :=
  if a.mLine ≠ b.mLine then decide (a.mLine > b.mLine) else decide (a.mColumn > b.mColumn)

/-- The comparison `a >= b` of coordinates. -/
def Coordinates.ge (a b : Coordinates) : Bool :=
  if a.mLine ≠ b.mLine then decide (a.mLine > b.mLine) else decide (a.mColumn ≥ b.mColumn)

/-- The function `std::min` on coordinates. -/
def Coordinates.min (a b : Coordinates) : Coordinates :=
  if b.lt a then b else a

/-- The function `std::max` on coordinates. -/
def Coordinates.max (a b : Coordinates) : Coordinates :=
  if a.lt b then b else a

/-- The function `UTF8CharLength`: the length announced by a lead byte. -/
def UTF8CharLength (c : Char8) : Int :=
  if (c % 256) &&& 0xFE = 0xFC then 6
  else if (c % 256) &&& 0xFC = 0xF8 then 5
  else if (c % 256) &&& 0xF8 = 0xF0 then 4
  else if (c % 256) &&& 0xF0 = 0xE0 then 3
  else if (c % 256) &&& 0xE0 = 0xC0 then 2
  else 1

/-- The tab-stop step `(c / mTabSize) * mTabSize + mTabSize` of the column loops;
the `int` division faults on a zero tab size. -/
def tabStop (tabSize c : Int) : Res Int :=
  if tabSize = 0 then throw Fault.divideByZero
  else pure (Int.tdiv c tabSize * tabSize + tabSize)

/-- Modelled from the spec: the declaration of `EditorState` is in the header,
which is not among the sources. The cursor and the selection. -/
structure EditorState where
  mSelectionStart : Coordinates
  mSelectionEnd : Coordinates
  mCursorPosition : Coordinates
  deriving DecidableEq, Repr

/-- Modelled from the spec: the declaration of `UndoRecord` is in the header,
which is not among the sources. One reversible edit. -/
structure UndoRecord where
  mAdded : List Char8
  mAddedStart : Coordinates
  mAddedEnd : Coordinates
  mRemoved : List Char8
  mRemovedStart : Coordinates
  mRemovedEnd : Coordinates
  mBefore : EditorState
  mAfter : EditorState
  deriving DecidableEq, Repr

/-- The selection modes (the enumerators that `SetSelection` switches on). -/
inductive SelectionMode where
  | Normal
  | Word
  | Line
  deriving DecidableEq, Repr

/-- The C function `isspace` on a byte, in the "C" locale, as a truth value. -/
def isspace (c : Char8) : Bool :=
  c = 32 || c = 9 || c = 10 || c = 11 || c = 12 || c = 13

/-- The C function `isblank` on a byte, in the "C" locale. -/
def isblank (c : Char8) : Bool :=
  c = 32 || c = 9

/-- The C function `isascii`. -/
def isascii (c : Char8) : Bool :=
  decide (c < 128)

/-- A regular expression of the fallback matcher of `ColorizeRange`, kept as its matching
function under `match_continuous`: the length of the match that starts at the first
character of the text, if there is one. -/
abbrev TokenRegex := List Char8 → Option Nat

/-- Modelled from the spec: the declaration of `LanguageDefinition` is in the header,
which is not among the sources. The members that the code of the editor reads: the
keyword set, the keys of the identifier maps, the comment markers, the preprocessor
marker, the tokenize callback (`none` is the null pointer; it returns the offsets of
the token's begin and end from `in_begin` and the palette index, or `none` for `false`)
and the regular expressions of the fallback. -/
structure LanguageDefinition where
  mKeywords : List String
  mIdentifiers : List String
  mPreprocIdentifiers : List String
  mCommentStart : List Char8
  mCommentEnd : List Char8
  mCommentStart2 : List Char8
  mCommentEnd2 : List Char8
  mSingleLineComment : List Char8
  mSingleLineComment2 : List Char8
  mPreprocChar : Char8
  mAutoIndentation : Bool
  mTokenize : Option (List Char8 → Option (Nat × Nat × PaletteIndex))
  mTokenRegexStrings : List (TokenRegex × PaletteIndex)
  mCaseSensitive : Bool

/-- The scan `while (p < in_end && pred(*p)) p++` from offset `p`: the offset it stops at. -/
def spanFrom (pred : Char8 → Bool) (text : List Char8) (p : Nat) : Nat :=
  p + ((text.drop p).takeWhile pred).length

/-- The loop of `TokenizeCStyleString` and `TokenizeCStyleCharacterLiteral` behind the
opening quote `q`: the text from `p` on; the offset behind the closing quote. A
backslash before a quote skips the quote. -/
def quotedEnd (q : Char8) : List Char8 → Nat → Option Nat
  | [], _ => none
  | [c], p => if c = q then some (p + 1) else none
  | c :: d :: rest, p =>
    if c = q then some (p + 1)
    else if c = 92 ∧ d = q then quotedEnd q rest (p + 2)
    else quotedEnd q (d :: rest) (p + 1)

/-- The function `TokenizeCStyleString` on the text `[in_begin, in_end)`: the offset of
`out_end` from `in_begin` when it returns true (`out_begin` is `in_begin`). -/
def TokenizeCStyleString (text : List Char8) : Option Nat :=
  match text with
  | [] => none
  | c :: rest => if c = 34 then quotedEnd 34 rest 1 else none

/-- The function `TokenizeCStyleCharacterLiteral`. -/
def TokenizeCStyleCharacterLiteral (text : List Char8) : Option Nat :=
  match text with
  | [] => none
  | c :: rest => if c = 39 then quotedEnd 39 rest 1 else none

/-- A letter `a`-`z`, `A`-`Z` or an underscore. -/
def isIdentStart (c : Char8) : Bool :=
  decide ((97 ≤ c ∧ c ≤ 122) ∨ (65 ≤ c ∧ c ≤ 90) ∨ c = 95)

/-- A letter, a digit or an underscore. -/
def isIdentChar (c : Char8) : Bool :=
  decide ((97 ≤ c ∧ c ≤ 122) ∨ (65 ≤ c ∧ c ≤ 90) ∨ (48 ≤ c ∧ c ≤ 57) ∨ c = 95)

/-- The function `TokenizeCStyleIdentifier`. -/
def TokenizeCStyleIdentifier (text : List Char8) : Option Nat :=
  match text with
  | [] => none
  | c :: _ => if isIdentStart c then some (spanFrom isIdentChar text 1) else none

/-- A digit `0`-`9`. -/
def isDigit (c : Char8) : Bool :=
  decide (48 ≤ c ∧ c ≤ 57)

/-- A hexadecimal digit. -/
def isHexDigit (c : Char8) : Bool :=
  decide ((48 ≤ c ∧ c ≤ 57) ∨ (97 ≤ c ∧ c ≤ 102) ∨ (65 ≤ c ∧ c ≤ 70))

/-- A binary digit. -/
def isBinDigit (c : Char8) : Bool :=
  decide (48 ≤ c ∧ c ≤ 49)

/-- One of the integer size suffixes `u`, `U`, `l`, `L`. -/
def isSizeSuffix (c : Char8) : Bool :=
  decide (c = 117 ∨ c = 85 ∨ c = 108 ∨ c = 76)

/-- The function `TokenizeCStyleNumber`. The triple `r1` is `isFloat`, `isHex`,
`isBinary` and the offset after the fraction, hexadecimal or binary part; `r2` is
`isFloat` and the offset after the exponent and the suffix `f`. -/
def TokenizeCStyleNumber (text : List Char8) : Option Nat :=
  match text with
  | [] => none
  | c0 :: _ =>
    let startsWithNumber := isDigit c0
    if c0 ≠ 43 ∧ c0 ≠ 45 ∧ startsWithNumber = false then none
    else
      let p1 := spanFrom isDigit text 1
      let hasNumber := startsWithNumber || decide (1 < p1)
      if hasNumber = false then none
      else
        let r1 : Bool × Bool × Bool × Nat :=
          match text[p1]? with
          | none => (false, false, false, p1)
          | some d =>
            if d = 46 then (true, false, false, spanFrom isDigit text (p1 + 1))
            else if d = 120 ∨ d = 88 then
              (false, true, false, spanFrom isHexDigit text (p1 + 1))
            else if d = 98 ∨ d = 66 then
              (false, false, true, spanFrom isBinDigit text (p1 + 1))
            else (false, false, false, p1)
        let p2 := r1.2.2.2
        let r2 : Option (Bool × Nat) :=
          if r1.2.1 = false ∧ r1.2.2.1 = false then
            let r : Option (Bool × Nat) :=
              match text[p2]? with
              | none => some (r1.1, p2)
              | some e =>
                if e = 101 ∨ e = 69 then
                  let p3 := p2 + 1
                  let p4 := match text[p3]? with
                    | none => p3
                    | some sgn => if sgn = 43 ∨ sgn = 45 then p3 + 1 else p3
                  let p5 := spanFrom isDigit text p4
                  if p5 = p4 then none else some (true, p5)
                else some (r1.1, p2)
            r.map fun q => (q.1, if text[q.2]? = some 102 then q.2 + 1 else q.2)
          else some (r1.1, p2)
        r2.map fun q => if q.1 = false then spanFrom isSizeSuffix text q.2 else q.2

/-- The characters of the `switch` of `TokenizeCStylePunctuation`. -/
def isPunctuation (c : Char8) : Bool :=
  decide (c ∈ ([91, 93, 123, 125, 33, 37, 94, 38, 42, 40, 41, 45, 43, 61, 126, 124, 60, 62,
    63, 58, 47, 59, 44, 46] : List Char8))

/-- The function `TokenizeCStylePunctuation`. -/
def TokenizeCStylePunctuation (text : List Char8) : Option Nat :=
  match text with
  | [] => none
  | c :: _ => if isPunctuation c then some 1 else none

/-- The array `cppKeywords` of `LanguageDefinition::CPlusPlus`. -/
def cppKeywords : List String :=
  ["and", "break", "do", "continue", "else", "elseif", "end", "false", "for", "function", "if",
   "in", "", "local", "nil", "not", "or", "repeat", "return", "then", "true", "until", "while",
   "goto", "TEXT_ALIGN_LEFT", "TEXT_ALIGN_CENTER", "TEXT_ALIGN_RIGHT", "TEXT_ALIGN_TOP",
   "TEXT_ALIGN_BOTTOM", "ESP_LEFT", "ESP_RIGHT", "ESP_TOP", "ESP_BOTTOM"]

/-- The array `identifiers` of `LanguageDefinition::CPlusPlus`. -/
def identifiers : List String :=
  ["assert", "collectgarbage", "dofile", "error", "getmetatable", "ipairs", "loadfile", "load",
   "loadstring", "next", "pairs", "pcall", "print", "rawequal", "rawlen", "rawget", "rawset",
   "select", "setmetatable", "tonumber", "tostring", "type", "xpcall", "_G", "_VERSION",
   "arshift", "band", "bnot", "bor", "bxor", "btest", "extract", "lrotate", "lshift", "replace",
   "rrotate", "rshift", "create", "resume", "running", "status", "wrap", "yield", "isyieldable",
   "debug", "getuservalue", "gethook", "getinfo", "getlocal", "getregistry", "getmetatable",
   "getupvalue", "upvaluejoin", "upvalueid", "setuservalue", "sethook", "setlocal",
   "setmetatable", "setupvalue", "traceback", "close", "flush", "input", "lines", "open",
   "output", "popen", "read", "tmpfile", "type", "write", "close", "flush", "lines", "read",
   "seek", "setvbuf", "write", "__gc", "__tostring", "abs", "acos", "asin", "atan", "ceil",
   "cos", "deg", "exp", "tointeger", "floor", "fmod", "ult", "log", "max", "min", "modf", "rad",
   "random", "randomseed", "sin", "sqrt", "string", "tan", "type", "atan2", "cosh", "sinh",
   "tanh", "pow", "frexp", "ldexp", "log10", "pi", "huge", "maxinteger", "mininteger", "loadlib",
   "searchpath", "seeall", "preload", "cpath", "path", "searchers", "loaded", "module",
   "require", "clock", "date", "difftime", "execute", "exit", "getenv", "remove", "rename",
   "setlocale", "time", "tmpname", "byte", "char", "dump", "find", "format", "gmatch", "gsub",
   "len", "lower", "match", "rep", "reverse", "sub", "upper", "pack", "packsize", "unpack",
   "concat", "maxn", "insert", "pack", "unpack", "remove", "move", "sort", "offset", "codepoint",
   "char", "len", "codes", "charpattern", "coroutine", "table", "io", "os", "string", "utf8",
   "bit32", "math", "debug", "package"]

/-- The array `gLua` of `LanguageDefinition::CPlusPlus`. -/
def gLua : List String :=
  ["GetVolume", "GetFileName", "GetLevel", "GetPos", "Play", "Set3DEnabled", "SetPos",
   "EnableLooping", "GetTime", "GetState", "Get3DCone", "FFT", "Is3D", "GetPlaybackRate",
   "GetTagsOGG", "IsValid", "GetBitsPerSample", "Set3DCone", "GetTagsID3", "IsLooping",
   "Get3DEnabled", "SetPan", "SetVolume", "IsOnline", "GetSamplingRate", "Get3DFadeDistance",
   "GetLength", "GetTagsVendor", "IsBlockStreamed", "GetAverageBitRate", "Set3DFadeDistance",
   "GetTagsMeta", "Pause", "SetTime", "Stop", "GetTagsHTTP", "SetPlaybackRate", "GetPan",
   "GetRangeTo", "GetSolidMask", "GetMaxVisionRange", "IsAbleToSee", "BodyMoveXY",
   "SetSolidMask", "__index", "GetFOV", "IsNextBot", "SetFOV", "SetMaxVisionRange", "__newindex",
   "BecomeRagdoll", "GetRangeSquaredTo", "GetActivity", "StartActivity", "GetGoalTolerance",
   "Invalidate", "FirstSegment", "Compute", "GetClosestPosition", "Update", "PriorSegment",
   "GetMinLookAheadDistance", "GetPositionOnPath", "GetCurrentGoal", "LastSegment", "MoveCursor",
   "GetCursorPosition", "MoveCursorToStart", "GetEnd", "MoveCursorToEnd", "ResetAge", "Chase",
   "GetCursorData", "GetAllSegments", "SetMinLookAheadDistance", "GetHindrance", "NextSegment",
   "GetAge", "GetStart", "MoveCursorToClosestPosition", "MoveCursorTo", "Draw",
   "SetGoalTolerance", "SetJumpHeight", "SetDesiredSpeed", "Jump", "GetDeceleration",
   "SetDeceleration", "GetCurrentAcceleration", "GetAcceleration", "SetDeathDropHeight",
   "SetAcceleration", "GetGroundMotionVector", "JumpAcrossGap", "SetMaxYawRate", "SetStepHeight",
   "ClearStuck", "GetStepHeight", "SetVelocity", "GetNextBot", "IsStuck", "GetMaxYawRate",
   "IsOnGround", "Approach", "IsUsingLadder", "IsAttemptingToMove", "SetGravity", "GetVelocity",
   "GetMaxJumpHeight", "IsAreaTraversable", "GetGravity", "IsClimbingOrJumping", "FaceTowards",
   "GetJumpHeight", "GetDeathDropHeight", "GetVolume", "SetDSP", "GetPitch", "ChangeVolume",
   "GetDSP", "FadeOut", "IsPlaying", "PlayEx", "GetSoundLevel", "ChangePitch", "SetSoundLevel",
   "GetOldAngles", "GetButtons", "GetAbsMoveAngles", "SetSideSpeed", "GetOrigin",
   "GetMoveAngles", "SetImpulseCommand", "SetUpSpeed", "KeyWasDown", "SetAngles", "SetMaxSpeed",
   "SetButtons", "SetAbsMoveAngles", "GetMaxSpeed", "GetImpulseCommand", "SetConstraintRadius",
   "GetOldButtons", "GetAngles", "SetMaxClientSpeed", "SetOldButtons", "GetUpSpeed", "AddKey",
   "GetForwardSpeed", "KeyReleased", "KeyPressed", "KeyDown", "SetOrigin", "GetSideSpeed",
   "GetMaxClientSpeed", "SetForwardSpeed", "SetMoveAngles", "GetConstraintRadius",
   "SetOldAngles", "Finish", "SetRecordSound", "AddFrame", "Width", "Height", "SetNoDraw",
   "SetBBox", "SetParticleCullRadius", "Add", "GetNumActiveParticles", "SetNearClip",
   "CursorPos", "SlideDown", "IsVisible", "LoadGWENFile", "DragMousePress", "IsLoading",
   "ToggleSelection", "ParentToHUD", "GetDock", "SetPaintBorderEnabled", "SetTextInset",
   "KillFocus", "SetWidth", "GotoTextEnd", "SetKeyboardInputEnabled", "SizeToChildren",
   "SetMinimumSize", "SetTooltipPanel", "HasChildren", "DrawTextEntryText", "IsWorldClicker",
   "Refresh", "Remove", "IsMarkedForDeletion", "GetDockPadding", "GetCookie", "InvalidateParent",
   "GetBounds", "SetSize", "MoveAbove", "SetSkin", "GetZPos", "SaveUndoState", "LocalCursorPos",
   "GetFGColor", "SetSteamID", "InsertClickableTextEnd", "CopyPos", "GetTooltipPanel",
   "SetAchievement", "SetSelectionCanvas", "CopyBounds", "SetFontInternal",
   "IsMouseInputEnabled", "Center", "SetFGColor", "SetExpensiveShadow", "SetAutoDelete",
   "CenterHorizontal", "SetActionFunction", "Undo", "SetName", "LerpPositions",
   "RebuildSpawnIconEx", "SetToolTip", "SetToolTipPanel", "IsChildHovered",
   "SetDrawLanguageIDAtLeft", "UnselectAll", "DragClick", "SetAlpha", "GetCookieName", "Prepare",
   "SetDrawLanguageID", "StretchRightTo", "DockPadding", "SetDrawOnTop", "GWEN_SetMin",
   "GetFont", "SetVerticalScrollbarEnabled", "DoModal", "GetMaximumCharCount", "PostMessage",
   "SetCursor", "SetMouseInputEnabled", "NewObject", "SizeTo", "Queue", "DragHoverClick",
   "SetHTML", "InsertClickableTextStart", "Droppable", "DragHover", "InsertColorChange",
   "DrawOutlinedRect", "SetToFullHeight", "SelectAll", "GetName", "AnimTail", "MoveToBack",
   "PositionLabel", "GWEN_SetCheckboxText", "SetParent", "AnimationThinkInternal", "DisableLerp",
   "GetClosestChild", "MoveRightOf", "HasParent", "DragHoverEnd", "SetPaintBackgroundEnabled",
   "GetHTMLMaterial", "SetDragParent", "SetTerm", "MouseCapture", "GetChildren",
   "GetSelectionCanvas", "CenterVertical", "InvalidateChildren", "GetNumLines", "AlignLeft",
   "GetBGColor", "MakePopup", "IsSelected", "GetClassName", "AlignTop", "SetURL",
   "LoadControlsFromString", "Dock", "SizeToContents", "SetBGColor", "ColorTo",
   "EndBoxSelection", "AddText", "SetTall", "SetSpawnIcon", "CopySelected", "DragMouseRelease",
   "SetTooltip", "GotoTextStart", "SlideUp", "GetTooltip", "SetTabPosition", "LocalToScreen",
   "PaintAt", "DroppedOn", "IsSelectable", "SetDropTarget", "IsDragging",
   "IsKeyboardInputEnabled", "SetAnimationEnabled", "GoToHistoryOffset", "InsertFade",
   "ApplyGWEN", "GetText", "AppendText", "Valid", "GetTextInset", "GWEN_SetDock",
   "GWEN_SetHorizontalAlign", "GWEN_SetMax", "GWEN_SetMargin", "GWEN_SetControlName", "MoveBy",
   "GetValue", "LoadControlsFromFile", "GWEN_SetText", "GWEN_SetSize", "GWEN_SetPosition",
   "LoadGWENString", "GetSelectedChildren", "OpenURL", "Hide", "CopyWidth", "RequestFocus",
   "GoBack", "LoadTGAImage", "Show", "GetTextSize", "OnStopDragging", "IsHovered", "Clear",
   "StretchBottomTo", "NewObjectCallback", "MoveToBefore", "MoveToAfter", "NumSelectedChildren",
   "RebuildSpawnIcon", "CopyBase", "IsOurChild", "GetChildPosition",
   "SetAllowNonAsciiCharacters", "DistanceFrom", "__eq", "Distance", "IsSelectionCanvas",
   "CutSelected", "GetSkin", "SetTooltipPanelOverride", "SizeToContentsX", "MoveLeftOf",
   "SetPlayer", "SetFocusTopLevel", "DockMargin", "SizeToContentsY", "MoveBelow",
   "GetCookieNumber", "GetSize", "AlphaTo", "SetUnderlineFont", "ToggleVisible", "MoveToFront",
   "GetAlpha", "GetCaretPos", "SetPaintFunction", "SetSelected", "SetModel",
   "GetValidReceiverSlot", "GetChild", "StartBoxSelection", "HasHierarchicalFocus", "IsModal",
   "IsEnabled", "IsMultiline", "SetMultiline", "DrawTexturedRect", "FocusNext",
   "GetSelectedTextRange", "ScreenToLocal", "SetText", "SetVisible", "SelectAllOnFocus",
   "SelectNone", "SetContentAlignment", "SetKeyBoardInputEnabled", "ChildrenSize",
   "DeleteCookie", "SetZPos", "SetWorldClicker", "GoForward", "GetTable", "GetParent",
   "RunJavascript", "SetSelectable", "GetContentSize", "AlignBottom", "UpdateHTMLTexture",
   "ResetAllFades", "Command", "PaintManual", "DrawFilledRect", "Paste", "SetFGColorEx",
   "SelectAllText", "DrawDragHover", "SetWrap", "SetMaximumCharCount", "Find", "HasFocus",
   "IsPopup", "SetPopupStayAtBack", "DrawSelections", "SetEnabled", "FocusPrevious", "MoveTo",
   "SetRenderInScreenshots", "IsDraggable", "OnDrop", "GetWide", "OnStartDragging", "AlignRight",
   "SetPaintedManually", "NoClipping", "GetDockMargin", "SetCookie", "GetChildrenInRect",
   "Receiver", "SetCookieName", "NewAnimation", "StopLoading", "SetCaretPos", "GetTall",
   "SetBGColorEx", "SetHeight", "SetWide", "StretchToParent", "InvalidateLayout", "CopyHeight",
   "Exec", "ChildCount", "SetCommand", "Init", "Paint", "GenerateExample", "SetExpanded",
   "GetExpanded", "Setup", "GetDecimals", "SetConVarG", "GetColor", "DoConVarThink",
   "GetConVarR", "ConVarThink", "GetPalette", "Think", "SetLabel", "PerformLayout", "SetConVarA",
   "GetVector", "SetConVarR", "GetConVarG", "GetConVarB", "ValueChanged", "SetWangs", "SetColor",
   "UpdateConVars", "UpdateColor", "SetConVarB", "SetBaseColor", "SetVector", "SetAlphaBar",
   "TranslateValues", "GetWangs", "SetPalette", "GetConVarA", "UpdateConVar", "GetAlphaBar",
   "GetCanvas", "CreateRow", "GetCategory", "AllowInput", "OnKeyCodeTyped", "OnMousePressed",
   "OpenAutoComplete", "SetDrawBackground", "GetInt", "GetNumeric", "IsEditing",
   "GetEnterAllowed", "OnGetFocus", "ConVarNumberThink", "OnRemove", "ApplySchemeSettings",
   "SetPlaceholderColor", "OnValueChange", "GetPlaceholderColor", "AddHistory", "OnKeyCode",
   "SetCursorColor", "OnLoseFocus", "GetFloat", "OnEnter", "UpdateConvarValue",
   "GetHighlightColor", "GetDisabled", "SetFont", "SetTabbingDisabled", "GetDrawBorder",
   "SetHighlightColor", "OnChange", "ConVarStringThink", "SetNumeric", "SetConVar",
   "GetTabbingDisabled", "UpdateFromMenu", "SetDisabled", "GetHistoryEnabled", "SetValue",
   "GetPaintBackground", "GetTextColor", "SetPaintBackground", "GetDrawBackground",
   "ConVarChanged", "SetDrawBorder", "SetPlaceholderText", "OnTextChanged", "GetCursorColor",
   "CheckNumeric", "SetTextColor", "SetHistoryEnabled", "UpdateFromHistory", "SetUpdateOnType",
   "GetPlaceholderText", "SetEnterAllowed", "GetUpdateOnType", "SetEditable", "GetAutoComplete",
   "EditVariable", "OnEntityLost", "RebuildControls", "PreAutoRefresh", "PostAutoRefresh",
   "EntityLost", "SetEntity", "GetPadding", "GetList", "DoExpansion", "SetPadding",
   "GetStartHeight", "LoadCookies", "SetStartHeight", "SetAnimTime", "UpdateAltLines",
   "AnimSlide", "SetContents", "GetAnimTime", "GetHeaderHeight", "Toggle", "SetHeaderHeight",
   "SetList", "OnToggle", "SetBorderColor", "SetType", "GetBorderColor", "GetType", "SetBorder",
   "GetTile", "GetBorder", "GetSpaceY", "FitsInTile", "Copy", "CopyContents", "ConsumeTiles",
   "OnChildAdded", "GetMinHeight", "GetSpaceX", "SetSpaceY", "OnChildRemoved", "SetMinHeight",
   "LayoutTiles", "SetTile", "FindFreeTile", "GetBaseSize", "ClearTiles", "OnModified", "Layout",
   "SetBaseSize", "SetSpaceX", "GetStretchWidth", "GetLayoutDir", "SetLayoutDir",
   "LayoutIcons_LEFT", "LayoutIcons_TOP", "SetStretchHeight", "GetStretchHeight",
   "SetStretchWidth", "UpdateColours", "DoClick", "DoRightClick", "SetMaxWidth", "GetColumnID",
   "GetFixedWidth", "GetTextAlign", "SetMinWidth", "ResizeColumn", "GetMinWidth", "GetMaxWidth",
   "GetDescending", "SetFixedWidth", "SetTextAlign", "SetDescending", "SetColumnID",
   "GetSizable", "Close", "OnClose", "SetDraggable", "SetIsMenu", "GetIsMenu", "GetScreenLock",
   "OnMouseReleased", "SetTitle", "SetScreenLock", "GetDraggable", "SetBackgroundBlur",
   "SetDeleteOnClose", "GetPaintShadow", "GetBackgroundBlur", "ShowCloseButton",
   "GetDeleteOnClose", "SetIcon", "SetPaintShadow", "SetSizable", "GetTitle", "IsActive",
   "OnMouseWheeled", "OnVScroll", "ScrollToChild", "InnerWidth", "GetVBar",
   "PerformLayoutInternal", "SetCanvas", "AddItem", "Rebuild", "GetModels", "SetPath",
   "SetBaseFolder", "SetOpen", "SetFileTypes", "ShowFolder", "GetFolderNode", "OnRightClick",
   "SetSearch", "GetSearch", "SetCurrentFolder", "SetupTree", "SetupFiles", "GetCurrentFolder",
   "OnSelect", "GetBaseFolder", "GetFileTypes", "OnDoubleClick", "SortFiles", "GetOpen",
   "SetModels", "GetPath", "GetRGB", "GetHue", "GetBaseRGB", "SetRGB", "SetHue", "OnUserChanged",
   "SetBaseRGB", "PaintOver", "SetReadOnly", "MakeDroppable", "GetDnD", "SetUseLiveDrag",
   "UpdateDropTarget", "DropAction_Normal", "DropAction_Simple", "GetUseLiveDrag",
   "DropAction_Copy", "SetDnD", "GetReadOnly", "SetDropPos", "GetOpenSize", "SetOpenSize",
   "Open", "GetOpenTime", "SetOpenTime", "GetShowIcons", "SetShowIcons", "GetItems", "CloseTab",
   "CrossFade", "SetupCloseButton", "GetActiveTab", "SizeToContentWidth", "SetActiveTab",
   "SetFadeTime", "SwitchToName", "OnActiveTabChanged", "GetFadeTime", "AddSheet", "StartScene",
   "SetDirectionalLight", "GetModel", "PreDrawModel", "SetAmbientLight", "SetLookAng",
   "GetEntity", "DrawModel", "PostDrawModel", "GetLookAng", "GetAnimSpeed", "SetCamPos",
   "SetLookAt", "SetAnimated", "SetAnimSpeed", "LayoutEntity", "GetAmbientLight", "GetCamPos",
   "GetAnimated", "RunAnimation", "GetLookAt", "DoLoadMaterial", "SetMaterial", "Unloaded",
   "FixVertexLitMaterial", "SetOnViewMaterial", "GetMatName", "GetFailsafeMatName",
   "LoadMaterial", "SetImage", "GetImageColor", "SetKeepAspect", "GetMaterial", "GetImage",
   "SetMatName", "SetFailsafeMatName", "GetKeepAspect", "SetImageColor", "BuildControls",
   "OnValueChanged", "AddScroll", "SetScroll", "GetHideButtons", "OnCursorMoved", "BarScale",
   "Grip", "GetOffset", "SetHideButtons", "Value", "SetUp", "AnimateTo", "GetScroll",
   "GetBottomMin", "GetTopMax", "StartGrab", "SetDragging", "SetTop", "GetTop",
   "GetDividerHeight", "SetBottomMin", "GetTopMin", "SetDividerHeight", "GetHoldPos",
   "GetBottom", "GetTopHeight", "SetHoldPos", "SetMiddle", "SetBottom", "SetTopMin",
   "SetTopHeight", "GetDragging", "DoConstraints", "GetMiddle", "SetTopMax", "ShowIcons",
   "GetParentNode", "InternalDoClick", "InsertNode", "GetLineHeight", "PopulateChildren",
   "GetShowFiles", "SetHideExpander", "LeaveTree", "GetDrawLines", "GetLastChild",
   "PerformRootNodeLayout", "SetNeedsChildSearch", "GetDoubleClickToOpen",
   "GetForceShowExpander", "SetDoubleClickToOpen", "InstallDraggable", "CreateChildNodes",
   "SetWildCard", "SetParentNode", "AddPanel", "FilePopulateCallback", "MoveChildTo",
   "GetPathID", "GetFolder", "SetDirty", "GetNeedsPopulating", "ChildExpanded", "GetChildNodes",
   "SetFolder", "SetShowFiles", "SetLastChild", "GetRoot", "SetForceShowExpander",
   "ExpandRecurse", "SetNeedsPopulating", "DoChildrenOrder", "IsRootNode", "SetupCopy",
   "GetChildNodeCount", "SetRoot", "PopulateChildrenAndSelf", "CleanList", "AddFolder",
   "GetIcon", "FilePopulate", "MakeFolder", "AddNode", "GetIndentSize", "SetDrawLines",
   "SetFileName", "Insert", "GetNeedsChildSearch", "GetHideExpander", "ExpandTo",
   "InternalDoRightClick", "SetPathID", "GetDraggableName", "OnNodeAdded", "SetDraggableName",
   "GetDirty", "GetChildNode", "GetWildCard", "OnNodeSelected", "MoveToTop", "DrawArrow",
   "PositionTooltip", "OpenForPanel", "GetRotation", "SetHandle", "GetHandle", "SetRotation",
   "SetSlideY", "GetSlideY", "SetSlideX", "GetSlideX", "SetBackground", "GetLockX",
   "GetTrapInside", "SetTrapInside", "GetLockY", "SetNotches", "SetNumSlider", "SetLockX",
   "GetNotches", "GetNumSlider", "SetLockY", "GetID", "GetSelected", "IsDown", "SetID",
   "GetPropertySheet", "GetPanel", "SetPropertySheet", "GetTabHeight", "SetPanel", "SetFraction",
   "GetFraction", "OnActivePanelChanged", "FindBestActive", "SelectPanel", "PaintInnerCorners",
   "PaintDifferentColours", "ResetToDefaultValue", "GetMax", "SetMinMax", "UpdateNotches",
   "SetMax", "SetMin", "GetDefaultValue", "GetMin", "GetRange", "TranslateSliderValues",
   "SetDecimals", "GetTextArea", "SetDark", "SetDefaultValue", "SetButtonSize",
   "SetSelectedNumber", "SetStickyKeys", "GetStickyKeys", "ButtonPressed", "GetButtonSize",
   "GetSelectedNumber", "OnButtonPressed", "SetLife", "GetSpacing", "SetAlignment", "Shuffle",
   "GetAlignment", "GetLife", "SetSpacing", "AddModelList", "SetModelList", "DoClickInternal",
   "GetChecked", "SetIsCheckable", "ToggleCheck", "GetMenu", "SetMenu", "OnCursorEntered",
   "GetIsCheckable", "AddSubMenu", "OnCursorExited", "SetSubMenu", "SetChecked", "OnChecked",
   "GetOpenMenu", "AddOrGetMenu", "AddMenu", "AddSpacer", "SetMaxHeight", "OptionSelected",
   "AddOption", "GetMaxHeight", "SetDeleteSelf", "CloseSubMenu", "GetDrawColumn",
   "SetMinimumWidth", "GetDeleteSelf", "HighlightItem", "OptionSelectedInternal",
   "ClearHighlights", "SetOpenSubMenu", "SetDrawColumn", "GetOpenSubMenu", "AddCVar",
   "OpenSubMenu", "GetMinimumWidth", "GetAltLine", "GetColumnText", "GetSortValue",
   "GetListView", "SetColumnText", "DataLayout", "SetAltLine", "IsLineSelected", "SetSortValue",
   "SetListView", "SortByColumn", "SelectItem", "FixColumnsLayout", "OnRowSelected",
   "SetHideHeaders", "DisableScrollbar", "SetSortable", "GetLines", "SetMultiSelect",
   "OnRequestResize", "GetMultiSelect", "GetSortedID", "OnScrollbarAppear", "GetSortable",
   "AddLine", "OnClickLine", "GetSelectedLine", "OnRowRightClick", "DoDoubleClick",
   "SelectFirstItem", "AddColumn", "ColumnWidth", "RemoveLine", "GetHideHeaders", "GetInnerTall",
   "GetLine", "SetDataHeight", "SortByColumns", "GetDataHeight", "ClearSelection", "GetMother",
   "SetMother", "Select", "GetAutoStretch", "OnLabelTextChanged", "SetAutoStretch",
   "SetDoubleClickingEnabled", "SetAutoStretchVertical", "SetBright", "GetHighlight",
   "OnDepressed", "DoDoubleClickInternal", "UpdateFGColor", "GetBright", "DoMiddleClick",
   "GetIsToggle", "GetTextStyleColor", "OnToggled", "OnReleased", "SetToggle",
   "SetTextStyleColor", "GetDoubleClickingEnabled", "SetIsToggle", "GetToggle", "GetDark",
   "GetAutoStretchVertical", "SetHighlight", "GetStretchToFit", "SetDepressImage",
   "SetImageVisible", "DepressImage", "GetDepressImage", "SetStretchToFit", "SetSelectedIcon",
   "SetManual", "FilterByText", "Fill", "GetSelectedIcon", "GetManual", "OnChangeInternal",
   "ScrollToSelected", "SelectIcon", "FinishedLoading", "UpdateHistory", "SetButtonColor",
   "StartedLoading", "UpdateNavButtonStatus", "OnFinishLoadingDocument", "OnCallback",
   "OnDocumentReady", "ConsoleMessage", "OnChangeTitle", "SetAllowLua", "GetScrollbars",
   "QueueJavascript", "SetScrollbars", "Call", "GetAllowLua", "OnChangeTargetURL", "AddFunction",
   "OnChildViewCreated", "OnBeginLoadingDocument", "GetOverlap", "SetOverlap",
   "GetShowDropTargets", "OnDragModified", "SetShowDropTargets", "SetDividerWidth",
   "GetLeftWidth", "SetLeftMin", "GetRightMin", "SetRightMin", "GetLeft", "GetDividerWidth",
   "SetRight", "GetLeftMin", "SetLeft", "GetRight", "SetLeftWidth", "GetCols", "SortByMember",
   "SetRowHeight", "SetColWide", "GetRowHeight", "GetColWide", "RemoveItem", "SetCols",
   "ControlHelp", "ListBox", "NumSlider", "PanelSelect", "GetAutoSize", "Button", "CheckBox",
   "NumberWang", "SetAutoSize", "TextEntry", "Help", "ComboBox", "GetOptionTextByData",
   "GetSelectedID", "GetOptionData", "ChooseOption", "SetSortItems", "AddChoice", "IsMenuOpen",
   "CheckConVarChanges", "ChooseOptionID", "CloseMenu", "OpenMenu", "GetOptionText",
   "GetSortItems", "GetActiveButton", "UseButtonOnlyStyle", "SetActiveButton",
   "ResetSavedColors", "Reset", "NetworkColorChange", "GetNumRows", "SaveColor",
   "OnRightClickButton", "SetColorButtons", "SetNumRows", "SetConsoleCommand", "OpenForPos",
   "SetBackgroundColor", "GetBackgroundColor", "UpdateText", "CaptureMouse", "SetFirstPerson",
   "GetFirstPerson", "FirstPersonControls", "GetFloatValue", "SetInterval", "HideWang",
   "SetFloatValue", "GetInterval", "GetTextValue", "SetZoom", "GetActive", "IdealZoom",
   "GetShouldDrawScreen", "LockCursor", "PaintScratchWindow", "GetZoom", "SetShouldDrawScreen",
   "DrawScreen", "SetActive", "DrawNotches", "GetSizeX", "SetSizeY", "GetSizeY", "SetSizeX",
   "GetIndent", "SetIndent", "SetLineHeight", "SetIndentSize", "SetSelectedItem",
   "SetClickOnDragHover", "Root", "LayoutTree", "GetClickOnDragHover", "GetSelectedItem",
   "SetBarColor", "GetBarColor", "EnableVerticalScrollbar", "InsertAtTop", "EnableHorizontal",
   "InsertBefore", "DropAction", "GetNoSizing", "SetStretchHorizontally", "SetNoSizing",
   "GetAnimEase", "SetAnimEase", "InsertAfter", "GetStretchHorizontally", "GetPosColor",
   "SetValueOff", "GetValueOff", "GetConVar", "SetValueOn", "GetValueOn", "SetSelectedItems",
   "SelectByName", "GetSelectedItems", "GetSelectedValues", "SetMultiple", "GetMultiple",
   "SetRow", "GetRow", "SetCostSoFar", "IsCompletelyVisible", "IsOpen", "IsPotentiallyVisible",
   "IsCoplanar", "IsOverlapping", "GetPlace", "IsClosed", "IsFlat", "IsConnectedAtSide",
   "GetParentHow", "ComputeGroundHeightChange", "GetLadders", "GetClosestPointOnArea",
   "PopOpenList", "GetRandomPoint", "GetHidingSpots", "IsOpenListEmpty", "UpdateOnOpenList",
   "PlaceOnGround", "IsConnected", "SetCorner", "AddToClosedList", "SetTotalCost", "IsBlocked",
   "IsPartiallyVisible", "IsUnderwater", "GetExposedSpots", "RemoveFromClosedList",
   "SetAttributes", "GetRandomAdjacentAreaAtSide", "Contains", "GetAdjacentCount",
   "GetAdjacentAreasAtSide", "GetAdjacentCountAtSide", "GetZ", "GetAdjacentAreas",
   "AddHidingSpot", "AddToOpenList", "HasAttributes", "Disconnect", "GetCorner",
   "GetLaddersAtSide", "IsOverlappingArea", "ComputeAdjacentConnectionHeightChange",
   "GetExtentInfo", "ClearSearchLists", "GetAttributes", "ComputeDirection", "GetCostSoFar",
   "IsRoughlySquare", "ConnectTo", "SetPlace", "GetIncomingConnections", "DrawSpots",
   "GetTotalCost", "GetIncomingConnectionsAtSide", "GetCenter", "GetWheelContactPoint",
   "GetWheelTotalHeight", "GetPassenger", "SetWheelFriction", "IsEngineStarted",
   "GetPassengerSeatPoint", "BoostTimeLeft", "GetDriver", "IsEngineEnabled", "IsValidVehicle",
   "CheckExitPoint", "SetSteering", "GetWheel", "GetThirdPersonMode", "SetBoost",
   "SetCameraDistance", "GetWheelBaseHeight", "SetVehicleEntryAnim", "SetVehicleParams",
   "GetVehicleViewPosition", "HasBoost", "SetSteeringDegrees", "GetSteering", "GetHLSpeed",
   "GetWheelCount", "SetVehicleClass", "GetVehicleParams", "IsVehicleBodyInWater",
   "HasBrakePedal", "GetSteeringDegrees", "SetHasBrakePedal", "ReleaseHandbrake", "EnableEngine",
   "IsVehicle", "SetHandbrake", "GetSpeed", "SetMaxReverseThrottle", "GetRPM", "SetMaxThrottle",
   "GetThrottle", "SetThrottle", "IsBoosting", "GetCameraDistance", "StartEngine",
   "SetSpringLength", "GetVehicleClass", "GetOperatingParams", "SetThirdPersonMode", "GetAmmo",
   "GetDefault", "SetInt", "GetString", "SetFloat", "GetFlags", "Revert", "IsFlagSet",
   "SetString", "GetHelpText", "GetBool", "SetBool", "GetTopRightArea", "GetTopBehindArea",
   "SetTopForwardArea", "SetTopBehindArea", "GetTopForwardArea", "GetWidth", "SetTopRightArea",
   "SetTopLeftArea", "GetBottomArea", "GetTopLeftArea", "GetNormal", "GetPosAtHeight",
   "SetBottomArea", "SetUnpacked", "ToVector", "Unpack", "ToTable", "ToHSL", "ToHSV", "Invert",
   "SetScale", "Zero", "__mul", "__sub", "IsIdentity", "GetTranslation", "GetInverseTR",
   "Rotate", "SetField", "ScaleTranslation", "GetInverse", "SetForward", "GetScale",
   "GetForward", "Identity", "Set", "GetField", "Translate", "SetTranslation", "Scale",
   "InvertTR", "IsRotationMatrix", "__add", "IsZero", "GetUp", "SnapTo", "Right",
   "RotateAroundAxis", "Sub", "Forward", "__div", "__unm", "Up", "Mul", "Div", "Normalize",
   "TargetOrder", "Give", "SetSchedule", "IsNPC", "AlertSound", "ClearSchedule",
   "SetIdealActivity", "IsSquadLeader", "MaintainActivity", "SelectWeapon", "CapabilitiesRemove",
   "HasEnemyMemory", "SetNPCState", "CapabilitiesAdd", "SetArrivalSpeed", "ClearEnemyMemory",
   "SetIdealYawAndUpdate", "SetHullSizeNormal", "GetActiveWeapon", "NavSetRandomGoal",
   "SetArrivalDirection", "SetMaxRouteRebuildTime", "NavSetGoal", "RunEngineTask",
   "GetExpression", "UseNoBehavior", "MoveOrder", "StopMoving", "GetShootPos",
   "AddEntityRelationship", "SetSquad", "ClearExpression", "GetSquad", "RememberUnreachable",
   "FearSound", "IsUnreachable", "GetArrivalSequence", "UseFuncTankBehavior", "SetHullType",
   "SetArrivalSequence", "UpdateEnemyMemory", "Disposition", "GetCurrentWeaponProficiency",
   "UseAssaultBehavior", "UseLeadBehavior", "TaskComplete", "SetCurrentWeaponProficiency",
   "SetEnemy", "SetLastPosition", "GetHullType", "UseActBusyBehavior", "IsRunningBehavior",
   "ClearCondition", "GetAimVector", "GetNearestSquadMember", "SetArrivalDistance",
   "GetMovementSequence", "GetPathDistanceToGoal", "GetWeapon", "GetEnemyLastKnownPos",
   "GetWeapons", "PickupWeapon", "DropWeapon", "GetNextWaypointPos", "GetCurWaypointPos",
   "AddRelationship", "GetEnemy", "ClearGoal", "Classify", "GetEnemyFirstTimeSeen",
   "GetPathTimeToGoal", "SetArrivalActivity", "GetEnemyLastTimeSeen", "SetMovementSequence",
   "NavSetGoalTarget", "GetTarget", "SetMovementActivity", "GetMovementActivity", "TaskFail",
   "HasEnemyEluded", "GetNPCState", "LostEnemySound", "CapabilitiesGet", "MarkEnemyAsEluded",
   "SetCondition", "HasCondition", "GetIdealActivity", "StartEngineTask", "SetTarget",
   "GetArrivalActivity", "GetCurrentSchedule", "IdleSound", "NavSetWanderGoal",
   "ExitScriptedSequence", "GetBlockingEntity", "SetExpression", "IsMoving", "UseFollowBehavior",
   "PlaySentence", "CapabilitiesClear", "GetEnemyLastSeenPos", "FoundEnemySound", "SentenceStop",
   "ConditionName", "IsCurrentSchedule", "StopWalking", "GiveAmmo", "SuppressHint", "SendHint",
   "GetCount", "AllowImmediateDecalPainting", "Frags", "AddCleanup", "SetTeam", "AddFrags",
   "LimitHit", "IsTimingOut", "AddCount", "Ban", "GetViewModel", "EquipSuit", "SetSuitPower",
   "SetHoveredWidget", "CheckLimit", "StartSprinting", "AddDeaths", "GetEyeTrace", "SetNoTarget",
   "GetInfo", "UniqueIDTable", "AnimSetGestureSequence", "GetPreferredCarryAngles",
   "AnimSetGestureWeight", "LagCompensation", "Team", "PhysgunUnfreeze",
   "AddFrozenPhysicsObject", "StripAmmo", "RemoveAmmo", "Alive", "SimulateGravGunPickup",
   "DrawViewModel", "GetVehicle", "IsUserGroup", "SetStepSize", "IsSuperAdmin", "SetEyeAngles",
   "IsWorldClicking", "IsAdmin", "SetUnDuckSpeed", "GetHoveredWidget", "SetViewEntity",
   "SetupHands", "PacketLoss", "CanUseFlashlight", "LastHitGroup", "SetActiveWeapon",
   "SwitchToDefaultWeapon", "RemovePData", "ViewPunchReset", "GetCurrentCommand",
   "GetPunchAngle", "Freeze", "GetStepSize", "SetPData", "GetAvoidPlayers", "SetArmor",
   "GetNoCollideWithTeammates", "SetLastHitGroup", "GetViewOffsetDucked", "Flashlight",
   "InVehicle", "SetAllowFullRotation", "Ping", "GetLaggedMovementValue", "GetAllowFullRotation",
   "SetAvoidPlayers", "GetPData", "IsFrozen", "GetObserverMode", "Name", "TimeConnected",
   "SprintDisable", "TraceHullAttack", "EnterVehicle", "DrawWorldModel", "GetTool",
   "SetCrouchedWalkSpeed", "DebugInfo", "StripWeapons", "SetLaggedMovementValue",
   "RemoveAllAmmo", "Kick", "Spectate", "TranslateWeaponActivity", "DropObject", "Lock",
   "KillSilent", "SetMaxArmor", "GetSuitPower", "PlayStepSound", "SetSuppressPickupNotices",
   "KeyDownLast", "GetEntityInUse", "GetObserverTarget", "IsSprinting", "SimulateGravGunDrop",
   "Say", "GetWeaponColor", "MotionSensorPos", "SetViewOffset", "SetHands", "GetHands",
   "SetViewPunchAngles", "ScreenFade", "GetAllowWeaponsInVehicle", "IsListenServerHost",
   "CrosshairDisable", "GetCanWalk", "UniqueID", "DoAttackEvent", "GetClassID", "SetRunSpeed",
   "IsTyping", "IsPlayingTaunt", "SetAmmo", "AccountID", "FlashlightIsOn", "ShouldDropWeapon",
   "GetTimeoutSeconds", "SetCurrentViewOffset", "SetViewOffsetDucked", "GetViewOffset",
   "GetSlowWalkSpeed", "SetAllowWeaponsInVehicle", "Crouching", "IPAddress", "SetObserverMode",
   "GodDisable", "UnSpectate", "DropNamedWeapon", "SetJumpPower", "SetWeaponColor",
   "DoCustomAnimEvent", "CrosshairEnable", "GetRagdollEntity", "GetDrivingEntity", "GetCanZoom",
   "SteamID64", "CreateRagdoll", "IsSuitEquipped", "SetClassID", "SetNoCollideWithTeammates",
   "ExitVehicle", "GetDrivingMode", "SetHullDuck", "SetCanWalk", "UnLock", "SprayDecal",
   "SetHull", "SetSlowWalkSpeed", "SetLadderClimbSpeed", "ChatPrint", "SetWalkSpeed", "SteamID",
   "GetHullDuck", "UserID", "GetViewPunchVelocity", "GetEyeTraceNoCursor", "StartWalking",
   "SetUserGroup", "SprintEnable", "GetUseEntity", "GetPressedWidget", "HasGodMode",
   "GetViewPunchAngles", "SetPressedWidget", "StopZooming", "PickupObject", "GetViewEntity",
   "GetLadderClimbSpeed", "SetViewPunchVelocity", "GetDuckSpeed", "SetDuckSpeed",
   "GetCrouchedWalkSpeed", "SetFrags", "GetRunSpeed", "IsBot", "SetPlayerColor", "GetWalkSpeed",
   "StopSprinting", "GetRenderAngles", "SetRenderAngles", "GetMaxArmor",
   "AnimRestartMainSequence", "AnimResetGestureSlot", "UnfreezePhysicsObjects", "HasWeapon",
   "AddVCDSequenceToGestureSlot", "RemoveSuit", "GetPlayerColor", "DoReloadEvent",
   "DoSecondaryAttack", "SpectateEntity", "OwnerSteamID64", "DoAnimationEvent",
   "IsDrivingEntity", "IsPlayer", "Deaths", "SetDrivingEntity", "GetJumpPower", "Armor",
   "SendLua", "GetInfoNum", "Nick", "GetAmmoCount", "GetPreviousWeapon", "GetCurrentViewOffset",
   "PrintMessage", "ResetHull", "IsFullyAuthenticated", "GetUserGroup", "DetonateTripmines",
   "StripWeapon", "AnimRestartGesture", "GodEnable", "GetUnDuckSpeed", "Kill", "AllowFlashlight",
   "ViewPunch", "SetCanZoom", "SetDeaths", "ConCommand", "GetHull", "RemoveAllItems",
   "VoiceVolume", "IsMuted", "AddPlayerOption", "SetMuted", "GetFriendStatus", "IsSpeaking",
   "ShouldDrawLocalPlayer", "IsVoiceAudible", "ShowProfile", "GetPlayerInfo", "GetNormalized",
   "DistToSqr", "Length2D", "Angle", "DotProduct", "IsEqualTol", "Length", "Length2DSqr",
   "WithinAABox", "ToColor", "Cross", "Dot", "LengthSqr", "AngleEx", "ToScreen", "ClearMovement",
   "SetMouseWheel", "ClearButtons", "GetImpulse", "SetMouseX", "TickCount", "GetMouseX",
   "SetImpulse", "RemoveKey", "SetSideMove", "GetViewAngles", "SetMouseY", "GetSideMove",
   "GetMouseWheel", "GetMouseY", "IsForced", "CommandNumber", "SetForwardMove", "SetUpMove",
   "GetForwardMove", "GetUpMove", "SetViewAngles", "ReadVector", "ReadFloat", "StartBlock",
   "ReadInt", "EndBlock", "ReadString", "ReadEntity", "ReadAngle", "ReadBool",
   "IsExplosionDamage", "SetDamageBonus", "IsDamageType", "SetDamageCustom", "IsFallDamage",
   "SetDamage", "GetInflictor", "GetBaseDamage", "SetDamageType", "SetBaseDamage",
   "SetDamagePosition", "GetMaxDamage", "GetAttacker", "GetDamage", "ScaleDamage",
   "GetDamageCustom", "SetReportedPosition", "SetInflictor", "SubtractDamage", "GetDamageForce",
   "SetMaxDamage", "SetAttacker", "GetDamageBonus", "GetDamageType", "AddDamage", "GetAmmoType",
   "SetAmmoType", "GetReportedPosition", "GetDamagePosition", "SetDamageForce", "IsBulletDamage",
   "ReadDouble", "ReadShort", "ReadUShort", "WriteFloat", "WriteByte", "ReadULong", "WriteLong",
   "WriteULong", "WriteDouble", "Skip", "Seek", "Size", "Tell", "WriteBool", "Flush", "ReadLine",
   "WriteUShort", "ReadLong", "Read", "WriteShort", "EndOfFile", "ReadByte", "Write",
   "GetOrthographic", "GetVerticalFOV", "SetTexture", "SetBrightness", "SetFarZ",
   "GetEnableShadows", "SetVerticalFOV", "GetConstantAttenuation", "GetHorizontalFOV",
   "GetTextureFrame", "SetTextureFrame", "GetQuadraticAttenuation", "SetEnableShadows",
   "SetHorizontalFOV", "GetFarZ", "GetBrightness", "GetLinearAttenuation", "SetNearZ",
   "SetLinearAttenuation", "SetConstantAttenuation", "SetQuadraticAttenuation",
   "SetOrthographic", "GetTexture", "GetNearZ", "GetWeight", "GetHoldType", "GetSlotPos",
   "GetSlot", "GetWeaponViewModel", "GetNextSecondaryFire", "LastShootTime", "Clip2", "HasAmmo",
   "IsWeaponVisible", "SetNextPrimaryFire", "SetNextSecondaryFire", "IsWeapon",
   "GetPrimaryAmmoType", "AllowsAutoSwitchFrom", "IsScripted", "GetSecondaryAmmoType",
   "AllowsAutoSwitchTo", "GetWeaponWorldModel", "GetPrintName", "CallOnClient", "DefaultReload",
   "Clip1", "GetNextPrimaryFire", "GetMaxClip2", "SendWeaponAnim", "SetHoldType", "SetClip1",
   "GetMaxClip1", "SetClip2", "SetLastShootTime", "IsCarriedByLocalPlayer", "GetHeight",
   "AddPlayer", "AddRecipientsByTeam", "AddAllPlayers", "RemoveRecipientsNotOnTeam",
   "RemoveRecipientsByTeam", "GetPlayers", "RemovePAS", "AddPVS", "RemoveAllPlayers",
   "RemovePVS", "RemovePlayer", "AddPAS", "GetMappingWidth", "IsErrorTexture", "Download",
   "GetNumAnimationFrames", "IsError", "GetMappingHeight", "LookupPoseParameter",
   "SetPreventTransmit", "GetSpawnFlags", "GetParentWorldTransformMatrix", "IsWidget",
   "GetNWEntity", "SetNotSolid", "SetShouldServerRagdoll", "SetTransmitWithParent",
   "GetCallbacks", "SetNetworkedNumber", "GetNW2VarTable", "IsLagCompensated",
   "EnableConstraints", "GetVar", "GetManipulateBonePosition", "SetAnimation", "SetNW2VarProxy",
   "DestroyBoneFollowers", "SetCollisionBoundsWS", "HasBoneManipulations", "SetTable",
   "GetHitBoxBounds", "Spawn", "GetNumPoseParameters", "SetDTInt", "GetSequenceList",
   "AddLayeredSequence", "GibBreakClient", "GetClass", "GetModelContents",
   "GetLocalAngularVelocity", "GetNW2VarProxy", "SetTrigger", "SetNetworked2VarProxy",
   "ClearPoseParameters", "SetNetworkedEntity", "SetUnFreezable", "GetUnFreezable",
   "InstallDataTable", "SetCustomCollisionCheck", "GetMomentaryRotButtonPos", "GetLocalAngles",
   "SetDTFloat", "CollisionRulesChanged", "SetNW2Int", "CallOnRemove", "GetModelBounds",
   "SetVar", "AddCallback", "GetFlexBounds", "ManipulateBoneJiggle", "IsConstrained",
   "GetNetworkedString", "GetRagdollOwner", "SetShouldPlayPickupSound", "SetPhysicsAttacker",
   "SetSaveValue", "AddFlags", "GetCustomCollisionCheck", "ResetSequenceInfo",
   "GetShouldPlayPickupSound", "GibBreakServer", "OBBMins", "FireBullets", "UpdateBoneFollowers",
   "GetBoneController", "CreateBoneFollowers", "PassesFilter", "TakeDamageInfo",
   "GetSequenceInfo", "SetNW2Angle", "GetDTString", "TranslatePhysBoneToBone", "__concat",
   "PlayScene", "GetFlexScale", "GetDTEntity", "SetLocalAngularVelocity", "GetNetworkedVarTable",
   "SetNetworked2Entity", "GetWorkshopID", "GetConstrainedPhysObjects", "GetCreationID",
   "SelectWeightedSequenceSeeded", "GetNetworkedVector", "SetLayerPriority", "StartLoopingSound",
   "LookupSequence", "RemoveGesture", "ManipulateBoneAngles", "AddGestureSequence",
   "GetLayerPlaybackRate", "GetLightingOriginEntity", "GetModelScale", "SetNetworked2Float",
   "GetLayerCycle", "SetNetworkOrigin", "SetPersistent", "DispatchTraceAttack",
   "IsPlayingGesture", "GetPersistent", "RemoveInternalConstraint", "GetBoneCount",
   "RestartGesture", "SetModelScale", "PhysicsInitConvex", "FindTransitionSequence", "IsWorld",
   "SetDTString", "GetSolidFlags", "SetLagCompensated", "SetLightingOriginEntity",
   "GetKeyValues", "SetLocalVelocity", "RagdollSolve", "GetDTBool", "RagdollUpdatePhysics",
   "HasFlexManipulatior", "RagdollStopControlling", "ViewModelIndex", "GetAbsVelocity",
   "GetEFlags", "GetShouldServerRagdoll", "SetAttachment", "SetRagdollPos", "IsPlayerHolding",
   "GetAttachment", "Input", "GetSequence", "IsSequenceFinished", "GetBodygroupName",
   "GetHitboxBone", "PhysicsInitSphere", "SetMoveCollide", "SetSolidFlags", "SetAbsVelocity",
   "GetEffects", "GetChildBones", "GetBodygroup", "Use", "MapCreationID", "GetNetworked2Float",
   "RemoveEffects", "SetMoveParent", "GetBoneMatrix", "IsConstraint", "GetMaterialType",
   "Weapon_TranslateActivity", "HeadTarget", "BodyTarget", "GetBloodColor", "GetLayerWeight",
   "GetCollisionGroup", "SetWeaponModel", "SetBloodColor", "NearestPoint", "SetBoneMatrix",
   "CreatedByMap", "GetPoseParameterRange", "SetHealth", "GetDTInt", "GetBrushPlane",
   "TakePhysicsDamage", "GetNoDraw", "Activate", "GetInternalVariable", "TakeDamage",
   "Extinguish", "GetCollisionBounds", "SetSequence", "SetModelName", "DeleteOnRemove",
   "SetCollisionBounds", "SetPhysConstraintObjects", "SetNW2Entity", "SetNetworked2Bool",
   "PointAtEntity", "GetSpawnEffect", "Respawn", "PhysicsInitStatic", "WorldToLocalAngles",
   "DropToFloor", "GetNetworked2Vector", "SetNetworkedBool", "GetPhysicsAttacker",
   "GetNetworked2VarProxy", "SetNetworkedVector", "AddEffects", "SendViewModelMatchingSequence",
   "IsRagdoll", "TestPVS", "IsInWorld", "IsEffectActive", "LocalToWorldAngles",
   "GetSequenceActivity", "GetNetworked2VarTable", "GetNWVarTable", "SetEyeTarget",
   "GetWorldTransformMatrix", "SetNWInt", "GetNetworked2Int", "GetPoseParameterName",
   "GetFlexWeight", "GetNetworked2Var", "SetNetworkedVar", "SetNetworked2Var", "GetNW2Entity",
   "SetBodygroup", "SetLayerBlendOut", "GetNetworked2Entity", "ForcePlayerDrop", "Blocked",
   "EntIndex", "SetFlexWeight", "GetNetworked2Angle", "SetRenderMode", "GetAttachments",
   "SetDTEntity", "GetNW2Vector", "SetRagdollBuildFunction", "SetMaxHealth",
   "SetNetworked2Vector", "SetOwner", "GetNW2String", "GetModelRadius", "SetLayerDuration",
   "GetSequenceMovement", "IsLineOfSightClear", "SetNW2String", "GetNetworked2String",
   "WaterLevel", "BoneHasFlag", "GetDTAngle", "GetNW2Bool", "GetRenderMode", "GetRenderFX",
   "GetBodygroupCount", "SetNW2Bool", "LookupAttachment", "SetRenderFX", "GetNetworked2Bool",
   "GetOwner", "GetNW2Float", "PrecacheGibs", "GetNW2Int", "RemoveCallOnRemove", "GetNWAngle",
   "SetNW2Var", "GetManipulateBoneAngles", "SelectWeightedSequence", "NextThink",
   "SetNetworked2Int", "SetNWBool", "SetSpawnEffect", "OnGround", "GetAnimInfo", "SetMoveType",
   "SetNWEntity", "SetNWAngle", "GetBrushSurfaces", "GetMoveType", "SetNWVector", "GetHitboxSet",
   "SetNWFloat", "GetModelRenderBounds", "GetSolid", "GetNW2Var", "RemoveEFlags", "SetNWString",
   "GetConstrainedEntities", "GetSequenceName", "SetNetworkedFloat", "Health", "SetNetworkedInt",
   "SetNetworkedString", "PhysicsInit", "GetCreator", "GetNetworkedEntity", "GetNWBool",
   "IsOnFire", "SetPoseParameter", "AddToMotionController", "PhysicsInitShadow",
   "GetHitboxSetCount", "GetNetworkedBool", "SetCollisionGroup", "GetNWVector",
   "SetLayerLooping", "GetElasticity", "GetNWFloat", "GetNWInt", "BoneLength", "GetNetworkedInt",
   "GetNetworkedFloat", "GetNetworkedVar", "SetKeyValue", "GetHitBoxCount", "UseTriggerBounds",
   "SetNWVarProxy", "StopParticles", "OBBCenter", "SetNetworkedVarProxy", "IsValidLayer",
   "SetLayerBlendIn", "SetDTAngle", "DrawShadow", "GetLayerSequence", "SetSolid", "GetDTVector",
   "SetLayerCycle", "GetCreationTime", "AddEFlags", "GetPhysicsObjectNum", "GetLayerDuration",
   "SetLayerWeight", "SetLayerPlaybackRate", "SetFriction", "Visible", "GetTouchTrace",
   "GetDTFloat", "GetFlexIDByName", "RemoveFromMotionController", "GetPoseParameter",
   "GetBodyGroups", "RemoveSolidFlags", "EyePos", "IsSolid", "GetMaterials",
   "ManipulateBonePosition", "StopMotionController", "IsDormant", "PhysicsDestroy",
   "WorldSpaceCenter", "RemoveCallback", "SetCreator", "SetBodyGroups", "SetNetworked2Angle",
   "UseClientSideAnimation", "ResetSequence", "SetNW2Float", "GetSubModels", "FrameAdvance",
   "SetHitboxSet", "GetSequenceGroundSpeed", "SetBoneController", "ObjectCaps",
   "GetGroundSpeedVelocity", "DontDeleteOnRemove", "WorldToLocal", "TranslateBoneToPhysBone",
   "GetFriction", "SkinCount", "GetSequenceCount", "GetMoveCollide", "BoundingRadius",
   "GetFlexNum", "GetNW2Angle", "GetBoneContents", "SetUseType", "SetElasticity", "SetLocalPos",
   "GetSequenceMoveDist", "EnableCustomCollisions", "StopSound", "OBBMaxs",
   "GetManipulateBoneJiggle", "GetPhysicsObject", "SetDTVector", "SetGroundEntity", "AddGesture",
   "SetCycle", "ManipulateBoneScale", "GetHitBoxHitGroup", "FollowBone", "IsEFlagSet",
   "MakePhysicsObjectAShadow", "GetParentAttachment", "GetParentPhysNum", "GetNetworkOrigin",
   "EmitSound", "SetParentPhysNum", "VisibleVec", "Weapon_SetActivity", "GetSubMaterial",
   "SetNetworkedAngle", "StartMotionController", "GetCycle", "SetNetworked2String",
   "GetBrushPlaneCount", "GetBaseVelocity", "GetBonePosition", "WorldSpaceAABB",
   "GetNetworkedAngle", "GetSaveTable", "GetHitBoxGroupCount", "LookupBone", "GetGroundEntity",
   "GetPhysicsObjectCount", "PhysicsInitMultiConvex", "HasSpawnFlags", "GetBoneName",
   "GetFlexName", "GetLocalPos", "AddSolidFlags", "GetMaxHealth", "GetNumBodyGroups",
   "PhysicsInitBox", "GetTransmitWithParent", "SetLayerSequence", "EyeAngles", "LocalToWorld",
   "GetHitBoxBone", "GetSequenceMoveYaw", "SequenceDuration", "StopLoopingSound", "SetDTBool",
   "SetNW2Vector", "GetMoveParent", "Ignite", "PassesDamageFilter", "RemoveFlags", "GetNWString",
   "GetSequenceActivityName", "RemoveAllDecals", "GetRotatedAABB", "PhysicsFromMesh",
   "AlignAngles", "SetSubMaterial", "MuzzleFlash", "Fire", "GetBoneSurfaceProp", "PhysWake",
   "SetLocalAngles", "SetFlexScale", "RemoveAllGestures", "SetRagdollAng", "GetBoneParent",
   "FindBodygroupByName", "GetManipulateBoneScale", "SetLOD", "SetNetworkAngles",
   "MarkShadowAsDirty", "StopParticlesNamed", "StopParticleEmission", "InitializeAsClientEntity",
   "UpdateShadow", "BecomeRagdollOnClient", "DestroyShadow", "SnatchModelInstance",
   "SetLegacyTransform", "EnableMatrix", "SetNextClientThink", "CreateParticleEffect",
   "CreateShadow", "GetRenderGroup", "SetRenderClipPlaneEnabled", "SetRenderBoundsWS",
   "SetRenderBounds", "InvalidateBoneCache", "SetupBones", "SetBonePosition", "SetIK",
   "GetRenderOrigin", "GetModelPhysBoneCount", "SetRenderOrigin", "GetRenderBounds",
   "DisableMatrix", "SetRenderClipPlane", "StopAndDestroyParticles", "SetupPhonemeMappings",
   "GetNetworkAngles", "GetPredictable", "SetPredictable", "StopParticlesWithNameAndAttachment",
   "Render", "SetControlPointForwardVector", "GetAutoUpdateBBox", "SetControlPointOrientation",
   "StopEmissionAndDestroyImmediately", "IsFinished", "SetControlPoint", "GetEffectName",
   "StartEmission", "SetIsViewModelEffect", "SetControlPointRightVector", "AddControlPoint",
   "Restart", "SetShouldDraw", "SetControlPointEntity", "SetControlPointUpVector",
   "StopEmission", "GetHighestControlPoint", "SetControlPointParent", "IsViewModelEffect",
   "SetSortOrigin", "GetEndSize", "SetStartLength", "SetCollide", "GetAirResistance", "GetRoll",
   "GetBounce", "GetStartLength", "GetStartSize", "SetEndLength", "GetEndAlpha",
   "GetAngleVelocity", "SetLighting", "GetRollDelta", "SetStartSize", "SetEndAlpha",
   "SetStartAlpha", "SetAngleVelocity", "GetStartAlpha", "SetDieTime", "SetNextThink",
   "SetLifeTime", "SetBounce", "SetThinkFunction", "SetRoll", "SetCollideCallback",
   "SetVelocityScale", "GetDieTime", "SetAirResistance", "GetEndLength", "SetRollDelta",
   "GetLifeTime", "SetEndSize", "Destroy", "TraceBox", "ReadChar", "ReadVectorNormal",
   "SetHitBox", "SetStart", "SetMagnitude", "GetHitBox", "SetFlags", "GetMagnitude", "SetRadius",
   "GetRadius", "GetSurfaceProp", "GetMaterialIndex", "GetEntIndex", "SetEntIndex",
   "SetMaterialIndex", "SetNormal", "SetSurfaceProp", "IsWater", "IsNoDraw", "IsSky",
   "GetVertices", "WriteEntity", "WriteAngle", "WriteInt", "WriteString", "WriteVector",
   "GetShadowPos", "WorldToLocalVector", "SetBuoyancyRatio", "IsMoveable", "IsAsleep",
   "IsGravityEnabled", "GetVelocityAtPoint", "GetShadowAngles", "SetDragCoefficient", "GetMass",
   "EnableMotion", "SetAngleDragCoefficient", "IsCollisionEnabled", "GetAABB", "GetStress",
   "AddGameFlag", "OutputDebugInfo", "ApplyForceOffset", "GetFrictionSnapshot",
   "LocalToWorldVector", "AddVelocity", "GetInertia", "ClearGameFlag", "SetInertia",
   "GetDamping", "GetPositionMatrix", "RecheckCollisionFilter", "EnableDrag", "GetInvInertia",
   "GetMesh", "GetMeshConvexes", "GetSurfaceArea", "SetDamping", "HasGameFlag", "GetEnergy",
   "IsPenetrating", "GetInvMass", "GetSpeedDamping", "EnableCollisions", "EnableGravity",
   "AddAngleVelocity", "SetVelocityInstantaneous", "CalculateVelocityOffset", "GetRotDamping",
   "ApplyForceCenter", "ComputeShadowControl", "SetMass", "Wake", "IsDragEnabled",
   "IsMotionEnabled", "CalculateForceOffset", "ApplyTorqueCenter", "GetContents", "Sleep",
   "GetMassCenter", "BuildFromTriangles", "Recompute", "GetMatrix", "GetVector4D", "GetShader",
   "SetShader", "GetVectorLinear", "SetVector4D", "SetUndefined", "SetMatrix", "GAMEMODE",
   "CLIENT", "SERVER", "EFFECT", "GM", "SWEP", "TOOL", "ENT", "DIconLayout", "DMenuOptionCVar",
   "DPanelList", "DListView_Line", "DNumSlider", "DPanelOverlay", "DListView_ColumnPlain",
   "DDragBase", "DIconBrowser", "DHTML", "DCategoryList", "DImage", "DTextEntry",
   "DListView_DraggerBar", "DColorMixer", "DFrame", "DCheckBox", "DColorCombo", "DScrollBarGrip",
   "Slider", "DHorizontalDivider", "DSlider", "DForm", "DNumPad", "DListViewLine",
   "DPanelSelect", "DListView_Column", "DListViewHeaderLabel", "DDrawer", "DScrollPanel",
   "DListBoxItem", "DListView", "DForm", "DImageButton", "DListLayout", "DBinder", "DNotify",
   "DColorButton", "VoiceNotify", "DColorPalette", "DNumberScratch", "DImage", "DListViewLabel",
   "DProperty_Int", "DProperty_Entity", "DProperty_VectorColor", "DRGBPicker", "DProperty_Float",
   "DEntityProperties", "DProperty_Combo", "DProperty_Boolean", "DVScrollBar", "DHTMLControls",
   "DVerticalDivider", "DVerticalDividerBar", "DNumberWang", "DTree_Node_Button",
   "DLabelEditable", "DTree_Node", "DGrid", "DCheckBox", "DExpandButton", "DKillIcon", "DMenu",
   "DCategoryHeader", "DTooltip", "DTileLayout", "DModelSelect", "DSprite", "DSizeToContents",
   "DShape", "DModelSelectMulti", "DMenuOption", "DProperty_Generic", "DMenuBar",
   "DCheckBoxLabel", "DPropertySheet", "DTab", "DProperties", "DAlphaBar", "DProgress",
   "DModelPanel", "DFileBrowser", "DColorCube", "Button", "DListBox", "DAdjustableModelPanel",
   "DComboBox", "DColumnSheet", "DButton", "DHorizontalDividerBar", "DBubbleContainer", "DTree",
   "DLabelURL", "DHorizontalScroller", "derma", "halo", "gui", "hook", "usermessage", "undo",
   "scripted_ents", "gameevent", "file", "constraint", "game", "gamemode", "menubar",
   "motionsensor", "hammer", "navmesh", "gmod", "duplicator", "language", "ai_task", "ws_dupe",
   "effects", "resource", "draw", "umsg", "cookie", "achievements", "concommand", "chat",
   "drive", "cvars", "debugoverlay", "gmsave", "matproxy", "list", "markup", "team", "http",
   "cleanup", "ents", "baseclass", "saverestore", "video", "cam", "physenv", "search", "render",
   "bit", "net", "numpad", "notification", "weapons", "killicon", "mesh", "surface", "ws_save",
   "skin", "ai_schedule", "controlpanel", "spawnmenu", "properties", "player", "menu",
   "dragndrop", "steamworks", "vgui", "gwen", "util", "sound", "gamemode", "presets", "sql",
   "engine", "widgets", "system", "player_manager", "_g", "construct", "timer", "frame_blend",
   "ai", "jit", "ShowHelp", "ShowSpare1", "ShowSpare2", "OnEntityCreated", "PlayerAuthed",
   "TeamBased", "ThisClass", "CalcMainActivity", "EntityRemoved", "VehicleMove", "FinishMove",
   "FolderName", "PlayerLoadout", "Saved", "ShowTeam", "CreateEntityRagdoll",
   "PlayerCanHearPlayersVoice", "KeyRelease", "PhysgunPickup", "PlayerHurt", "EntityTakeDamage",
   "CanPlayerUnfreeze", "PlayerRequestTeam", "PlayerDroppedWeapon", "DoPlayerDeath",
   "PreGamemodeLoaded", "FindUseEntity", "Think", "GetFallDamage", "PlayerSetHandsModel",
   "PlayerPostThink", "UpdateAnimation", "OnViewModelChanged", "PlayerButtonDown",
   "PlayerDriveAnimate", "PlayerSwitchWeapon", "PlayerJoinTeam", "OnPhysgunFreeze",
   "OnDamagedByExplosion", "Tick", "SetupPlayerVisibility", "PlayerDeath", "OnPhysgunReload",
   "Initialize", "MouthMoveAnimation", "GravGunPickupAllowed", "GravGunPunt", "CanExitVehicle",
   "GravGunOnPickedUp", "PlayerInitialSpawn", "PlayerButtonUp", "ShutDown", "PlayerNoClip",
   "ShouldCollide", "StartEntityDriving", "GrabEarAnimation", "OnReloaded", "InitPostEntity",
   "PlayerShouldTakeDamage", "AllowPlayerPickup", "PlayerStartTaunt", "PlayerShouldTaunt",
   "KeyPress", "PlayerCanSeePlayersChat", "OnPlayerHitGround", "PlayerSpray",
   "CanPlayerEnterVehicle", "IsSpawnpointSuitable", "Website", "PlayerSilentDeath", "Email",
   "PlayerCanJoinTeam", "PlayerSwitchFlashlight", "PlayerLeaveVehicle", "PhysgunDrop",
   "PlayerFootstep", "Author", "Folder", "PlayerEnteredVehicle", "CanPlayerSuicide",
   "SetPlayerSpeed", "PlayerDeathSound", "PropBreak", "Name", "TranslateActivity",
   "ScalePlayerDamage", "WeaponEquip", "PlayerConnect", "PlayerSelectSpawn",
   "GetGameDescription", "PlayerSelectTeamSpawn", "SetupMove", "HandlePlayerSwimming",
   "PlayerStepSoundTime", "HandlePlayerNoClipping", "PlayerTick", "PlayerSpawn",
   "HandlePlayerJumping", "PlayerSpawnAsSpectator", "ScaleNPCDamage", "PlayerSay",
   "HandlePlayerDriving", "CanProperty", "EntityKeyValue", "VariableEdited", "PlayerDeathThink",
   "EndEntityDriving", "PlayerCanPickupWeapon", "PostGamemodeLoaded", "GravGunOnDropped",
   "OnNPCKilled", "HandlePlayerVaulting", "Restored", "CanEditVariable", "NetworkIDValidated",
   "HandlePlayerDucking", "PlayerTraceAttack", "CheckPassword", "CreateTeams",
   "HandlePlayerLanding", "PlayerSetModel", "OnPlayerChangedTeam", "PlayerUse",
   "DoAnimationEvent", "OnGamemodeLoaded", "CalcViewModelView", "PickupHistoryTop",
   "AdjustMouseSensitivity", "PlayerStartVoice", "StartChat", "FinishChat", "PreDrawHUD",
   "HUDShouldDraw", "HideTeam", "PostRender", "PreDrawTranslucentRenderables",
   "PreventScreenClicks", "PostDrawViewModel", "PreDrawViewModel", "NetworkEntityCreated",
   "OnSpawnMenuOpen", "HUDDrawTargetID", "PreRender", "PlayerBindPress", "HUDDrawPickupHistory",
   "PrePlayerDraw", "HUDDrawScoreBoard", "PostDrawTranslucentRenderables", "ChatTextChanged",
   "PostRenderVGUI", "OnSpawnMenuClose", "OnPlayerChat", "OnChatTab", "DrawPhysgunBeam",
   "PostDrawOpaqueRenderables", "CreateMove", "PreDrawOpaqueRenderables", "PreDrawHalos",
   "AddDeathNotice", "OnContextMenuOpen", "PlayerEndVoice", "HUDItemPickedUp", "PostPlayerDraw",
   "PostDrawEffects", "PreDrawEffects", "DrawMonitors", "ChatText", "GUIMousePressed",
   "PlayerClassChanged", "GUIMouseReleased", "PostDrawHUD", "PickupHistoryLast", "RenderScene",
   "DrawOverlay", "HUDPaintBackground", "CloseDermaMenus", "OnContextMenuClose",
   "InputMouseApply", "CreateClientsideRagdoll", "ShouldDrawLocalPlayer", "GetTeamNumColor",
   "DrawDeathNotice", "ScoreboardShow", "PickupHistoryCorner", "PreDrawSkyBox", "HUDPaint",
   "HUDWeaponPickedUp", "OnAchievementAchieved", "GUIMouseDoublePressed", "CalcView",
   "RenderScreenspaceEffects", "GetTeamColor", "PostProcessPermitted", "GetMotionBlurValues",
   "PostDraw2DSkyBox", "CalcVehicleView", "ForceDermaSkin", "HUDAmmoPickedUp", "PostDrawSkyBox",
   "PickupHistoryWide", "ScoreboardHide)", "((TOOL", "self)(.", ":))(WorldModel",
   "SetNPCMaxRest", "PrintName", "Holster", "SetDeploySpeed", "CanSecondaryAttack", "EquipAmmo",
   "OnRemove", "Contact", "Reload", "SetupWeaponHoldTypeForAI", "NPCShoot_Secondary",
   "GetToolObject", "CanDeploy", "ShouldDropOnDie", "OnRestore", "SetupDataTables",
   "FireAnimationEvent", "ViewModelFlip", "ShootEffects", "CanHolster", "GetCapabilities",
   "AutoSwitchFrom", "SetNPCMinBurst", "CanPrimaryAttack", "Spawnable", "Precache",
   "AutoSwitchTo", "Instructions", "TakePrimaryAmmo", "AcceptInput", "Equip", "UseHands",
   "Folder", "TakeSecondaryAmmo", "SetNPCFireRate", "OwnerChanged", "PrimaryAttack", "ClassName",
   "GetNPCMinBurst", "GetNPCFireRate", "TranslateActivity", "Deploy", "ViewModelFOV", "Ammo2",
   "NPCShoot_Primary", "Initialize", "DoImpactEffect", "ShootBullet", "Ammo1", "KeyValue",
   "SetNPCMinRest", "CheckLimit", "GetMode", "Weight", "SetWeaponHoldType", "ShootSound",
   "GetNPCMaxRest", "ViewModel", "InitializeTools", "Base", "GetNPCMaxBurst", "Think",
   "DoShootEffect", "SecondaryAttack", "SetNPCMaxBurst", "AdminOnly", "Purpose", "OnDrop",
   "GetNPCMinRest", "Author", "StartGhostEntities", "AdjustMouseSensitivity", "WepSelectIcon",
   "ToolNameHeight", "SpeechBubbleLid", "CustomAmmoDisplay", "ClearObjects", "SetStage",
   "Gradient", "DrawWeaponInfoBox", "OnReloaded", "BobScale", "GetStage", "InfoBoxHeight",
   "RenderGroup", "DrawWorldModelTranslucent", "GetTracerOrigin", "DrawHUD",
   "DrawWeaponSelection", "BounceWeaponIcon", "DrawWorldModel", "TranslateFOV", "RenderScreen",
   "SlotPos", "ViewModelDrawn", "GetViewModelPosition", "InfoIcon", "PrintWeaponInfo",
   "FreezeMovement", "DrawAmmo", "SwayScale", "DrawCrosshair", "Slot)", "((PANEL", "self)(.",
   ":))(ActionSignal", "ApplySchemeSettings", "DoClick", "Init", "OnCursorEntered",
   "OnCursorExited", "OnCursorMoved", "OnKeyCodePressed", "OnKeyCodeReleased", "OnKeyCodeTyped",
   "OnMousePressed", "OnMouseReleased", "OnMouseWheeled", "Paint", "PaintOver", "PerformLayout",
   "Think)", "((EFFECT", "self)(.", ":))(Init", "Think", "Render)", "((SWEP", "self)(.",
   ":))(AutoSwitchFrom", "WorldModel", "SetNPCMinBurst", "CanPrimaryAttack", "Spawnable",
   "SetNPCMaxRest", "PrintName", "AutoSwitchTo", "Base", "Instructions", "GetNPCMaxBurst",
   "TakePrimaryAmmo", "AcceptInput", "Holster", "GetNPCMinBurst", "Folder", "TakeSecondaryAmmo",
   "CanSecondaryAttack", "OnDrop", "EquipAmmo", "SetNPCFireRate", "SetupWeaponHoldTypeForAI",
   "OwnerChanged", "PrimaryAttack", "ClassName", "Contact", "Purpose", "Think",
   "SecondaryAttack", "AdminOnly", "SetWeaponHoldType", "Deploy", "Reload", "Ammo2",
   "NPCShoot_Secondary", "Initialize", "OnRemove", "ShootBullet", "Ammo1", "KeyValue",
   "ViewModel", "Equip", "SetDeploySpeed", "Weight", "ShouldDropOnDie", "OnRestore",
   "GetNPCMaxRest", "SetNPCMinRest", "DoImpactEffect", "NPCShoot_Primary", "ViewModelFlip",
   "ShootEffects", "ViewModelFOV", "SetNPCMaxBurst", "TranslateActivity", "GetNPCFireRate",
   "GetCapabilities", "GetNPCMinRest", "Author", "AdjustMouseSensitivity", "WepSelectIcon",
   "SpeechBubbleLid", "CustomAmmoDisplay", "DrawAmmo", "DrawWeaponInfoBox", "BobScale",
   "GetViewModelPosition", "RenderGroup", "DrawWorldModelTranslucent", "DrawHUD",
   "DrawWorldModel", "TranslateFOV", "SlotPos", "ViewModelDrawn", "DrawCrosshair",
   "FireAnimationEvent", "FreezeMovement", "SwayScale", "BounceWeaponIcon", "PrintWeaponInfo",
   "DrawWeaponSelection", "GetTracerOrigin", "Slot)", "((ENT", "self)(.",
   ":))(AutomaticFrameAdvance", "Initialize", "PhysicsUpdate", "Purpose", "Spawnable",
   "SpawnFunction", "PrintName", "AdminOnly", "KeyValue", "Instructions", "StartTouch",
   "OnRestore", "AcceptInput", "OnTakeDamage", "Author", "Folder", "Use", "Think",
   "PhysicsCollide", "Type", "SetAutomaticFrameAdvance", "TriggerOutput", "StoreOutput", "Touch",
   "ClassName", "Contact", "Base", "OnRemove", "PhysicsSimulate", "EndTouch",
   "UpdateTransmitState", "RunAI", "OnActiveWeaponChanged", "m_iClass", "OnCondition",
   "StartTask", "RunTask", "OnMovementComplete", "SetMaxYawSpeed", "GetNPCClass",
   "StartEngineSchedule", "m_fMaxYawSpeed", "NextTask", "Task_PlaySequence", "TaskTime",
   "GetMaxYawSpeed", "EngineScheduleFinish", "SetNPCClass", "SelectSchedule", "GetAttackSpread",
   "TaskStart_PlaySequence", "OnTaskComplete", "OnChangeActivity", "StartEngineTask",
   "OnMovementFailed", "ExpressionFinished", "GetRelationship", "TaskFinished", "Task_FindEnemy",
   "TaskStart_FindEnemy", "StartSchedule", "DoingEngineSchedule", "ScheduleFinished",
   "DoSchedule", "SetTask", "RunEngineTask", "Draw", "GetGrabPos", "SetSize", "RenderGroup",
   "OnClick", "PressedThink", "TestCollision", "PressedThinkInternal", "Widget",
   "PressedShouldDraw", "PressEnd", "IsHovered", "GetSize", "OnRelease", "SetupDataTables",
   "IsPressed", "SomethingHovered", "OverlayRender", "OnRightClick", "PressStart", "OnPress",
   "DragThink", "Category", "PassesTriggerFilters", "DrawTranslucent", "MakeLight", "TimedCos",
   "istable", "SetGlobal2Float", "SetGlobalVector", "setfenv", "MakeEmitter", "GMODSpawnRagdoll",
   "DeriveGamemode", "ColorToHSV", "GetConVarNumber", "LocalToWorld", "MsgAll", "ismatrix",
   "STNDRD", "GetGlobalFloat", "IncludeCS", "RunConsoleCommand", "LerpVector", "RealTime",
   "CreateConVar", "MakeWheel", "GetGlobalEntity", "GetGlobalBool", "newproxy",
   "GetGlobal2String", "WorldToLocal", "MakeEffect", "gcinfo", "GetConVar", "AddOriginToPVS",
   "GetGlobal2Int", "Vector", "MakeDynamite", "GetGlobalAngle", "Path", "CreateClientConVar",
   "AccessorFunc", "tobool", "OrderVectors", "Model", "SoundDuration", "GetGlobal2Vector",
   "FindMetaTable", "Format", "isangle", "MakeLamp", "Lerp", "Spawn_NPC", "RandomPairs",
   "CreateSound", "CC_GMOD_Tool", "MakeThruster", "MakeHoverBall", "CC_Face_Randomize",
   "MakeButton", "Spawn_Vehicle", "Spawn_Weapon", "AddConsoleCommand", "TypeID", "include",
   "Spawn_SENT", "DoPlayerEntitySpawn", "GMODSpawnProp", "isnumber", "MakeProp",
   "DoPropSpawnedEffect", "Angle", "CheckPropSolid", "ServerLog", "getEnumerations",
   "TauntCamera", "SortedPairsByMemberValue", "SortedPairsByValue", "SortedPairs",
   "GMODSpawnEffect", "SQLStr", "GetConVarString", "Add_NPC_Class", "Either", "IsMounted",
   "IsFriendEntityName", "IsEnemyEntityName", "TimedSin", "UTIL_IsUselessModel",
   "IsUselessModel", "GetHostName", "SafeRemoveEntityDelayed", "SafeRemoveEntity", "IsValid",
   "Particle", "Sound", "ColorRand", "AngleRand", "VectorRand", "IsColor", "RecipientFilter",
   "EmitSound", "EmitSentence", "SentenceDuration", "CreatePhysCollidesFromModel",
   "CreatePhysCollideBox", "SetGlobal2Var", "GetGlobal2Entity", "ProtectedCall",
   "GetGlobal2Angle", "SetGlobal2Angle", "SetGlobal2Vector", "SetGlobal2String",
   "GetGlobal2Bool", "SetGlobal2Bool", "GetGlobal2Float", "SetGlobal2Int",
   "BuildNetworkedVarsTable", "GetGlobalString", "GetGlobalVector", "GetGlobalVar",
   "SetGlobalBool", "SetGlobalEntity", "SetGlobalAngle", "SetGlobalFloat", "SetGlobalInt",
   "SetGlobalString", "SetGlobalVar", "GetGlobalInt", "PrintMessage", "SetPhysConstraintSystem",
   "IsEntity", "AddCSLuaFile", "HTTP", "PrecacheSentenceGroup", "PrecacheSentenceFile",
   "ParticleEffectAttach", "ParticleEffect", "CompileFile", "GetPredictionPlayer", "FrameTime",
   "CurTime", "UnPredictedCurTime", "SuppressHostEvents", "PrecacheScene", "DropEntityIfHeld",
   "ispanel", "DTVar_ReceiveProxyGL", "isfunction", "isbool", "isvector",
   "FixInvalidPhysicsObject", "CompileString", "RunStringEx", "ColorToHSL", "HSLToColor",
   "GetConVar_Internal", "ConVarExists", "CCGiveSWEP", "LerpAngle", "ErrorNoHalt", "MsgN",
   "DebugInfo", "SysTime", "BroadcastLua", "VGUIFrameTime", "RunString", "SendUserMessage",
   "PrintTable", "SetGlobal2Entity", "MakeBalloon", "Player", "IsFirstTimePredicted", "Msg",
   "GetGlobal2Var", "getfenv", "DamageInfo", "Material", "Entity", "CCSpawn", "ColorAlpha",
   "Matrix", "HSVToColor", "isentity", "ErrorNoHaltWithStack", "Error", "PrecacheParticleSystem",
   "Color", "EffectData", "isstring", "IsTableOfEntitiesValid", "MsgC", "RestoreCursorPosition",
   "DrawMotionBlur", "DermaMenu", "AddonMaterial", "JS_Language", "Derma_DrawBackgroundBlur",
   "EyeVector", "ChangeTooltip", "DrawMaterialOverlay", "DynamicLight", "RenderSuperDoF",
   "DOF_Start", "ScrH", "DrawBloom", "TextEntryLoseFocus", "DrawSharpen", "ScrW",
   "GetRenderTarget", "ProjectedTexture", "EyePos", "NumModelSkins", "ClientsideRagdoll",
   "WorkshopFileBase", "AddWorldTip", "GenerateSpawnlistFromPath", "CreateContextMenu",
   "JS_Workshop", "CreateSprite", "VGUIRect", "ScreenScale", "Label", "DrawTexturize",
   "RenderDoF", "RenderStereoscopy", "DrawSobel", "DOF_Kill", "DrawColorModify", "Derma_Hook",
   "EndTooltip", "Derma_StringRequest", "Derma_Query", "Derma_Anim", "RegisterDermaMenuForClose",
   "ValidPanel", "SScale", "PositionSpawnIcon", "RealFrameTime", "FindTooltip", "RemoveTooltip",
   "VisualizeLayout", "JS_Utility", "RememberCursorPosition", "SetClipboardText", "NamedColor",
   "ParticleEmitter", "Mesh", "GetRenderTargetEx", "GetTimeoutInfo", "RenderAngles", "EyeAngles",
   "SavePresets", "LoadPresets", "ClientsideModel", "CreateParticleSystem", "CreateMaterial",
   "GetViewEntity", "Localize", "DOFModeHack", "LocalPlayer", "Derma_Install_Convar_Functions",
   "DrawToyTown", "AddPropsOfParent", "DisableClipping", "OnModelLoaded", "FrameNumber",
   "Derma_Message", "GetHUDPanel", "ClientsideScene", "DrawSunbeams", "CloseDermaMenus"]

/-- The callback `mTokenize` of `LanguageDefinition::CPlusPlus`: leading blanks are
skipped; at the end of the text the token is empty and Default; a character literal is
painted as a string. -/
def CPlusPlusTokenize (text : List Char8) : Option (Nat × Nat × PaletteIndex) :=
  let skip := spanFrom (fun c => isascii c && isblank c) text 0
  let t := text.drop skip
  if t.isEmpty then some (text.length, text.length, PaletteIndex.Default)
  else
    match TokenizeCStyleString t with
    | some e => some (skip, skip + e, PaletteIndex.String)
    | none =>
      match TokenizeCStyleCharacterLiteral t with
      | some e => some (skip, skip + e, PaletteIndex.String)
      | none =>
        match TokenizeCStyleIdentifier t with
        | some e => some (skip, skip + e, PaletteIndex.Identifier)
        | none =>
          match TokenizeCStyleNumber t with
          | some e => some (skip, skip + e, PaletteIndex.Number)
          | none =>
            match TokenizeCStylePunctuation t with
            | some e => some (skip, skip + e, PaletteIndex.Punctuation)
            | none => none

/-- The function `LanguageDefinition::CPlusPlus`, the definition the constructor of the
editor installs. It leaves the preprocessor identifiers and the regular expressions
empty. Modelled from the spec: the default constructor of `LanguageDefinition` is in
the header, which is not among the sources; the preprocessor marker it sets is taken
to be `#`. -/
def LanguageDefinition.CPlusPlus : LanguageDefinition :=
  { mKeywords := cppKeywords
    mIdentifiers := identifiers ++ gLua
    mPreprocIdentifiers := []
    mCommentStart := [45, 45, 91, 91]
    mCommentEnd := [93, 93]
    mCommentStart2 := [47, 42]
    mCommentEnd2 := [42, 47]
    mSingleLineComment := [45, 45]
    mSingleLineComment2 := [47, 47]
    mPreprocChar := 35
    mAutoIndentation := true
    mTokenize := some CPlusPlusTokenize
    mTokenRegexStrings := []
    mCaseSensitive := true }

/-- Modelled from the spec: the declaration of `ErrorMarkers` is in the header, which
is not among the sources. A mapping from line number to message that the code fills
with `insert` of `value_type(key, message)` pairs and reads in key order: the entries
in ascending key order, one per key. -/
abbrev ErrorMarkers := List (Int × String)

/-- Modelled from the spec: the declaration of `Breakpoints` is in the header, which is
not among the sources. A set of line numbers. -/
abbrev Breakpoints := Finset Int

/-- The member variables of `TextEditor` that the editing logic uses. -/
structure Editor where
  mLines : Lines
  mState : EditorState
  mUndoBuffer : List UndoRecord
  mUndoIndex : Int
  mTabSize : Int
  mOverwrite : Bool
  mReadOnly : Bool
  mWithinRender : Bool
  mScrollToCursor : Bool
  mScrollToTop : Bool
  mTextChanged : Bool
  mColorizerEnabled : Bool
  mCursorPositionChanged : Bool
  mColorRangeMin : Int
  mColorRangeMax : Int
  mSelectionMode : SelectionMode
  mCheckComments : Bool
  mErrorMarkers : ErrorMarkers
  mBreakpoints : Breakpoints
  mInteractiveStart : Coordinates
  mInteractiveEnd : Coordinates
  mLanguageDefinition : LanguageDefinition

/-- The loop of `GetCharacterIndex`: `i` is the byte index, `c` the column. Every step
raises `i` by at least one, so `line.length` steps are enough. -/
def GetCharacterIndexLoop (tabSize : Int) (line : Line) (aColumn : Int) :
    Nat → Int → Int → Res Int
  | 0, i, _ => pure i
  | fuel + 1, i, c =>
    if i < line.length ∧ c < aColumn then do
      let g ← vecAt line i
      let c1 ← if g.mChar = 9 then tabStop tabSize c else pure (c + 1)
      GetCharacterIndexLoop tabSize line aColumn fuel (i + UTF8CharLength g.mChar) c1
    else pure i

/-- The function `GetCharacterIndex`. The line test compares an `int` with a
`size_t`, so a negative line counts as out of range. -/
def GetCharacterIndex (ed : Editor) (aCoordinates : Coordinates) : Res Int :=
  if aCoordinates.mLine < 0 ∨ (ed.mLines.length : Int) ≤ aCoordinates.mLine then pure (-1)
  else do
    let line ← vecAt ed.mLines aCoordinates.mLine
    GetCharacterIndexLoop ed.mTabSize line aCoordinates.mColumn line.length 0 0

/-- The loop of `GetCharacterColumn`. Every step raises `i` by at least one, so
`line.length` steps are enough. -/
def GetCharacterColumnLoop (tabSize : Int) (line : Line) (aIndex : Int) :
    Nat → Int → Int → Res Int
  | 0, _, col => pure col
  | fuel + 1, i, col =>
    if i < aIndex ∧ i < line.length then do
      let g ← vecAt line i
      let col1 ← if g.mChar = 9 then tabStop tabSize col else pure (col + 1)
      GetCharacterColumnLoop tabSize line aIndex fuel (i + UTF8CharLength g.mChar) col1
    else pure col

/-- The function `GetCharacterColumn`. -/
def GetCharacterColumn (ed : Editor) (aLine aIndex : Int) : Res Int :=
  if aLine < 0 ∨ (ed.mLines.length : Int) ≤ aLine then pure 0
  else do
    let line ← vecAt ed.mLines aLine
    GetCharacterColumnLoop ed.mTabSize line aIndex line.length 0 0

/-- The loop of `GetLineMaxColumn`. Every step raises `i` by at least one, so
`line.length` steps are enough. -/
def GetLineMaxColumnLoop (tabSize : Int) (line : Line) : Nat → Int → Int → Res Int
  | 0, _, col => pure col
  | fuel + 1, i, col =>
    if i < line.length then do
      let g ← vecAt line i
      let col1 ← if g.mChar = 9 then tabStop tabSize col else pure (col + 1)
      GetLineMaxColumnLoop tabSize line fuel (i + UTF8CharLength g.mChar) col1
    else pure col

/-- The function `GetLineMaxColumn`. -/
def GetLineMaxColumn (ed : Editor) (aLine : Int) : Res Int :=
  if aLine < 0 ∨ (ed.mLines.length : Int) ≤ aLine then pure 0
  else do
    let line ← vecAt ed.mLines aLine
    GetLineMaxColumnLoop ed.mTabSize line line.length 0 0

/-- The function `SanitizeCoordinates`. -/
def SanitizeCoordinates (ed : Editor) (aValue : Coordinates) : Res Coordinates :=
  let line := aValue.mLine
  let column := aValue.mColumn
  if line ≥ (ed.mLines.length : Int) then
    if ed.mLines.isEmpty then pure ⟨0, 0⟩
    else do
      let line1 : Int := (ed.mLines.length : Int) - 1
      let column1 ← GetLineMaxColumn ed line1
      pure ⟨line1, column1⟩
  else do
    let column1 ← if ed.mLines.isEmpty then pure 0
      else do
        let m ← GetLineMaxColumn ed line
        pure (Min.min column m)
    pure ⟨line, column1⟩

/-- The loop of `SetText` over the characters of the text. -/
def SetTextLoop : List Char8 → Lines → Lines
  | [], lines => lines
  | chr :: rest, lines =>
    if chr = 13 then SetTextLoop rest lines
    else if chr = 10 then SetTextLoop rest (lines ++ [[]])
    else SetTextLoop rest
      (lines.dropLast ++ [lines.getLastD [] ++ [Glyph.mk2 chr PaletteIndex.Default]])

/-- The function `Colorize(aFromLine, aLines)`. The call `Colorize()` without arguments
is taken as `Colorize 0 (-1)`: the default arguments are in the header, which is not
among the sources, and `-1` is the value the function tests for. -/
def Colorize (ed : Editor) (aFromLine aLines : Int) : Editor :=
  let toLine : Int := if aLines = -1 then (ed.mLines.length : Int)
    else Min.min (ed.mLines.length : Int) (aFromLine + aLines)
  let rmin := Min.min ed.mColorRangeMin aFromLine
  let rmax := Max.max ed.mColorRangeMax toLine
  let rmin1 := Max.max 0 rmin
  let rmax1 := Max.max rmin1 rmax
  { ed with mColorRangeMin := rmin1, mColorRangeMax := rmax1, mCheckComments := true }

/-- The function `SetText`. -/
def SetText (ed : Editor) (aText : List Char8) : Editor :=
  let ed1 := { ed with mLines := SetTextLoop aText [[]] }
  let ed2 := { ed1 with mTextChanged := true, mScrollToTop := true,
                        mUndoBuffer := [], mUndoIndex := 0 }
  Colorize ed2 0 (-1)

/-- The loop of `GetText(aStart, aEnd)`. Every step takes one glyph or passes one line
end, so `textSteps` steps (and one more) are enough. -/
def GetTextLoop (lines : Lines) (lend iend : Int) :
    Nat → Int → Int → List Char8 → Res (List Char8)
  | 0, _, _, result => pure result
  | fuel + 1, lstart, istart, result =>
    if istart < iend ∨ lstart < lend then
      if lstart ≥ (lines.length : Int) then pure result
      else do
        let line ← vecAt lines lstart
        if istart < (line.length : Int) then do
          let g ← vecAt line istart
          GetTextLoop lines lend iend fuel lstart (istart + 1) (result ++ [g.mChar])
        else
          GetTextLoop lines lend iend fuel (lstart + 1) 0 (result ++ [10])
    else pure result

/-- The number of steps the loop of `GetText` can make on a buffer: one per
glyph and one per line end. -/
def textSteps (lines : Lines) : Nat :=
  (lines.map fun l => l.length + 1).sum

/-- The conversion of an `int` to a 64-bit `size_t`. -/
def toSizeT (x : Int) : Int :=
  if x < 0 then x + 2 ^ 64 else x

/-- The function `GetText(aStart, aEnd)`. The loop that sums the line sizes for
`reserve` reads `mLines[i]` for every `size_t i` from `lstart` up to `lend`, so it
leaves the vector when `lend` is past the line count; the sum itself only sizes the
allocation. The final `substr` drops the last character (of an empty result it keeps
nothing). -/
def GetTextRange (ed : Editor) (aStart aEnd : Coordinates) : Res (List Char8) := do
  let lstart := aStart.mLine
  let lend := aEnd.mLine
  let istart ← GetCharacterIndex ed aStart
  let iend0 ← GetCharacterIndex ed aEnd
  let iend := iend0 + 1
  if toSizeT lstart < toSizeT lend ∧ (ed.mLines.length : Int) < toSizeT lend then
    throw Fault.outOfBounds
  else do
    let result ← GetTextLoop ed.mLines lend iend (textSteps ed.mLines + 1) lstart istart []
    pure result.dropLast

/-- The function `GetText()`. -/
def GetText (ed : Editor) : Res (List Char8) :=
  GetTextRange ed ⟨0, 0⟩ ⟨(ed.mLines.length : Int), 0⟩

/-- The state the constructor `TextEditor()` leaves. -/
def Editor.init : Editor :=
  { mLines := [[]]
    mState := ⟨⟨0, 0⟩, ⟨0, 0⟩, ⟨0, 0⟩⟩
    mUndoBuffer := []
    mUndoIndex := 0
    mTabSize := 4
    mOverwrite := false
    mReadOnly := false
    mWithinRender := false
    mScrollToCursor := false
    mScrollToTop := false
    mTextChanged := false
    mColorizerEnabled := true
    mCursorPositionChanged := false
    mColorRangeMin := 0
    mColorRangeMax := 0
    mSelectionMode := SelectionMode.Normal
    mCheckComments := true
    mErrorMarkers := []
    mBreakpoints := ∅
    mInteractiveStart := ⟨0, 0⟩
    mInteractiveEnd := ⟨0, 0⟩
    mLanguageDefinition := LanguageDefinition.CPlusPlus }

/-- The characters of a line. -/
def lineChars (l : Line) : List Char8 := l.map fun g => g.mChar

/-- The text of the lines, each followed by a newline. -/
def unlinesAll (ls : Lines) : List Char8 := (ls.map fun l => lineChars l ++ [10]).flatten

/-- The call `v.resize(n)` of a vector, new places filled with `d`. -/
def vecResize {α : Type} (v : List α) (n : Nat) (d : α) : List α :=
  v.take n ++ List.replicate (n - v.length) d

/-- The default constructor `UndoRecord()`. -/
def UndoRecord.empty : UndoRecord :=
  { mAdded := [], mAddedStart := ⟨0, 0⟩, mAddedEnd := ⟨0, 0⟩,
    mRemoved := [], mRemovedStart := ⟨0, 0⟩, mRemovedEnd := ⟨0, 0⟩,
    mBefore := ⟨⟨0, 0⟩, ⟨0, 0⟩, ⟨0, 0⟩⟩, mAfter := ⟨⟨0, 0⟩, ⟨0, 0⟩, ⟨0, 0⟩⟩ }

/-- The function `AddUndo`. A negative `mUndoIndex + 1` converts to a huge `size_t`,
which `resize` cannot serve; an empty vector has no `back()`. -/
def AddUndo (ed : Editor) (aValue : UndoRecord) : Res Editor := do
  assertThat (!ed.mReadOnly)
  if ed.mUndoIndex + 1 < 0 then throw Fault.outOfBounds
  else
    let buf := vecResize ed.mUndoBuffer (ed.mUndoIndex + 1).toNat UndoRecord.empty
    if buf.isEmpty then throw Fault.outOfBounds
    else pure { ed with mUndoBuffer := buf.dropLast ++ [aValue],
                        mUndoIndex := ed.mUndoIndex + 1 }

/-- The function `CanUndo`. -/
def CanUndo (ed : Editor) : Bool :=
  !ed.mReadOnly && decide (ed.mUndoIndex > 0)

/-- The function `CanRedo`. -/
def CanRedo (ed : Editor) : Bool :=
  !ed.mReadOnly && decide (ed.mUndoIndex < (ed.mUndoBuffer.length : Int))

/-- The call `m.insert(e)` of a `std::map`: the entry goes to its place in key order,
and nothing changes when the key is already there. -/
def mapInsert : ErrorMarkers → Int × String → ErrorMarkers
  | [], e => [e]
  | x :: rest, e =>
    if e.1 < x.1 then e :: x :: rest
    else if e.1 = x.1 then x :: rest
    else x :: mapInsert rest e

/-- The call `v.insert(v.begin() + i, x)` of a vector. -/
def vecInsert {α : Type} (v : List α) (i : Int) (x : α) : Res (List α) :=
  if i < 0 ∨ (v.length : Int) < i then throw Fault.outOfBounds
  else pure (v.take i.toNat ++ x :: v.drop i.toNat)

/-- The call `v.erase(v.begin() + a, v.begin() + b)` of a vector. -/
def vecEraseRange {α : Type} (v : List α) (a b : Int) : Res (List α) :=
  if a < 0 ∨ b < a ∨ (v.length : Int) < b then throw Fault.outOfBounds
  else pure (v.take a.toNat ++ v.drop b.toNat)

/-- The call `v.erase(v.begin() + a)` of a vector. -/
def vecErase {α : Type} (v : List α) (a : Int) : Res (List α) :=
  if a < 0 ∨ (v.length : Int) ≤ a then throw Fault.outOfBounds
  else pure (v.take a.toNat ++ v.drop (a.toNat + 1))

/-- The elements `[v.begin() + i, v.end())` of a vector. -/
def vecFrom {α : Type} (v : List α) (i : Int) : Res (List α) :=
  if i < 0 ∨ (v.length : Int) < i then throw Fault.outOfBounds
  else pure (v.drop i.toNat)

/-- The assignment `v[i] = x` of a vector. -/
def vecSet {α : Type} (v : List α) (i : Int) (x : α) : Res (List α) :=
  if i < 0 ∨ (v.length : Int) ≤ i then throw Fault.outOfBounds
  else pure (v.set i.toNat x)

/-- The function `RemoveLine(int aStart, int aEnd)`. -/
def RemoveLineRange (ed : Editor) (aStart aEnd : Int) : Res Editor := do
  assertThat (!ed.mReadOnly)
  assertThat (decide (aEnd ≥ aStart))
  assertThat (decide ((ed.mLines.length : Int) > aEnd - aStart))
  let etmp := ed.mErrorMarkers.foldl
    (fun (acc : ErrorMarkers) (i : Int × String) =>
      let e : Int × String := (if i.1 ≥ aStart then i.1 - 1 else i.1, i.2)
      if e.1 ≥ aStart ∧ e.1 ≤ aEnd then acc else mapInsert acc e) []
  let btmp := (ed.mBreakpoints.filter fun i => ¬ (i ≥ aStart ∧ i ≤ aEnd)).image
    fun i => if i ≥ aStart then i - 1 else i
  let lines ← vecEraseRange ed.mLines aStart aEnd
  assertThat (!lines.isEmpty)
  pure { ed with mErrorMarkers := etmp, mBreakpoints := btmp, mLines := lines,
                 mTextChanged := true }

/-- The function `RemoveLine(int aIndex)`. -/
def RemoveLine (ed : Editor) (aIndex : Int) : Res Editor := do
  assertThat (!ed.mReadOnly)
  assertThat (decide (ed.mLines.length > 1))
  let etmp := ed.mErrorMarkers.foldl
    (fun (acc : ErrorMarkers) (i : Int × String) =>
      let e : Int × String := (if i.1 > aIndex then i.1 - 1 else i.1, i.2)
      if e.1 - 1 = aIndex then acc else mapInsert acc e) []
  let btmp := (ed.mBreakpoints.filter fun i => ¬ (i = aIndex)).image
    fun i => if i ≥ aIndex then i - 1 else i
  let lines ← vecErase ed.mLines aIndex
  assertThat (!lines.isEmpty)
  pure { ed with mErrorMarkers := etmp, mBreakpoints := btmp, mLines := lines,
                 mTextChanged := true }

/-- The function `InsertLine`; the reference it returns is the line at `aIndex`
of the new buffer. -/
def InsertLine (ed : Editor) (aIndex : Int) : Res Editor := do
  assertThat (!ed.mReadOnly)
  let lines ← vecInsert ed.mLines aIndex []
  let etmp := ed.mErrorMarkers.foldl
    (fun (acc : ErrorMarkers) (i : Int × String) =>
      mapInsert acc (if i.1 ≥ aIndex then i.1 + 1 else i.1, i.2)) []
  let btmp := ed.mBreakpoints.image fun i => if i ≥ aIndex then i + 1 else i
  pure { ed with mLines := lines, mErrorMarkers := etmp, mBreakpoints := btmp }

/-- A `std::map` holds its entries in strictly ascending key order. -/
def ErrorMarkers.ordered (m : ErrorMarkers) : Prop :=
  m.Pairwise fun a b => a.1 < b.1

instance (m : ErrorMarkers) : Decidable m.ordered := by
  unfold ErrorMarkers.ordered
  infer_instance

/-- A five-line buffer `a`, `b`, `c`, `d`, `e` with an error marker and a breakpoint
on its last line (number 5). -/
def fiveLinesMarked : Editor :=
  { SetText Editor.init [97, 10, 98, 10, 99, 10, 100, 10, 101] with
    mErrorMarkers := [(5, "e")], mBreakpoints := {5} }

/-- A three-line buffer `a`, `b`, `c` with an error marker on its last line (number 3)
and a breakpoint on its first line (number 1). -/
def threeLinesMarked : Editor :=
  { SetText Editor.init [97, 10, 98, 10, 99] with
    mErrorMarkers := [(3, "e")], mBreakpoints := {1} }

/-- The function `IsUTFSequence`: a continuation byte `10xxxxxx`. -/
def IsUTFSequence (c : Char8) : Bool :=
  (c % 256) &&& 0xC0 = 0x80

/-- The assignment `mLines[i] = line`, the effect of changing a line through a
reference to it. -/
def setLine (ed : Editor) (i : Int) (line : Line) : Res Editor := do
  let lines ← vecSet ed.mLines i line
  pure { ed with mLines := lines }

/-- The function `EnsureCursorVisible`: outside `Render` it only requests scrolling;
inside `Render` it scrolls the host window, which is not part of the editor record. -/
def EnsureCursorVisible (ed : Editor) : Editor :=
  if !ed.mWithinRender then { ed with mScrollToCursor := true } else ed

/-- The function `GetActualCursorCoordinates`. -/
def GetActualCursorCoordinates (ed : Editor) : Res Coordinates :=
  SanitizeCoordinates ed ed.mState.mCursorPosition

/-- The function `SetCursorPosition`. -/
def SetCursorPosition (ed : Editor) (aPosition : Coordinates) : Editor :=
  if ed.mState.mCursorPosition ≠ aPosition then
    EnsureCursorVisible
      { ed with mState := { ed.mState with mCursorPosition := aPosition },
                mCursorPositionChanged := true }
  else ed

/-- The function `HasSelection`. -/
def HasSelection (ed : Editor) : Bool :=
  ed.mState.mSelectionEnd.gt ed.mState.mSelectionStart

/-- The function `GetSelectedText`. -/
def GetSelectedText (ed : Editor) : Res (List Char8) :=
  GetTextRange ed ed.mState.mSelectionStart ed.mState.mSelectionEnd

/-- The function `Advance`, on the coordinate passed by reference. -/
def Advance (ed : Editor) (aCoordinates : Coordinates) : Res Coordinates :=
  if aCoordinates.mLine < (ed.mLines.length : Int) then do
    let line ← vecAt ed.mLines aCoordinates.mLine
    let cindex ← GetCharacterIndex ed aCoordinates
    if cindex + 1 < (line.length : Int) then do
      let g ← vecAt line cindex
      let delta := UTF8CharLength g.mChar
      let cindex1 := Min.min (cindex + delta) ((line.length : Int) - 1)
      let col ← GetCharacterColumn ed aCoordinates.mLine cindex1
      pure { aCoordinates with mColumn := col }
    else do
      let col ← GetCharacterColumn ed (aCoordinates.mLine + 1) 0
      pure ⟨aCoordinates.mLine + 1, col⟩
  else pure aCoordinates

/-- The first loop of `FindWordStart`: step left over white space. It starts below
`line.length` and every step lowers `cindex`, so `line.length` steps are enough. -/
def FindWordStartSkip (line : Line) : Nat → Int → Res Int
  | 0, cindex => pure cindex
  | fuel + 1, cindex =>
    if cindex > 0 then do
      let g ← vecAt line cindex
      if isspace g.mChar then FindWordStartSkip line fuel (cindex - 1) else pure cindex
    else pure cindex

/-- The second loop of `FindWordStart`: step left to the start of the run. It starts
below `line.length` and every step lowers `cindex`, so `line.length` steps are enough. -/
def FindWordStartLoop (line : Line) (cstart : PaletteIndex) : Nat → Int → Res Int
  | 0, cindex => pure cindex
  | fuel + 1, cindex =>
    if cindex > 0 then do
      let g ← vecAt line cindex
      let c := g.mChar
      if (c % 256) &&& 0xC0 ≠ 0x80 then
        if c ≤ 32 ∧ isspace c then pure (cindex + 1)
        else do
          let p ← vecAt line (cindex - 1)
          if cstart ≠ p.mColorIndex then pure cindex
          else FindWordStartLoop line cstart fuel (cindex - 1)
      else FindWordStartLoop line cstart fuel (cindex - 1)
    else pure cindex

/-- The function `FindWordStart`. -/
def FindWordStart (ed : Editor) (aFrom : Coordinates) : Res Coordinates :=
  let at_ := aFrom
  if at_.mLine ≥ (ed.mLines.length : Int) then pure at_
  else do
    let line ← vecAt ed.mLines at_.mLine
    let cindex ← GetCharacterIndex ed at_
    if cindex ≥ (line.length : Int) then pure at_
    else do
      let cindex1 ← FindWordStartSkip line line.length cindex
      let g ← vecAt line cindex1
      let cstart := g.mColorIndex
      let cindex2 ← FindWordStartLoop line cstart line.length cindex1
      let col ← GetCharacterColumn ed at_.mLine cindex2
      pure ⟨at_.mLine, col⟩

/-- The inner loop of `FindWordEnd`: step right over white space. Every step raises
`cindex`, so `line.length` steps are enough. -/
def FindWordEndSkip (line : Line) : Nat → Int → Res Int
  | 0, cindex => pure cindex
  | fuel + 1, cindex =>
    if cindex < (line.length : Int) then do
      let g ← vecAt line cindex
      if isspace g.mChar then FindWordEndSkip line fuel (cindex + 1) else pure cindex
    else pure cindex

/-- The loop of `FindWordEnd`. Every step raises `cindex`, so `line.length` steps are
enough. -/
def FindWordEndLoop (line : Line) (prevspace : Bool) (cstart : PaletteIndex) :
    Nat → Int → Res Int
  | 0, cindex => pure cindex
  | fuel + 1, cindex =>
    if cindex < (line.length : Int) then do
      let g ← vecAt line cindex
      let c := g.mChar
      let d := UTF8CharLength c
      if cstart ≠ g.mColorIndex then pure cindex
      else if prevspace ≠ isspace c then
        if isspace c then FindWordEndSkip line line.length cindex else pure cindex
      else FindWordEndLoop line prevspace cstart fuel (cindex + d)
    else pure cindex

/-- The function `FindWordEnd`. -/
def FindWordEnd (ed : Editor) (aFrom : Coordinates) : Res Coordinates :=
  let at_ := aFrom
  if at_.mLine ≥ (ed.mLines.length : Int) then pure at_
  else do
    let line ← vecAt ed.mLines at_.mLine
    let cindex ← GetCharacterIndex ed at_
    if cindex ≥ (line.length : Int) then pure at_
    else do
      let g ← vecAt line cindex
      let prevspace := isspace g.mChar
      let cstart := g.mColorIndex
      let cindex1 ← FindWordEndLoop line prevspace cstart line.length cindex
      let col ← GetCharacterColumn ed aFrom.mLine cindex1
      pure ⟨aFrom.mLine, col⟩

/-- The function `IsOnWordBoundary`. -/
def IsOnWordBoundary (ed : Editor) (aAt : Coordinates) : Res Bool :=
  if aAt.mLine ≥ (ed.mLines.length : Int) ∨ aAt.mColumn = 0 then pure true
  else do
    let line ← vecAt ed.mLines aAt.mLine
    let cindex ← GetCharacterIndex ed aAt
    if cindex ≥ (line.length : Int) then pure true
    else do
      let g ← vecAt line cindex
      let p ← vecAt line (cindex - 1)
      if ed.mColorizerEnabled then pure (decide (g.mColorIndex ≠ p.mColorIndex))
      else pure (decide (isspace g.mChar ≠ isspace p.mChar))

/-- The function `SetSelection`. -/
def SetSelection (ed : Editor) (aStart aEnd : Coordinates) (aMode : SelectionMode) :
    Res Editor := do
  let oldSelStart := ed.mState.mSelectionStart
  let oldSelEnd := ed.mState.mSelectionEnd
  let s0 ← SanitizeCoordinates ed aStart
  let e0 ← SanitizeCoordinates ed aEnd
  let s1 := if s0.gt e0 then e0 else s0
  let e1 := if s0.gt e0 then s0 else e0
  let se ← (match aMode with
    | SelectionMode.Normal => pure (s1, e1)
    | SelectionMode.Word => do
      let s2 ← FindWordStart ed s1
      let onb ← IsOnWordBoundary ed e1
      if !onb then do
        let ws ← FindWordStart ed e1
        let e2 ← FindWordEnd ed ws
        pure (s2, e2)
      else pure (s2, e1)
    | SelectionMode.Line => do
      let lineNo := e1.mLine
      let m ← GetLineMaxColumn ed lineNo
      pure ((⟨s1.mLine, 0⟩ : Coordinates), (⟨lineNo, m⟩ : Coordinates)))
  let ed1 := { ed with mState := { ed.mState with mSelectionStart := se.1,
                                                  mSelectionEnd := se.2 } }
  if se.1 ≠ oldSelStart ∨ se.2 ≠ oldSelEnd then
    pure { ed1 with mCursorPositionChanged := true }
  else pure ed1

/-- The function `DeleteRange`. The lines `firstLine` and `lastLine` are references
into the buffer, so each change of them is a change of the buffer. -/
def DeleteRange (ed : Editor) (aStart aEnd : Coordinates) : Res Editor := do
  assertThat (aEnd.ge aStart)
  assertThat (!ed.mReadOnly)
  if aEnd = aStart then pure ed
  else do
    let start ← GetCharacterIndex ed aStart
    let end_ ← GetCharacterIndex ed aEnd
    if aStart.mLine = aEnd.mLine then do
      let line ← vecAt ed.mLines aStart.mLine
      let n ← GetLineMaxColumn ed aStart.mLine
      let line1 ← (if aEnd.mColumn ≥ n then vecEraseRange line start (line.length : Int)
        else vecEraseRange line start end_)
      let ed1 ← setLine ed aStart.mLine line1
      pure { ed1 with mTextChanged := true }
    else do
      let firstLine ← vecAt ed.mLines aStart.mLine
      let lastLine ← vecAt ed.mLines aEnd.mLine
      let firstLine1 ← vecEraseRange firstLine start (firstLine.length : Int)
      let ed1 ← setLine ed aStart.mLine firstLine1
      let lastLine1 ← vecEraseRange lastLine 0 end_
      let ed2 ← setLine ed1 aEnd.mLine lastLine1
      let ed3 ← (if aStart.mLine < aEnd.mLine then setLine ed2 aStart.mLine (firstLine1 ++ lastLine1)
        else pure ed2)
      let ed4 ← (if aStart.mLine < aEnd.mLine then
          RemoveLineRange ed3 (aStart.mLine + 1) (aEnd.mLine + 1)
        else pure ed3)
      pure { ed4 with mTextChanged := true }

/-- The inner loop of `InsertTextAt`: insert up to `d` bytes of one character, stopping
at the terminating NUL. Returns the line, the index and the rest of the text. -/
def InsertTextAtBytes : Nat → List Char8 → Line → Int → Res (Line × Int × List Char8)
  | 0, text, line, cindex => pure (line, cindex, text)
  | d + 1, text, line, cindex =>
    match text with
    | [] => pure (line, cindex, text)
    | c :: rest =>
      if c = 0 then pure (line, cindex, text)
      else do
        let line1 ← vecInsert line cindex (Glyph.mk2 c PaletteIndex.Default)
        InsertTextAtBytes d rest line1 (cindex + 1)

/-- The loop of `InsertTextAt` over the C string `aValue` (it ends at the end of the
list or at a NUL byte). The state is the editor, `aWhere`, `cindex`, `totalLines`.
Every step takes at least one byte of the text, so as many steps as the text has bytes
are enough. -/
def InsertTextAtLoop : Nat → List Char8 → Editor → Coordinates → Int → Int →
    Res (Editor × Coordinates × Int)
  | 0, _, ed, aWhere, _, totalLines => pure (ed, aWhere, totalLines)
  | fuel + 1, text, ed, aWhere, cindex, totalLines =>
    match text with
    | [] => pure (ed, aWhere, totalLines)
    | c :: rest =>
      if c = 0 then pure (ed, aWhere, totalLines)
      else do
        assertThat (!ed.mLines.isEmpty)
        if c = 13 then
          InsertTextAtLoop fuel rest { ed with mTextChanged := true } aWhere cindex totalLines
        else if c = 10 then do
          let cur ← vecAt ed.mLines aWhere.mLine
          let ed2 ← (if cindex < (cur.length : Int) then do
              let ed1 ← InsertLine ed (aWhere.mLine + 1)
              let line ← vecAt ed1.mLines aWhere.mLine
              let tail ← vecFrom line cindex
              let kept ← vecEraseRange line cindex (line.length : Int)
              let ed1a ← setLine ed1 (aWhere.mLine + 1) tail
              setLine ed1a aWhere.mLine kept
            else InsertLine ed (aWhere.mLine + 1))
          InsertTextAtLoop fuel rest { ed2 with mTextChanged := true }
            ⟨aWhere.mLine + 1, 0⟩ 0 (totalLines + 1)
        else do
          let line ← vecAt ed.mLines aWhere.mLine
          let d := UTF8CharLength c
          let r ← InsertTextAtBytes d.toNat text line cindex
          let ed1 ← setLine ed aWhere.mLine r.1
          InsertTextAtLoop fuel r.2.2 { ed1 with mTextChanged := true }
            { aWhere with mColumn := aWhere.mColumn + 1 } r.2.1 totalLines

/-- The function `InsertTextAt`: returns the editor, the updated `aWhere` and the
number of lines inserted. -/
def InsertTextAt (ed : Editor) (aWhere : Coordinates) (aValue : List Char8) :
    Res (Editor × Coordinates × Int) := do
  assertThat (!ed.mReadOnly)
  let cindex ← GetCharacterIndex ed aWhere
  InsertTextAtLoop aValue.length aValue ed aWhere cindex 0

/-- The function `DeleteSelection`. Its calls pass `mState.mSelectionStart` by
reference; `SanitizeCoordinates` fixes its own results, so passing the value read
before each call is the same. `SetSelection` is called without a mode: the default
argument is in the header, which is not among the sources, and is taken as Normal. -/
def DeleteSelection (ed : Editor) : Res Editor := do
  assertThat (ed.mState.mSelectionEnd.ge ed.mState.mSelectionStart)
  if ed.mState.mSelectionEnd = ed.mState.mSelectionStart then pure ed
  else do
    let ed1 ← DeleteRange ed ed.mState.mSelectionStart ed.mState.mSelectionEnd
    let ed2 ← SetSelection ed1 ed1.mState.mSelectionStart ed1.mState.mSelectionStart
      SelectionMode.Normal
    let ed3 := SetCursorPosition ed2 ed2.mState.mSelectionStart
    pure (Colorize ed3 ed3.mState.mSelectionStart.mLine 1)

/-- The function `ImTextCharToUtf8` with a buffer of 7 bytes: the bytes written
(none when it returns 0). Each `(char)` cast keeps the low 8 bits. -/
def ImTextCharToUtf8 (c : Nat) : List Char8 :=
  if c < 0x80 then [c % 256]
  else if c < 0x800 then [(0xc0 + (c >>> 6)) % 256, (0x80 + (c &&& 0x3f)) % 256]
  else if c ≥ 0xdc00 ∧ c < 0xe000 then []
  else if c ≥ 0xd800 ∧ c < 0xdc00 then
    [(0xf0 + (c >>> 18)) % 256, (0x80 + ((c >>> 12) &&& 0x3f)) % 256,
     (0x80 + ((c >>> 6) &&& 0x3f)) % 256, (0x80 + (c &&& 0x3f)) % 256]
  else
    [(0xe0 + (c >>> 12)) % 256, (0x80 + ((c >>> 6) &&& 0x3f)) % 256,
     (0x80 + (c &&& 0x3f)) % 256]

/-- A C string read out of a `char` buffer: the bytes before the first NUL. -/
def cString (buf : List Char8) : List Char8 :=
  buf.takeWhile fun c => decide (c ≠ 0)

/-- The function `SetTextLines`. -/
def SetTextLines (ed : Editor) (aLines : List (List Char8)) : Editor :=
  let lines : Lines := if aLines.isEmpty then [[]]
    else aLines.map fun aLine => aLine.map fun c => Glyph.mk2 c PaletteIndex.Default
  let ed1 := { ed with mLines := lines, mTextChanged := true, mScrollToTop := true,
                       mUndoBuffer := [], mUndoIndex := 0 }
  Colorize ed1 0 (-1)

/-- The function `GetTextLines`. -/
def GetTextLines (ed : Editor) : List (List Char8) :=
  ed.mLines.map fun line => line.map fun g => g.mChar

/-- The inner loop of the shift-tab case of `EnterCharacter`: erase up to `mTabSize`
leading spaces of a line. Returns the line and whether anything was erased. -/
def unindentSpaces : Nat → Line → Bool → Line × Bool
  | 0, line, modified => (line, modified)
  | j + 1, line, modified =>
    match line with
    | [] => (line, modified)
    | g :: rest => if g.mChar = 32 then unindentSpaces j rest true else (line, modified)

/-- The body of the line loop of the tab case of `EnterCharacter`, on one line. -/
def indentLine (tabSize : Int) (aShift : Bool) (line : Line) (modified : Bool) : Line × Bool :=
  if aShift then
    match line with
    | [] => (line, modified)
    | g :: rest =>
      if g.mChar = 9 then (rest, true)
      else unindentSpaces tabSize.toNat line modified
  else (Glyph.mk2 9 PaletteIndex.Background :: line, true)

/-- The line loop `for (i = start.mLine; i <= end.mLine; i++)` of the tab case of
`EnterCharacter`. -/
def indentLines (aShift : Bool) (endLine : Int) : Nat → Int → Editor → Bool →
    Res (Editor × Bool)
  | 0, _, ed, modified => pure (ed, modified)
  | fuel + 1, i, ed, modified =>
    if i ≤ endLine then do
      let line ← vecAt ed.mLines i
      let r := indentLine ed.mTabSize aShift line modified
      let ed1 ← setLine ed i r.1
      indentLines aShift endLine fuel (i + 1) ed1 r.2
    else pure (ed, modified)

/-- The case of `EnterCharacter` for a tab typed over a selection of several lines:
indent or unindent the selected lines. -/
def EnterCharacterIndent (ed : Editor) (aShift : Bool) (u : UndoRecord) : Res Editor := do
  let start0 := ed.mState.mSelectionStart
  let end0 := ed.mState.mSelectionEnd
  let originalEnd := end0
  let start1 := if start0.gt end0 then end0 else start0
  let end1 := if start0.gt end0 then start0 else end0
  let start2 : Coordinates := { start1 with mColumn := 0 }
  let end2 : Coordinates :=
    if end1.mColumn = 0 ∧ end1.mLine > 0 then { end1 with mLine := end1.mLine - 1 } else end1
  let end3 : Coordinates :=
    if end2.mLine ≥ (ed.mLines.length : Int) then
      { end2 with mLine := if ed.mLines.isEmpty then 0 else (ed.mLines.length : Int) - 1 }
    else end2
  let m ← GetLineMaxColumn ed end3.mLine
  let end4 : Coordinates := { end3 with mColumn := m }
  let removed ← GetTextRange ed start2 end4
  let u1 := { u with mRemovedStart := start2, mRemovedEnd := end4, mRemoved := removed }
  let r ← indentLines aShift end4.mLine (end4.mLine - start2.mLine + 1).toNat start2.mLine
    ed false
  let ed1 := r.1
  if r.2 then do
    let c0 ← GetCharacterColumn ed1 start2.mLine 0
    let start3 : Coordinates := ⟨start2.mLine, c0⟩
    let er ← (if originalEnd.mColumn ≠ 0 then do
        let m1 ← GetLineMaxColumn ed1 end4.mLine
        let end5 : Coordinates := ⟨end4.mLine, m1⟩
        let added ← GetTextRange ed1 start3 end5
        pure (end5, end5, added)
      else do
        let end5 : Coordinates := ⟨originalEnd.mLine, 0⟩
        let m1 ← GetLineMaxColumn ed1 (end5.mLine - 1)
        let rangeEnd : Coordinates := ⟨end5.mLine - 1, m1⟩
        let added ← GetTextRange ed1 start3 rangeEnd
        pure (end5, rangeEnd, added))
    let u2 := { u1 with mAdded := er.2.2, mAddedStart := start3, mAddedEnd := er.2.1,
                        mAfter := ed1.mState }
    let ed2 := { ed1 with mState := { ed1.mState with mSelectionStart := start3,
                                                      mSelectionEnd := er.1 } }
    let ed3 ← AddUndo ed2 u2
    pure (EnsureCursorVisible { ed3 with mTextChanged := true })
  else pure ed1

/-- The auto-indentation loop of `EnterCharacter`: the leading blanks of a line. -/
def leadingBlanks : Line → Line
  | [] => []
  | g :: rest => if isascii g.mChar && isblank g.mChar then g :: leadingBlanks rest else []

/-- The overwrite loop of `EnterCharacter`: erase up to `d` bytes at `cindex`.
Returns the line and the bytes erased. -/
def overwriteErase : Nat → Line → Int → List Char8 → Res (Line × List Char8)
  | 0, line, _, removed => pure (line, removed)
  | d + 1, line, cindex, removed =>
    if cindex < (line.length : Int) then do
      let g ← vecAt line cindex
      let line1 ← vecErase line cindex
      overwriteErase d line1 cindex (removed ++ [g.mChar])
    else pure (line, removed)

/-- The insertion loop of `EnterCharacter` over the bytes of the character. -/
def insertGlyphs : List Char8 → Line → Int → Res (Line × Int)
  | [], line, cindex => pure (line, cindex)
  | c :: rest, line, cindex => do
    let line1 ← vecInsert line cindex (Glyph.mk2 c PaletteIndex.Default)
    insertGlyphs rest line1 (cindex + 1)

/-- The function `EnterCharacter`. -/
def EnterCharacter (ed : Editor) (aChar : Nat) (aShift : Bool) : Res Editor := do
  assertThat (!ed.mReadOnly)
  let u0 : UndoRecord := { UndoRecord.empty with mBefore := ed.mState }
  if HasSelection ed ∧ aChar = 9 ∧
      ed.mState.mSelectionStart.mLine ≠ ed.mState.mSelectionEnd.mLine then
    EnterCharacterIndent ed aShift u0
  else do
    let eu ← (if HasSelection ed then do
        let removed ← GetSelectedText ed
        let u1 := { u0 with mRemoved := removed, mRemovedStart := ed.mState.mSelectionStart,
                            mRemovedEnd := ed.mState.mSelectionEnd }
        let ed1 ← DeleteSelection ed
        pure (ed1, u1)
      else pure (ed, u0))
    let ed1 := eu.1
    let u1 := eu.2
    let coord ← GetActualCursorCoordinates ed1
    let u2 := { u1 with mAddedStart := coord }
    assertThat (!ed1.mLines.isEmpty)
    let r ← (if aChar = 10 then do
        let ed2 ← InsertLine ed1 (coord.mLine + 1)
        let line ← vecAt ed2.mLines coord.mLine
        let newLine0 ← vecAt ed2.mLines (coord.mLine + 1)
        let newLine1 := if ed2.mLanguageDefinition.mAutoIndentation
          then newLine0 ++ leadingBlanks line else newLine0
        let ed3 ← setLine ed2 (coord.mLine + 1) newLine1
        let whitespaceSize : Int := (newLine1.length : Int)
        let cindex ← GetCharacterIndex ed3 coord
        let tail ← vecFrom line cindex
        let ed4 ← setLine ed3 (coord.mLine + 1) (newLine1 ++ tail)
        let kept ← vecEraseRange line cindex (line.length : Int)
        let ed5 ← setLine ed4 coord.mLine kept
        let col ← GetCharacterColumn ed5 (coord.mLine + 1) whitespaceSize
        let ed6 := SetCursorPosition ed5 ⟨coord.mLine + 1, col⟩
        pure (some (ed6, { u2 with mAdded := [aChar % 256] }))
      else do
        let buf := ImTextCharToUtf8 aChar
        if buf.length > 0 then do
          let line ← vecAt ed1.mLines coord.mLine
          let cindex ← GetCharacterIndex ed1 coord
          let lu ← (if ed1.mOverwrite ∧ cindex < (line.length : Int) then do
              let g ← vecAt line cindex
              let d := UTF8CharLength g.mChar
              let col ← GetCharacterColumn ed1 coord.mLine (cindex + d)
              let u3 := { u2 with mRemovedStart := ed1.mState.mCursorPosition,
                                  mRemovedEnd := ⟨coord.mLine, col⟩ }
              let er ← overwriteErase d.toNat line cindex u3.mRemoved
              pure (er.1, { u3 with mRemoved := er.2 })
            else pure (line, u2))
          let ins ← insertGlyphs (cString buf) lu.1 cindex
          let ed2 ← setLine ed1 coord.mLine ins.1
          let u4 := { lu.2 with mAdded := cString buf }
          let col ← GetCharacterColumn ed2 coord.mLine ins.2
          pure (some (SetCursorPosition ed2 ⟨coord.mLine, col⟩, u4))
        else pure none)
    match r with
    | none => pure ed1
    | some (ed2, u3) => do
      let ed3 := { ed2 with mTextChanged := true }
      let addedEnd ← GetActualCursorCoordinates ed3
      let u4 := { u3 with mAddedEnd := addedEnd, mAfter := ed3.mState }
      let ed4 ← AddUndo ed3 u4
      pure (EnsureCursorVisible (Colorize ed4 (coord.mLine - 1) 3))

/-- The erase loop of `Delete`: erase up to `d` bytes at `cindex`. -/
def eraseBytes : Nat → Line → Int → Res Line
  | 0, line, _ => pure line
  | d + 1, line, cindex =>
    if cindex < (line.length : Int) then do
      let line1 ← vecErase line cindex
      eraseBytes d line1 cindex
    else pure line

/-- The function `Delete`. -/
def Delete (ed : Editor) : Res Editor := do
  assertThat (!ed.mReadOnly)
  if ed.mLines.isEmpty then pure ed
  else do
    let u0 : UndoRecord := { UndoRecord.empty with mBefore := ed.mState }
    let r ← (if HasSelection ed then do
        let removed ← GetSelectedText ed
        let u1 := { u0 with mRemoved := removed, mRemovedStart := ed.mState.mSelectionStart,
                            mRemovedEnd := ed.mState.mSelectionEnd }
        let ed1 ← DeleteSelection ed
        pure (ed1, some u1)
      else do
        let pos ← GetActualCursorCoordinates ed
        let ed1 := SetCursorPosition ed pos
        let line ← vecAt ed1.mLines pos.mLine
        let m ← GetLineMaxColumn ed1 pos.mLine
        if pos.mColumn = m then
          if pos.mLine = (ed1.mLines.length : Int) - 1 then pure (ed1, none)
          else do
            let rs ← GetActualCursorCoordinates ed1
            let re ← Advance ed1 rs
            let u1 := { u0 with mRemoved := [10], mRemovedStart := rs, mRemovedEnd := re }
            let nextLine ← vecAt ed1.mLines (pos.mLine + 1)
            let ed2 ← setLine ed1 pos.mLine (line ++ nextLine)
            let ed3 ← RemoveLine ed2 (pos.mLine + 1)
            pure (Colorize { ed3 with mTextChanged := true } pos.mLine 1, some u1)
        else do
          let cindex ← GetCharacterIndex ed1 pos
          let rs ← GetActualCursorCoordinates ed1
          let re : Coordinates := { rs with mColumn := rs.mColumn + 1 }
          let removed ← GetTextRange ed1 rs re
          let u1 := { u0 with mRemovedStart := rs, mRemovedEnd := re, mRemoved := removed }
          let g ← vecAt line cindex
          let d := UTF8CharLength g.mChar
          let line1 ← eraseBytes d.toNat line cindex
          let ed2 ← setLine ed1 pos.mLine line1
          pure (Colorize { ed2 with mTextChanged := true } pos.mLine 1, some u1))
    match r.2 with
    | none => pure r.1
    | some u1 => AddUndo r.1 { u1 with mAfter := r.1.mState }

/-- The marker loop of `Backspace`, run before the line is removed: the marker of the
cursor line moves to the line before. -/
def BackspaceMarkers (m : ErrorMarkers) (cursorLine : Int) : ErrorMarkers :=
  m.foldl
    (fun (acc : ErrorMarkers) (i : Int × String) =>
      mapInsert acc (if i.1 - 1 = cursorLine then i.1 - 1 else i.1, i.2)) []

/-- The step back of `Backspace` over continuation bytes. Every step lowers `cindex`,
and a `cindex` at or past `line.length` leaves the vector at once, so `line.length`
steps are enough. -/
def BackspaceSkip (line : Line) : Nat → Int → Res Int
  | 0, cindex => pure cindex
  | fuel + 1, cindex =>
    if cindex > 0 then do
      let g ← vecAt line cindex
      if IsUTFSequence g.mChar then BackspaceSkip line fuel (cindex - 1) else pure cindex
    else pure cindex

/-- The erase loop of `Backspace`: `while (cindex < line.size() && cend-- > cindex)`.
The first test compares an `int` with a `size_t`, so it fails for a negative `cindex`.
Every step erases one glyph, so `line.length` steps are enough.
Returns the line and the bytes erased. -/
def BackspaceErase : Nat → Line → Int → Int → List Char8 → Res (Line × List Char8)
  | 0, line, _, _, removed => pure (line, removed)
  | fuel + 1, line, cindex, cend, removed =>
    if (0 ≤ cindex ∧ cindex < (line.length : Int)) ∧ cend > cindex then do
      let g ← vecAt line cindex
      let line1 ← vecErase line cindex
      BackspaceErase fuel line1 cindex (cend - 1) (removed ++ [g.mChar])
    else pure (line, removed)

/-- The function `Backspace`. -/
def Backspace (ed : Editor) : Res Editor := do
  assertThat (!ed.mReadOnly)
  if ed.mLines.isEmpty then pure ed
  else do
    let u0 : UndoRecord := { UndoRecord.empty with mBefore := ed.mState }
    let r ← (if HasSelection ed then do
        let removed ← GetSelectedText ed
        let u1 := { u0 with mRemoved := removed, mRemovedStart := ed.mState.mSelectionStart,
                            mRemovedEnd := ed.mState.mSelectionEnd }
        let ed1 ← DeleteSelection ed
        pure (ed1, some u1)
      else do
        let pos ← GetActualCursorCoordinates ed
        let ed1 := SetCursorPosition ed pos
        let cur := ed1.mState.mCursorPosition
        if cur.mColumn = 0 then
          if cur.mLine = 0 then pure (ed1, none)
          else do
            let m ← GetLineMaxColumn ed1 (pos.mLine - 1)
            let rs : Coordinates := ⟨pos.mLine - 1, m⟩
            let re ← Advance ed1 rs
            let u1 := { u0 with mRemoved := [10], mRemovedStart := rs, mRemovedEnd := re }
            let line ← vecAt ed1.mLines cur.mLine
            let prevLine ← vecAt ed1.mLines (cur.mLine - 1)
            let prevSize ← GetLineMaxColumn ed1 (cur.mLine - 1)
            let ed2 ← setLine ed1 (cur.mLine - 1) (prevLine ++ line)
            let ed3 := { ed2 with mErrorMarkers := BackspaceMarkers ed2.mErrorMarkers cur.mLine }
            let ed4 ← RemoveLine ed3 cur.mLine
            let ed5 := { ed4 with mState := { ed4.mState with
              mCursorPosition := ⟨cur.mLine - 1, prevSize⟩ } }
            let ed6 := EnsureCursorVisible { ed5 with mTextChanged := true }
            pure (Colorize ed6 ed6.mState.mCursorPosition.mLine 1, some u1)
        else do
          let line ← vecAt ed1.mLines cur.mLine
          let cindex0 ← GetCharacterIndex ed1 pos
          let cend := cindex0 - 1 + 1
          let cindex ← BackspaceSkip line line.length (cindex0 - 1)
          let rs0 ← GetActualCursorCoordinates ed1
          let rs : Coordinates := { rs0 with mColumn := rs0.mColumn - 1 }
          let ed2 := { ed1 with mState := { ed1.mState with
            mCursorPosition := { cur with mColumn := cur.mColumn - 1 } } }
          let er ← BackspaceErase line.length line cindex cend u0.mRemoved
          let u1 := { u0 with mRemovedStart := rs, mRemovedEnd := rs0, mRemoved := er.2 }
          let ed3 ← setLine ed2 cur.mLine er.1
          let ed4 := EnsureCursorVisible { ed3 with mTextChanged := true }
          pure (Colorize ed4 ed4.mState.mCursorPosition.mLine 1, some u1))
    match r.2 with
    | none => pure r.1
    | some u1 => AddUndo r.1 { u1 with mAfter := r.1.mState }

/-- The function `UndoRecord::Undo`. -/
def UndoRecord.Undo (u : UndoRecord) (ed : Editor) : Res Editor := do
  let ed1 ← (if !u.mAdded.isEmpty then do
      let e ← DeleteRange ed u.mAddedStart u.mAddedEnd
      pure (Colorize e (u.mAddedStart.mLine - 1) (u.mAddedEnd.mLine - u.mAddedStart.mLine + 2))
    else pure ed)
  let ed2 ← (if !u.mRemoved.isEmpty then do
      let r ← InsertTextAt ed1 u.mRemovedStart u.mRemoved
      pure (Colorize r.1 (u.mRemovedStart.mLine - 1)
        (u.mRemovedEnd.mLine - u.mRemovedStart.mLine + 2))
    else pure ed1)
  pure (EnsureCursorVisible { ed2 with mState := u.mBefore })

/-- The function `UndoRecord::Redo`. -/
def UndoRecord.Redo (u : UndoRecord) (ed : Editor) : Res Editor := do
  let ed1 ← (if !u.mRemoved.isEmpty then do
      let e ← DeleteRange ed u.mRemovedStart u.mRemovedEnd
      pure (Colorize e (u.mRemovedStart.mLine - 1)
        (u.mRemovedEnd.mLine - u.mRemovedStart.mLine + 1))
    else pure ed)
  let ed2 ← (if !u.mAdded.isEmpty then do
      let r ← InsertTextAt ed1 u.mAddedStart u.mAdded
      pure (Colorize r.1 (u.mAddedStart.mLine - 1) (u.mAddedEnd.mLine - u.mAddedStart.mLine + 1))
    else pure ed1)
  pure (EnsureCursorVisible { ed2 with mState := u.mAfter })

/-- The loop of `Undo(aSteps)`, with `aSteps` steps left. -/
def UndoLoop : Nat → Editor → Res Editor
  | 0, ed => pure ed
  | n + 1, ed =>
    if CanUndo ed then do
      let ed1 := { ed with mUndoIndex := ed.mUndoIndex - 1 }
      let u ← vecAt ed1.mUndoBuffer ed1.mUndoIndex
      let ed2 ← u.Undo ed1
      UndoLoop n ed2
    else pure ed

/-- The function `Undo(aSteps)`; the call `Undo()` is `Undo 1`. -/
def Undo (ed : Editor) (aSteps : Int) : Res Editor :=
  UndoLoop aSteps.toNat ed

/-- The loop of `Redo(aSteps)`, with `aSteps` steps left. -/
def RedoLoop : Nat → Editor → Res Editor
  | 0, ed => pure ed
  | n + 1, ed =>
    if CanRedo ed then do
      let u ← vecAt ed.mUndoBuffer ed.mUndoIndex
      let ed1 := { ed with mUndoIndex := ed.mUndoIndex + 1 }
      let ed2 ← u.Redo ed1
      RedoLoop n ed2
    else pure ed

/-- The function `Redo(aSteps)`; the call `Redo()` is `Redo 1`. -/
def Redo (ed : Editor) (aSteps : Int) : Res Editor :=
  RedoLoop aSteps.toNat ed

/-- Whatever the call returns satisfies `P` (a call that faults returns nothing). -/
def Res.sat {α : Type} (x : Res α) (P : α → Prop) : Prop :=
  ∀ a, x = Except.ok a → P a

/-- The two-line buffer `a`, `b` as `SetText` leaves it: cursor at `(0, 0)`, no
selection, empty undo log. -/
def twoLines : Editor :=
  SetText Editor.init [97, 10, 98]

/-- An editor with the cursor moved to `c` (selection unchanged). -/
def Editor.withCursor (ed : Editor) (c : Coordinates) : Editor :=
  { ed with mState := { ed.mState with mCursorPosition := c } }

/-- The one-line buffer `a<TAB>b` (tab size 4) with the cursor at column 4, right
after the tab. -/
def tabLineAfterTab : Editor :=
  (SetText Editor.init [97, 9, 98]).withCursor ⟨0, 4⟩

/-- The one-line buffer `a<TAB>b` (tab size 4) with the colorizer switched off
(`SetColorizerEnable(false)`), all glyphs in the default style. -/
def tabLinePlain : Editor :=
  { SetText Editor.init [97, 9, 98] with mColorizerEnabled := false }

/-- The state after typing `x`, typing `y` and one `Undo()` on the empty buffer the
constructor leaves (the constructor's state if one of the calls faults). -/
def afterOneUndo : Editor :=
  match (EnterCharacter Editor.init 120 false >>= fun e =>
          EnterCharacter e 121 false >>= fun e1 => Undo e1 1) with
  | Except.ok e => e
  | Except.error _ => Editor.init

/-- The function `GetCurrentLineText`. -/
def GetCurrentLineText (ed : Editor) : Res (List Char8) := do
  let lineLength ← GetLineMaxColumn ed ed.mState.mCursorPosition.mLine
  GetTextRange ed ⟨ed.mState.mCursorPosition.mLine, 0⟩
    ⟨ed.mState.mCursorPosition.mLine, lineLength⟩

/-- An editor with the selection set to `[s, e]` (cursor unchanged). -/
def Editor.withSelection (ed : Editor) (s e : Coordinates) : Editor :=
  { ed with mState := { ed.mState with mSelectionStart := s, mSelectionEnd := e } }

/-- The column after a tab met at column `col`, in the words of the specification: the
next multiple of the tab size. -/
def specNextTabColumn (tabSize col : Int) : Int :=
  (col / tabSize + 1) * tabSize

/-- The walk of the specification over the bytes of a line: the character boundaries
from the current one on, each as `(byte offset, column)`. A boundary is reached from
the one before by stepping over one character, whose length its lead byte announces
(`skip` bytes of the current character are still to be stepped over); the column grows
by one for a character that is not a tab and moves to the next multiple of the tab size
for a tab. The last boundary lies at or past the end of the line. -/
def specBoundaries (tabSize : Int) : List Char8 → Nat → Int → Int → List (Int × Int)
  | [], skip, off, col => [(off + skip, col)]
  | b :: rest, 0, off, col =>
    (off, col) :: specBoundaries tabSize rest (UTF8CharLength b - 1).toNat (off + 1)
      (if b = 9 then specNextTabColumn tabSize col else col + 1)
  | _ :: rest, skip + 1, off, col => specBoundaries tabSize rest skip (off + 1) col

/-- The character boundaries of a whole line with their columns. -/
def lineBoundaries (tabSize : Int) (line : Line) : List (Int × Int) :=
  specBoundaries tabSize (lineChars line) 0 0 0

/-- The byte offset of the first boundary of the list whose column reaches `column`,
and of the last boundary when no column does. -/
def boundaryIndex (bs : List (Int × Int)) (column : Int) : Int :=
  match bs.find? (fun q => decide (column ≤ q.2)) with
  | some q => q.1
  | none => (bs.getLastD (0, 0)).1

/-- The column of the first boundary of the list at or after the byte offset `index`,
and of the last boundary when there is none. -/
def boundaryColumn (bs : List (Int × Int)) (index : Int) : Int :=
  match bs.find? (fun q => decide (index ≤ q.1)) with
  | some q => q.2
  | none => (bs.getLastD (0, 0)).2

/-- The maximal column of a line in the words of the specification: the column reached
at the last boundary, after scanning all characters. -/
def specLineMaxColumn (tabSize : Int) (line : Line) : Int :=
  ((lineBoundaries tabSize line).getLastD (0, 0)).2

/-- The character index of a column in the words of the specification: the byte offset
of the first character boundary whose column reaches `column`. -/
def specCharacterIndex (tabSize : Int) (line : Line) (column : Int) : Int :=
  boundaryIndex (lineBoundaries tabSize line) column

/-- The column of a byte offset in the words of the specification: the column reached
when `index` bytes are consumed. -/
def specCharacterColumn (tabSize : Int) (line : Line) (index : Int) : Int :=
  boundaryColumn (lineBoundaries tabSize line) index

/-- A call that returns, with a result for which `P` holds. -/
def Res.yields {α : Type} (x : Res α) (P : α → Prop) : Prop :=
  ∃ a, x = Except.ok a ∧ P a

/-- The lines that stand in the place of the line `a ++ b` once the text is put between
`a` and `b`: a carriage return is dropped, a newline ends the line, any other byte is
one more glyph in the default style. -/
def spliceLines : List Char8 → Line → Line → Lines
  | [], a, b => [a ++ b]
  | c :: rest, a, b =>
    if c = 13 then spliceLines rest a b
    else if c = 10 then a :: spliceLines rest [] b
    else spliceLines rest (a ++ [Glyph.mk2 c PaletteIndex.Default]) b

/-- The text with `t` put in at byte position `pos`. -/
def specInsertAt (text : List Char8) (pos : Nat) (t : List Char8) : List Char8 :=
  text.take pos ++ t ++ text.drop pos

/-- The text without its bytes from position `a` up to, not including, position `b`. -/
def specRemoveRange (text : List Char8) (a b : Nat) : List Char8 :=
  text.take a ++ text.drop b

/-- The position in the whole text of byte `k` of line `l`: every line before it counts
with its newline. -/
def textOffset (lines : Lines) (l k : Nat) : Nat :=
  (unlinesAll (lines.take l)).length + k

/-- The one-line buffer `ab`. -/
def oneLineAb : Editor :=
  SetText Editor.init [97, 98]

/-- The two-line buffer `ab`, `cd`. -/
def twoLinesAbCd : Editor :=
  SetText Editor.init [97, 98, 10, 99, 100]

/-- The function `InsertText(const char*)`; `none` is the null pointer. `InsertTextAt`
updates `pos` in place, and `SetSelection` is called without a mode (Normal). -/
def InsertText (ed : Editor) (aValue : Option (List Char8)) : Res Editor :=
  match aValue with
  | none => pure ed
  | some value => do
    let pos ← GetActualCursorCoordinates ed
    let start := Coordinates.min pos ed.mState.mSelectionStart
    let totalLines := pos.mLine - start.mLine
    let r ← InsertTextAt ed pos value
    let ed1 ← SetSelection r.1 r.2.1 r.2.1 SelectionMode.Normal
    let ed2 := SetCursorPosition ed1 r.2.1
    pure (Colorize ed2 (start.mLine - 1) (totalLines + r.2.2 + 2))

/-- The function `Copy`: the text it hands to `ImGui::SetClipboardText` (a C string),
`none` when it sets nothing. The editor is not changed. -/
def Copy (ed : Editor) : Res (Option (List Char8)) :=
  if HasSelection ed then do
    let s ← GetSelectedText ed
    pure (some (cString s))
  else if !ed.mLines.isEmpty then do
    let pos ← GetActualCursorCoordinates ed
    let line ← vecAt ed.mLines pos.mLine
    pure (some (cString (lineChars line)))
  else pure none

/-- The function `Cut`: the editor after the call and the text handed to the clipboard. -/
def Cut (ed : Editor) : Res (Editor × Option (List Char8)) :=
  if ed.mReadOnly then do
    let clip ← Copy ed
    pure (ed, clip)
  else if HasSelection ed then do
    let removed ← GetSelectedText ed
    let u : UndoRecord := { UndoRecord.empty with
      mBefore := ed.mState, mRemoved := removed,
      mRemovedStart := ed.mState.mSelectionStart, mRemovedEnd := ed.mState.mSelectionEnd }
    let clip ← Copy ed
    let ed1 ← DeleteSelection ed
    let ed2 ← AddUndo ed1 { u with mAfter := ed1.mState }
    pure (ed2, clip)
  else pure (ed, none)

/-- The function `Paste`; `clipText` is what `ImGui::GetClipboardText` returns (`none`
is the null pointer, the text ends at its first NUL). -/
def Paste (ed : Editor) (clipText : Option (List Char8)) : Res Editor :=
  if ed.mReadOnly then pure ed
  else
    match clipText with
    | none => pure ed
    | some clip =>
      if (cString clip).length > 0 then do
        let u0 : UndoRecord := { UndoRecord.empty with mBefore := ed.mState }
        let eu ← (if HasSelection ed then do
            let removed ← GetSelectedText ed
            let u1 := { u0 with mRemoved := removed,
                                mRemovedStart := ed.mState.mSelectionStart,
                                mRemovedEnd := ed.mState.mSelectionEnd }
            let ed1 ← DeleteSelection ed
            pure (ed1, u1)
          else pure (ed, u0))
        let addedStart ← GetActualCursorCoordinates eu.1
        let u2 := { eu.2 with mAdded := cString clip, mAddedStart := addedStart }
        let ed2 ← InsertText eu.1 (some clip)
        let addedEnd ← GetActualCursorCoordinates ed2
        let u3 := { u2 with mAddedEnd := addedEnd, mAfter := ed2.mState }
        AddUndo ed2 u3
      else pure ed

/-- The one-line buffer `ab` of a read-only editor. -/
def readOnlyAb : Editor :=
  { oneLineAb with mReadOnly := true }

/-- The one-line buffer `ab` of a read-only editor with the selection `(0,0)`-`(0,1)`
and an undo log of one record, the log cursor behind it. -/
def readOnlyAbLogged : Editor :=
  { (oneLineAb.withSelection ⟨0, 0⟩ ⟨0, 1⟩) with
    mReadOnly := true, mUndoBuffer := [UndoRecord.empty], mUndoIndex := 1 }

/-- The undo log of the editor: the log cursor and the records. -/
def Editor.log (ed : Editor) : Int × List UndoRecord :=
  (ed.mUndoIndex, ed.mUndoBuffer)

/-- The log of `e` is the log of `ed` with one record more: the cursor of `e` is one
behind that of `ed` and stands at the end of the records. -/
def logGrew (ed e : Editor) : Prop :=
  e.mUndoIndex = ed.mUndoIndex + 1 ∧ (e.mUndoBuffer.length : Int) = e.mUndoIndex

/-- The one-line buffer `ab` with the selection `(0,0)`-`(0,1)`. -/
def oneLineAbSelected : Editor :=
  oneLineAb.withSelection ⟨0, 0⟩ ⟨0, 1⟩

/-- The one-line buffer `ab` after the call `Delete()` with the cursor at `(0, 0)` (the
buffer itself if the call faults). -/
def oneLineAbDeleted : Editor :=
  match Delete oneLineAb with
  | Except.ok e => e
  | Except.error _ => oneLineAb

/-- A byte string of the model as the `std::string` key looked up in the tables. -/
def stdString (l : List Char8) : String :=
  String.mk (l.map Char.ofNat)

/-- The C function `toupper` on a byte, in the "C" locale. -/
def toupper (c : Char8) : Char8 :=
  if 97 ≤ c ∧ c ≤ 122 then c - 32 else c

/-- A `char` as the `int` it is promoted to in a comparison; the type `char` is signed. -/
def charToInt (a : Char8) : Int :=
  if a % 256 < 128 then ((a % 256 : Nat) : Int) else ((a % 256 : Nat) : Int) - 256

/-- The predicate `pred` of the comment pass: a `char` of a marker against the `uint8_t`
character of a glyph. -/
def predEq (a : Char8) (g : Glyph) : Bool :=
  decide (charToInt a = (g.mChar : Int))

/-- The function `equals` on a marker and the glyphs of the line from index `i` on, as
many as the marker has characters (the range `[from, from + size)` of the calls). It
stops at the first difference; a glyph it reads past the end of the line is outside
the vector. -/
def equalsAt : List Char8 → Line → Int → Res Bool
  | [], _, _ => pure true
  | a :: rest, line, i => do
    let g ← vecAt line i
    if predEq a g then equalsAt rest line (i + 1) else pure false

/-- The assignment of a member of the glyph `line[i]`. -/
def glyphUpdate (line : Line) (i : Int) (f : Glyph → Glyph) : Res Line := do
  let g ← vecAt line i
  vecSet line i (f g)

/-- The local variables of the comment pass of `ColorizeInternal`, with the lines. -/
structure CommentScan where
  lines : Lines
  commentStartLine : Int
  commentStartIndex : Int
  withinString : Bool
  withinSingleLineComment : Bool
  withinPreproc : Bool
  firstChar : Bool
  concatenate : Bool
  currentLine : Int
  currentIndex : Int

/-- The value `inComment`: the comment start is at or before the current glyph. -/
def CommentScan.inComment (s : CommentScan) (currentIndex : Int) : Bool :=
  decide (s.commentStartLine < s.currentLine ∨
    (s.commentStartLine = s.currentLine ∧ s.commentStartIndex ≤ currentIndex))

/-- One of the four tests of a single-line marker in the comment pass: the marker
`single` stands at the index and the multi-line marker `start` does not. The test of
`start` reads as many glyphs as `start` has characters. -/
def singleLineAt (single start : List Char8) (line : Line) (i : Int) : Res Bool :=
  if single.length > 0 ∧ i + (single.length : Int) ≤ (line.length : Int) then do
    let m ← equalsAt single line i
    if m then do
      let m2 ← equalsAt start line i
      pure (!m2)
    else pure false
  else pure false

/-- One of the two tests of a multi-line start marker in the comment pass. -/
def multiLineAt (start : List Char8) (line : Line) (i : Int) (within : Bool) : Res Bool :=
  if within = false ∧ i + (start.length : Int) ≤ (line.length : Int) then
    equalsAt start line i
  else pure false

/-- One of the two tests of an end marker in the comment pass: the marker ends at the
glyph at the index. -/
def endMarkerAt (endStr : List Char8) (line : Line) (i : Int) : Res Bool :=
  if i + 1 ≥ (endStr.length : Int) then equalsAt endStr line (i + 1 - (endStr.length : Int))
  else pure false

/-- The branch of the comment pass for a glyph outside a string that is not a quote: the
six marker tests, the two flags of the glyph, the two end tests. The bodies of the four
single-line tests set `withinSingleLineComment` on each of their paths. -/
def commentDefault (ld : LanguageDefinition) (s : CommentScan) (line : Line)
    (within0 : Bool) : Res (Line × CommentScan) := do
  let i := s.currentIndex
  let a1 ← singleLineAt ld.mSingleLineComment ld.mCommentStart line i
  let w1 := within0 || a1
  let a2 ← singleLineAt ld.mSingleLineComment2 ld.mCommentStart line i
  let w2 := w1 || a2
  let a3 ← multiLineAt ld.mCommentStart line i w2
  let s3 := if a3 then { s with commentStartLine := s.currentLine, commentStartIndex := i }
    else s
  let b1 ← singleLineAt ld.mSingleLineComment ld.mCommentStart2 line i
  let w4 := w2 || b1
  let b2 ← singleLineAt ld.mSingleLineComment2 ld.mCommentStart2 line i
  let w5 := w4 || b2
  let b3 ← multiLineAt ld.mCommentStart2 line i w5
  let s6 := if b3 then { s3 with commentStartLine := s.currentLine, commentStartIndex := i }
    else s3
  let inComment := s6.inComment i
  let line1 ← glyphUpdate line i
    (fun g => { g with mMultiLineComment := inComment, mComment := w5 })
  let e1 ← endMarkerAt ld.mCommentEnd line1 i
  let s7 := if e1 then { s6 with commentStartIndex := 0,
                                 commentStartLine := (s.lines.length : Int) } else s6
  let e2 ← endMarkerAt ld.mCommentEnd2 line1 i
  let s8 := if e2 then { s7 with commentStartIndex := 0,
                                 commentStartLine := (s.lines.length : Int) } else s7
  pure (line1, { s8 with withinSingleLineComment := w5 })

/-- The branch of the comment pass for a glyph inside a string. A doubled quote and a
backslash step over the next glyph. -/
def commentString (s : CommentScan) (line : Line) (c : Char8) (inComment : Bool) :
    Res (Line × CommentScan) := do
  let i := s.currentIndex
  let line1 ← glyphUpdate line i (fun g => { g with mMultiLineComment := inComment })
  if c = 34 then do
    let doubled ← (if i + 1 < (line1.length : Int) then do
        let n ← vecAt line1 (i + 1)
        pure (decide (n.mChar = 34))
      else pure false)
    if doubled then do
      let line2 ← (if i + 1 < (line1.length : Int) then
          glyphUpdate line1 (i + 1) (fun g => { g with mMultiLineComment := inComment })
        else pure line1)
      pure (line2, { s with currentIndex := i + 1 })
    else pure (line1, { s with withinString := false })
  else if c = 92 then do
    let line2 ← (if i + 1 < (line1.length : Int) then
        glyphUpdate line1 (i + 1) (fun g => { g with mMultiLineComment := inComment })
      else pure line1)
    pure (line2, { s with currentIndex := i + 1 })
  else pure (line1, s)

/-- One turn of the loop of the comment pass of `ColorizeInternal`. The state `s1` is the
state after the reset at the start of a line and `concatenate = false`; `s3` the state
after the tests of `firstChar` and of `concatenate` (which reads the last glyph only when
the current glyph is the last); `s4` the state after the test of the preprocessor
marker. -/
def commentStep (ld : LanguageDefinition) (s0 : CommentScan) : Res CommentScan := do
  let line ← vecAt s0.lines s0.currentLine
  let fresh : Bool := decide (s0.currentIndex = 0) && !s0.concatenate
  let s1 : CommentScan := { s0 with
    withinSingleLineComment := if fresh then false else s0.withinSingleLineComment
    withinPreproc := if fresh then false else s0.withinPreproc
    firstChar := if fresh then true else s0.firstChar
    concatenate := false }
  if line.isEmpty then
    pure { s1 with currentIndex := 0, currentLine := s0.currentLine + 1 }
  else do
    let g ← vecAt line s1.currentIndex
    let c := g.mChar
    let s3 : CommentScan := { s1 with
      firstChar := if (c : Int) ≠ charToInt ld.mPreprocChar ∧ isspace c = false then false
        else s1.firstChar
      concatenate := decide (s1.currentIndex = (line.length : Int) - 1 ∧ c = 92) }
    let r ← (if s3.withinString then
        commentString s3 line c (s3.inComment s3.currentIndex)
      else
        let s4 : CommentScan := { s3 with
          withinPreproc := if s3.firstChar ∧ (c : Int) = charToInt ld.mPreprocChar then true
            else s3.withinPreproc }
        if c = 34 then do
          let line1 ← glyphUpdate line s4.currentIndex
            (fun g => { g with mMultiLineComment := s4.inComment s4.currentIndex })
          pure (line1, { s4 with withinString := true })
        else commentDefault ld s4 line s4.withinSingleLineComment)
    let s5 := r.2
    let line2 ← glyphUpdate r.1 s5.currentIndex
      (fun g => { g with mPreprocessor := s5.withinPreproc })
    let lines ← vecSet s5.lines s5.currentLine line2
    let idx := s5.currentIndex + UTF8CharLength c
    if idx ≥ (line2.length : Int) then
      pure { s5 with lines := lines, currentIndex := 0, currentLine := s5.currentLine + 1 }
    else pure { s5 with lines := lines, currentIndex := idx }

/-- The loop `while (currentLine < endLine || currentIndex < endIndex)` of the comment
pass; `endIndex` is 0 and `currentIndex` is never negative. Every turn moves on in the
text, by at least one glyph or to the next line. -/
def commentLoop (ld : LanguageDefinition) : Nat → CommentScan → Res CommentScan
  | 0, s => pure s
  | fuel + 1, s =>
    if s.currentLine < (s.lines.length : Int) then do
      let s1 ← commentStep ld s
      commentLoop ld fuel s1
    else pure s

/-- The state of the comment pass before its loop. -/
def CommentScan.start (lines : Lines) : CommentScan :=
  { lines := lines, commentStartLine := (lines.length : Int), commentStartIndex := 0,
    withinString := false, withinSingleLineComment := false, withinPreproc := false,
    firstChar := true, concatenate := false, currentLine := 0, currentIndex := 0 }

/-- The comment pass of `ColorizeInternal` on the lines of a buffer. -/
def commentPass (ld : LanguageDefinition) (lines : Lines) : Res Lines := do
  let s ← commentLoop ld (textSteps lines) (CommentScan.start lines)
  pure s.lines

/-- The loop `for (j = 0; j < token_length; ++j) line[begin + j].mColorIndex = color` of
`ColorizeRange`. -/
def paintToken (color : PaletteIndex) : Nat → Line → Int → Res Line
  | 0, line, _ => pure line
  | n + 1, line, i => do
    let line1 ← glyphUpdate line i (fun g => { g with mColorIndex := color })
    paintToken color n line1 (i + 1)

/-- The search of the first regular expression of the list that matches at the start of
the text: the length of the match and the palette index of the expression. -/
def regexSearch : List (TokenRegex × PaletteIndex) → List Char8 → Option (Nat × PaletteIndex)
  | [], _ => none
  | p :: rest, text =>
    match p.1 text with
    | some len => some (len, p.2)
    | none => regexSearch rest text

/-- The palette index of a token of the identifier class in `ColorizeRange`, after the
lookup of its text in the tables. -/
def identifierColor (ld : LanguageDefinition) (id : List Char8) (preproc : Bool) :
    PaletteIndex :=
  let id1 := if ld.mCaseSensitive then id else id.map toupper
  if preproc = false then
    if ld.mKeywords.contains (stdString id1) then PaletteIndex.Keyword
    else if ld.mIdentifiers.contains (stdString id1) then PaletteIndex.KnownIdentifier
    else if ld.mPreprocIdentifiers.contains (stdString id1) then PaletteIndex.PreprocIdentifier
    else PaletteIndex.Identifier
  else
    if ld.mPreprocIdentifiers.contains (stdString id1) then PaletteIndex.PreprocIdentifier
    else PaletteIndex.Identifier

/-- The token loop `for (first = bufferBegin; first != last; )` of `ColorizeRange` on one
line; `first` is the offset from `bufferBegin`. The list `mRegexList` holds the
expressions of `mTokenRegexStrings`, as `SetLanguageDefinition` fills it. The loop of the
source has no bound. A turn with `first` behind `last` reads behind the buffer. A token
whose end is before its begin has the length `token_end - token_begin` wrapped around in
`size_t`, and the paint loop leaves the line. A token that ends at `first` leaves `first`
and the line as they are, so the turn is repeated without end; that is reported as
`nonTermination`. Every other turn moves `first` on by at least one character, so the
budget of `buffer.length + 1` turns that `ColorizeLine` gives is never used up
(`ColorizeLineLoop_budget`). -/
def ColorizeLineLoop (ld : LanguageDefinition) (buffer : List Char8) :
    Nat → Nat → Line → Res Line
  | 0, _, _ => throw Fault.nonTermination
  | fuel + 1, first, line =>
    if first = buffer.length then pure line
    else if buffer.length < first then throw Fault.outOfBounds
    else
      let text := buffer.drop first
      let tok : Option (Nat × Nat × PaletteIndex) :=
        match (match ld.mTokenize with
               | some f => f text
               | none => none) with
        | some t => some t
        | none =>
          match regexSearch ld.mTokenRegexStrings text with
          | some (len, color) => some (0, len, color)
          | none => none
      match tok with
      | none => ColorizeLineLoop ld buffer fuel (first + 1) line
      | some (tokenBegin, tokenEnd, color) =>
        if tokenEnd < tokenBegin then throw Fault.outOfBounds
        else if tokenEnd = 0 then throw Fault.nonTermination
        else do
          let color1 ← (if color = PaletteIndex.Identifier then do
              let g ← vecAt line (first : Int)
              pure (identifierColor ld
                ((text.drop tokenBegin).take (tokenEnd - tokenBegin)) g.mPreprocessor)
            else pure color)
          let line1 ← paintToken color1 (tokenEnd - tokenBegin) line
            ((first + tokenBegin : Nat) : Int)
          ColorizeLineLoop ld buffer fuel (first + tokenEnd) line1

/-- The body of the line loop of `ColorizeRange`: an empty line is left alone; the style
of every glyph is reset to Default, then the tokens are painted. -/
def ColorizeLine (ld : LanguageDefinition) (line : Line) : Res Line :=
  if line.isEmpty then pure line
  else
    ColorizeLineLoop ld (lineChars line) (line.length + 1) 0
      (line.map fun g => { g with mColorIndex := PaletteIndex.Default })

/-- The line loop `for (i = aFromLine; i < endLine; ++i)` of `ColorizeRange`. -/
def ColorizeRangeLoop (ld : LanguageDefinition) (endLine : Int) : Nat → Int → Lines → Res Lines
  | 0, _, lines => pure lines
  | fuel + 1, i, lines =>
    if i < endLine then do
      let line ← vecAt lines i
      let line1 ← ColorizeLine ld line
      let lines1 ← vecSet lines i line1
      ColorizeRangeLoop ld endLine fuel (i + 1) lines1
    else pure lines

/-- The function `ColorizeRange`. -/
def ColorizeRange (ed : Editor) (aFromLine aToLine : Int) : Res Editor :=
  if ed.mLines.isEmpty ∨ aFromLine ≥ aToLine then pure ed
  else do
    let endLine : Int := Max.max 0 (Min.min (ed.mLines.length : Int) aToLine)
    let lines ← ColorizeRangeLoop ed.mLanguageDefinition endLine (endLine - aFromLine).toNat
      aFromLine ed.mLines
    pure { ed with mLines := lines }

/-- The value `std::numeric_limits<int>::max()`. -/
def intMax : Int := 2147483647

/-- The function `ColorizeInternal`: the comment pass over the whole buffer when
`mCheckComments` is set, then the token pass over a part of the range to colorize. -/
def ColorizeInternal (ed : Editor) : Res Editor :=
  if ed.mLines.isEmpty ∨ ed.mColorizerEnabled = false then pure ed
  else do
    let ed1 ← (if ed.mCheckComments then do
        let lines ← commentPass ed.mLanguageDefinition ed.mLines
        pure { ed with mLines := lines, mCheckComments := false }
      else pure ed)
    if ed1.mColorRangeMin < ed1.mColorRangeMax then do
      let increment : Int := if ed1.mLanguageDefinition.mTokenize.isNone then 10 else 10000
      let toLine : Int := Min.min (ed1.mColorRangeMin + increment) ed1.mColorRangeMax
      let ed2 ← ColorizeRange ed1 ed1.mColorRangeMin toLine
      let ed3 := { ed2 with mColorRangeMin := toLine }
      if ed3.mColorRangeMax = ed3.mColorRangeMin then
        pure { ed3 with mColorRangeMin := intMax, mColorRangeMax := 0 }
      else pure ed3
    else pure ed1

/-- The state of the comment pass after `m` turns of its loop, from the state `s`. A turn
at a state behind the last line faults (it reads the line), so a state that is returned
has been reached inside the loop. -/
def commentRun (ld : LanguageDefinition) : Nat → CommentScan → Res CommentScan
  | 0, s => pure s
  | m + 1, s => do
    let s1 ← commentStep ld s
    commentRun ld m s1

/-- The flags `mMultiLineComment` of the glyphs of a line. -/
def blockFlags (line : Line) : List Bool :=
  line.map fun g => g.mMultiLineComment

/-- The flag `mMultiLineComment` of the glyph `j` of line `l`, if there is such a glyph. -/
def flagAt (lines : Lines) (l j : Nat) : Option Bool :=
  (lines[l]?).bind fun line => (blockFlags line)[j]?

/-- The position `(l, j)` is before the position `(l2, j2)` in the text. -/
def posBefore (l j l2 j2 : Int) : Prop :=
  l < l2 ∨ (l = l2 ∧ j < j2)

/-- What holds of the state of the comment pass between two turns, for a buffer of `n`
lines: the position is inside the text or at its end, and a recorded comment start is
at or before the position. -/
def ScanInv (n : Nat) (b : CommentScan) : Prop :=
  b.lines.length = n ∧ 0 ≤ b.currentLine ∧ 0 ≤ b.currentIndex ∧
  (b.commentStartLine = (n : Int) ∨
    (b.commentStartLine < (n : Int) ∧ b.inComment b.currentIndex = true)) ∧
  (b.currentIndex = 0 ∨
    ∃ line, b.lines[b.currentLine.toNat]? = some line ∧ b.currentIndex < (line.length : Int))

/-- What a branch of a turn of the comment pass leaves, for the glyph at the index `i` of
the state `s` before the branch: the flag of that glyph is set to a value `v`, in a step
over the next glyph also the flag of that glyph; `v` is true when a comment is open
before or after the branch; a comment start that is recorded is at or before the glyph. -/
def BranchOK (n : Nat) (s : CommentScan) (line : Line) (r : Line × CommentScan) : Prop :=
  r.2.lines = s.lines ∧ r.2.currentLine = s.currentLine ∧
  0 ≤ s.currentIndex ∧ s.currentIndex < (line.length : Int) ∧
  (∃ v : Bool,
    ((r.2.currentIndex = s.currentIndex ∧
        blockFlags r.1 = (blockFlags line).set s.currentIndex.toNat v) ∨
      (r.2.currentIndex = s.currentIndex + 1 ∧
        blockFlags r.1 = ((blockFlags line).set s.currentIndex.toNat v).set
          (s.currentIndex.toNat + 1) v)) ∧
    ((s.commentStartLine < (n : Int) ∨ r.2.commentStartLine < (n : Int)) → v = true)) ∧
  (r.2.commentStartLine = (n : Int) ∨
    (r.2.commentStartLine < (n : Int) ∧
      (r.2.commentStartLine < s.currentLine ∨
        (r.2.commentStartLine = s.currentLine ∧ r.2.commentStartIndex ≤ s.currentIndex))))

/-- What one turn of the comment pass does, from the state `b` to the state `b2`, for a
buffer of `n` lines: it moves on in the text; it changes flags only between the old and
the new position; when a comment is open before or after the turn, the glyph of the turn
(if the line has one) is flagged. -/
def StepOK (n : Nat) (b b2 : CommentScan) : Prop :=
  ScanInv n b2 ∧
  posBefore b.currentLine b.currentIndex b2.currentLine b2.currentIndex ∧
  b2.lines.map List.length = b.lines.map List.length ∧
  (∀ (l j : Nat), posBefore l j b.currentLine b.currentIndex ∨
      ¬ posBefore l j b2.currentLine b2.currentIndex →
    flagAt b2.lines l j = flagAt b.lines l j) ∧
  ((b.commentStartLine < (n : Int) ∨ b2.commentStartLine < (n : Int)) →
    ∃ line, b2.lines[b.currentLine.toNat]? = some line ∧
      (line = [] ∨ (blockFlags line)[b.currentIndex.toNat]? = some true))

/-- The number of turns the comment pass has left at most, from a state: one for every
glyph from the position on and one for every line end. -/
def scanMeasure (b : CommentScan) : Nat :=
  textSteps (b.lines.drop b.currentLine.toNat) - b.currentIndex.toNat

/-- The function `SetTabSize`. -/
def SetTabSize (ed : Editor) (aValue : Int) : Editor :=
  { ed with mTabSize := Max.max 0 (Min.min 32 aValue) }

/-- The one line of a single tab character, after `SetTabSize(0)`. -/
def tabLineTabSizeZero : Editor :=
  SetTabSize (SetText Editor.init [9]) 0

/-- The update of the interactive anchors in `MoveUp`, `MoveLeft` and `MoveHome` when
`aSelect` is set: the start anchor is tested first, and a cursor that was at neither
anchor begins a selection from the new position to the old. -/
def anchorsStartFirst (ed : Editor) (oldPos : Coordinates) : Editor :=
  if oldPos = ed.mInteractiveStart then
    { ed with mInteractiveStart := ed.mState.mCursorPosition }
  else if oldPos = ed.mInteractiveEnd then
    { ed with mInteractiveEnd := ed.mState.mCursorPosition }
  else { ed with mInteractiveStart := ed.mState.mCursorPosition, mInteractiveEnd := oldPos }

/-- The update of the interactive anchors in `MoveDown` and `MoveEnd` when `aSelect` is
set: the end anchor is tested first, and a cursor that was at neither anchor begins a
selection from the old position to the new. -/
def anchorsEndFirst (ed : Editor) (oldPos : Coordinates) : Editor :=
  if oldPos = ed.mInteractiveEnd then
    { ed with mInteractiveEnd := ed.mState.mCursorPosition }
  else if oldPos = ed.mInteractiveStart then
    { ed with mInteractiveStart := ed.mState.mCursorPosition }
  else { ed with mInteractiveStart := oldPos, mInteractiveEnd := ed.mState.mCursorPosition }

/-- The assignment `mInteractiveStart = mInteractiveEnd = mState.mCursorPosition` of the
movement functions when `aSelect` is not set. -/
def anchorsCollapse (ed : Editor) : Editor :=
  { ed with mInteractiveStart := ed.mState.mCursorPosition,
            mInteractiveEnd := ed.mState.mCursorPosition }

/-- The function `MoveUp`. -/
def MoveUp (ed : Editor) (aAmount : Int) (aSelect : Bool) : Res Editor :=
  let oldPos := ed.mState.mCursorPosition
  let ed1 : Editor := { ed with mState := { ed.mState with
    mCursorPosition := { oldPos with mLine := Max.max 0 (oldPos.mLine - aAmount) } } }
  if oldPos ≠ ed1.mState.mCursorPosition then do
    let ed2 := if aSelect then anchorsStartFirst ed1 oldPos else anchorsCollapse ed1
    let ed3 ← SetSelection ed2 ed2.mInteractiveStart ed2.mInteractiveEnd SelectionMode.Normal
    pure (EnsureCursorVisible ed3)
  else pure ed1

/-- The function `MoveDown`. -/
def MoveDown (ed : Editor) (aAmount : Int) (aSelect : Bool) : Res Editor := do
  assertThat (decide (ed.mState.mCursorPosition.mColumn ≥ 0))
  let oldPos := ed.mState.mCursorPosition
  let ed1 : Editor := { ed with mState := { ed.mState with
    mCursorPosition := { oldPos with
      mLine := Max.max 0 (Min.min ((ed.mLines.length : Int) - 1) (oldPos.mLine + aAmount)) } } }
  if ed1.mState.mCursorPosition ≠ oldPos then do
    let ed2 := if aSelect then anchorsEndFirst ed1 oldPos else anchorsCollapse ed1
    let ed3 ← SetSelection ed2 ed2.mInteractiveStart ed2.mInteractiveEnd SelectionMode.Normal
    pure (EnsureCursorVisible ed3)
  else pure ed1

/-- The function `MoveTop`. With `aSelect` set it assigns both anchors: the end anchor
the old cursor position, the start anchor the new one. -/
def MoveTop (ed : Editor) (aSelect : Bool) : Res Editor :=
  let oldPos := ed.mState.mCursorPosition
  let ed1 := SetCursorPosition ed ⟨0, 0⟩
  if ed1.mState.mCursorPosition ≠ oldPos then
    let ed2 : Editor := if aSelect then
        { ed1 with mInteractiveEnd := oldPos, mInteractiveStart := ed1.mState.mCursorPosition }
      else anchorsCollapse ed1
    SetSelection ed2 ed2.mInteractiveStart ed2.mInteractiveEnd SelectionMode.Normal
  else pure ed1

/-- The function `MoveBottom`. With `aSelect` set it assigns both anchors: the start
anchor the old cursor position, the end anchor the new one. -/
def MoveBottom (ed : Editor) (aSelect : Bool) : Res Editor :=
  let oldPos := ed.mState.mCursorPosition
  let newPos : Coordinates := ⟨(ed.mLines.length : Int) - 1, 0⟩
  let ed1 := SetCursorPosition ed newPos
  let ed2 : Editor := if aSelect then
      { ed1 with mInteractiveStart := oldPos, mInteractiveEnd := newPos }
    else { ed1 with mInteractiveStart := newPos, mInteractiveEnd := newPos }
  SetSelection ed2 ed2.mInteractiveStart ed2.mInteractiveEnd SelectionMode.Normal

/-- The function `MoveHome`. -/
def MoveHome (ed : Editor) (aSelect : Bool) : Res Editor :=
  let oldPos := ed.mState.mCursorPosition
  let ed1 := SetCursorPosition ed ⟨ed.mState.mCursorPosition.mLine, 0⟩
  if ed1.mState.mCursorPosition ≠ oldPos then
    let ed2 := if aSelect then anchorsStartFirst ed1 oldPos else anchorsCollapse ed1
    SetSelection ed2 ed2.mInteractiveStart ed2.mInteractiveEnd SelectionMode.Normal
  else pure ed1

/-- The function `MoveEnd`. -/
def MoveEnd (ed : Editor) (aSelect : Bool) : Res Editor := do
  let oldPos := ed.mState.mCursorPosition
  let m ← GetLineMaxColumn ed oldPos.mLine
  let ed1 := SetCursorPosition ed ⟨ed.mState.mCursorPosition.mLine, m⟩
  if ed1.mState.mCursorPosition ≠ oldPos then
    let ed2 := if aSelect then anchorsEndFirst ed1 oldPos else anchorsCollapse ed1
    SetSelection ed2 ed2.mInteractiveStart ed2.mInteractiveEnd SelectionMode.Normal
  else pure ed1

/-- The cursor and the two interactive anchors of an editor. -/
def Editor.anchors (ed : Editor) : Coordinates × Coordinates × Coordinates :=
  (ed.mState.mCursorPosition, ed.mInteractiveStart, ed.mInteractiveEnd)

/-- The three lines `a`, `b`, `c` as `SetText` leaves them. -/
def threeLinesAbc : Editor :=
  SetText Editor.init [97, 10, 98, 10, 99]

/-- The flags `mMultiLineComment` and `mComment` of the glyphs of a line. -/
def commentFlags (line : Line) : List (Bool × Bool) :=
  line.map fun g => (g.mMultiLineComment, g.mComment)

/-- The marker stands at the start of the text: every character of the marker equals, as
`predEq` compares them, the character of the text at its place. -/
def markerAt : List Char8 → List Char8 → Bool
  | [], _ => true
  | _ :: _, [] => false
  | a :: rest, c :: cs => decide (charToInt a = (c : Int)) && markerAt rest cs

/-- The glyph `line[i]` changed by `f`, the line as it is when it has no such glyph. -/
def glyphMod (line : Line) (i : Int) (f : Glyph → Glyph) : Line :=
  match (line)[i.toNat]? with
  | some g => line.set i.toNat (f g)
  | none => line

/-- The character of the glyph `line[i]`, 0 when the line has no such glyph. -/
def charAtD (line : Line) (i : Int) : Char8 :=
  match (line)[i.toNat]? with
  | some g => g.mChar
  | none => 0

/-- The value of `singleLineAt` when it returns: the marker `single` stands at the index
of the characters of the line, inside the line, and the marker `start` does not. -/
def singleLineT (single start : List Char8) (chars : List Char8) (i : Int) : Bool :=
  decide (single.length > 0 ∧ i + (single.length : Int) ≤ (chars.length : Int)) &&
    (markerAt single (chars.drop i.toNat) && !markerAt start (chars.drop i.toNat))

/-- The value of `multiLineAt` when it returns. -/
def multiLineT (start : List Char8) (chars : List Char8) (i : Int) (within : Bool) : Bool :=
  decide (within = false ∧ i + (start.length : Int) ≤ (chars.length : Int)) &&
    markerAt start (chars.drop i.toNat)

/-- The value of `endMarkerAt` when it returns: the marker ends at the index. -/
def endMarkerT (endStr : List Char8) (chars : List Char8) (i : Int) : Bool :=
  decide (i + 1 ≥ (endStr.length : Int)) &&
    markerAt endStr (chars.drop (i + 1 - (endStr.length : Int)).toNat)

/-- The value of `withinSingleLineComment` after the marker tests of `commentDefault` at
the index `i` of a line with the characters `chars`, from the value `within0` before. -/
def turnSingle (ld : LanguageDefinition) (chars : List Char8) (i : Int) (within0 : Bool) :
    Bool :=
  within0 || singleLineT ld.mSingleLineComment ld.mCommentStart chars i ||
    singleLineT ld.mSingleLineComment2 ld.mCommentStart chars i ||
    singleLineT ld.mSingleLineComment ld.mCommentStart2 chars i ||
    singleLineT ld.mSingleLineComment2 ld.mCommentStart2 chars i

/-- One of the two tests of a multi-line start marker of `commentDefault` succeeds at the
index `i`: a comment start is recorded there. -/
def turnOpens (ld : LanguageDefinition) (chars : List Char8) (i : Int) (within0 : Bool) :
    Bool :=
  multiLineT ld.mCommentStart chars i
      (within0 || singleLineT ld.mSingleLineComment ld.mCommentStart chars i ||
        singleLineT ld.mSingleLineComment2 ld.mCommentStart chars i) ||
    multiLineT ld.mCommentStart2 chars i (turnSingle ld chars i within0)

/-- One of the two end markers ends at the index `i`: the comment start is reset. -/
def turnCloses (ld : LanguageDefinition) (chars : List Char8) (i : Int) : Bool :=
  endMarkerT ld.mCommentEnd chars i || endMarkerT ld.mCommentEnd2 chars i

/-- What `commentDefault` returns when it returns, without the reads and writes that can
fault. -/
def commentDefaultT (ld : LanguageDefinition) (s : CommentScan) (line : Line)
    (within0 : Bool) : Line × CommentScan :=
  let i := s.currentIndex
  let chars := lineChars line
  let opens := turnOpens ld chars i within0
  let closes := turnCloses ld chars i
  let w5 := turnSingle ld chars i within0
  let inComment : Bool := if opens then true else s.inComment i
  (glyphMod line i (fun g => { g with mMultiLineComment := inComment, mComment := w5 }),
   { s with
     commentStartLine := if closes then (s.lines.length : Int)
       else if opens then s.currentLine else s.commentStartLine
     commentStartIndex := if closes then 0 else if opens then i else s.commentStartIndex
     withinSingleLineComment := w5 })

/-- The turn of the comment pass in the string state steps over the next glyph: the glyph
is the first of a doubled quote or a backslash. -/
def stringSkips (line : Line) (i : Int) (c : Char8) : Bool :=
  if c = 34 then decide (i + 1 < (line.length : Int) ∧ charAtD line (i + 1) = 34)
  else decide (c = 92)

/-- What `commentString` returns when it returns, without the reads and writes that can
fault. -/
def commentStringT (s : CommentScan) (line : Line) (c : Char8) (inComment : Bool) :
    Line × CommentScan :=
  let i := s.currentIndex
  let line1 := glyphMod line i (fun g => { g with mMultiLineComment := inComment })
  let skips := stringSkips line i c
  (if skips then glyphMod line1 (i + 1) (fun g => { g with mMultiLineComment := inComment })
    else line1,
   { s with
     withinString := if c = 34 ∧ skips = false then false else s.withinString
     currentIndex := if skips then i + 1 else i })

/-- The state of a turn of the comment pass after the reset at the start of a line and
`concatenate = false` (the state `s1` of `commentStep`). -/
def turnReset (s0 : CommentScan) : CommentScan :=
  let fresh : Bool := decide (s0.currentIndex = 0) && !s0.concatenate
  { s0 with
    withinSingleLineComment := if fresh then false else s0.withinSingleLineComment
    withinPreproc := if fresh then false else s0.withinPreproc
    firstChar := if fresh then true else s0.firstChar
    concatenate := false }

/-- The state a turn of the comment pass on an empty line leaves. -/
def turnEmpty (s0 : CommentScan) : CommentScan :=
  { turnReset s0 with currentIndex := 0, currentLine := s0.currentLine + 1 }

/-- The state of a turn after the tests of `firstChar` and of `concatenate` on the
character `c` of its glyph (the state `s3` of `commentStep`). -/
def turnFirst (ld : LanguageDefinition) (s1 : CommentScan) (line : Line) (c : Char8) :
    CommentScan :=
  { s1 with
    firstChar := if (c : Int) ≠ charToInt ld.mPreprocChar ∧ isspace c = false then false
      else s1.firstChar
    concatenate := decide (s1.currentIndex = (line.length : Int) - 1 ∧ c = 92) }

/-- The state of a turn outside a string after the test of the preprocessor marker (the
state `s4` of `commentStep`). -/
def turnPreproc (ld : LanguageDefinition) (s3 : CommentScan) (c : Char8) : CommentScan :=
  { s3 with
    withinPreproc := if s3.firstChar ∧ (c : Int) = charToInt ld.mPreprocChar then true
      else s3.withinPreproc }

/-- The three branches of a turn of the comment pass, as `commentStep` runs them: inside
a string, a quote outside a string, any other glyph. -/
def turnBranch (ld : LanguageDefinition) (s3 : CommentScan) (line : Line) (c : Char8) :
    Res (Line × CommentScan) :=
  if s3.withinString then
    commentString s3 line c (s3.inComment s3.currentIndex)
  else
    let s4 : CommentScan := turnPreproc ld s3 c
    if c = 34 then do
      let line1 ← glyphUpdate line s4.currentIndex
        (fun g => { g with mMultiLineComment := s4.inComment s4.currentIndex })
      pure (line1, { s4 with withinString := true })
    else commentDefault ld s4 line s4.withinSingleLineComment

/-- What `turnBranch` returns when it returns. -/
def turnBranchT (ld : LanguageDefinition) (s3 : CommentScan) (line : Line) (c : Char8) :
    Line × CommentScan :=
  if s3.withinString then
    commentStringT s3 line c (s3.inComment s3.currentIndex)
  else
    let s4 : CommentScan := turnPreproc ld s3 c
    if c = 34 then
      (glyphMod line s4.currentIndex
        (fun g => { g with mMultiLineComment := s4.inComment s4.currentIndex }),
       { s4 with withinString := true })
    else commentDefaultT ld s4 line s4.withinSingleLineComment

/-- The end of a turn of the comment pass, as `commentStep` runs it: the flag
`mPreprocessor`, the line put back, the step to the next glyph or line. -/
def turnFinish (r : Line × CommentScan) (c : Char8) : Res CommentScan := do
  let s5 := r.2
  let line2 ← glyphUpdate r.1 s5.currentIndex
    (fun g => { g with mPreprocessor := s5.withinPreproc })
  let lines ← vecSet s5.lines s5.currentLine line2
  let idx := s5.currentIndex + UTF8CharLength c
  if idx ≥ (line2.length : Int) then
    pure { s5 with lines := lines, currentIndex := 0, currentLine := s5.currentLine + 1 }
  else pure { s5 with lines := lines, currentIndex := idx }

/-- What `turnFinish` returns when it returns. -/
def turnFinishT (r : Line × CommentScan) (c : Char8) : CommentScan :=
  let s5 := r.2
  let idx := s5.currentIndex + UTF8CharLength c
  { s5 with
    lines := s5.lines.set s5.currentLine.toNat
      (glyphMod r.1 s5.currentIndex (fun g => { g with mPreprocessor := s5.withinPreproc }))
    currentIndex := if idx ≥ (r.1.length : Int) then 0 else idx
    currentLine := if idx ≥ (r.1.length : Int) then s5.currentLine + 1 else s5.currentLine }

/-- What a turn of the comment pass at the state `s0` on the line `line` (the line
`mLines[currentLine]`) leaves when it returns, without the reads and writes that can
fault. -/
def commentStepT (ld : LanguageDefinition) (s0 : CommentScan) (line : Line) : CommentScan :=
  if line.isEmpty then turnEmpty s0
  else
    let c := charAtD line s0.currentIndex
    turnFinishT (turnBranchT ld (turnFirst ld (turnReset s0) line c) line c) c

deriving instance DecidableEq for CommentScan

/-- The character of the glyph at which a turn of the comment pass from the state `b`
stands; a turn on an empty line stands at no glyph. -/
def turnChar (b : CommentScan) : Option Char8 :=
  (b.lines[b.currentLine.toNat]?).bind fun line => (lineChars line)[b.currentIndex.toNat]?

/-- The state of the comment pass after `m` turns on the lines, the state before the loop
if one of the turns faults. -/
def scanAfter (ld : LanguageDefinition) (lines : Lines) (m : Nat) : CommentScan :=
  match commentRun ld m (CommentScan.start lines) with
  | Except.ok b => b
  | Except.error _ => CommentScan.start lines

/-- The lines of the text (as `SetText` splits it), glyphs in the default style. -/
def textLines (text : List Char8) : Lines :=
  (SetText Editor.init text).mLines

/-- The two lines `/* " */` and `x`. -/
def quoteInBlockLines : Lines :=
  textLines [47, 42, 32, 34, 32, 42, 47, 10, 120]

/-- The two lines `// "` and `/* x */`. -/
def quoteInLineCommentLines : Lines :=
  textLines [47, 47, 32, 34, 10, 47, 42, 32, 120, 32, 42, 47]

/-- The one line of a backslash, a quote and ` /* x */`. -/
def quoteAfterBackslashLines : Lines :=
  textLines [92, 34, 32, 47, 42, 32, 120, 32, 42, 47]

/-- The index of the glyph whose flag `mPreprocessor` a turn of the comment pass writes:
the index of the turn, or the next index when the turn steps over a glyph in the string
state. -/
def turnTarget (b : CommentScan) (line : Line) : Int :=
  if b.withinString ∧ stringSkips line b.currentIndex (charAtD line b.currentIndex) then
    b.currentIndex + 1
  else b.currentIndex

/-- The value of a member of the glyph `j` of line `l`, if there is such a glyph. -/
def projAt {α : Type} (p : Glyph → α) (lines : Lines) (l j : Nat) : Option α :=
  (lines[l]?).bind fun line => (line.map p)[j]?

/-- The characters of the lines of a buffer. -/
def charsOf (lines : Lines) : List (List Char8) :=
  lines.map lineChars

/-- One of the two single-line comment markers of the language stands at the index `k`
of the characters of a line. -/
def singleMarkerAt (ld : LanguageDefinition) (chars : List Char8) (k : Nat) : Bool :=
  (decide (0 < ld.mSingleLineComment.length) &&
      markerAt ld.mSingleLineComment (chars.drop k)) ||
    (decide (0 < ld.mSingleLineComment2.length) &&
      markerAt ld.mSingleLineComment2 (chars.drop k))

/-- The line `l` of the text follows a line that ends in a backslash. -/
def joinedToPrev (cs : List (List Char8)) (l : Nat) : Bool :=
  decide (0 < l) && ((cs[l - 1]?).bind List.getLast? == some 92)

/-- The two lines `//a` with a backslash at its end, and `b`. -/
def continuedCommentLines : Lines :=
  textLines [47, 47, 97, 92, 10, 98]

/-- A single-line comment state at the index `i` of line `l` has a source on the line:
one of the single-line markers stands before the index, or the line follows a line that
ends in a backslash. -/
def hasSource (ld : LanguageDefinition) (cs : List (List Char8)) (l : Nat) (i : Int) : Prop :=
  (∃ k : Nat, (k : Int) < i ∧ singleMarkerAt ld ((cs[l]?).getD []) k = true) ∨
    joinedToPrev cs l = true

/-- What holds of the state of the comment pass on the lines `lines0` between two turns,
for the single-line comment state: the state is set only with a source on the line, unless
the next turn resets it; `concatenate` is set only behind a line that ends in a backslash;
a flag `mComment` that the pass has set has a source at its glyph. -/
def SingleInv (ld : LanguageDefinition) (lines0 : Lines) (b : CommentScan) : Prop :=
  charsOf b.lines = charsOf lines0 ∧ 0 ≤ b.currentLine ∧ 0 ≤ b.currentIndex ∧
  (b.withinSingleLineComment = true →
    (b.currentIndex = 0 ∧ b.concatenate = false) ∨
      hasSource ld (charsOf lines0) b.currentLine.toNat b.currentIndex) ∧
  (b.concatenate = true → joinedToPrev (charsOf lines0) b.currentLine.toNat = true) ∧
  (∀ l j : Nat, projAt (fun g => g.mComment) b.lines l j = some true →
    projAt (fun g => g.mComment) lines0 l j = some false →
    hasSource ld (charsOf lines0) l ((j : Int) + 1))

/-- The lines the comment pass leaves, the lines as they are if the pass faults. -/
def passResult (ld : LanguageDefinition) (lines : Lines) : Lines :=
  match commentPass ld lines with
  | Except.ok final => final
  | Except.error _ => lines

/-- The index of the first character of a line that is no white space, the length of the
line when all its characters are white space. -/
def firstNonSpace (chars : List Char8) : Nat :=
  (chars.takeWhile isspace).length

/-- The first character of the line that is no white space is the preprocessor marker of
the language (as the comment pass compares them). -/
def startsWithMarker (ld : LanguageDefinition) (chars : List Char8) : Bool :=
  match chars[firstNonSpace chars]? with
  | some c => decide ((c : Int) = charToInt ld.mPreprocChar)
  | none => false

/-- What holds of the state of the comment pass between two turns on a line with the
characters `chars` that the pass entered outside a string and not behind a backslash: up
to the first character that is no white space the pass is outside a string and the latch
`withinPreproc` is not set; behind that character the latch tells whether the character
is the preprocessor marker. -/
def PreprocInv (ld : LanguageDefinition) (chars : List Char8) (b : CommentScan) : Prop :=
  0 ≤ b.currentIndex ∧
  (b.currentIndex ≤ (firstNonSpace chars : Int) →
    b.withinString = false ∧
      ((b.currentIndex = 0 ∧ b.concatenate = false) ∨
        (b.firstChar = true ∧ b.withinPreproc = false))) ∧
  ((firstNonSpace chars : Int) < b.currentIndex →
    b.withinPreproc = startsWithMarker ld chars ∧
      (startsWithMarker ld chars = false → b.firstChar = false))

/-- The two lines of a quote, and of `#a`. -/
def markerInStringLines : Lines :=
  textLines [34, 10, 35, 97]

/-- The two lines `x`, and ` #ab` (a space before the marker). -/
def markerLines : Lines :=
  textLines [120, 10, 32, 35, 97, 98]

/-- The number of lines one call of the token pass takes up: 10000 if the language has
a tokenize callback, 10 otherwise. -/
def colorChunk (ed : Editor) : Int :=
  if ed.mLanguageDefinition.mTokenize.isSome then 10000 else 10

/-- The end of the part of the range to colorize that one call takes up:
`min(rangeMin + chunk, rangeMax)`. -/
def chunkEnd (ed : Editor) : Int :=
  Min.min (ed.mColorRangeMin + colorChunk ed) ed.mColorRangeMax

/-- The lines the token pass of `ColorizeInternal` works on: the lines the comment pass
leaves when `mCheckComments` is set, the lines of the buffer otherwise. -/
def checkedLines (ed : Editor) : Res Lines :=
  if ed.mCheckComments then commentPass ed.mLanguageDefinition ed.mLines else pure ed.mLines

/-- The styles of the glyphs of a line. -/
def styles (line : Line) : List PaletteIndex :=
  line.map fun g => g.mColorIndex

/-- The lines of the part of the range to colorize that one call takes up. -/
def chunkLines (ed : Editor) (lines : Lines) : Lines :=
  (lines.drop ed.mColorRangeMin.toNat).take ((chunkEnd ed).toNat - ed.mColorRangeMin.toNat)

/-- The token the token loop of `ColorizeRange` finds at the offset `first` of the buffer
of a line (the value `tok` of `ColorizeLineLoop`): the tokenize callback is asked first,
then the regular expressions; the offsets of the token's begin and end are counted from
`first`. -/
def tokenAt (ld : LanguageDefinition) (buffer : List Char8) (first : Nat) :
    Option (Nat × Nat × PaletteIndex) :=
  match (match ld.mTokenize with
         | some f => f (buffer.drop first)
         | none => none) with
  | some t => some t
  | none =>
    match regexSearch ld.mTokenRegexStrings (buffer.drop first) with
    | some (len, color) => some (0, len, color)
    | none => none

/-- The style of an identifier token as the specification words it: the text is looked up
(upper-cased when the language is not case-sensitive) in the keyword set, then the
known-identifier set, then the preprocessor-identifier set when the glyph is not
preprocessor-flagged, in the preprocessor-identifier set alone when it is. -/
def specTokenStyle (ld : LanguageDefinition) (text : List Char8) (flagged : Bool) :
    PaletteIndex :=
  let key := stdString (if ld.mCaseSensitive then text else text.map toupper)
  if flagged = false then
    if key ∈ ld.mKeywords then PaletteIndex.Keyword
    else if key ∈ ld.mIdentifiers then PaletteIndex.KnownIdentifier
    else if key ∈ ld.mPreprocIdentifiers then PaletteIndex.PreprocIdentifier
    else PaletteIndex.Identifier
  else
    if key ∈ ld.mPreprocIdentifiers then PaletteIndex.PreprocIdentifier
    else PaletteIndex.Identifier

/-- A language definition that is not case-sensitive: the built-in tokenizer and markers,
the one keyword `IF`, no identifiers. -/
def caseFoldLanguage : LanguageDefinition :=
  { LanguageDefinition.CPlusPlus with
    mKeywords := ["IF"], mIdentifiers := [], mPreprocIdentifiers := [],
    mCaseSensitive := false }

/-- The line `if`, glyphs in the default style and without flags. -/
def ifLine : Line :=
  [Glyph.mk2 105 PaletteIndex.Default, Glyph.mk2 102 PaletteIndex.Default]

/-- The line of a space and `if`, glyphs in the default style and without flags. -/
def blankIfLine : Line :=
  [Glyph.mk2 32 PaletteIndex.Default, Glyph.mk2 105 PaletteIndex.Default,
    Glyph.mk2 102 PaletteIndex.Default]

/-- The line a call leaves, the line `l` if the call faults. -/
def lineOr (x : Res Line) (l : Line) : Line :=
  match x with
  | Except.ok r => r
  | Except.error _ => l

/-- A line of the characters, glyphs in the default style. -/
def freshLine (chars : List Char8) : Line :=
  (textLines chars).headD []

/-- The editor after `a` is typed into the empty buffer and the buffer is colorized. -/
def typedAColorized : Res Editor :=
  EnterCharacter Editor.init 97 false >>= ColorizeInternal

/-- The editor after `a` is typed into the empty buffer, the buffer is colorized, the
typing is undone and the buffer is colorized again. -/
def undoneAColorized : Res Editor :=
  typedAColorized >>= fun e => Undo e 1 >>= ColorizeInternal

/-- The lines to colorize `[mColorRangeMin, mColorRangeMax)` of an editor, with the
characters of its lines. -/
def Editor.dirty (ed : Editor) : List (List Char8) × Int × Int :=
  (ed.mLines.map lineChars, ed.mColorRangeMin, ed.mColorRangeMax)

/-- The cursor of the undo log is inside the log: `0 ≤ mUndoIndex ≤ mUndoBuffer.size()`. -/
def UndoInv (ed : Editor) : Prop :=
  0 ≤ ed.mUndoIndex ∧ ed.mUndoIndex ≤ (ed.mUndoBuffer.length : Int)

/-- Every lead byte of the characters is followed by all the bytes its table length
announces: the walk over the bytes, stepping over each character by the length
`UTF8CharLength` of its lead byte, ends at the end of the list (`skip` bytes of the
current character are still to be stepped over). -/
def wholeChars : List Char8 → Nat → Bool
  | [], skip => skip == 0
  | b :: rest, 0 => wholeChars rest (UTF8CharLength b - 1).toNat
  | _ :: rest, skip + 1 => wholeChars rest skip

/-- The one line of the bytes `a`, `0xC3 0xA9` (the letter e with an acute accent), a tab
and `b`, with tab size 4. -/
def accentTabLine : Editor :=
  { SetText Editor.init [97, 195, 169, 9, 98] with mColorizerEnabled := false }

/-- The part of the editor that editing and undo work on: the lines, the cursor and
selection, the undo log, the tab size, the read-only flag and the overwrite flag. -/
def Editor.core (ed : Editor) :
    Lines × EditorState × Int × List UndoRecord × Int × Bool × Bool :=
  (ed.mLines, ed.mState, ed.mUndoIndex, ed.mUndoBuffer, ed.mTabSize, ed.mReadOnly,
    ed.mOverwrite)

/-- The overwrite step of `EnterCharacter`: in overwrite mode with a character under the
cursor, that character is erased and recorded as removed. -/
def overwriteStep (ed1 : Editor) (u2 : UndoRecord) (coord : Coordinates) (line : Line)
    (cindex : Int) : Res (Line × UndoRecord) :=
  if ed1.mOverwrite ∧ cindex < (line.length : Int) then do
    let g ← vecAt line cindex
    let d := UTF8CharLength g.mChar
    let col ← GetCharacterColumn ed1 coord.mLine (cindex + d)
    let u3 := { u2 with mRemovedStart := ed1.mState.mCursorPosition,
                        mRemovedEnd := ⟨coord.mLine, col⟩ }
    let er ← overwriteErase d.toNat line cindex u3.mRemoved
    pure (er.1, { u3 with mRemoved := er.2 })
  else pure (line, u2)

/-- The path of `EnterCharacter` without a selection for a character that is no newline
and has the UTF-8 bytes `buf`. -/
def typeChar (ed : Editor) (buf : List Char8) : Res Editor := do
  let u0 : UndoRecord := { UndoRecord.empty with mBefore := ed.mState }
  let coord ← GetActualCursorCoordinates ed
  let u2 := { u0 with mAddedStart := coord }
  assertThat (!ed.mLines.isEmpty)
  let line ← vecAt ed.mLines coord.mLine
  let cindex ← GetCharacterIndex ed coord
  let lu ← overwriteStep ed u2 coord line cindex
  let ins ← insertGlyphs (cString buf) lu.1 cindex
  let ed2 ← setLine ed coord.mLine ins.1
  let u4 := { lu.2 with mAdded := cString buf }
  let col ← GetCharacterColumn ed2 coord.mLine ins.2
  let ed3 := { SetCursorPosition ed2 ⟨coord.mLine, col⟩ with mTextChanged := true }
  let addedEnd ← GetActualCursorCoordinates ed3
  let u5 := { u4 with mAddedEnd := addedEnd, mAfter := ed3.mState }
  let ed4 ← AddUndo ed3 u5
  pure (EnsureCursorVisible (Colorize ed4 (coord.mLine - 1) 3))

/-- The bytes of the character that `EnterCharacter` erases in overwrite mode with the
cursor at `column` of `line`: those of the character at the byte index of the column; no
byte when overwrite mode is off or the index is at the end of the line. -/
def overwritten (ed : Editor) (line : Line) (column : Int) : List Char8 :=
  if ed.mOverwrite then
    match (lineChars line).drop (specCharacterIndex ed.mTabSize line column).toNat with
    | [] => []
    | b :: rest => b :: rest.take (UTF8CharLength b - 1).toNat
  else []

/-- The line `é<TAB>b` in overwrite mode with the cursor at column 0, on the accented
letter of two bytes. -/
def overwriteAccent : Editor :=
  { SetText Editor.init [195, 169, 9, 98] with mOverwrite := true }

/-- The one line of a carriage return and `b` (put there by `SetTextLines`), in overwrite
mode with the cursor at column 0. -/
def overwriteCR : Editor :=
  { SetTextLines Editor.init [[13, 98]] with mOverwrite := true }

/-- The one line of the lead byte `0xC3` alone, with the cursor at column 1. -/
def truncatedLead : Editor :=
  (SetTextLines Editor.init [[195]]).withCursor ⟨0, 1⟩

/-- The one line of a tab (tab size 4) with the cursor set to column 2, inside the span of
the tab. -/
def cursorInTab : Editor :=
  SetCursorPosition (SetText Editor.init [9]) ⟨0, 2⟩

/-- The one line `ab` with the cursor set to column 10, behind the end of the line. -/
def cursorPastEnd : Editor :=
  SetCursorPosition (SetText Editor.init [97, 98]) ⟨0, 10⟩

/-- The line of `a`, `é`, a tab and `b` with the cursor set to column 2, between the
accented letter and the tab. -/
def accentTabAt2 : Editor :=
  SetCursorPosition accentTabLine ⟨0, 2⟩

/-- The scalar members of the state of the comment pass: all of it but the lines. -/
def CommentScan.control (s : CommentScan) :
    Int × Int × Bool × Bool × Bool × Bool × Bool × Int × Int :=
  (s.commentStartLine, s.commentStartIndex, s.withinString, s.withinSingleLineComment,
    s.withinPreproc, s.firstChar, s.concatenate, s.currentLine, s.currentIndex)

/-- The values of the flag `p` in the lines `A` and `B` agree, glyph by glyph, but where
both are the values the flag has in the lines `L1` and `L2`. -/
def FlagsAgree (p : Glyph → Bool) (L1 L2 A B : Lines) : Prop :=
  ∀ l j : Nat, projAt p A l j = projAt p B l j ∨
    (projAt p A l j = projAt p L1 l j ∧ projAt p B l j = projAt p L2 l j)

/-- A list of flags after the writes `ws` (index and value), in their order. -/
def flagWrites (ws : List (Nat × Bool)) (xs : List Bool) : List Bool :=
  ws.foldl (fun x w => x.set w.1 w.2) xs

/-- The relation that two runs of the comment pass on buffers with the same text keep:
the states have the same scalar members, the lines the same characters, and each of the
three flags agrees but where both lines have the value of the buffer the run started
from. -/
def ScansAgree (L1 L2 : Lines) (b c : CommentScan) : Prop :=
  c.control = b.control ∧ charsOf c.lines = charsOf b.lines ∧
  FlagsAgree (fun g => g.mComment) L1 L2 b.lines c.lines ∧
  FlagsAgree (fun g => g.mMultiLineComment) L1 L2 b.lines c.lines ∧
  FlagsAgree (fun g => g.mPreprocessor) L1 L2 b.lines c.lines

/-- The line `//a` after a comment pass, with a fresh glyph of a quote put in front: the
line as it is when a quote is typed at the start of a colorized line `//a`. -/
def staleCommentLines : Lines :=
  [Glyph.mk2 34 PaletteIndex.Default ::
    (passResult LanguageDefinition.CPlusPlus (textLines [47, 47, 97])).headD []]

/-- The editor in which `//a` is set and colorized, then a quote is typed at the start of
the line and the buffer is colorized again. -/
def quoteTypedBeforeComment : Res Editor :=
  ColorizeInternal (SetText Editor.init [47, 47, 97]) >>= fun e =>
    EnterCharacter e 34 false >>= ColorizeInternal

/-- The editor in which the text of a quote and `//a` is set and colorized. -/
def quoteCommentSet : Res Editor :=
  ColorizeInternal (SetText Editor.init [34, 47, 47, 97])

/-- The read `*p` of the character at the offset `p` of the text `[in_begin, in_end)`; a
read at or past `in_end` faults. -/
def readAt (text : List Char8) (p : Nat) : Res Char8 :=
  match text[p]? with
  | some c => pure c
  | none => throw Fault.outOfBounds

/-- The scan `while (p < in_end && pred(*p)) p++` with its reads. -/
def scanReads (pred : Char8 → Bool) (text : List Char8) : Nat → Nat → Res Nat
  | 0, p => pure p
  | fuel + 1, p =>
    if p < text.length then do
      let c ← readAt text p
      if pred c then scanReads pred text fuel (p + 1) else pure p
    else pure p

/-- The loop of `TokenizeCStyleString` and `TokenizeCStyleCharacterLiteral` behind the
opening quote, with its reads. -/
def quotedReads (q : Char8) (text : List Char8) : Nat → Nat → Res (Option Nat)
  | 0, _ => pure none
  | fuel + 1, p =>
    if p < text.length then do
      let c ← readAt text p
      if c = q then pure (some (p + 1))
      else do
        let esc ← (if c = 92 ∧ p + 1 < text.length then do
            let d ← readAt text (p + 1)
            pure (decide (d = q))
          else pure false)
        quotedReads q text fuel (if esc then p + 2 else p + 1)
    else pure none

/-- The function `TokenizeCStyleString` with its reads: the first read, of `*in_begin`,
is not guarded. -/
def TokenizeCStyleStringReads (text : List Char8) : Res (Option Nat) := do
  let c ← readAt text 0
  if c = 34 then quotedReads 34 text text.length 1 else pure none

/-- The function `TokenizeCStyleCharacterLiteral` with its reads. -/
def TokenizeCStyleCharacterLiteralReads (text : List Char8) : Res (Option Nat) := do
  let c ← readAt text 0
  if c = 39 then quotedReads 39 text text.length 1 else pure none

/-- The function `TokenizeCStyleIdentifier` with its reads. -/
def TokenizeCStyleIdentifierReads (text : List Char8) : Res (Option Nat) := do
  let c ← readAt text 0
  if isIdentStart c then do
    let p ← scanReads isIdentChar text text.length 1
    pure (some p)
  else pure none

/-- The part of `TokenizeCStyleNumber` behind the digits, with its reads: a fraction, or
the digits of a hexadecimal or binary number; `isFloat`, `isHex`, `isBinary` and the
offset. -/
def numberTailReads (text : List Char8) (p1 : Nat) : Res (Bool × Bool × Bool × Nat) :=
  if p1 < text.length then do
    let d ← readAt text p1
    if d = 46 then do
      let p ← scanReads isDigit text text.length (p1 + 1)
      pure (true, false, false, p)
    else if d = 120 ∨ d = 88 then do
      let p ← scanReads isHexDigit text text.length (p1 + 1)
      pure (false, true, false, p)
    else if d = 98 ∨ d = 66 then do
      let p ← scanReads isBinDigit text text.length (p1 + 1)
      pure (false, false, true, p)
    else pure (false, false, false, p1)
  else pure (false, false, false, p1)

/-- The exponent of `TokenizeCStyleNumber`, with its reads: `none` when the function
returns false for an exponent without digits, else `isFloat` and the offset. -/
def numberExponentReads (text : List Char8) (isFloat : Bool) (p2 : Nat) :
    Res (Option (Bool × Nat)) :=
  if p2 < text.length then do
    let e ← readAt text p2
    if e = 101 ∨ e = 69 then do
      let p3 := p2 + 1
      let p4 ← (if p3 < text.length then do
          let sgn ← readAt text p3
          pure (if sgn = 43 ∨ sgn = 45 then p3 + 1 else p3)
        else pure p3)
      let p5 ← scanReads isDigit text text.length p4
      pure (if p5 = p4 then none else some (true, p5))
    else pure (some (isFloat, p2))
  else pure (some (isFloat, p2))

/-- The test `if (p < in_end && *p == 'f') p++` of `TokenizeCStyleNumber`, with its
read. -/
def floatSuffixReads (text : List Char8) (p : Nat) : Res Nat :=
  if p < text.length then do
    let c ← readAt text p
    pure (if c = 102 then p + 1 else p)
  else pure p

/-- The function `TokenizeCStyleNumber` with its reads. -/
def TokenizeCStyleNumberReads (text : List Char8) : Res (Option Nat) := do
  let c0 ← readAt text 0
  let startsWithNumber := isDigit c0
  if c0 ≠ 43 ∧ c0 ≠ 45 ∧ startsWithNumber = false then pure none
  else do
    let p1 ← scanReads isDigit text text.length 1
    let hasNumber := startsWithNumber || decide (1 < p1)
    if hasNumber = false then pure none
    else do
      let r1 ← numberTailReads text p1
      let p2 := r1.2.2.2
      let r2 : Option (Bool × Nat) ← (if r1.2.1 = false ∧ r1.2.2.1 = false then do
          let r ← numberExponentReads text r1.1 p2
          match r with
          | none => pure none
          | some q => do
            let p ← floatSuffixReads text q.2
            pure (some (q.1, p))
        else pure (some (r1.1, p2)))
      match r2 with
      | none => pure none
      | some q =>
        if q.1 = false then do
          let p ← scanReads isSizeSuffix text text.length q.2
          pure (some p)
        else pure (some q.2)

/-- The function `TokenizeCStylePunctuation` with its read. -/
def TokenizeCStylePunctuationReads (text : List Char8) : Res (Option Nat) := do
  let c ← readAt text 0
  pure (if isPunctuation c then some 1 else none)

/-- The callback `mTokenize` of `LanguageDefinition::CPlusPlus` with its reads. -/
def CPlusPlusTokenizeReads (text : List Char8) : Res (Option (Nat × Nat × PaletteIndex)) := do
  let skip ← scanReads (fun c => isascii c && isblank c) text text.length 0
  if skip = text.length then pure (some (text.length, text.length, PaletteIndex.Default))
  else do
    let t := text.drop skip
    let s1 ← TokenizeCStyleStringReads t
    match s1 with
    | some e => pure (some (skip, skip + e, PaletteIndex.String))
    | none => do
      let s2 ← TokenizeCStyleCharacterLiteralReads t
      match s2 with
      | some e => pure (some (skip, skip + e, PaletteIndex.String))
      | none => do
        let s3 ← TokenizeCStyleIdentifierReads t
        match s3 with
        | some e => pure (some (skip, skip + e, PaletteIndex.Identifier))
        | none => do
          let s4 ← TokenizeCStyleNumberReads t
          match s4 with
          | some e => pure (some (skip, skip + e, PaletteIndex.Number))
          | none => do
            let s5 ← TokenizeCStylePunctuationReads t
            match s5 with
            | some e => pure (some (skip, skip + e, PaletteIndex.Punctuation))
            | none => pure none

/-- The value of `numberTailReads` when it returns. -/
def numberTail (text : List Char8) (p1 : Nat) : Bool × Bool × Bool × Nat :=
  match text[p1]? with
  | none => (false, false, false, p1)
  | some d =>
    if d = 46 then (true, false, false, spanFrom isDigit text (p1 + 1))
    else if d = 120 ∨ d = 88 then (false, true, false, spanFrom isHexDigit text (p1 + 1))
    else if d = 98 ∨ d = 66 then (false, false, true, spanFrom isBinDigit text (p1 + 1))
    else (false, false, false, p1)

/-- The value of `numberExponentReads` when it returns. -/
def numberExponent (text : List Char8) (isFloat : Bool) (p2 : Nat) : Option (Bool × Nat) :=
  match text[p2]? with
  | none => some (isFloat, p2)
  | some e =>
    if e = 101 ∨ e = 69 then
      let p3 := p2 + 1
      let p4 := match text[p3]? with
        | none => p3
        | some sgn => if sgn = 43 ∨ sgn = 45 then p3 + 1 else p3
      let p5 := spanFrom isDigit text p4
      if p5 = p4 then none else some (true, p5)
    else some (isFloat, p2)

/-- The function `SetLanguageDefinition`; the list `mRegexList` is the list of the
expressions of `mTokenRegexStrings`. -/
def SetLanguageDefinition (ed : Editor) (aLanguageDef : LanguageDefinition) : Editor :=
  Colorize { ed with mLanguageDefinition := aLanguageDef } 0 (-1)

/-- The regular expression `[0-9]*` searched with `match_continuous`: it matches the run
of digits at the start of the text, which may be empty. -/
def digitsRegex : TokenRegex :=
  fun text => some (text.takeWhile fun c => decide (48 ≤ c ∧ c ≤ 57)).length

/-- A language definition without a tokenize callback whose one token expression is
`[0-9]*`, for numbers. -/
def digitsLanguage : LanguageDefinition :=
  { LanguageDefinition.CPlusPlus with
    mTokenize := none
    mTokenRegexStrings := [(digitsRegex, PaletteIndex.Number)] }

/-- The buffer of the one line `a` with the language definition `digitsLanguage`, as
`SetLanguageDefinition` and `SetText` leave it. -/
def digitsEditor : Editor :=
  SetText (SetLanguageDefinition Editor.init digitsLanguage) [97]

/-- The two lines `if x`, `7` as `SetText` leaves them, with the built-in language
definition. -/
def keywordLines : Editor :=
  SetText Editor.init [105, 102, 32, 120, 10, 55]

/-- A line with the style of every glyph set to Default: the characters and the flags of
the line without its styles. -/
def unstyled (line : Line) : Line :=
  line.map fun g => { g with mColorIndex := PaletteIndex.Default }

/-- The styles of the glyphs of a line from the offset `first` on, as the specification
words the token pass on a line: the line is walked from `first` to its last glyph; where a
token is found (by the tokenize callback if present, else by the table of expressions),
the glyphs before the token's begin have the style Default, the glyphs of the token span
have the style category of the token, resolved by the lookup of the token's text for the
identifier category (with the preprocessor flag of the glyph at which the search of the
token started), and the walk goes on at the token's end; where no token is found, the
glyph has the style Default and the walk goes on at the next glyph. The list `pre` holds
the preprocessor flags of the glyphs of the line; the walk takes at most `fuel` steps. -/
def tokenStyles (ld : LanguageDefinition) (buffer : List Char8) (pre : List Bool) :
    Nat → Nat → List PaletteIndex
  | 0, _ => []
  | fuel + 1, first =>
    if buffer.length ≤ first then []
    else
      match tokenAt ld buffer first with
      | none => PaletteIndex.Default :: tokenStyles ld buffer pre fuel (first + 1)
      | some (b, e, c) =>
        List.replicate b PaletteIndex.Default ++
          (List.replicate (e - b)
            (if c = PaletteIndex.Identifier then
              specTokenStyle ld (((buffer.drop first).drop b).take (e - b))
                (pre.getD first false)
             else c) ++
          tokenStyles ld buffer pre fuel (first + e))

/-- The styles of the glyphs of a line after the token pass, as the specification words
it: the walk of `tokenStyles` from the first glyph of the line. -/
def lineTokenStyles (ld : LanguageDefinition) (line : Line) : List PaletteIndex :=
  tokenStyles ld (lineChars line) (line.map fun g => g.mPreprocessor) (line.length + 1) 0

/-- A two-line buffer `a`, `b` with an error marker and a breakpoint on its first line
(number 1; `Render` looks a line with the 0-based index `lineNo` up as `lineNo + 1`). -/
def firstLineMarked : Editor :=
  { SetText Editor.init [97, 10, 98] with
    mErrorMarkers := [(1, "e")], mBreakpoints := {1} }

theorem vecAt_natCast {α : Type} (v : List α) (k : Nat) (h : k < v.length) :
    vecAt v (k : Int) = Except.ok (v.get ⟨k, h⟩) := by
  unfold vecAt
  have h0 : ¬ ((k : Int) < 0) := by omega
  simp [h0, List.getElem?_eq_getElem h, pure, Except.pure]

theorem vecAt_append_length {α : Type} (pre post : List α) (x : α) :
    vecAt (pre ++ x :: post) (pre.length : Int) = Except.ok x := by
  rw [vecAt_natCast _ _ (by simp)]
  simp [List.getElem_append_right]

theorem GetTextLoop_done (lines : Lines) (fuel : Nat) (result : List Char8) :
    GetTextLoop lines (lines.length : Int) 0 fuel (lines.length : Int) 0 result
      = Except.ok result := by
  cases fuel <;> simp [GetTextLoop, pure, Except.pure]

theorem GetTextLoop_all (fuel : Nat) : ∀ (pre : Lines) (cur : Line) (post : Lines) (k : Nat)
    (result : List Char8), k ≤ cur.length →
    (cur.length - k) + 1 + textSteps post ≤ fuel →
    GetTextLoop (pre ++ cur :: post) ((pre ++ cur :: post).length : Int) 0 fuel
        (pre.length : Int) (k : Int) result
      = Except.ok (result ++ lineChars (cur.drop k) ++ [10] ++ unlinesAll post) := by
  induction fuel with
  | zero => intro pre cur post k result _ hf; omega
  | succ n ih =>
    intro pre cur post k result hk hf
    have hlt : (pre.length : Int) < ((pre ++ cur :: post).length : Int) := by
      simp
    have hnge : ¬ ((pre.length : Int) ≥ ((pre ++ cur :: post).length : Int)) := by omega
    rw [GetTextLoop]
    simp only [hlt, or_true, if_true, hnge, if_false, vecAt_append_length, bind, Except.bind]
    by_cases hkl : k < cur.length
    · have hkl2 : (k : Int) < (cur.length : Int) := by omega
      simp only [hkl2, if_true, vecAt_natCast cur k hkl]
      have := ih pre cur post (k + 1) (result ++ [(cur.get ⟨k, hkl⟩).mChar]) (by omega) (by omega)
      simp only [Nat.cast_add, Nat.cast_one] at this
      rw [this, List.drop_eq_getElem_cons hkl]
      simp only [lineChars, List.map_cons, List.append_assoc, List.cons_append,
        List.nil_append, List.get_eq_getElem]
    · have hkl2 : ¬ ((k : Int) < (cur.length : Int)) := by omega
      have hke : k = cur.length := by omega
      simp only [hkl2, if_false]
      cases post with
      | nil =>
        have h1 : ((pre.length : Int) + 1) = ((pre ++ [cur]).length : Int) := by simp
        rw [h1, GetTextLoop_done]
        simp [hke, lineChars, unlinesAll]
      | cons c2 post2 =>
        have := ih (pre ++ [cur]) c2 post2 0 (result ++ [10]) (by omega)
          (by simp [textSteps] at hf ⊢; omega)
        simp only [List.append_assoc, List.singleton_append, List.length_append,
          List.length_singleton, Nat.cast_add, Nat.cast_one, Nat.cast_zero] at this
        simp only [List.length_append, List.length_cons, Nat.cast_add, Nat.cast_one] at this ⊢
        rw [this]
        simp [hke, lineChars, unlinesAll]

theorem SetTextLoop_snoc (s : List Char8) : ∀ (init : Lines) (last : Line),
    ∃ init1 last1, SetTextLoop s (init ++ [last]) = init1 ++ [last1] ∧
      unlinesAll init1 ++ lineChars last1
        = unlinesAll init ++ lineChars last ++ s.filter (fun c => decide (c ≠ 13)) := by
  induction s with
  | nil => intro init last; exact ⟨init, last, rfl, by simp⟩
  | cons c rest ih =>
    intro init last
    simp only [SetTextLoop]
    by_cases h13 : c = 13
    · obtain ⟨i1, l1, h1, h2⟩ := ih init last
      exact ⟨i1, l1, by simp [h13, h1], by simp [h13, h2]⟩
    · by_cases h10 : c = 10
      · obtain ⟨i1, l1, h1, h2⟩ := ih (init ++ [last]) []
        refine ⟨i1, l1, by rw [if_neg h13, if_pos h10]; exact h1, ?_⟩
        rw [h2]
        simp [h10, unlinesAll, lineChars]
      · obtain ⟨i1, l1, h1, h2⟩ := ih init (last ++ [Glyph.mk2 c PaletteIndex.Default])
        refine ⟨i1, l1, by rw [if_neg h13, if_neg h10]; simpa using h1, ?_⟩
        rw [h2]
        simp [h13, lineChars, Glyph.mk2]

theorem GetCharacterIndexLoop_col_zero (tabSize : Int) (line : Line) (fuel : Nat) :
    GetCharacterIndexLoop tabSize line 0 fuel 0 0 = Except.ok 0 := by
  cases fuel <;> simp [GetCharacterIndexLoop, pure, Except.pure]

theorem GetText_eq (ed : Editor) (init : Lines) (last : Line)
    (h : ed.mLines = init ++ [last]) :
    GetText ed = Except.ok (unlinesAll init ++ lineChars last) := by
  obtain ⟨cur, post, hcp⟩ : ∃ cur post, ed.mLines = cur :: post := by
    cases hl : ed.mLines with
    | nil => rw [hl] at h; simp at h
    | cons a b => exact ⟨a, b, rfl⟩
  have hloop := GetTextLoop_all (textSteps ed.mLines + 1) [] cur post 0 [] (by omega)
    (by simp [hcp, textSteps])
  simp only [List.nil_append, List.length_nil, Nat.cast_zero, List.drop_zero] at hloop
  have h2 : lineChars cur ++ [10] ++ unlinesAll post
      = (unlinesAll init ++ lineChars last) ++ [10] := by
    have : unlinesAll (cur :: post) = unlinesAll (init ++ [last]) := by rw [← hcp, h]
    simpa [unlinesAll] using this
  rw [h2] at hloop
  unfold GetText GetTextRange GetCharacterIndex
  simp only [hcp, List.length_cons, Nat.cast_add, Nat.cast_one] at hloop ⊢
  have h1 : vecAt (cur :: post) 0 = Except.ok cur := vecAt_natCast (cur :: post) 0 (by simp)
  have h3 : ¬ ((post.length : Int) + 1 ≤ 0) := by omega
  have h4 : toSizeT ((post.length : Int) + 1) = (post.length : Int) + 1 := by
    unfold toSizeT
    rw [if_neg (by omega)]
  simp [h1, h3, h4, bind, Except.bind, GetCharacterIndexLoop_col_zero, pure, Except.pure, hloop]

theorem GetText_SetText (ed : Editor) (s : List Char8) :
    GetText (SetText ed s) = Except.ok (s.filter fun c => decide (c ≠ 13)) := by
  obtain ⟨i1, l1, h1, h2⟩ := SetTextLoop_snoc s [] []
  have h := GetText_eq (SetText ed s) i1 l1 (by simpa [SetText, Colorize] using h1)
  rw [h, h2]
  simp [unlinesAll, lineChars]

/-- C1 (as amended): for every string `s`, `SetText(s)` followed by `GetText()`
returns `s` with every carriage return removed; so it returns exactly `s` for
every `s` that holds no carriage return, whether or not `s` ends in a newline. -/
theorem SetText_GetText_roundtrip (ed : Editor) (s : List Char8) :
    GetText (SetText ed s) = Except.ok (s.filter fun c => decide (c ≠ 13)) ∧
    (13 ∉ s → GetText (SetText ed s) = Except.ok s) := by
  refine ⟨GetText_SetText ed s, fun h => ?_⟩
  rw [GetText_SetText]
  congr 1
  rw [List.filter_eq_self]
  intro a ha
  have : a ≠ 13 := fun e => h (e ▸ ha)
  simpa using this

theorem SetText_GetText_roundtrip_witness :
    13 ∉ ([97, 10, 98, 10] : List Char8) ∧
    GetText (SetText Editor.init [97, 10, 98, 10]) = Except.ok [97, 10, 98, 10] :=
  ⟨by decide, (SetText_GetText_roundtrip Editor.init [97, 10, 98, 10]).2 (by decide)⟩

/-- C1 (counterexample): the text `a\rb` does not end in a newline, and `SetText`
followed by `GetText()` returns `ab`, not `a\rb`. -/
theorem SetText_GetText_drops_carriage_return :
    ([97, 13, 98] : List Char8).getLast? ≠ some 10 ∧
    GetText (SetText Editor.init [97, 13, 98]) = Except.ok [97, 98] ∧
    GetText (SetText Editor.init [97, 13, 98]) ≠ Except.ok [97, 13, 98] := by
  decide

theorem UTF8CharLength_pos (c : Char8) : 1 ≤ UTF8CharLength c := by
  unfold UTF8CharLength
  split_ifs <;> omega

theorem vecAt_ok {α : Type} (v : List α) (i : Int) (h0 : 0 ≤ i) (h1 : i < v.length) :
    ∃ x, vecAt v i = Except.ok x := by
  obtain ⟨k, rfl⟩ := Int.eq_ofNat_of_zero_le h0
  exact ⟨_, vecAt_natCast v k (by omega)⟩

/-! ### The step budgets are large enough

A loop that has `fuel` steps left and at most `fuel` iterations to go returns the same
with any larger budget: the budget does not cut it short. -/

theorem GetLineMaxColumnLoop_budget (tabSize : Int) (line : Line) (fuel : Nat) :
    ∀ (i col : Int) (extra : Nat), 0 ≤ i → (line.length : Int) - i ≤ fuel →
    GetLineMaxColumnLoop tabSize line (fuel + extra) i col
      = GetLineMaxColumnLoop tabSize line fuel i col := by
  induction fuel with
  | zero =>
    intro i col extra _ hle
    have hlt : ¬ (i < (line.length : Int)) := by omega
    cases extra with
    | zero => rfl
    | succ e =>
      rw [show 0 + (e + 1) = e + 1 from by omega]
      simp only [GetLineMaxColumnLoop, hlt, if_false]
  | succ n ih =>
    intro i col extra hi hle
    rw [show n + 1 + extra = (n + extra) + 1 from by omega]
    simp only [GetLineMaxColumnLoop]
    by_cases hlt : i < (line.length : Int)
    · simp only [hlt, if_true]
      cases hg : vecAt line i with
      | error e => rfl
      | ok g =>
        simp only [bind, Except.bind]
        have hpos := UTF8CharLength_pos g.mChar
        have hrec : ∀ v, GetLineMaxColumnLoop tabSize line (n + extra) (i + UTF8CharLength g.mChar) v
            = GetLineMaxColumnLoop tabSize line n (i + UTF8CharLength g.mChar) v :=
          fun v => ih _ _ _ (by omega) (by omega)
        simp only [hrec]
    · simp only [hlt, if_false]

theorem GetCharacterIndexLoop_budget (tabSize : Int) (line : Line) (aColumn : Int) (fuel : Nat) :
    ∀ (i c : Int) (extra : Nat), 0 ≤ i → (line.length : Int) - i ≤ fuel →
    GetCharacterIndexLoop tabSize line aColumn (fuel + extra) i c
      = GetCharacterIndexLoop tabSize line aColumn fuel i c := by
  induction fuel with
  | zero =>
    intro i c extra _ hle
    have hlt : ¬ (i < (line.length : Int) ∧ c < aColumn) := by omega
    cases extra with
    | zero => rfl
    | succ e =>
      rw [show 0 + (e + 1) = e + 1 from by omega]
      simp only [GetCharacterIndexLoop, hlt, if_false]
  | succ n ih =>
    intro i c extra hi hle
    rw [show n + 1 + extra = (n + extra) + 1 from by omega]
    simp only [GetCharacterIndexLoop]
    by_cases hlt : i < (line.length : Int) ∧ c < aColumn
    · simp only [hlt, and_self, if_true]
      cases hg : vecAt line i with
      | error e => rfl
      | ok g =>
        simp only [bind, Except.bind]
        have hpos := UTF8CharLength_pos g.mChar
        have hrec : ∀ v, GetCharacterIndexLoop tabSize line aColumn (n + extra) (i + UTF8CharLength g.mChar) v
            = GetCharacterIndexLoop tabSize line aColumn n (i + UTF8CharLength g.mChar) v :=
          fun v => ih _ _ _ (by omega) (by omega)
        simp only [hrec]
    · simp only [hlt, if_false]

theorem GetCharacterColumnLoop_budget (tabSize : Int) (line : Line) (aIndex : Int) (fuel : Nat) :
    ∀ (i col : Int) (extra : Nat), 0 ≤ i → (line.length : Int) - i ≤ fuel →
    GetCharacterColumnLoop tabSize line aIndex (fuel + extra) i col
      = GetCharacterColumnLoop tabSize line aIndex fuel i col := by
  induction fuel with
  | zero =>
    intro i col extra _ hle
    have hlt : ¬ (i < aIndex ∧ i < (line.length : Int)) := by omega
    cases extra with
    | zero => rfl
    | succ e =>
      rw [show 0 + (e + 1) = e + 1 from by omega]
      simp only [GetCharacterColumnLoop, hlt, if_false]
  | succ n ih =>
    intro i col extra hi hle
    rw [show n + 1 + extra = (n + extra) + 1 from by omega]
    simp only [GetCharacterColumnLoop]
    by_cases hlt : i < aIndex ∧ i < (line.length : Int)
    · simp only [hlt, and_self, if_true]
      cases hg : vecAt line i with
      | error e => rfl
      | ok g =>
        simp only [bind, Except.bind]
        have hpos := UTF8CharLength_pos g.mChar
        have hrec : ∀ v, GetCharacterColumnLoop tabSize line aIndex (n + extra) (i + UTF8CharLength g.mChar) v
            = GetCharacterColumnLoop tabSize line aIndex n (i + UTF8CharLength g.mChar) v :=
          fun v => ih _ _ _ (by omega) (by omega)
        simp only [hrec]
    · simp only [hlt, if_false]

theorem tabStop_ok (tabSize c : Int) (h : tabSize ≠ 0) :
    ∃ r, tabStop tabSize c = Except.ok r := by
  simp [tabStop, h, pure, Except.pure]

theorem GetLineMaxColumnLoop_ok (tabSize : Int) (line : Line) (h : tabSize ≠ 0) (fuel : Nat) :
    ∀ (i col : Int), 0 ≤ i → ∃ r, GetLineMaxColumnLoop tabSize line fuel i col = Except.ok r := by
  induction fuel with
  | zero => intro i col _; exact ⟨col, rfl⟩
  | succ n ih =>
    intro i col hi
    rw [GetLineMaxColumnLoop]
    by_cases hlt : i < (line.length : Int)
    · obtain ⟨g, hg⟩ := vecAt_ok line i hi hlt
      simp only [hlt, if_true, hg, bind, Except.bind]
      have hpos := UTF8CharLength_pos g.mChar
      by_cases h9 : g.mChar = 9
      · obtain ⟨r, hr⟩ := tabStop_ok tabSize col h
        simp only [if_pos h9, hr]
        exact ih _ _ (by omega)
      · simp only [h9, if_false, pure, Except.pure]
        exact ih _ _ (by omega)
    · exact ⟨col, by simp [hlt, pure, Except.pure]⟩

theorem GetLineMaxColumn_ok (ed : Editor) (aLine : Int) (h : ed.mTabSize ≠ 0) :
    ∃ r, GetLineMaxColumn ed aLine = Except.ok r := by
  unfold GetLineMaxColumn
  by_cases hr : aLine < 0 ∨ (ed.mLines.length : Int) ≤ aLine
  · exact ⟨0, by simp [hr, pure, Except.pure]⟩
  · obtain ⟨l, hl⟩ := vecAt_ok ed.mLines aLine (by omega) (by omega)
    simp only [hr, if_false, hl, bind, Except.bind]
    exact GetLineMaxColumnLoop_ok _ _ h _ _ _ (le_refl 0)

theorem SanitizeCoordinates_ok (ed : Editor) (c : Coordinates) (h : ed.mTabSize ≠ 0) :
    ∃ r, SanitizeCoordinates ed c = Except.ok r := by
  unfold SanitizeCoordinates
  simp only
  split_ifs
  · exact ⟨_, rfl⟩
  · obtain ⟨m, hm⟩ := GetLineMaxColumn_ok ed ((ed.mLines.length : Int) - 1) h
    simp only [hm, bind, Except.bind, pure, Except.pure]
    exact ⟨_, rfl⟩
  · simp only [bind, Except.bind, pure, Except.pure]
    exact ⟨_, rfl⟩
  · obtain ⟨m, hm⟩ := GetLineMaxColumn_ok ed c.mLine h
    simp only [hm, bind, Except.bind, pure, Except.pure]
    exact ⟨_, rfl⟩

theorem isEmpty_false_of_ne_nil {α : Type} (l : List α) (h : l ≠ []) : l.isEmpty = false := by
  cases l with
  | nil => exact absurd rfl h
  | cons a b => rfl

theorem SanitizeCoordinates_fixed (ed : Editor) (c : Coordinates) (m : Int)
    (hne : ed.mLines ≠ []) (hl : c.mLine < (ed.mLines.length : Int))
    (hm : GetLineMaxColumn ed c.mLine = Except.ok m) (hc : c.mColumn ≤ m) :
    SanitizeCoordinates ed c = Except.ok c := by
  unfold SanitizeCoordinates
  have h1 : ¬ (c.mLine ≥ (ed.mLines.length : Int)) := by omega
  have h2 := isEmpty_false_of_ne_nil _ hne
  simp [h1, h2, hm, bind, Except.bind, pure, Except.pure, hc]

theorem SanitizeCoordinates_spec (ed : Editor) (c r : Coordinates)
    (h : SanitizeCoordinates ed c = Except.ok r) :
    (ed.mLines = [] → r.mColumn = 0 ∧ r.mLine = Min.min c.mLine 0) ∧
    (ed.mLines ≠ [] → r.mLine = Min.min c.mLine ((ed.mLines.length : Int) - 1) ∧
      ∃ m, GetLineMaxColumn ed r.mLine = Except.ok m ∧ r.mColumn ≤ m ∧
        (c.mLine < (ed.mLines.length : Int) → r.mColumn = Min.min c.mColumn m)) := by
  unfold SanitizeCoordinates at h
  simp only at h
  by_cases hls : ed.mLines = []
  · refine ⟨fun _ => ?_, fun hne => absurd hls hne⟩
    simp only [hls, List.length_nil, Nat.cast_zero, List.isEmpty_nil, if_true, pure,
      Except.pure, bind, Except.bind] at h
    split_ifs at h with h0
    · injection h with h; subst h; simp; omega
    · injection h with h; subst h; simp; omega
  · refine ⟨fun hne => absurd hne hls, fun _ => ?_⟩
    have hpos : 0 < ed.mLines.length := List.length_pos.mpr hls
    simp only [isEmpty_false_of_ne_nil _ hls, Bool.false_eq_true, if_false, bind,
      Except.bind] at h
    split_ifs at h with h0
    · cases hm : GetLineMaxColumn ed ((ed.mLines.length : Int) - 1) with
      | error e => rw [hm] at h; simp at h
      | ok m =>
        rw [hm] at h
        simp only [pure, Except.pure] at h
        injection h with h; subst h
        exact ⟨by simp; omega, m, hm, le_refl _, fun hlt => by omega⟩
    · cases hm : GetLineMaxColumn ed c.mLine with
      | error e => rw [hm] at h; simp at h
      | ok m =>
        rw [hm] at h
        simp only [pure, Except.pure] at h
        injection h with h; subst h
        exact ⟨by simp; omega, m, hm, by simp, fun _ => rfl⟩

/-- C4: sanitizing twice is sanitizing once. Whatever the first call returns the second
call returns again (a call that faults, on a zero tab size, faults both times), and with
a non-zero tab size the call returns. -/
theorem SanitizeCoordinates_idempotent (ed : Editor) (c : Coordinates) :
    (SanitizeCoordinates ed c >>= SanitizeCoordinates ed) = SanitizeCoordinates ed c ∧
    (ed.mTabSize ≠ 0 → ∃ r, SanitizeCoordinates ed c = Except.ok r ∧
      SanitizeCoordinates ed r = Except.ok r) := by
  have key : ∀ r, SanitizeCoordinates ed c = Except.ok r →
      SanitizeCoordinates ed r = Except.ok r := by
    intro r hr
    obtain ⟨h1, h2⟩ := SanitizeCoordinates_spec ed c r hr
    by_cases hls : ed.mLines = []
    · obtain ⟨hc, hl⟩ := h1 hls
      unfold SanitizeCoordinates
      simp only [hls, List.length_nil, Nat.cast_zero, List.isEmpty_nil, if_true, pure,
        Except.pure, bind, Except.bind]
      split_ifs with h0
      · congr 1
        cases r
        simp only [Coordinates.mk.injEq] at *
        omega
      · rw [← hc]
    · obtain ⟨hl, m, hm, hle, _⟩ := h2 hls
      have : 0 < ed.mLines.length := List.length_pos.mpr hls
      exact SanitizeCoordinates_fixed ed r m hls (by omega) hm hle
  constructor
  · cases hr : SanitizeCoordinates ed c with
    | error e => rfl
    | ok r => exact key r hr
  · intro htab
    obtain ⟨r, hr⟩ := SanitizeCoordinates_ok ed c htab
    exact ⟨r, hr, key r hr⟩

theorem SanitizeCoordinates_idempotent_witness :
    (SetText Editor.init [97, 9, 98]).mTabSize ≠ 0 ∧
    ∃ r, SanitizeCoordinates (SetText Editor.init [97, 9, 98]) ⟨3, 7⟩ = Except.ok r ∧
      SanitizeCoordinates (SetText Editor.init [97, 9, 98]) r = Except.ok r :=
  ⟨by decide, (SanitizeCoordinates_idempotent (SetText Editor.init [97, 9, 98]) ⟨3, 7⟩).2
    (by decide)⟩

/-- C5: on a buffer with at least one line and a coordinate with a non-negative line,
whatever `SanitizeCoordinates` returns has its line in `[0, lineCount - 1]` and its column
at most `GetLineMaxColumn` of that line; a coordinate that already satisfies both bounds
is returned unchanged; and with a non-zero tab size the call returns. -/
theorem SanitizeCoordinates_clamps (ed : Editor) (c : Coordinates)
    (hne : ed.mLines ≠ []) (hl : 0 ≤ c.mLine) :
    (∀ r, SanitizeCoordinates ed c = Except.ok r →
      0 ≤ r.mLine ∧ r.mLine ≤ (ed.mLines.length : Int) - 1 ∧
      ∃ m, GetLineMaxColumn ed r.mLine = Except.ok m ∧ r.mColumn ≤ m) ∧
    (∀ m, c.mLine ≤ (ed.mLines.length : Int) - 1 →
      GetLineMaxColumn ed c.mLine = Except.ok m → c.mColumn ≤ m →
      SanitizeCoordinates ed c = Except.ok c) ∧
    (ed.mTabSize ≠ 0 → ∃ r, SanitizeCoordinates ed c = Except.ok r) := by
  have hpos : 0 < ed.mLines.length := List.length_pos.mpr hne
  refine ⟨fun r hr => ?_, fun m h1 h2 h3 => ?_, SanitizeCoordinates_ok ed c⟩
  · obtain ⟨hline, m, hm, hle, _⟩ := (SanitizeCoordinates_spec ed c r hr).2 hne
    exact ⟨by omega, by omega, m, hm, hle⟩
  · exact SanitizeCoordinates_fixed ed c m hne (by omega) h2 h3

theorem SanitizeCoordinates_clamps_witness :
    (SetText Editor.init [97, 9, 98]).mLines ≠ [] ∧
    (0 : Int) ≤ (⟨0, 4⟩ : Coordinates).mLine ∧
    GetLineMaxColumn (SetText Editor.init [97, 9, 98]) 0 = Except.ok 5 ∧
    SanitizeCoordinates (SetText Editor.init [97, 9, 98]) ⟨0, 4⟩ = Except.ok ⟨0, 4⟩ :=
  ⟨by decide, by decide, by decide,
    (SanitizeCoordinates_clamps (SetText Editor.init [97, 9, 98]) ⟨0, 4⟩ (by decide)
      (by decide)).2.1 5 (by decide) (by decide) (by decide)⟩

theorem vecResize_succ {α : Type} (v : List α) (i : Nat) (d : α) (h : i ≤ v.length) :
    ∃ x, vecResize v (i + 1) d = v.take i ++ [x] := by
  unfold vecResize
  rcases Nat.lt_or_ge i v.length with hlt | hge
  · have h0 : i + 1 - v.length = 0 := by omega
    rw [h0, List.replicate_zero, List.append_nil, List.take_succ,
      List.getElem?_eq_getElem hlt]
    exact ⟨v[i], rfl⟩
  · have he : i = v.length := by omega
    subst he
    exact ⟨d, by simp [List.take_of_length_le]⟩

/-- C3: `AddUndo` at log cursor `i` (with `i` at most the log length, editor not read-only)
keeps the records at indices below `i`, stores the new record at index `i`, drops
every record from `i` on, and leaves the cursor at `i + 1`, which is the new log
length; so `CanRedo()` is false afterwards, whatever was undone before. -/
theorem AddUndo_truncates_redo (ed : Editor) (u : UndoRecord) (i : Nat)
    (hi : ed.mUndoIndex = (i : Int)) (hle : i ≤ ed.mUndoBuffer.length)
    (hro : ed.mReadOnly = false) :
    ∃ ed1, AddUndo ed u = Except.ok ed1 ∧
      ed1.mUndoBuffer = ed.mUndoBuffer.take i ++ [u] ∧
      ed1.mUndoIndex = (i : Int) + 1 ∧
      (ed1.mUndoBuffer.length : Int) = ed1.mUndoIndex ∧
      CanRedo ed1 = false ∧
      ed1.mLines = ed.mLines ∧ ed1.mState = ed.mState := by
  have h1 : ¬ ((i : Int) + 1 < 0) := by omega
  have h2 : ((i : Int) + 1).toNat = i + 1 := by omega
  obtain ⟨x, h3⟩ := vecResize_succ ed.mUndoBuffer i UndoRecord.empty hle
  have hrun : AddUndo ed u = Except.ok
      { ed with mUndoBuffer := ed.mUndoBuffer.take i ++ [u], mUndoIndex := ed.mUndoIndex + 1 } := by
    have h4 : (List.take i ed.mUndoBuffer ++ [x]).isEmpty = false := by
      cases List.take i ed.mUndoBuffer <;> rfl
    unfold AddUndo
    simp only [hro, hi, h1, h2, h3, h4, assertThat, Bool.not_false, if_true, if_false, bind,
      Except.bind, pure, Except.pure, Bool.false_eq_true, List.dropLast_concat]
  refine ⟨_, hrun, rfl, by simp [hi], ?_, ?_, rfl, rfl⟩
  · simp [hi, List.length_take, Nat.min_eq_left hle]
  · simp [CanRedo, hi, List.length_take, Nat.min_eq_left hle]

theorem AddUndo_truncates_redo_witness :
    CanRedo afterOneUndo = true ∧
    ∃ ed1, AddUndo afterOneUndo { UndoRecord.empty with mAdded := [122] } = Except.ok ed1 ∧
      ed1.mUndoBuffer = afterOneUndo.mUndoBuffer.take 1
        ++ [{ UndoRecord.empty with mAdded := [122] }] ∧
      ed1.mUndoIndex = ((1 : Nat) : Int) + 1 ∧
      (ed1.mUndoBuffer.length : Int) = ed1.mUndoIndex ∧
      CanRedo ed1 = false ∧
      ed1.mLines = afterOneUndo.mLines ∧ ed1.mState = afterOneUndo.mState :=
  ⟨by decide, AddUndo_truncates_redo afterOneUndo { UndoRecord.empty with mAdded := [122] } 1
    (by decide) (by decide) (by decide)⟩

theorem mapInsert_last (m : ErrorMarkers) (e : Int × String)
    (h : ∀ x ∈ m, x.1 < e.1) : mapInsert m e = m ++ [e] := by
  induction m with
  | nil => rfl
  | cons x rest ih =>
    have hx : x.1 < e.1 := h x (List.mem_cons_self _ _)
    have h1 : ¬ (e.1 < x.1) := by omega
    have h2 : ¬ (e.1 = x.1) := by omega
    simp only [mapInsert, h1, h2, if_false, List.cons_append]
    rw [ih (fun y hy => h y (List.mem_cons_of_mem _ hy))]

theorem foldl_mapInsert_monotone (f : Int → Int) (hf : ∀ a b, a < b → f a < f b)
    (m : ErrorMarkers) : ∀ (acc : ErrorMarkers), m.ordered →
    (∀ x ∈ acc, ∀ y ∈ m, x.1 < f y.1) →
    m.foldl (fun (acc : ErrorMarkers) (i : Int × String) => mapInsert acc (f i.1, i.2)) acc
      = acc ++ m.map (fun i => (f i.1, i.2)) := by
  induction m with
  | nil => intro acc _ _; simp
  | cons y rest ih =>
    intro acc hord hacc
    unfold ErrorMarkers.ordered at hord
    rw [List.pairwise_cons] at hord
    simp only [List.foldl_cons, List.map_cons]
    rw [mapInsert_last acc (f y.1, y.2) (fun x hx => hacc x hx y (List.mem_cons_self _ _))]
    rw [ih (acc ++ [(f y.1, y.2)]) hord.2]
    · simp
    · intro x hx z hz
      rcases List.mem_append.mp hx with hx | hx
      · exact hacc x hx z (List.mem_cons_of_mem _ hz)
      · simp only [List.mem_singleton] at hx
        subst hx
        exact hf _ _ (hord.1 z hz)

/-- The function `InsertLine` on the stored numbers (editor not read-only,
`0 <= k <= lineCount`): it inserts one empty line at index `k`; every error marker and
breakpoint whose stored number is `>= k` gets that number plus one, the others keep
theirs, and each error marker keeps its message. The stored numbers are the line indices
plus one, so the marker of the line with index `k - 1` is among those that move. -/
theorem InsertLine_numbers (ed : Editor) (k : Int)
    (hro : ed.mReadOnly = false) (hk0 : 0 ≤ k) (hk1 : k ≤ (ed.mLines.length : Int))
    (hord : ed.mErrorMarkers.ordered) :
    ∃ ed1, InsertLine ed k = Except.ok ed1 ∧
      ed1.mLines = ed.mLines.take k.toNat ++ [] :: ed.mLines.drop k.toNat ∧
      ed1.mLines.length = ed.mLines.length + 1 ∧
      ed1.mErrorMarkers
        = ed.mErrorMarkers.map (fun e => (if e.1 ≥ k then e.1 + 1 else e.1, e.2)) ∧
      (∀ b, b ∈ ed1.mBreakpoints ↔
        ∃ a ∈ ed.mBreakpoints, b = if a ≥ k then a + 1 else a) := by
  have h1 : ¬ (k < 0 ∨ (ed.mLines.length : Int) < k) := by omega
  have hmono : ∀ a b : Int, a < b →
      (if a ≥ k then a + 1 else a) < (if b ≥ k then b + 1 else b) := by
    intro a b hab
    split_ifs <;> omega
  have hfold := foldl_mapInsert_monotone (fun a => if a ≥ k then a + 1 else a) hmono
    ed.mErrorMarkers [] hord (by simp)
  have hrun : InsertLine ed k = Except.ok
      { ed with
        mLines := ed.mLines.take k.toNat ++ [] :: ed.mLines.drop k.toNat
        mErrorMarkers := ed.mErrorMarkers.foldl
          (fun (acc : ErrorMarkers) (i : Int × String) =>
            mapInsert acc (if i.1 ≥ k then i.1 + 1 else i.1, i.2)) []
        mBreakpoints := ed.mBreakpoints.image fun i => if i ≥ k then i + 1 else i } := by
    unfold InsertLine vecInsert
    simp only [hro, h1, assertThat, Bool.not_false, if_true, if_false, bind, Except.bind,
      pure, Except.pure]
  refine ⟨_, hrun, rfl, ?_, ?_, ?_⟩
  · simp only [List.length_append, List.length_cons, List.length_take, List.length_drop]
    omega
  · simpa using hfold
  · intro b
    simp only [Finset.mem_image]
    constructor
    · rintro ⟨a, ha, rfl⟩; exact ⟨a, ha, rfl⟩
    · rintro ⟨a, ha, rfl⟩; exact ⟨a, ha, rfl⟩

/-- C8 (the code at the failing input): in the two-line buffer `a`, `b` with an error
marker and a breakpoint on the first line (number 1, the line with index 0),
`InsertLine(1)` puts an empty line in behind the first line, which stays where it was, and
moves the marker and the breakpoint to number 2, the number of the inserted line.
`EnterCharacter` of a newline with the cursor at the end of the first line, which calls
`InsertLine(1)`, moves them in the same way. -/
theorem InsertLine_moves_marker_of_line_before :
    (InsertLine firstLineMarked 1).map
        (fun e => (GetTextLines e, e.mErrorMarkers, e.mBreakpoints))
      = Except.ok ([[97], [], [98]], [(2, "e")], {2}) ∧
    (EnterCharacter (firstLineMarked.withCursor ⟨0, 1⟩) 10 false).map
        (fun e => (GetTextLines e, e.mErrorMarkers, e.mBreakpoints))
      = Except.ok ([[97], [], [98]], [(2, "e")], {2}) :=
  ⟨by decide, by decide⟩

/-- C9 (the code at the failing input): on the five-line buffer with an error marker
and a breakpoint at 5, `RemoveLine(1, 3)` removes two lines and returns, leaving the
marker and the breakpoint at 4, not at `5 - (3 - 1) = 3`. -/
theorem RemoveLineRange_shifts_by_one :
    (RemoveLineRange fiveLinesMarked 1 3).map
        (fun e => (e.mLines.length, e.mErrorMarkers, e.mBreakpoints))
      = Except.ok (3, [(4, "e")], {4}) := by
  decide

/-- C10 (the code at the failing input): on the three-line buffer with an error marker
at 3 and a breakpoint at 1, `RemoveLine(1)` removes the middle line and returns, and
both the marker of the last line and the breakpoint of the first line are gone,
though neither line was removed. `Delete()` at the end of the first line, which joins
the second line to it through `RemoveLine(1)`, loses them in the same way. -/
theorem RemoveLine_drops_surviving_markers :
    (RemoveLine threeLinesMarked 1).map
        (fun e => (GetTextLines e, e.mErrorMarkers, e.mBreakpoints))
      = Except.ok ([[97], [99]], [], ∅) ∧
    (Delete (threeLinesMarked.withCursor ⟨0, 1⟩)).map
        (fun e => (GetTextLines e, e.mErrorMarkers, e.mBreakpoints))
      = Except.ok ([[97, 98], [99]], [], ∅) :=
  ⟨by decide, by decide⟩

theorem Res.sat_pure {α : Type} {P : α → Prop} {a : α} (h : P a) :
    Res.sat (pure a : Res α) P := by
  intro b hb
  cases hb
  exact h

theorem Res.sat_ok {α : Type} {P : α → Prop} {a : α} (h : P a) :
    Res.sat (Except.ok a : Res α) P := by
  intro b hb
  cases hb
  exact h

theorem Res.sat_throw {α : Type} {P : α → Prop} {e : Fault} :
    Res.sat (throw e : Res α) P := by
  intro b hb
  cases hb

theorem Res.sat_bind {α β : Type} {x : Res α} {f : α → Res β} {P : α → Prop} {Q : β → Prop}
    (hx : Res.sat x P) (hf : ∀ a, P a → Res.sat (f a) Q) : Res.sat (x >>= f) Q := by
  intro b hb
  cases x with
  | error e => cases hb
  | ok a => exact hf a (hx a rfl) b hb

theorem Res.sat_any {α : Type} (x : Res α) : Res.sat x (fun _ => True) :=
  fun _ _ => trivial

theorem Res.sat_bind_any {α β : Type} {x : Res α} {f : α → Res β} {Q : β → Prop}
    (hf : ∀ a, Res.sat (f a) Q) : Res.sat (x >>= f) Q :=
  Res.sat_bind (Res.sat_any x) (fun a _ => hf a)

theorem Res.sat_ite {α : Type} {c : Prop} [Decidable c] {x y : Res α} {P : α → Prop}
    (hx : c → Res.sat x P) (hy : ¬ c → Res.sat y P) : Res.sat (if c then x else y) P := by
  split_ifs with h
  · exact hx h
  · exact hy h

theorem Res.sat_mono {α : Type} {x : Res α} {P Q : α → Prop}
    (hx : Res.sat x P) (h : ∀ a, P a → Q a) : Res.sat x Q :=
  fun a ha => h a (hx a ha)

theorem vecSet_length {α : Type} (v : List α) (i : Int) (x : α) :
    Res.sat (vecSet v i x) (fun r => r.length = v.length) := by
  unfold vecSet
  refine Res.sat_ite (fun _ => Res.sat_throw) (fun _ => Res.sat_pure ?_)
  simp

theorem setLine_length (ed : Editor) (i : Int) (line : Line) :
    Res.sat (setLine ed i line) (fun r => r.mLines.length = ed.mLines.length) := by
  unfold setLine
  exact Res.sat_bind (vecSet_length _ _ _) (fun a ha => Res.sat_pure ha)

theorem setLine_nonempty (ed : Editor) (i : Int) (line : Line) (h : ed.mLines ≠ []) :
    Res.sat (setLine ed i line) (fun r => r.mLines ≠ []) :=
  Res.sat_mono (setLine_length ed i line) (fun a ha => by
    intro h0
    rw [h0] at ha
    exact h (List.length_eq_zero.mp ha.symm))

theorem InsertLine_nonempty (ed : Editor) (k : Int) :
    Res.sat (InsertLine ed k) (fun r => r.mLines ≠ []) := by
  unfold InsertLine
  refine Res.sat_bind_any (fun _ => Res.sat_bind (P := fun l => l ≠ []) ?_ ?_)
  · unfold vecInsert
    exact Res.sat_ite (fun _ => Res.sat_throw) (fun _ => Res.sat_pure (by simp))
  · intro lines hl
    exact Res.sat_pure hl

theorem assertThat_sat (b : Bool) : Res.sat (assertThat b) (fun _ => b = true) := by
  unfold assertThat
  cases b
  · exact Res.sat_throw
  · exact Res.sat_pure rfl

theorem RemoveLine_nonempty (ed : Editor) (k : Int) :
    Res.sat (RemoveLine ed k) (fun r => r.mLines ≠ []) := by
  unfold RemoveLine
  refine Res.sat_bind_any (fun _ => Res.sat_bind_any (fun _ => Res.sat_bind_any (fun lines =>
    Res.sat_bind (assertThat_sat _) (fun _ hne => Res.sat_pure ?_))))
  intro h0
  simp only at h0
  rw [h0] at hne
  simp at hne

theorem RemoveLineRange_nonempty (ed : Editor) (a b : Int) :
    Res.sat (RemoveLineRange ed a b) (fun r => r.mLines ≠ []) := by
  unfold RemoveLineRange
  refine Res.sat_bind_any (fun _ => Res.sat_bind_any (fun _ => Res.sat_bind_any (fun _ =>
    Res.sat_bind_any (fun lines =>
      Res.sat_bind (assertThat_sat _) (fun _ hne => Res.sat_pure ?_)))))
  intro h0
  simp only at h0
  rw [h0] at hne
  simp at hne

theorem DeleteRange_nonempty (ed : Editor) (a b : Coordinates) (h : ed.mLines ≠ []) :
    Res.sat (DeleteRange ed a b) (fun r => r.mLines ≠ []) := by
  unfold DeleteRange
  refine Res.sat_bind_any (fun _ => Res.sat_bind_any (fun _ => Res.sat_ite
    (fun _ => Res.sat_pure h) (fun _ => Res.sat_bind_any (fun start => Res.sat_bind_any
      (fun end_ => Res.sat_ite (fun _ => ?_) (fun _ => ?_))))))
  · refine Res.sat_bind_any (fun line => Res.sat_bind_any (fun n => Res.sat_bind_any
      (fun line1 => Res.sat_bind (setLine_nonempty ed _ _ h) (fun ed1 h1 => Res.sat_pure h1))))
  · refine Res.sat_bind_any (fun firstLine => Res.sat_bind_any (fun lastLine =>
      Res.sat_bind_any (fun firstLine1 => Res.sat_bind (setLine_nonempty ed _ _ h)
        (fun ed1 h1 => Res.sat_bind_any (fun lastLine1 =>
          Res.sat_bind (setLine_nonempty ed1 _ _ h1) (fun ed2 h2 =>
            Res.sat_bind (P := fun e => e.mLines ≠ [])
              (Res.sat_ite (fun _ => setLine_nonempty ed2 _ _ h2) (fun _ => Res.sat_pure h2))
              (fun ed3 h3 => Res.sat_bind (P := fun e => e.mLines ≠ [])
                (Res.sat_ite (fun _ => RemoveLineRange_nonempty ed3 _ _)
                  (fun _ => Res.sat_pure h3))
                (fun ed4 h4 => Res.sat_pure h4))))))))

@[simp] theorem Colorize_mLines (ed : Editor) (a b : Int) : (Colorize ed a b).mLines = ed.mLines :=
  rfl

@[simp] theorem EnsureCursorVisible_mLines (ed : Editor) :
    (EnsureCursorVisible ed).mLines = ed.mLines := by
  unfold EnsureCursorVisible
  split_ifs <;> rfl

@[simp] theorem SetCursorPosition_mLines (ed : Editor) (p : Coordinates) :
    (SetCursorPosition ed p).mLines = ed.mLines := by
  unfold SetCursorPosition
  split_ifs
  · rw [EnsureCursorVisible_mLines]
  · rfl

theorem SetSelection_mLines (ed : Editor) (a b : Coordinates) (m : SelectionMode) :
    Res.sat (SetSelection ed a b m) (fun r => r.mLines = ed.mLines) := by
  unfold SetSelection
  exact Res.sat_bind_any (fun _ => Res.sat_bind_any (fun _ => Res.sat_bind_any (fun _ =>
    Res.sat_ite (fun _ => Res.sat_pure rfl) (fun _ => Res.sat_pure rfl))))

theorem AddUndo_mLines (ed : Editor) (u : UndoRecord) :
    Res.sat (AddUndo ed u) (fun r => r.mLines = ed.mLines) := by
  unfold AddUndo
  exact Res.sat_bind_any (fun _ => Res.sat_ite (fun _ => Res.sat_throw) (fun _ =>
    Res.sat_ite (fun _ => Res.sat_throw) (fun _ => Res.sat_pure rfl)))

theorem AddUndo_nonempty (ed : Editor) (u : UndoRecord) (h : ed.mLines ≠ []) :
    Res.sat (AddUndo ed u) (fun r => r.mLines ≠ []) :=
  Res.sat_mono (AddUndo_mLines ed u) (fun a ha => by rw [ha]; exact h)

theorem DeleteSelection_nonempty (ed : Editor) (h : ed.mLines ≠ []) :
    Res.sat (DeleteSelection ed) (fun r => r.mLines ≠ []) := by
  unfold DeleteSelection
  refine Res.sat_bind_any (fun _ => Res.sat_ite (fun _ => Res.sat_pure h) (fun _ =>
    Res.sat_bind (DeleteRange_nonempty ed _ _ h) (fun ed1 h1 =>
      Res.sat_bind (SetSelection_mLines ed1 _ _ _) (fun ed2 h2 => Res.sat_pure ?_))))
  simp only [Colorize_mLines, SetCursorPosition_mLines, h2]
  exact h1

theorem InsertTextAtLoop_nonempty (fuel : Nat) : ∀ (text : List Char8) (ed : Editor)
    (w : Coordinates) (c t : Int), ed.mLines ≠ [] →
    Res.sat (InsertTextAtLoop fuel text ed w c t) (fun r => r.1.mLines ≠ []) := by
  induction fuel with
  | zero => intro text ed w c t h; exact Res.sat_pure h
  | succ n ih =>
    intro text ed w c t h
    cases text with
    | nil => exact Res.sat_pure h
    | cons ch rest =>
      simp only [InsertTextAtLoop]
      refine Res.sat_ite (fun _ => Res.sat_pure h) (fun _ => Res.sat_bind_any (fun _ =>
        Res.sat_ite (fun _ => ih _ _ _ _ _ h) (fun _ => Res.sat_ite (fun _ => ?_) (fun _ => ?_))))
      · refine Res.sat_bind_any (fun cur => Res.sat_bind (P := fun e => e.mLines ≠ []) ?_
          (fun ed2 h2 => ih _ _ _ _ _ h2))
        refine Res.sat_ite (fun _ => ?_) (fun _ => InsertLine_nonempty ed _)
        exact Res.sat_bind (InsertLine_nonempty ed _) (fun ed1 h1 =>
          Res.sat_bind_any (fun _ => Res.sat_bind_any (fun _ => Res.sat_bind_any (fun _ =>
            Res.sat_bind (setLine_nonempty ed1 _ _ h1) (fun ed1a h1a =>
              setLine_nonempty ed1a _ _ h1a)))))
      · exact Res.sat_bind_any (fun line => Res.sat_bind_any (fun r =>
          Res.sat_bind (setLine_nonempty ed _ _ h) (fun ed1 h1 => ih _ _ _ _ _ h1)))

theorem InsertTextAt_nonempty (ed : Editor) (w : Coordinates) (t : List Char8)
    (h : ed.mLines ≠ []) :
    Res.sat (InsertTextAt ed w t) (fun r => r.1.mLines ≠ []) := by
  unfold InsertTextAt
  exact Res.sat_bind_any (fun _ => Res.sat_bind_any (fun _ =>
    InsertTextAtLoop_nonempty _ _ _ _ _ _ h))

theorem indentLines_nonempty (aShift : Bool) (endLine : Int) (fuel : Nat) :
    ∀ (i : Int) (ed : Editor) (modified : Bool), ed.mLines ≠ [] →
    Res.sat (indentLines aShift endLine fuel i ed modified) (fun r => r.1.mLines ≠ []) := by
  induction fuel with
  | zero => intro i ed m h; exact Res.sat_pure h
  | succ n ih =>
    intro i ed m h
    simp only [indentLines]
    exact Res.sat_ite (fun _ => Res.sat_bind_any (fun line =>
      Res.sat_bind (setLine_nonempty ed _ _ h) (fun ed1 h1 => ih _ _ _ h1)))
      (fun _ => Res.sat_pure h)

theorem EnterCharacterIndent_nonempty (ed : Editor) (aShift : Bool) (u : UndoRecord)
    (h : ed.mLines ≠ []) :
    Res.sat (EnterCharacterIndent ed aShift u) (fun r => r.mLines ≠ []) := by
  unfold EnterCharacterIndent
  refine Res.sat_bind_any (fun m => Res.sat_bind_any (fun removed =>
    Res.sat_bind (indentLines_nonempty _ _ _ _ _ _ h) (fun r hr =>
      Res.sat_ite (fun _ => ?_) (fun _ => Res.sat_pure hr))))
  refine Res.sat_bind_any (fun c0 => Res.sat_bind_any (fun er =>
    Res.sat_bind (AddUndo_mLines _ _) (fun ed3 h3 => Res.sat_pure ?_)))
  simp only [EnsureCursorVisible_mLines, h3]
  exact hr

theorem EnterCharacter_nonempty (ed : Editor) (aChar : Nat) (aShift : Bool)
    (h : ed.mLines ≠ []) :
    Res.sat (EnterCharacter ed aChar aShift) (fun r => r.mLines ≠ []) := by
  unfold EnterCharacter
  refine Res.sat_bind_any (fun _ => Res.sat_ite
    (fun _ => EnterCharacterIndent_nonempty ed aShift _ h) (fun _ => ?_))
  refine Res.sat_bind (P := fun eu => eu.1.mLines ≠ []) ?_ (fun eu heu => ?_)
  · exact Res.sat_ite (fun _ => Res.sat_bind_any (fun removed =>
      Res.sat_bind (DeleteSelection_nonempty ed h) (fun ed1 h1 => Res.sat_pure h1)))
      (fun _ => Res.sat_pure h)
  · refine Res.sat_bind_any (fun coord => Res.sat_bind_any (fun _ =>
      Res.sat_bind (P := fun r => ∀ p, r = some p → p.1.mLines ≠ []) ?_ (fun r hr => ?_)))
    · refine Res.sat_ite (fun _ => ?_) (fun _ => ?_)
      · refine Res.sat_bind (InsertLine_nonempty eu.1 _) (fun ed2 h2 =>
          Res.sat_bind_any (fun line => Res.sat_bind_any (fun newLine0 =>
            Res.sat_bind (setLine_nonempty ed2 _ _ h2) (fun ed3 h3 =>
              Res.sat_bind_any (fun cindex => Res.sat_bind_any (fun tail =>
                Res.sat_bind (setLine_nonempty ed3 _ _ h3) (fun ed4 h4 =>
                  Res.sat_bind_any (fun kept =>
                    Res.sat_bind (setLine_nonempty ed4 _ _ h4) (fun ed5 h5 =>
                      Res.sat_bind_any (fun col => Res.sat_pure ?_))))))))))
        intro p hp
        cases hp
        simpa using h5
      · refine Res.sat_ite (fun _ => ?_) (fun _ => Res.sat_pure (fun p hp => by cases hp))
        refine Res.sat_bind_any (fun line => Res.sat_bind_any (fun cindex =>
          Res.sat_bind_any (fun lu => Res.sat_bind_any (fun ins =>
            Res.sat_bind (setLine_nonempty eu.1 _ _ heu) (fun ed2 h2 =>
              Res.sat_bind_any (fun col => Res.sat_pure ?_))))))
        intro p hp
        cases hp
        simpa using h2
    · cases r with
      | none => exact Res.sat_pure heu
      | some p =>
        obtain ⟨ed2, u3⟩ := p
        have h2 : ed2.mLines ≠ [] := hr (ed2, u3) rfl
        refine Res.sat_bind_any (fun addedEnd =>
          Res.sat_bind (AddUndo_mLines _ _) (fun ed4 h4 => Res.sat_pure ?_))
        simp only [EnsureCursorVisible_mLines, Colorize_mLines, h4]
        exact h2

theorem AddUndo_option_nonempty (r : Editor × Option UndoRecord) (h : r.1.mLines ≠ []) :
    Res.sat (match r.2 with
      | none => (pure r.1 : Res Editor)
      | some u1 => AddUndo r.1 { u1 with mAfter := r.1.mState }) (fun e => e.mLines ≠ []) := by
  cases r.2 with
  | none => exact Res.sat_pure h
  | some u1 => exact AddUndo_nonempty _ _ h

theorem Delete_nonempty (ed : Editor) (h : ed.mLines ≠ []) :
    Res.sat (Delete ed) (fun r => r.mLines ≠ []) := by
  unfold Delete
  refine Res.sat_bind_any (fun _ => Res.sat_ite (fun _ => Res.sat_pure h) (fun _ =>
    Res.sat_bind (P := fun r => r.1.mLines ≠ []) ?_ (fun r hr => AddUndo_option_nonempty r hr)))
  refine Res.sat_ite (fun _ => Res.sat_bind_any (fun removed =>
    Res.sat_bind (DeleteSelection_nonempty ed h) (fun ed1 h1 => Res.sat_pure h1))) (fun _ => ?_)
  refine Res.sat_bind_any (fun pos => Res.sat_bind_any (fun line => Res.sat_bind_any (fun m =>
    Res.sat_ite (fun _ => Res.sat_ite (fun _ => Res.sat_pure (by simpa using h)) (fun _ => ?_))
      (fun _ => ?_))))
  · refine Res.sat_bind_any (fun rs => Res.sat_bind_any (fun re => Res.sat_bind_any
      (fun nextLine => Res.sat_bind_any (fun ed2 =>
        Res.sat_bind (RemoveLine_nonempty ed2 _) (fun ed3 h3 => Res.sat_pure ?_)))))
    simpa using h3
  · refine Res.sat_bind_any (fun cindex => Res.sat_bind_any (fun rs => Res.sat_bind_any
      (fun removed => Res.sat_bind_any (fun g => Res.sat_bind_any (fun line1 =>
        Res.sat_bind (setLine_nonempty _ _ _ (by simpa using h)) (fun ed2 h2 =>
          Res.sat_pure ?_))))))
    simpa using h2

theorem Backspace_nonempty (ed : Editor) (h : ed.mLines ≠ []) :
    Res.sat (Backspace ed) (fun r => r.mLines ≠ []) := by
  unfold Backspace
  refine Res.sat_bind_any (fun _ => Res.sat_ite (fun _ => Res.sat_pure h) (fun _ =>
    Res.sat_bind (P := fun r => r.1.mLines ≠ []) ?_ (fun r hr => AddUndo_option_nonempty r hr)))
  refine Res.sat_ite (fun _ => Res.sat_bind_any (fun removed =>
    Res.sat_bind (DeleteSelection_nonempty ed h) (fun ed1 h1 => Res.sat_pure h1))) (fun _ => ?_)
  refine Res.sat_bind_any (fun pos => Res.sat_ite
    (fun _ => Res.sat_ite (fun _ => Res.sat_pure (by simpa using h)) (fun _ => ?_))
    (fun _ => ?_))
  · refine Res.sat_bind_any (fun m => Res.sat_bind_any (fun re => Res.sat_bind_any
      (fun line => Res.sat_bind_any (fun prevLine => Res.sat_bind_any (fun prevSize =>
        Res.sat_bind_any (fun ed2 =>
          Res.sat_bind (RemoveLine_nonempty _ _) (fun ed4 h4 => Res.sat_pure ?_)))))))
    simpa using h4
  · refine Res.sat_bind_any (fun line => Res.sat_bind_any (fun cindex0 => Res.sat_bind_any
      (fun cindex => Res.sat_bind_any (fun rs0 => Res.sat_bind_any (fun er =>
        Res.sat_bind (setLine_nonempty _ _ _ (by simpa using h)) (fun ed3 h3 =>
          Res.sat_pure ?_))))))
    simpa using h3

theorem UndoRecord_Undo_nonempty (u : UndoRecord) (ed : Editor) (h : ed.mLines ≠ []) :
    Res.sat (u.Undo ed) (fun r => r.mLines ≠ []) := by
  unfold UndoRecord.Undo
  refine Res.sat_bind (P := fun e => e.mLines ≠ []) ?_ (fun ed1 h1 =>
    Res.sat_bind (P := fun e => e.mLines ≠ []) ?_ (fun ed2 h2 => Res.sat_pure ?_))
  · exact Res.sat_ite (fun _ => Res.sat_bind (DeleteRange_nonempty ed _ _ h)
      (fun e he => Res.sat_pure (by simpa using he))) (fun _ => Res.sat_pure h)
  · exact Res.sat_ite (fun _ => Res.sat_bind (InsertTextAt_nonempty ed1 _ _ h1)
      (fun r hr => Res.sat_pure (by simpa using hr))) (fun _ => Res.sat_pure h1)
  · simpa using h2

theorem UndoRecord_Redo_nonempty (u : UndoRecord) (ed : Editor) (h : ed.mLines ≠ []) :
    Res.sat (u.Redo ed) (fun r => r.mLines ≠ []) := by
  unfold UndoRecord.Redo
  refine Res.sat_bind (P := fun e => e.mLines ≠ []) ?_ (fun ed1 h1 =>
    Res.sat_bind (P := fun e => e.mLines ≠ []) ?_ (fun ed2 h2 => Res.sat_pure ?_))
  · exact Res.sat_ite (fun _ => Res.sat_bind (DeleteRange_nonempty ed _ _ h)
      (fun e he => Res.sat_pure (by simpa using he))) (fun _ => Res.sat_pure h)
  · exact Res.sat_ite (fun _ => Res.sat_bind (InsertTextAt_nonempty ed1 _ _ h1)
      (fun r hr => Res.sat_pure (by simpa using hr))) (fun _ => Res.sat_pure h1)
  · simpa using h2

theorem UndoLoop_nonempty (n : Nat) : ∀ (ed : Editor), ed.mLines ≠ [] →
    Res.sat (UndoLoop n ed) (fun r => r.mLines ≠ []) := by
  induction n with
  | zero => intro ed h; exact Res.sat_pure h
  | succ k ih =>
    intro ed h
    simp only [UndoLoop]
    exact Res.sat_ite (fun _ => Res.sat_bind_any (fun u =>
      Res.sat_bind (UndoRecord_Undo_nonempty u _ h) (fun ed2 h2 => ih ed2 h2)))
      (fun _ => Res.sat_pure h)

theorem RedoLoop_nonempty (n : Nat) : ∀ (ed : Editor), ed.mLines ≠ [] →
    Res.sat (RedoLoop n ed) (fun r => r.mLines ≠ []) := by
  induction n with
  | zero => intro ed h; exact Res.sat_pure h
  | succ k ih =>
    intro ed h
    simp only [RedoLoop]
    exact Res.sat_ite (fun _ => Res.sat_bind_any (fun u =>
      Res.sat_bind (UndoRecord_Redo_nonempty u _ h) (fun ed2 h2 => ih ed2 h2)))
      (fun _ => Res.sat_pure h)

theorem SetText_nonempty (ed : Editor) (s : List Char8) : (SetText ed s).mLines ≠ [] := by
  obtain ⟨i1, l1, h1, _⟩ := SetTextLoop_snoc s [] []
  have : (SetText ed s).mLines = i1 ++ [l1] := by simpa [SetText, Colorize] using h1
  rw [this]
  simp

theorem SetTextLines_nonempty (ed : Editor) (ls : List (List Char8)) :
    (SetTextLines ed ls).mLines ≠ [] := by
  unfold SetTextLines
  simp only [Colorize_mLines]
  cases ls with
  | nil => simp
  | cons a b => simp

/-- C2 (the code at the failing input): on the buffer `a`, `b` with the cursor at
`(0, 0)` and no selection, `Delete()` removes the `a` but records `a\nb` as the removed
text, so `Undo()` leaves the text `a\nb\nb` instead of `a\nb` (the EditorState is
restored). On `a<TAB>b` with the cursor after the tab, `Backspace()` records the
removed tab as starting at column 3, so `Undo()` leaves `ab<TAB>` instead of `a<TAB>b`. -/
theorem Undo_does_not_restore_text :
    GetText twoLines = Except.ok [97, 10, 98] ∧
    (Delete twoLines).map (fun e => (GetTextLines e, e.mUndoBuffer.map fun u => u.mRemoved))
      = Except.ok ([[], [98]], [[97, 10, 98]]) ∧
    (Delete twoLines >>= fun e => Undo e 1 >>= fun e1 =>
        (GetText e1).map fun t => (t, decide (e1.mState = twoLines.mState)))
      = Except.ok ([97, 10, 98, 10, 98], true) ∧
    (Backspace tabLineAfterTab >>= fun e => Undo e 1 >>= fun e1 =>
        (GetText e1).map fun t => (t, decide (e1.mState = tabLineAfterTab.mState)))
      = Except.ok ([97, 98, 9], true) :=
  ⟨by decide, by decide, by decide, by decide⟩

/-- C6: the buffer always holds at least one line. It holds exactly one after
construction; `SetText` and `SetTextLines` always leave at least one; and on a buffer
with at least one line, whenever `InsertTextAt`, `InsertLine`, `DeleteRange`, either
`RemoveLine`, `EnterCharacter`, `Delete`, `Backspace`, `Undo` or `Redo` returns (that
is, no assertion fails and no access leaves a vector), the buffer still holds at least
one line. A `RemoveLine` that would remove every line fails its assertion. -/
theorem buffer_keeps_a_line :
    Editor.init.mLines.length = 1 ∧
    (∀ (ed : Editor) (s : List Char8), (SetText ed s).mLines ≠ []) ∧
    (∀ (ed : Editor) (ls : List (List Char8)), (SetTextLines ed ls).mLines ≠ []) ∧
    (∀ (ed : Editor), ed.mLines ≠ [] →
      (∀ w t r, InsertTextAt ed w t = Except.ok r → r.1.mLines ≠ []) ∧
      (∀ k r, InsertLine ed k = Except.ok r → r.mLines ≠ []) ∧
      (∀ a b r, DeleteRange ed a b = Except.ok r → r.mLines ≠ []) ∧
      (∀ a b r, RemoveLineRange ed a b = Except.ok r → r.mLines ≠ []) ∧
      (∀ k r, RemoveLine ed k = Except.ok r → r.mLines ≠ []) ∧
      (∀ c sh r, EnterCharacter ed c sh = Except.ok r → r.mLines ≠ []) ∧
      (∀ r, Delete ed = Except.ok r → r.mLines ≠ []) ∧
      (∀ r, Backspace ed = Except.ok r → r.mLines ≠ []) ∧
      (∀ n r, Undo ed n = Except.ok r → r.mLines ≠ []) ∧
      (∀ n r, Redo ed n = Except.ok r → r.mLines ≠ [])) ∧
    (∀ (ed : Editor) (k : Int), ed.mReadOnly = false → ed.mLines.length ≤ 1 →
      RemoveLine ed k = Except.error Fault.assertion) ∧
    (∀ (ed : Editor) (a b : Int), ed.mReadOnly = false → a ≤ b →
      (ed.mLines.length : Int) ≤ b - a →
      RemoveLineRange ed a b = Except.error Fault.assertion) := by
  refine ⟨rfl, SetText_nonempty, SetTextLines_nonempty, fun ed h => ?_, ?_, ?_⟩
  · exact ⟨fun w t => InsertTextAt_nonempty ed w t h,
      fun k => InsertLine_nonempty ed k,
      fun a b => DeleteRange_nonempty ed a b h,
      fun a b => RemoveLineRange_nonempty ed a b,
      fun k => RemoveLine_nonempty ed k,
      fun c sh => EnterCharacter_nonempty ed c sh h,
      Delete_nonempty ed h,
      Backspace_nonempty ed h,
      fun n => UndoLoop_nonempty _ ed h,
      fun n => RedoLoop_nonempty _ ed h⟩
  · intro ed k hro hlen
    have h1 : ¬ (ed.mLines.length > 1) := by omega
    simp [RemoveLine, assertThat, hro, h1, bind, Except.bind, pure, Except.pure, throw,
      throwThe, MonadExceptOf.throw]
  · intro ed a b hro hab hlen
    have h1 : ¬ ((ed.mLines.length : Int) > b - a) := by omega
    simp [RemoveLineRange, assertThat, hro, hab, h1, bind, Except.bind, pure, Except.pure,
      throw, throwThe, MonadExceptOf.throw]

theorem buffer_keeps_a_line_witness :
    (twoLines.withCursor ⟨0, 1⟩).mLines ≠ [] ∧
    (Delete (twoLines.withCursor ⟨0, 1⟩)).map GetTextLines = Except.ok [[97, 98]] ∧
    ∀ r, Delete (twoLines.withCursor ⟨0, 1⟩) = Except.ok r → r.mLines ≠ [] :=
  ⟨by decide, by decide,
    (buffer_keeps_a_line.2.2.2.1 (twoLines.withCursor ⟨0, 1⟩) (by decide)).2.2.2.2.2.2.1⟩

/-- C7 (the code at the failing input): on `a<TAB>b` with the colorizer off,
`SetSelection((0,2), (0,2), Word)` returns with `mSelectionStart = (0,4)` and
`mSelectionEnd = (0,2)`: the start lies after the end. -/
theorem SetSelection_word_start_after_end :
    (SetSelection tabLinePlain ⟨0, 2⟩ ⟨0, 2⟩ SelectionMode.Word).map
        (fun e => (e.mState.mSelectionStart, e.mState.mSelectionEnd,
          e.mState.mSelectionStart.gt e.mState.mSelectionEnd))
      = Except.ok (⟨0, 4⟩, ⟨0, 2⟩, true) := by
  decide

theorem Coordinates.le_of_not_gt (a b : Coordinates) (h : a.gt b = false) : a.le b = true := by
  unfold Coordinates.gt at h
  unfold Coordinates.le
  split_ifs at h ⊢ with h1 <;>
    simp only [decide_eq_false_iff_not, decide_eq_true_eq] at h ⊢ <;> omega

theorem Coordinates.le_of_gt (a b : Coordinates) (h : a.gt b = true) : b.le a = true := by
  unfold Coordinates.gt at h
  unfold Coordinates.le
  split_ifs at h ⊢ with h1 h2 h2 <;>
    simp only [decide_eq_true_eq, ne_eq, not_not] at h h1 h2 ⊢ <;> omega

/-- In Normal mode `SetSelection` stores the two sanitized coordinates, smaller first. -/
theorem SetSelection_normal (ed : Editor) (a b s0 e0 : Coordinates)
    (hs : SanitizeCoordinates ed a = Except.ok s0)
    (he : SanitizeCoordinates ed b = Except.ok e0) :
    ∃ ed1, SetSelection ed a b SelectionMode.Normal = Except.ok ed1 ∧
      ed1.mState.mSelectionStart = (if s0.gt e0 then e0 else s0) ∧
      ed1.mState.mSelectionEnd = (if s0.gt e0 then s0 else e0) ∧
      ed1.mState.mSelectionStart.le ed1.mState.mSelectionEnd = true := by
  unfold SetSelection
  simp only [hs, he, bind, Except.bind, pure, Except.pure]
  cases hgt : s0.gt e0
  · have hle := Coordinates.le_of_not_gt s0 e0 hgt
    simp only [Bool.false_eq_true, if_false]
    split_ifs <;> exact ⟨_, rfl, rfl, rfl, hle⟩
  · have hle := Coordinates.le_of_gt s0 e0 hgt
    simp only [if_true]
    split_ifs <;> exact ⟨_, rfl, rfl, rfl, hle⟩

/-- C16: `SetTextLines(ls)` followed by `GetTextLines()` returns `ls` when `ls` is not
empty, and the single empty line when it is. -/
theorem SetTextLines_GetTextLines (ed : Editor) (ls : List (List Char8)) :
    GetTextLines (SetTextLines ed ls) = if ls.isEmpty then [[]] else ls := by
  have hline : ∀ l : List Char8,
      List.map (fun g : Glyph => g.mChar)
        (List.map (fun c => Glyph.mk2 c PaletteIndex.Default) l) = l := by
    intro l
    induction l with
    | nil => rfl
    | cons x xs ih =>
      rw [List.map_cons, List.map_cons, ih]
      rfl
  have hall : ∀ l : List (List Char8),
      List.map (fun line : Line => line.map fun g => g.mChar)
        (List.map (fun aLine : List Char8 =>
          aLine.map fun c => Glyph.mk2 c PaletteIndex.Default) l) = l := by
    intro l
    induction l with
    | nil => rfl
    | cons x xs ih => simp only [List.map_cons, ih, hline]
  unfold GetTextLines SetTextLines
  simp only [Colorize_mLines]
  cases ls with
  | nil => rfl
  | cons a b =>
    simp only [List.isEmpty_cons, Bool.false_eq_true, if_false]
    exact hall (a :: b)

/-- C15 (the code at the failing input): on the buffer `a`, `b`, `GetText((0,0), (0,1))`
returns `a\nb` and not `a`: the range ends at the end of the first line and the result
runs on into the second line. `GetSelectedText` with that selection and
`GetCurrentLineText` with the cursor on the first line return `a\nb` as well. -/
theorem GetText_range_runs_past_line_end :
    GetTextRange twoLines ⟨0, 0⟩ ⟨0, 1⟩ = Except.ok [97, 10, 98] ∧
    GetSelectedText (twoLines.withSelection ⟨0, 0⟩ ⟨0, 1⟩) = Except.ok [97, 10, 98] ∧
    GetCurrentLineText twoLines = Except.ok [97, 10, 98] :=
  ⟨by decide, by decide, by decide⟩

/-! ### The column walk and the walk of the specification -/

theorem specBoundaries_ne_nil (tabSize : Int) (l : List Char8) :
    ∀ (skip : Nat) (off col : Int), specBoundaries tabSize l skip off col ≠ [] := by
  induction l with
  | nil => intro skip off col; simp [specBoundaries]
  | cons b rest ih =>
    intro skip off col
    cases skip with
    | zero => simp [specBoundaries]
    | succ s => simpa [specBoundaries] using ih s (off + 1) col

theorem specBoundaries_skip (tabSize : Int) (l : List Char8) :
    ∀ (skip : Nat) (off col : Int),
    specBoundaries tabSize l skip off col
      = specBoundaries tabSize (l.drop skip) 0 (off + skip) col := by
  induction l with
  | nil => intro skip off col; simp [specBoundaries]
  | cons b rest ih =>
    intro skip off col
    cases skip with
    | zero => simp
    | succ s =>
      simp only [specBoundaries, List.drop_succ_cons]
      rw [ih s (off + 1) col]
      congr 1
      push_cast
      ring

theorem specBoundaries_cons (tabSize : Int) (b : Char8) (rest : List Char8) (off col : Int) :
    specBoundaries tabSize (b :: rest) 0 off col
      = (off, col) :: specBoundaries tabSize (rest.drop (UTF8CharLength b - 1).toNat) 0
          (off + UTF8CharLength b)
          (if b = 9 then specNextTabColumn tabSize col else col + 1) := by
  have hpos := UTF8CharLength_pos b
  simp only [specBoundaries]
  rw [specBoundaries_skip]
  congr 2
  omega

theorem getLastD_cons_of_ne_nil {α : Type} (x d : α) (l : List α) (h : l ≠ []) :
    (x :: l).getLastD d = l.getLastD d := by
  cases l with
  | nil => exact absurd rfl h
  | cons y ys => simp [List.getLastD]

theorem boundaryIndex_cons (q : Int × Int) (bs : List (Int × Int)) (h : bs ≠ []) (column : Int) :
    boundaryIndex (q :: bs) column = if column ≤ q.2 then q.1 else boundaryIndex bs column := by
  unfold boundaryIndex
  by_cases hc : column ≤ q.2
  · simp [List.find?, hc]
  · simp only [List.find?, hc, decide_False, if_false]
    rw [getLastD_cons_of_ne_nil _ _ _ h]

theorem boundaryColumn_cons (q : Int × Int) (bs : List (Int × Int)) (h : bs ≠ []) (index : Int) :
    boundaryColumn (q :: bs) index = if index ≤ q.1 then q.2 else boundaryColumn bs index := by
  unfold boundaryColumn
  by_cases hc : index ≤ q.1
  · simp [List.find?, hc]
  · simp only [List.find?, hc, decide_False, if_false]
    rw [getLastD_cons_of_ne_nil _ _ _ h]

theorem boundaryIndex_singleton (q : Int × Int) (column : Int) :
    boundaryIndex [q] column = q.1 := by
  unfold boundaryIndex
  by_cases hc : column ≤ q.2 <;> simp [List.find?, hc, List.getLastD]

theorem boundaryColumn_singleton (q : Int × Int) (index : Int) :
    boundaryColumn [q] index = q.2 := by
  unfold boundaryColumn
  by_cases hc : index ≤ q.1 <;> simp [List.find?, hc, List.getLastD]

theorem tabStop_eq_spec (tabSize col : Int) (ht : 1 ≤ tabSize) (hc : 0 ≤ col) :
    tabStop tabSize col = Except.ok (specNextTabColumn tabSize col) := by
  unfold tabStop specNextTabColumn
  have h0 : tabSize ≠ 0 := by omega
  rw [if_neg h0, Int.tdiv_eq_ediv hc (by omega)]
  simp only [pure, Except.pure]
  congr 1
  ring

theorem specNextTabColumn_gt (tabSize col : Int) (ht : 1 ≤ tabSize) :
    col < specNextTabColumn tabSize col := by
  unfold specNextTabColumn
  have h1 := Int.emod_add_ediv col tabSize
  have h2 := Int.emod_lt_of_pos col (show 0 < tabSize by omega)
  nlinarith [Int.emod_nonneg col (show tabSize ≠ 0 by omega)]

theorem lineChars_drop (line : Line) (i : Nat) :
    (lineChars line).drop i = lineChars (line.drop i) := by
  simp [lineChars, List.map_drop]

/-- The step of the three column loops at a byte index inside the line: the glyph read,
and the boundaries of the rest of the line in terms of the boundaries after it. -/
theorem boundaries_step (tabSize : Int) (line : Line) (i : Nat) (col : Int)
    (hi : i < line.length) :
    vecAt line (i : Int) = Except.ok (line.get ⟨i, hi⟩) ∧
    specBoundaries tabSize (lineChars (line.drop i)) 0 (i : Int) col
      = ((i : Int), col) ::
        specBoundaries tabSize
          (lineChars (line.drop (i + (UTF8CharLength (line.get ⟨i, hi⟩).mChar).toNat))) 0
          (((i + (UTF8CharLength (line.get ⟨i, hi⟩).mChar).toNat : Nat) : Int))
          (if (line.get ⟨i, hi⟩).mChar = 9 then specNextTabColumn tabSize col else col + 1) := by
  refine ⟨vecAt_natCast line i hi, ?_⟩
  have hpos := UTF8CharLength_pos (line.get ⟨i, hi⟩).mChar
  rw [List.drop_eq_getElem_cons hi]
  simp only [lineChars, List.map_cons]
  rw [specBoundaries_cons]
  simp only [List.get_eq_getElem]
  congr 2
  · rw [← List.map_drop, List.drop_drop]
    congr 2
    simp only [List.get_eq_getElem] at hpos
    omega
  · simp only [List.get_eq_getElem] at hpos
    omega

theorem boundaries_at_end (tabSize : Int) (line : Line) (i : Nat) (col : Int)
    (hi : line.length ≤ i) :
    specBoundaries tabSize (lineChars (line.drop i)) 0 (i : Int) col = [((i : Int), col)] := by
  rw [List.drop_eq_nil_of_le hi]
  simp [lineChars, specBoundaries]

theorem column_step_ok (tabSize col : Int) (c : Char8) (ht : 1 ≤ tabSize) (hc : 0 ≤ col) :
    (if c = 9 then tabStop tabSize col else pure (col + 1))
      = Except.ok (if c = 9 then specNextTabColumn tabSize col else col + 1) ∧
    0 ≤ (if c = 9 then specNextTabColumn tabSize col else col + 1) := by
  by_cases h9 : c = 9
  · simp only [if_pos h9]
    exact ⟨tabStop_eq_spec tabSize col ht hc, by
      have := specNextTabColumn_gt tabSize col ht
      omega⟩
  · simp only [if_neg h9]
    exact ⟨rfl, by omega⟩

theorem GetLineMaxColumnLoop_eq_spec (tabSize : Int) (line : Line) (ht : 1 ≤ tabSize)
    (fuel : Nat) : ∀ (i : Nat) (col : Int), line.length - i ≤ fuel → 0 ≤ col →
    GetLineMaxColumnLoop tabSize line fuel (i : Int) col
      = Except.ok
          ((specBoundaries tabSize (lineChars (line.drop i)) 0 (i : Int) col).getLastD (0, 0)).2 := by
  induction fuel with
  | zero =>
    intro i col hf _
    rw [boundaries_at_end tabSize line i col (by omega)]
    rfl
  | succ n ih =>
    intro i col hf hc
    by_cases hi : i < line.length
    · obtain ⟨hg, hb⟩ := boundaries_step tabSize line i col hi
      obtain ⟨hstep, hnn⟩ := column_step_ok tabSize col (line.get ⟨i, hi⟩).mChar ht hc
      have hpos := UTF8CharLength_pos (line.get ⟨i, hi⟩).mChar
      have hlt : (i : Int) < (line.length : Int) := by omega
      have hcast : (i : Int) + UTF8CharLength (line.get ⟨i, hi⟩).mChar
          = ((i + (UTF8CharLength (line.get ⟨i, hi⟩).mChar).toNat : Nat) : Int) := by omega
      have hrec := ih (i + (UTF8CharLength (line.get ⟨i, hi⟩).mChar).toNat) _ (by omega) hnn
      rw [hb, getLastD_cons_of_ne_nil _ _ _ (specBoundaries_ne_nil _ _ _ _ _), ← hrec, ← hcast]
      simp only [GetLineMaxColumnLoop, hlt, if_true, hg, bind, Except.bind]
      by_cases h9 : (line.get ⟨i, hi⟩).mChar = 9
      · rw [if_pos h9] at hstep
        simp only [if_pos h9, hstep]
      · rw [if_neg h9] at hstep
        simp only [if_neg h9, pure, Except.pure]
    · rw [boundaries_at_end tabSize line i col (by omega)]
      have hlt : ¬ ((i : Int) < (line.length : Int)) := by omega
      simp only [GetLineMaxColumnLoop, hlt, if_false]
      rfl

theorem GetCharacterIndexLoop_eq_spec (tabSize : Int) (line : Line) (aColumn : Int)
    (ht : 1 ≤ tabSize) (fuel : Nat) : ∀ (i : Nat) (c : Int), line.length - i ≤ fuel → 0 ≤ c →
    GetCharacterIndexLoop tabSize line aColumn fuel (i : Int) c
      = Except.ok
          (boundaryIndex (specBoundaries tabSize (lineChars (line.drop i)) 0 (i : Int) c)
            aColumn) := by
  induction fuel with
  | zero =>
    intro i c hf _
    rw [boundaries_at_end tabSize line i c (by omega), boundaryIndex_singleton]
    rfl
  | succ n ih =>
    intro i c hf hc
    by_cases hi : i < line.length
    · obtain ⟨hg, hb⟩ := boundaries_step tabSize line i c hi
      obtain ⟨hstep, hnn⟩ := column_step_ok tabSize c (line.get ⟨i, hi⟩).mChar ht hc
      have hpos := UTF8CharLength_pos (line.get ⟨i, hi⟩).mChar
      have hlt : (i : Int) < (line.length : Int) := by omega
      have hcast : (i : Int) + UTF8CharLength (line.get ⟨i, hi⟩).mChar
          = ((i + (UTF8CharLength (line.get ⟨i, hi⟩).mChar).toNat : Nat) : Int) := by omega
      have hrec := ih (i + (UTF8CharLength (line.get ⟨i, hi⟩).mChar).toNat) _ (by omega) hnn
      rw [hb, boundaryIndex_cons _ _ (specBoundaries_ne_nil _ _ _ _ _)]
      by_cases hcol : c < aColumn
      · have hn : ¬ (aColumn ≤ c) := by omega
        simp only [hn, if_false]
        rw [← hrec, ← hcast]
        simp only [GetCharacterIndexLoop, hlt, hcol, and_self, if_true, hg, bind, Except.bind]
        by_cases h9 : (line.get ⟨i, hi⟩).mChar = 9
        · rw [if_pos h9] at hstep
          simp only [if_pos h9, hstep]
        · rw [if_neg h9] at hstep
          simp only [if_neg h9, pure, Except.pure]
      · have hn : aColumn ≤ c := by omega
        simp only [hn, if_true, GetCharacterIndexLoop, hcol, and_false, if_false]
        rfl
    · rw [boundaries_at_end tabSize line i c (by omega), boundaryIndex_singleton]
      have hlt : ¬ ((i : Int) < (line.length : Int)) := by omega
      simp only [GetCharacterIndexLoop, hlt, false_and, if_false]
      rfl

theorem GetCharacterColumnLoop_eq_spec (tabSize : Int) (line : Line) (aIndex : Int)
    (ht : 1 ≤ tabSize) (fuel : Nat) : ∀ (i : Nat) (col : Int), line.length - i ≤ fuel →
    0 ≤ col →
    GetCharacterColumnLoop tabSize line aIndex fuel (i : Int) col
      = Except.ok
          (boundaryColumn (specBoundaries tabSize (lineChars (line.drop i)) 0 (i : Int) col)
            aIndex) := by
  induction fuel with
  | zero =>
    intro i col hf _
    rw [boundaries_at_end tabSize line i col (by omega), boundaryColumn_singleton]
    rfl
  | succ n ih =>
    intro i col hf hc
    by_cases hi : i < line.length
    · obtain ⟨hg, hb⟩ := boundaries_step tabSize line i col hi
      obtain ⟨hstep, hnn⟩ := column_step_ok tabSize col (line.get ⟨i, hi⟩).mChar ht hc
      have hpos := UTF8CharLength_pos (line.get ⟨i, hi⟩).mChar
      have hlt : (i : Int) < (line.length : Int) := by omega
      have hcast : (i : Int) + UTF8CharLength (line.get ⟨i, hi⟩).mChar
          = ((i + (UTF8CharLength (line.get ⟨i, hi⟩).mChar).toNat : Nat) : Int) := by omega
      have hrec := ih (i + (UTF8CharLength (line.get ⟨i, hi⟩).mChar).toNat) _ (by omega) hnn
      rw [hb, boundaryColumn_cons _ _ (specBoundaries_ne_nil _ _ _ _ _)]
      by_cases hidx : (i : Int) < aIndex
      · have hn : ¬ (aIndex ≤ (i : Int)) := by omega
        simp only [hn, if_false]
        rw [← hrec, ← hcast]
        simp only [GetCharacterColumnLoop, hlt, hidx, and_self, if_true, hg, bind, Except.bind]
        by_cases h9 : (line.get ⟨i, hi⟩).mChar = 9
        · rw [if_pos h9] at hstep
          simp only [if_pos h9, hstep]
        · rw [if_neg h9] at hstep
          simp only [if_neg h9, pure, Except.pure]
      · have hn : aIndex ≤ (i : Int) := by omega
        simp only [hn, if_true, GetCharacterColumnLoop, hidx, false_and, if_false]
        rfl
    · rw [boundaries_at_end tabSize line i col (by omega), boundaryColumn_singleton]
      have hlt : ¬ ((i : Int) < (line.length : Int)) := by omega
      simp only [GetCharacterColumnLoop, hlt, and_false, if_false]
      rfl

theorem specBoundaries_lower (tabSize : Int) (ht : 1 ≤ tabSize) (l : List Char8) :
    ∀ (skip : Nat) (off col : Int) (q : Int × Int),
      q ∈ specBoundaries tabSize l skip off col → off ≤ q.1 ∧ col ≤ q.2 := by
  induction l with
  | nil =>
    intro skip off col q hq
    simp only [specBoundaries, List.mem_singleton] at hq
    subst hq
    exact ⟨by simp, le_refl _⟩
  | cons b rest ih =>
    intro skip off col q hq
    cases skip with
    | zero =>
      simp only [specBoundaries, List.mem_cons] at hq
      rcases hq with hq | hq
      · subst hq
        exact ⟨le_refl _, le_refl _⟩
      · have h := ih _ _ _ q hq
        have hgt := specNextTabColumn_gt tabSize col ht
        by_cases h9 : b = 9
        · simp only [if_pos h9] at h
          omega
        · simp only [if_neg h9] at h
          omega
    | succ k =>
      simp only [specBoundaries] at hq
      have h := ih _ _ _ q hq
      omega

theorem specBoundaries_inverse (tabSize : Int) (ht : 1 ≤ tabSize) (l : List Char8) :
    ∀ (skip : Nat) (off col : Int) (q : Int × Int),
      q ∈ specBoundaries tabSize l skip off col →
      boundaryIndex (specBoundaries tabSize l skip off col) q.2 = q.1 ∧
      boundaryColumn (specBoundaries tabSize l skip off col) q.1 = q.2 := by
  induction l with
  | nil =>
    intro skip off col q hq
    simp only [specBoundaries, List.mem_singleton] at hq
    subst hq
    simp only [specBoundaries]
    exact ⟨boundaryIndex_singleton _ _, boundaryColumn_singleton _ _⟩
  | cons b rest ih =>
    intro skip off col q hq
    cases skip with
    | zero =>
      simp only [specBoundaries, List.mem_cons] at hq
      simp only [specBoundaries]
      rw [boundaryIndex_cons _ _ (specBoundaries_ne_nil _ _ _ _ _),
        boundaryColumn_cons _ _ (specBoundaries_ne_nil _ _ _ _ _)]
      rcases hq with hq | hq
      · subst hq
        simp
      · have hlow := specBoundaries_lower tabSize ht rest _ _ _ q hq
        have h := ih _ _ _ q hq
        have hgt := specNextTabColumn_gt tabSize col ht
        have h1 : ¬ (q.1 ≤ off) := by omega
        have h2 : ¬ (q.2 ≤ col) := by
          by_cases h9 : b = 9
          · simp only [if_pos h9] at hlow
            omega
          · simp only [if_neg h9] at hlow
            omega
        simp only [h1, h2, if_false]
        exact h
    | succ k =>
      simp only [specBoundaries] at hq
      simp only [specBoundaries]
      exact ih _ _ _ q hq

theorem line_at (ed : Editor) (l : Nat) (hl : l < ed.mLines.length) :
    ¬ (((l : Int) < 0) ∨ (ed.mLines.length : Int) ≤ (l : Int)) ∧
    vecAt ed.mLines (l : Int) = Except.ok (ed.mLines.get ⟨l, hl⟩) :=
  ⟨by omega, vecAt_natCast ed.mLines l hl⟩

theorem GetLineMaxColumn_eq_spec (ed : Editor) (l : Nat) (hl : l < ed.mLines.length)
    (ht : 1 ≤ ed.mTabSize) :
    GetLineMaxColumn ed (l : Int)
      = Except.ok (specLineMaxColumn ed.mTabSize (ed.mLines.get ⟨l, hl⟩)) := by
  obtain ⟨hr, hv⟩ := line_at ed l hl
  have h := GetLineMaxColumnLoop_eq_spec ed.mTabSize (ed.mLines.get ⟨l, hl⟩) ht
    (ed.mLines.get ⟨l, hl⟩).length 0 0 (by omega) (le_refl _)
  simp only [GetLineMaxColumn, hr, if_false, hv, bind, Except.bind]
  exact h

theorem GetCharacterIndex_eq_spec (ed : Editor) (l : Nat) (hl : l < ed.mLines.length)
    (ht : 1 ≤ ed.mTabSize) (column : Int) :
    GetCharacterIndex ed ⟨(l : Int), column⟩
      = Except.ok (specCharacterIndex ed.mTabSize (ed.mLines.get ⟨l, hl⟩) column) := by
  obtain ⟨hr, hv⟩ := line_at ed l hl
  have h := GetCharacterIndexLoop_eq_spec ed.mTabSize (ed.mLines.get ⟨l, hl⟩) column ht
    (ed.mLines.get ⟨l, hl⟩).length 0 0 (by omega) (le_refl _)
  simp only [GetCharacterIndex, hr, if_false, hv, bind, Except.bind]
  exact h

theorem GetCharacterColumn_eq_spec (ed : Editor) (l : Nat) (hl : l < ed.mLines.length)
    (ht : 1 ≤ ed.mTabSize) (index : Int) :
    GetCharacterColumn ed (l : Int) index
      = Except.ok (specCharacterColumn ed.mTabSize (ed.mLines.get ⟨l, hl⟩) index) := by
  obtain ⟨hr, hv⟩ := line_at ed l hl
  have h := GetCharacterColumnLoop_eq_spec ed.mTabSize (ed.mLines.get ⟨l, hl⟩) index ht
    (ed.mLines.get ⟨l, hl⟩).length 0 0 (by omega) (le_refl _)
  simp only [GetCharacterColumn, hr, if_false, hv, bind, Except.bind]
  exact h

/-- C11: for every line of the buffer and every tab size of at least 1, `GetLineMaxColumn`
returns the column the left-to-right scan of the specification ends at (plus 1 for a
character that is not a tab, the next multiple of the tab size for a tab), and
`GetCharacterIndex` returns the byte offset of the first character boundary whose column
reaches the coordinate's column (the last boundary when none does); for the line
`a<TAB>b` with tab size 4 the maximal column is 5 and column 4 has byte index 2. -/
theorem column_walk_refines_scan (ed : Editor) (l : Nat) (hl : l < ed.mLines.length)
    (ht : 1 ≤ ed.mTabSize) :
    GetLineMaxColumn ed (l : Int)
      = Except.ok (specLineMaxColumn ed.mTabSize (ed.mLines.get ⟨l, hl⟩)) ∧
    (∀ column : Int, GetCharacterIndex ed ⟨(l : Int), column⟩
      = Except.ok (specCharacterIndex ed.mTabSize (ed.mLines.get ⟨l, hl⟩) column)) ∧
    (tabLinePlain.mTabSize = 4 ∧ GetTextLines tabLinePlain = [[97, 9, 98]] ∧
      GetLineMaxColumn tabLinePlain 0 = Except.ok 5 ∧
      GetCharacterIndex tabLinePlain ⟨0, 4⟩ = Except.ok 2) :=
  ⟨GetLineMaxColumn_eq_spec ed l hl ht, GetCharacterIndex_eq_spec ed l hl ht,
    by decide, by decide, by decide, by decide⟩

theorem column_walk_refines_scan_witness :
    GetLineMaxColumn tabLinePlain ((0 : Nat) : Int)
      = Except.ok (specLineMaxColumn tabLinePlain.mTabSize
          (tabLinePlain.mLines.get ⟨0, by decide⟩)) ∧
    specLineMaxColumn tabLinePlain.mTabSize (tabLinePlain.mLines.get ⟨0, by decide⟩) = 5 ∧
    specCharacterIndex tabLinePlain.mTabSize (tabLinePlain.mLines.get ⟨0, by decide⟩) 4 = 2 :=
  ⟨(column_walk_refines_scan tabLinePlain 0 (by decide) (by decide)).1, by decide, by decide⟩

/-- C12: `GetCharacterColumn` inverts `GetCharacterIndex` on character boundaries: for
every tab size of at least 1, every line of the buffer and every boundary of that line
(byte offset `q.1`, reached from 0 by stepping lead-byte lengths, at column `q.2`),
`GetCharacterColumn` of the offset is the column and `GetCharacterIndex` of that column
is the offset again. -/
theorem GetCharacterColumn_inverts_index (ed : Editor) (l : Nat) (hl : l < ed.mLines.length)
    (ht : 1 ≤ ed.mTabSize) (q : Int × Int)
    (hq : q ∈ lineBoundaries ed.mTabSize (ed.mLines.get ⟨l, hl⟩)) :
    GetCharacterColumn ed (l : Int) q.1 = Except.ok q.2 ∧
    GetCharacterIndex ed ⟨(l : Int), q.2⟩ = Except.ok q.1 := by
  obtain ⟨h1, h2⟩ := specBoundaries_inverse ed.mTabSize ht _ 0 0 0 q hq
  rw [GetCharacterColumn_eq_spec ed l hl ht, GetCharacterIndex_eq_spec ed l hl ht]
  exact ⟨congrArg Except.ok h2, congrArg Except.ok h1⟩

theorem GetCharacterColumn_inverts_index_witness :
    ((2 : Int), (4 : Int)) ∈ lineBoundaries tabLinePlain.mTabSize
        (tabLinePlain.mLines.get ⟨0, by decide⟩) ∧
    GetCharacterColumn tabLinePlain ((0 : Nat) : Int) 2 = Except.ok 4 ∧
    GetCharacterIndex tabLinePlain ⟨((0 : Nat) : Int), 4⟩ = Except.ok 2 :=
  ⟨by decide,
    GetCharacterColumn_inverts_index tabLinePlain 0 (by decide) (by decide) (2, 4) (by decide)⟩

/-! ### Calls that return -/

theorem Res.yields_bind {α β : Type} {x : Res α} {f : α → Res β} {P : α → Prop}
    {Q : β → Prop} (hx : Res.yields x P) (hf : ∀ a, P a → Res.yields (f a) Q) :
    Res.yields (x >>= f) Q := by
  obtain ⟨a, ha, hp⟩ := hx
  obtain ⟨b, hb, hq⟩ := hf a hp
  exact ⟨b, by rw [ha]; exact hb, hq⟩

theorem Res.yields_pure {α : Type} {a : α} {P : α → Prop} (h : P a) :
    Res.yields (pure a : Res α) P :=
  ⟨a, rfl, h⟩

theorem Res.yields_of_eq {α : Type} {x : Res α} {a : α} {P : α → Prop}
    (hx : x = Except.ok a) (h : P a) : Res.yields x P :=
  ⟨a, hx, h⟩

theorem Res.yields_mono {α : Type} {x : Res α} {P Q : α → Prop}
    (hx : Res.yields x P) (h : ∀ a, P a → Q a) : Res.yields x Q := by
  obtain ⟨a, ha, hp⟩ := hx
  exact ⟨a, ha, h a hp⟩

theorem assertThat_true : assertThat true = Except.ok () := rfl

theorem vecInsert_append {α : Type} (pre post : List α) (x : α) (i : Int)
    (hi : i = pre.length) :
    vecInsert (pre ++ post) i x = Except.ok (pre ++ x :: post) := by
  subst hi
  unfold vecInsert
  have h : ¬ (((pre.length : Int) < 0) ∨ (((pre ++ post).length : Int) < (pre.length : Int))) := by
    simp only [List.length_append, Nat.cast_add]
    omega
  rw [if_neg h]
  simp [pure, Except.pure]

theorem vecSet_append {α : Type} (pre post : List α) (x y : α) (i : Int)
    (hi : i = pre.length) :
    vecSet (pre ++ x :: post) i y = Except.ok (pre ++ y :: post) := by
  subst hi
  unfold vecSet
  have h : ¬ (((pre.length : Int) < 0) ∨
      (((pre ++ x :: post).length : Int) ≤ (pre.length : Int))) := by
    simp only [List.length_append, List.length_cons, Nat.cast_add, Nat.cast_one]
    omega
  rw [if_neg h]
  simp [pure, Except.pure]

theorem vecAt_append {α : Type} (pre post : List α) (x : α) (i : Int)
    (hi : i = pre.length) : vecAt (pre ++ x :: post) i = Except.ok x := by
  subst hi
  exact vecAt_append_length pre post x

theorem vecFrom_append {α : Type} (a b : List α) (i : Int) (hi : i = a.length) :
    vecFrom (a ++ b) i = Except.ok b := by
  subst hi
  unfold vecFrom
  have h : ¬ (((a.length : Int) < 0) ∨ (((a ++ b).length : Int) < (a.length : Int))) := by
    simp only [List.length_append, Nat.cast_add]
    omega
  rw [if_neg h]
  simp [pure, Except.pure]

theorem vecEraseRange_nat {α : Type} (v : List α) (a b : Nat) (hab : a ≤ b)
    (hb : b ≤ v.length) :
    vecEraseRange v (a : Int) (b : Int) = Except.ok (v.take a ++ v.drop b) := by
  unfold vecEraseRange
  have h : ¬ (((a : Int) < 0) ∨ ((b : Int) < (a : Int)) ∨ ((v.length : Int) < (b : Int))) := by
    omega
  rw [if_neg h]
  simp [pure, Except.pure]

theorem vecEraseRange_append_end {α : Type} (a b : List α) (i j : Int) (hi : i = a.length)
    (hj : j = (a ++ b).length) : vecEraseRange (a ++ b) i j = Except.ok a := by
  subst hi
  subst hj
  rw [vecEraseRange_nat _ _ _ (by simp) (le_refl _)]
  simp

theorem InsertLine_lines (ed : Editor) (pre post : Lines) (i : Int)
    (hro : ed.mReadOnly = false) (hl : ed.mLines = pre ++ post) (hi : i = pre.length) :
    ∃ e1, InsertLine ed i = Except.ok e1 ∧ e1.mLines = pre ++ [] :: post ∧
      e1.mReadOnly = false := by
  unfold InsertLine
  simp only [hro, assertThat, Bool.not_false, if_true, hl, vecInsert_append pre post [] i hi,
    bind, Except.bind, pure, Except.pure]
  exact ⟨_, rfl, rfl, rfl⟩

theorem setLine_lines (ed : Editor) (pre post : Lines) (x y : Line) (i : Int)
    (hl : ed.mLines = pre ++ x :: post) (hi : i = pre.length) :
    setLine ed i y = Except.ok { ed with mLines := pre ++ y :: post } := by
  unfold setLine
  simp only [hl, vecSet_append pre post x y i hi, bind, Except.bind, pure, Except.pure]

theorem setLine_yields (ed : Editor) (pre post : Lines) (x y : Line) (i : Int)
    (hl : ed.mLines = pre ++ x :: post) (hi : i = pre.length) :
    ∃ e1, setLine ed i y = Except.ok e1 ∧ e1.mLines = pre ++ y :: post ∧
      e1.mReadOnly = ed.mReadOnly :=
  ⟨_, setLine_lines ed pre post x y i hl hi, rfl, rfl⟩

theorem unlinesAll_append (xs ys : Lines) :
    unlinesAll (xs ++ ys) = unlinesAll xs ++ unlinesAll ys := by
  simp [unlinesAll]

theorem unlinesAll_cons (x : Line) (ys : Lines) :
    unlinesAll (x :: ys) = lineChars x ++ [10] ++ unlinesAll ys := by
  simp [unlinesAll]

theorem lineChars_append (a b : Line) : lineChars (a ++ b) = lineChars a ++ lineChars b := by
  simp [lineChars]

theorem unlinesAll_spliceLines (t : List Char8) : ∀ (a b : Line),
    unlinesAll (spliceLines t a b)
      = lineChars a ++ t.filter (fun c => decide (c ≠ 13)) ++ lineChars b ++ [10] := by
  induction t with
  | nil =>
    intro a b
    simp [spliceLines, unlinesAll, lineChars]
  | cons c rest ih =>
    intro a b
    by_cases h13 : c = 13
    · simp [spliceLines, h13, ih]
    · by_cases h10 : c = 10
      · subst h10
        simp [spliceLines, unlinesAll_cons, ih, lineChars]
      · simp [spliceLines, h13, h10, ih, lineChars, Glyph.mk2]

theorem length_spliceLines (t : List Char8) : ∀ (a b : Line),
    (spliceLines t a b).length = t.count 10 + 1 := by
  induction t with
  | nil => intro a b; simp [spliceLines]
  | cons c rest ih =>
    intro a b
    by_cases h13 : c = 13
    · subst h13
      simp [spliceLines, ih]
    · by_cases h10 : c = 10
      · subst h10
        simp [spliceLines, ih]
      · have hne : ¬ ((c == 10) = true) := by simpa using h10
        simp [spliceLines, h13, h10, ih, List.count_cons, hne]

/-- The newline case of `InsertTextAt`: the line `a ++ b` with the index between `a` and
`b` becomes the two lines `a` and `b`. -/
theorem InsertLine_split (ed : Editor) (pre post : Lines) (a b : Line) (i : Int)
    (hro : ed.mReadOnly = false) (hl : ed.mLines = pre ++ (a ++ b) :: post)
    (hi : i = pre.length) :
    ∃ e1, InsertLine ed (i + 1) = Except.ok e1 ∧ e1.mLines = pre ++ (a ++ b) :: [] :: post ∧
      e1.mReadOnly = false := by
  have hl2 : ed.mLines = (pre ++ [a ++ b]) ++ post := by simp [hl]
  obtain ⟨e1, h1, h2, h3⟩ := InsertLine_lines ed (pre ++ [a ++ b]) post (i + 1) hro hl2
    (by simp [hi])
  exact ⟨e1, h1, by simp [h2], h3⟩

theorem InsertTextAtLoop_splice (t : List Char8) : ∀ (fuel : Nat) (ed : Editor)
    (pre post : Lines) (a b : Line) (w : Coordinates) (cindex total : Int),
    t.length ≤ fuel → (∀ c ∈ t, c ≠ 0 ∧ UTF8CharLength c = 1) → ed.mReadOnly = false →
    ed.mLines = pre ++ (a ++ b) :: post → w.mLine = pre.length → cindex = a.length →
    ∃ e' w', InsertTextAtLoop fuel t ed w cindex total
        = Except.ok (e', w', total + (t.count 10 : Int)) ∧
      e'.mLines = pre ++ spliceLines t a b ++ post := by
  induction t with
  | nil =>
    intro fuel ed pre post a b w cindex total _ _ _ hl _ _
    refine ⟨ed, w, ?_, by simp [spliceLines, hl]⟩
    cases fuel <;> simp [InsertTextAtLoop, pure, Except.pure]
  | cons c rest ih =>
    intro fuel ed pre post a b w cindex total hf ht hro hl hw hc
    obtain ⟨n, rfl⟩ : ∃ n, fuel = n + 1 := ⟨fuel - 1, by simp at hf; omega⟩
    have hn : rest.length ≤ n := by simp at hf; omega
    have hc0 : c ≠ 0 := (ht c (List.mem_cons_self _ _)).1
    have hc1 : UTF8CharLength c = 1 := (ht c (List.mem_cons_self _ _)).2
    have hrest : ∀ x ∈ rest, x ≠ 0 ∧ UTF8CharLength x = 1 :=
      fun x hx => ht x (List.mem_cons_of_mem _ hx)
    have hne : (!ed.mLines.isEmpty) = true := by simp [hl]
    simp only [InsertTextAtLoop, if_neg hc0, hne, assertThat_true, bind, Except.bind]
    by_cases h13 : c = 13
    · subst h13
      obtain ⟨e', w', h1, h2⟩ := ih n { ed with mTextChanged := true } pre post a b w cindex
        total hn hrest hro hl hw hc
      refine ⟨e', w', ?_, by simpa [spliceLines] using h2⟩
      simp only [if_true]
      rw [h1]
      simp
    · by_cases h10 : c = 10
      · subst h10
        simp only [if_neg h13, if_true]
        rw [hl, vecAt_append pre post (a ++ b) w.mLine hw]
        simp only []
        have hstep : ∃ ed2, (if cindex < ((a ++ b).length : Int) then
              (do
                let ed1 ← InsertLine ed (w.mLine + 1)
                let line ← vecAt ed1.mLines w.mLine
                let tail ← vecFrom line cindex
                let kept ← vecEraseRange line cindex (line.length : Int)
                let ed1a ← setLine ed1 (w.mLine + 1) tail
                setLine ed1a w.mLine kept)
              else InsertLine ed (w.mLine + 1)) = Except.ok ed2 ∧
            ed2.mLines = pre ++ a :: b :: post ∧ ed2.mReadOnly = false := by
          obtain ⟨e1, h1, h2, h3⟩ := InsertLine_split ed pre post a b w.mLine hro hl hw
          by_cases hlt : cindex < ((a ++ b).length : Int)
          · rw [if_pos hlt]
            have hs1 := setLine_lines e1 (pre ++ [a ++ b]) post [] b (w.mLine + 1)
              (by simp [h2]) (by simp [hw])
            have hs2 := setLine_lines { e1 with mLines := (pre ++ [a ++ b]) ++ b :: post } pre
              (b :: post) (a ++ b) a w.mLine (by simp) hw
            refine ⟨{ e1 with mLines := pre ++ a :: b :: post }, ?_, rfl, h3⟩
            simp only [h1, bind, Except.bind, h2, vecAt_append pre ([] :: post) (a ++ b) w.mLine hw,
              vecFrom_append a b cindex hc, vecEraseRange_append_end a b cindex _ hc rfl, hs1,
              hs2]
          · rw [if_neg hlt]
            have hb : b = [] := by
              cases b with
              | nil => rfl
              | cons x xs =>
                exfalso
                apply hlt
                simp only [List.length_append, List.length_cons, Nat.cast_add, Nat.cast_one]
                omega
            subst hb
            refine ⟨e1, h1, ?_, h3⟩
            simpa using h2
        obtain ⟨ed2, hs, hl2, hro2⟩ := hstep
        simp only [bind, Except.bind] at hs
        rw [hs]
        simp only []
        obtain ⟨e', w', h1, h2⟩ := ih n { ed2 with mTextChanged := true } (pre ++ [a]) post [] b
          ⟨w.mLine + 1, 0⟩ 0 (total + 1) hn hrest hro2 (by simp [hl2]) (by simp [hw]) (by simp)
        refine ⟨e', w', ?_, ?_⟩
        · rw [h1]
          simp only [List.count_cons_self, Nat.cast_add, Nat.cast_one]
          congr 3
          omega
        · rw [h2]
          simp [spliceLines]
      · simp only [if_neg h13, if_neg h10]
        rw [hl, vecAt_append pre post (a ++ b) w.mLine hw]
        simp only [hc1]
        have hbytes : InsertTextAtBytes (1 : Int).toNat (c :: rest) (a ++ b) cindex
            = Except.ok (a ++ Glyph.mk2 c PaletteIndex.Default :: b, cindex + 1, rest) := by
          have h1 : (1 : Int).toNat = 0 + 1 := rfl
          rw [h1]
          simp only [InsertTextAtBytes, if_neg hc0, vecInsert_append a b _ cindex hc, bind,
            Except.bind, pure, Except.pure]
        rw [hbytes]
        simp only []
        rw [setLine_lines ed pre post (a ++ b) _ w.mLine hl hw]
        simp only []
        obtain ⟨e', w', h1, h2⟩ := ih n
          { { ed with mLines := pre ++ (a ++ Glyph.mk2 c PaletteIndex.Default :: b) :: post } with
            mTextChanged := true }
          pre post (a ++ [Glyph.mk2 c PaletteIndex.Default]) b
          { w with mColumn := w.mColumn + 1 } (cindex + 1) total hn hrest hro (by simp) hw
          (by simp [hc])
        refine ⟨e', w', ?_, ?_⟩
        · rw [h1]
          have hcount : (c :: rest).count 10 = rest.count 10 := by
            rw [List.count_cons_of_ne (fun h => h10 h.symm)]
          rw [hcount]
        · rw [h2]
          simp [spliceLines, h13, h10]

theorem GetText_dropLast (ed : Editor) (h : ed.mLines ≠ []) :
    GetText ed = Except.ok (unlinesAll ed.mLines).dropLast := by
  have hsplit := (List.dropLast_append_getLast h).symm
  rw [GetText_eq ed _ _ hsplit]
  congr 1
  have h2 : unlinesAll ed.mLines
      = (unlinesAll ed.mLines.dropLast ++ lineChars (ed.mLines.getLast h)) ++ [10] := by
    conv_lhs => rw [hsplit]
    simp [unlinesAll]
  rw [h2, List.dropLast_concat]

theorem specInsertAt_append (x y t : List Char8) (n : Nat) (hn : n = x.length) :
    specInsertAt (x ++ y) n t = x ++ t ++ y := by
  subst hn
  simp [specInsertAt]

theorem lines_split (lines : Lines) (l : Nat) (hl : l < lines.length) :
    lines = lines.take l ++ lines.get ⟨l, hl⟩ :: lines.drop (l + 1) ∧
    (lines.take l).length = l := by
  refine ⟨?_, by simp; omega⟩
  conv_lhs => rw [← List.take_append_drop l lines, List.drop_eq_getElem_cons hl]
  rfl

theorem GetCharacterIndex_boundary (ed : Editor) (l : Nat) (hl : l < ed.mLines.length)
    (ht : 1 ≤ ed.mTabSize) (q : Int × Int)
    (hq : q ∈ lineBoundaries ed.mTabSize (ed.mLines.get ⟨l, hl⟩)) :
    GetCharacterIndex ed ⟨(l : Int), q.2⟩ = Except.ok q.1 := by
  rw [GetCharacterIndex_eq_spec ed l hl ht]
  exact congrArg Except.ok (specBoundaries_inverse ed.mTabSize ht _ 0 0 0 q hq).1

/-- C13: for every buffer that is not read-only (tab size at least 1), every coordinate
`(l, column)` on a character boundary of a line of the buffer (byte index `k` inside the
line) and every text `t` of single-byte characters, `InsertTextAt` returns; the full text
of the buffer is then the old text with `t`, every carriage return left out, put in at
the position of the coordinate; the value returned is the number of newlines of `t`,
which is the number of lines the buffer gained. For the buffer `ab`, the coordinate
`(0, 1)` and the text of one newline, the result is the lines `a`, `b` and the value 1. -/
theorem InsertTextAt_inserts_text (ed : Editor) (l k : Nat) (column : Int)
    (t old : List Char8) (hro : ed.mReadOnly = false) (ht : 1 ≤ ed.mTabSize)
    (hl : l < ed.mLines.length)
    (hb : ((k : Int), column) ∈ lineBoundaries ed.mTabSize (ed.mLines.get ⟨l, hl⟩))
    (hk : k ≤ (ed.mLines.get ⟨l, hl⟩).length)
    (hsingle : ∀ c ∈ t, c ≠ 0 ∧ UTF8CharLength c = 1)
    (hold : GetText ed = Except.ok old) :
    (∃ e' w', InsertTextAt ed ⟨(l : Int), column⟩ t = Except.ok (e', w', (t.count 10 : Int)) ∧
      GetText e' = Except.ok (specInsertAt old (textOffset ed.mLines l k)
        (t.filter (fun c => decide (c ≠ 13)))) ∧
      e'.mLines.length = ed.mLines.length + t.count 10) ∧
    (InsertTextAt oneLineAb ⟨0, 1⟩ [10]).map (fun r => (GetTextLines r.1, r.2.2))
      = Except.ok ([[97], [98]], 1) := by
  refine ⟨?_, by decide⟩
  obtain ⟨hsplit, hprelen⟩ := lines_split ed.mLines l hl
  have hne : ed.mLines ≠ [] := by
    intro h
    rw [h] at hl
    exact absurd hl (by simp)
  have hline : ed.mLines.get ⟨l, hl⟩
      = (ed.mLines.get ⟨l, hl⟩).take k ++ (ed.mLines.get ⟨l, hl⟩).drop k :=
    (List.take_append_drop k _).symm
  have halen : ((ed.mLines.get ⟨l, hl⟩).take k).length = k := by
    simp only [List.length_take]
    omega
  have hlines : ed.mLines = ed.mLines.take l ++
      ((ed.mLines.get ⟨l, hl⟩).take k ++ (ed.mLines.get ⟨l, hl⟩).drop k)
        :: ed.mLines.drop (l + 1) := by
    rw [← hline]
    exact hsplit
  have hidx := GetCharacterIndex_boundary ed l hl ht _ hb
  obtain ⟨e', w', hrun, hres⟩ := InsertTextAtLoop_splice t t.length ed (ed.mLines.take l)
    (ed.mLines.drop (l + 1)) ((ed.mLines.get ⟨l, hl⟩).take k)
    ((ed.mLines.get ⟨l, hl⟩).drop k) ⟨(l : Int), column⟩ (k : Int) 0 (le_refl _) hsingle hro
    hlines (by simp only [hprelen]) (by simp only [halen])
  have hne2 : e'.mLines ≠ [] := by
    rw [hres]
    intro habs
    have hlen := congrArg List.length habs
    simp only [List.length_append, List.length_nil, length_spliceLines] at hlen
    omega
  refine ⟨e', w', ?_, ?_, ?_⟩
  · unfold InsertTextAt
    simp only [hro, Bool.not_false, assertThat_true, bind, Except.bind, hidx]
    rw [hrun]
    simp
  · rw [GetText_dropLast ed hne] at hold
    have hold2 : old = (unlinesAll ed.mLines).dropLast := by
      injection hold with h
      exact h.symm
    rw [GetText_dropLast e' hne2, hres, hold2]
    congr 1
    have hstart : unlinesAll ed.mLines
        = (unlinesAll (ed.mLines.take l) ++ lineChars ((ed.mLines.get ⟨l, hl⟩).take k)) ++
          (lineChars ((ed.mLines.get ⟨l, hl⟩).drop k) ++ [10] ++
            unlinesAll (ed.mLines.drop (l + 1))) := by
      have h := congrArg unlinesAll hlines
      rw [unlinesAll_append, unlinesAll_cons, lineChars_append] at h
      exact h.trans (by simp only [List.append_assoc])
    have hnew : unlinesAll (ed.mLines.take l ++
          spliceLines t ((ed.mLines.get ⟨l, hl⟩).take k) ((ed.mLines.get ⟨l, hl⟩).drop k) ++
          ed.mLines.drop (l + 1))
        = (unlinesAll (ed.mLines.take l) ++ lineChars ((ed.mLines.get ⟨l, hl⟩).take k)) ++
          t.filter (fun c => decide (c ≠ 13)) ++
          (lineChars ((ed.mLines.get ⟨l, hl⟩).drop k) ++ [10] ++
            unlinesAll (ed.mLines.drop (l + 1))) := by
      simp [unlinesAll_append, unlinesAll_spliceLines]
    have hR : lineChars ((ed.mLines.get ⟨l, hl⟩).drop k) ++ [10] ++
        unlinesAll (ed.mLines.drop (l + 1)) ≠ [] := by simp
    rw [hnew, hstart, List.dropLast_append_of_ne_nil _ hR,
      List.dropLast_append_of_ne_nil _ hR]
    rw [specInsertAt_append]
    simp only [textOffset, List.length_append, lineChars, List.length_map, halen]
  · rw [hres]
    simp only [List.length_append, length_spliceLines]
    have hlen := congrArg List.length hsplit
    simp only [List.length_append, List.length_cons] at hlen
    omega

theorem InsertTextAt_inserts_text_witness :
    ∃ e' w', InsertTextAt oneLineAb ⟨((0 : Nat) : Int), 1⟩ [120, 13, 10]
        = Except.ok (e', w', (([120, 13, 10] : List Char8).count 10 : Int)) ∧
      GetText e' = Except.ok (specInsertAt [97, 98] (textOffset oneLineAb.mLines 0 1)
        (([120, 13, 10] : List Char8).filter (fun c => decide (c ≠ 13)))) ∧
      e'.mLines.length = oneLineAb.mLines.length + ([120, 13, 10] : List Char8).count 10 :=
  (InsertTextAt_inserts_text oneLineAb 0 1 1 [120, 13, 10] [97, 98] (by decide) (by decide)
    (by decide) (by decide) (by decide) (by decide) (by decide)).1

theorem specBoundaries_monotone (tabSize : Int) (ht : 1 ≤ tabSize) (l : List Char8) :
    ∀ (skip : Nat) (off col : Int) (q r : Int × Int),
      q ∈ specBoundaries tabSize l skip off col → r ∈ specBoundaries tabSize l skip off col →
      q.2 < r.2 → q.1 < r.1 := by
  induction l with
  | nil =>
    intro skip off col q r hq hr hlt
    simp only [specBoundaries, List.mem_singleton] at hq hr
    subst hq
    subst hr
    exact absurd hlt (lt_irrefl _)
  | cons b rest ih =>
    intro skip off col q r hq hr hlt
    cases skip with
    | zero =>
      simp only [specBoundaries, List.mem_cons] at hq hr
      have hgt := specNextTabColumn_gt tabSize col ht
      have hcol : col < (if b = 9 then specNextTabColumn tabSize col else col + 1) := by
        by_cases h9 : b = 9
        · simp only [if_pos h9]
          exact hgt
        · simp only [if_neg h9]
          omega
      rcases hq with hq | hq
      · rcases hr with hr | hr
        · subst hq
          subst hr
          exact absurd hlt (lt_irrefl _)
        · subst hq
          have hlow := specBoundaries_lower tabSize ht rest _ _ _ r hr
          simp only
          omega
      · rcases hr with hr | hr
        · subst hr
          have hlow := specBoundaries_lower tabSize ht rest _ _ _ q hq
          simp only at hlt
          omega
        · exact ih _ _ _ q r hq hr hlt
    | succ k =>
      simp only [specBoundaries] at hq hr
      exact ih _ _ _ q r hq hr hlt

theorem getLastD_mem {α : Type} (l : List α) (d : α) (h : l ≠ []) : l.getLastD d ∈ l := by
  cases l with
  | nil => exact absurd rfl h
  | cons x xs =>
    rw [List.getLastD_cons]
    induction xs generalizing x with
    | nil => simp
    | cons y ys ih =>
      rw [List.getLastD_cons]
      exact List.mem_cons_of_mem _ (ih y (by simp))

theorem specBoundaries_last (tabSize : Int) (ht : 1 ≤ tabSize) (l : List Char8) :
    ∀ (skip : Nat) (off col : Int) (q : Int × Int),
      q ∈ specBoundaries tabSize l skip off col →
      ((specBoundaries tabSize l skip off col).getLastD (0, 0)).2 ≤ q.2 →
      off + (l.length : Int) ≤ q.1 := by
  induction l with
  | nil =>
    intro skip off col q hq _
    simp only [specBoundaries, List.mem_singleton] at hq
    subst hq
    simp
  | cons b rest ih =>
    intro skip off col q hq hlast
    cases skip with
    | zero =>
      simp only [specBoundaries] at hq hlast
      rw [getLastD_cons_of_ne_nil _ _ _ (specBoundaries_ne_nil _ _ _ _ _)] at hlast
      rw [List.mem_cons] at hq
      rcases hq with hq | hq
      · subst hq
        have hmem := getLastD_mem _ ((0 : Int), (0 : Int))
          (specBoundaries_ne_nil tabSize rest (UTF8CharLength b - 1).toNat (off + 1)
            (if b = 9 then specNextTabColumn tabSize col else col + 1))
        have hlow := specBoundaries_lower tabSize ht rest _ _ _ _ hmem
        have hgt := specNextTabColumn_gt tabSize col ht
        exfalso
        by_cases h9 : b = 9
        · simp only [if_pos h9] at hlow hlast
          omega
        · simp only [if_neg h9] at hlow hlast
          omega
      · have h := ih _ _ _ q hq hlast
        simp only [List.length_cons, Nat.cast_add, Nat.cast_one]
        omega
    | succ k =>
      simp only [specBoundaries] at hq hlast
      have h := ih _ _ _ q hq hlast
      simp only [List.length_cons, Nat.cast_add, Nat.cast_one]
      omega

/-- A boundary whose column reaches the maximal column of the line is at or beyond the
end of the line. -/
theorem lineBoundaries_at_max (tabSize : Int) (ht : 1 ≤ tabSize) (line : Line)
    (q : Int × Int) (hq : q ∈ lineBoundaries tabSize line)
    (hmax : specLineMaxColumn tabSize line ≤ q.2) : (line.length : Int) ≤ q.1 := by
  have h := specBoundaries_last tabSize ht (lineChars line) 0 0 0 q hq hmax
  simpa [lineChars] using h

theorem lineBoundaries_monotone (tabSize : Int) (ht : 1 ≤ tabSize) (line : Line)
    (q r : Int × Int) (hq : q ∈ lineBoundaries tabSize line)
    (hr : r ∈ lineBoundaries tabSize line) (hlt : q.2 < r.2) : q.1 < r.1 :=
  specBoundaries_monotone tabSize ht (lineChars line) 0 0 0 q r hq hr hlt

theorem DeleteRange_same_line (ed : Editor) (l ks ke : Nat) (cs ce : Int)
    (hro : ed.mReadOnly = false) (ht : 1 ≤ ed.mTabSize) (hl : l < ed.mLines.length)
    (hbs : ((ks : Int), cs) ∈ lineBoundaries ed.mTabSize (ed.mLines.get ⟨l, hl⟩))
    (hbe : ((ke : Int), ce) ∈ lineBoundaries ed.mTabSize (ed.mLines.get ⟨l, hl⟩))
    (hke : ke ≤ (ed.mLines.get ⟨l, hl⟩).length) (hlt : cs < ce) :
    ks < ke ∧
    ∃ e', DeleteRange ed ⟨(l : Int), cs⟩ ⟨(l : Int), ce⟩ = Except.ok e' ∧
      e'.mLines = ed.mLines.take l ++
        ((ed.mLines.get ⟨l, hl⟩).take ks ++ (ed.mLines.get ⟨l, hl⟩).drop ke)
          :: ed.mLines.drop (l + 1) := by
  have hmono := lineBoundaries_monotone ed.mTabSize ht _ _ _ hbs hbe hlt
  simp only at hmono
  have hks : ks < ke := by omega
  refine ⟨hks, ?_⟩
  obtain ⟨hsplit, hprelen⟩ := lines_split ed.mLines l hl
  have his := GetCharacterIndex_boundary ed l hl ht _ hbs
  have hie := GetCharacterIndex_boundary ed l hl ht _ hbe
  have hmax := GetLineMaxColumn_eq_spec ed l hl ht
  have hat := (line_at ed l hl).2
  have hge : (⟨(l : Int), ce⟩ : Coordinates).ge ⟨(l : Int), cs⟩ = true := by
    simp only [Coordinates.ge, ne_eq, not_true_eq_false, if_false, decide_eq_true_eq]
    omega
  have hneq : ¬ ((⟨(l : Int), ce⟩ : Coordinates) = ⟨(l : Int), cs⟩) := by
    intro h
    injection h with _ h2
    omega
  have herase : (if ce ≥ specLineMaxColumn ed.mTabSize (ed.mLines.get ⟨l, hl⟩) then
        vecEraseRange (ed.mLines.get ⟨l, hl⟩) (ks : Int)
          ((ed.mLines.get ⟨l, hl⟩).length : Int)
      else vecEraseRange (ed.mLines.get ⟨l, hl⟩) (ks : Int) (ke : Int))
      = Except.ok ((ed.mLines.get ⟨l, hl⟩).take ks ++ (ed.mLines.get ⟨l, hl⟩).drop ke) := by
    by_cases hc : ce ≥ specLineMaxColumn ed.mTabSize (ed.mLines.get ⟨l, hl⟩)
    · rw [if_pos hc]
      have hend := lineBoundaries_at_max ed.mTabSize ht _ _ hbe hc
      simp only at hend
      have hkeq : ke = (ed.mLines.get ⟨l, hl⟩).length := by omega
      rw [vecEraseRange_nat _ _ _ (by omega) (le_refl _), ← hkeq]
    · rw [if_neg hc]
      exact vecEraseRange_nat _ _ _ (by omega) hke
  have hset := setLine_lines ed (ed.mLines.take l) (ed.mLines.drop (l + 1))
    (ed.mLines.get ⟨l, hl⟩)
    ((ed.mLines.get ⟨l, hl⟩).take ks ++ (ed.mLines.get ⟨l, hl⟩).drop ke) (l : Int) hsplit
    (by simp only [hprelen])
  refine ⟨{ { ed with mLines := ed.mLines.take l ++
      ((ed.mLines.get ⟨l, hl⟩).take ks ++ (ed.mLines.get ⟨l, hl⟩).drop ke)
        :: ed.mLines.drop (l + 1) } with mTextChanged := true }, ?_, rfl⟩
  simp only [DeleteRange, hge, hro, Bool.not_false, assertThat_true, bind, Except.bind, hneq,
    if_false, if_true, his, hie, hat, hmax, herase, hset, pure, Except.pure]

theorem RemoveLineRange_lines (ed : Editor) (x y z : Lines) (a b : Int)
    (hro : ed.mReadOnly = false) (hl : ed.mLines = x ++ y ++ z) (hx : x ≠ [])
    (ha : a = x.length) (hb : b = x.length + y.length) :
    ∃ e', RemoveLineRange ed a b = Except.ok e' ∧ e'.mLines = x ++ z ∧
      e'.mReadOnly = false := by
  have hxpos : 0 < x.length := List.length_pos.mpr hx
  have h1 : decide (b ≥ a) = true := by
    simp only [decide_eq_true_eq]
    omega
  have h2 : decide ((ed.mLines.length : Int) > b - a) = true := by
    simp only [decide_eq_true_eq, hl, List.length_append, Nat.cast_add]
    omega
  have h3 : vecEraseRange ed.mLines a b = Except.ok (x ++ z) := by
    have h := vecEraseRange_nat (x ++ y ++ z) x.length (x.length + y.length) (by omega)
      (by simp only [List.length_append]; omega)
    rw [hl, ha, hb]
    have hcast : ((x.length : Int) + (y.length : Int)) = ((x.length + y.length : Nat) : Int) := by
      simp
    rw [hcast, h]
    congr 1
    have e1 : (x ++ y ++ z).take x.length = x := by
      rw [List.append_assoc, List.take_left']
      rfl
    have e2 : (x ++ y ++ z).drop (x.length + y.length) = z := by
      rw [List.drop_left']
      simp
    rw [e1, e2]
  have h4 : (!(x ++ z).isEmpty) = true := by
    cases x with
    | nil => exact absurd rfl hx
    | cons c cs => rfl
  refine ⟨{ ed with
      mErrorMarkers := ed.mErrorMarkers.foldl
        (fun (acc : ErrorMarkers) (i : Int × String) =>
          let e : Int × String := (if i.1 ≥ a then i.1 - 1 else i.1, i.2)
          if e.1 ≥ a ∧ e.1 ≤ b then acc else mapInsert acc e) [],
      mBreakpoints := (ed.mBreakpoints.filter fun i => ¬ (i ≥ a ∧ i ≤ b)).image
        fun i => if i ≥ a then i - 1 else i,
      mLines := x ++ z, mTextChanged := true }, ?_, rfl, hro⟩
  simp only [RemoveLineRange, hro, Bool.not_false, assertThat_true, h1, h2, h3, h4, bind,
    Except.bind, pure, Except.pure]

theorem DeleteRange_lines (ed : Editor) (p m q : Lines) (first last : Line) (ks ke : Nat)
    (a b : Coordinates) (hro : ed.mReadOnly = false)
    (hlines : ed.mLines = p ++ first :: (m ++ last :: q))
    (ha : a.mLine = p.length) (hb : b.mLine = p.length + m.length + 1)
    (his : GetCharacterIndex ed a = Except.ok (ks : Int))
    (hie : GetCharacterIndex ed b = Except.ok (ke : Int))
    (hks : ks ≤ first.length) (hke : ke ≤ last.length) :
    ∃ e', DeleteRange ed a b = Except.ok e' ∧
      e'.mLines = p ++ (first.take ks ++ last.drop ke) :: q := by
  have hge : b.ge a = true := by
    have hne : b.mLine ≠ a.mLine := by omega
    simp only [Coordinates.ge, hne, ne_eq, not_false_eq_true, if_true, decide_eq_true_eq]
    omega
  have hneq : ¬ (b = a) := by
    intro h
    rw [h] at hb
    omega
  have hlne : ¬ (a.mLine = b.mLine) := by omega
  have hllt : a.mLine < b.mLine := by omega
  have hat1 : vecAt ed.mLines a.mLine = Except.ok first := by
    rw [hlines]
    exact vecAt_append p _ first a.mLine ha
  have hlines2 : ed.mLines = (p ++ first :: m) ++ last :: q := by
    simp [hlines]
  have hat2 : vecAt ed.mLines b.mLine = Except.ok last := by
    rw [hlines2]
    exact vecAt_append _ q last b.mLine (by simp [hb]; omega)
  have he1 : vecEraseRange first (ks : Int) (first.length : Int)
      = Except.ok (first.take ks) := by
    rw [vecEraseRange_nat _ _ _ hks (le_refl _)]
    simp
  have he2 : vecEraseRange last 0 (ke : Int) = Except.ok (last.drop ke) := by
    have h := vecEraseRange_nat last 0 ke (Nat.zero_le _) hke
    simpa using h
  obtain ⟨e1, hs1, hl1, hro1⟩ := setLine_yields ed p (m ++ last :: q) first (first.take ks)
    a.mLine hlines ha
  obtain ⟨e2, hs2, hl2, hro2⟩ := setLine_yields e1 (p ++ first.take ks :: m) q last
    (last.drop ke) b.mLine (by simp [hl1]) (by simp [hb]; omega)
  obtain ⟨e3, hs3, hl3, hro3⟩ := setLine_yields e2 p (m ++ last.drop ke :: q) (first.take ks)
    (first.take ks ++ last.drop ke) a.mLine (by simp [hl2]) ha
  obtain ⟨e4, hr, hr2, _⟩ := RemoveLineRange_lines e3
    (p ++ [first.take ks ++ last.drop ke]) (m ++ [last.drop ke]) q (a.mLine + 1)
    (b.mLine + 1) (by rw [hro3, hro2, hro1, hro]) (by simp [hl3]) (by simp) (by simp [ha])
    (by simp [hb]; omega)
  refine ⟨{ e4 with mTextChanged := true }, ?_, by simpa using hr2⟩
  simp only [DeleteRange, hge, hro, Bool.not_false, assertThat_true, bind, Except.bind, hneq,
    if_false, hlne, hllt, if_true, his, hie, hat1, hat2, he1, he2, hs1, hs2, hs3, hr, pure,
    Except.pure]

theorem text_take (lines : Lines) (l k : Nat) (hl : l < lines.length)
    (hk : k ≤ (lines.get ⟨l, hl⟩).length) :
    (unlinesAll lines).take (textOffset lines l k)
      = unlinesAll (lines.take l) ++ lineChars ((lines.get ⟨l, hl⟩).take k) := by
  have h := congrArg unlinesAll (lines_split lines l hl).1
  rw [unlinesAll_append, unlinesAll_cons] at h
  rw [h]
  simp only [textOffset, List.append_assoc]
  rw [List.take_append, List.take_append_of_le_length (by simp [lineChars]; exact hk)]
  simp [lineChars, List.map_take]

theorem text_drop (lines : Lines) (l k : Nat) (hl : l < lines.length)
    (hk : k ≤ (lines.get ⟨l, hl⟩).length) :
    (unlinesAll lines).drop (textOffset lines l k)
      = lineChars ((lines.get ⟨l, hl⟩).drop k) ++ [10] ++ unlinesAll (lines.drop (l + 1)) := by
  have h := congrArg unlinesAll (lines_split lines l hl).1
  rw [unlinesAll_append, unlinesAll_cons] at h
  rw [h]
  simp only [textOffset, List.append_assoc]
  rw [List.drop_append, List.drop_append_of_le_length (by simp [lineChars]; exact hk)]
  simp [lineChars, List.map_drop]

theorem specRemoveRange_dropLast (u : List Char8) (a b : Nat) (hab : a ≤ b)
    (hb : b < u.length) :
    specRemoveRange u.dropLast a b = (u.take a ++ u.drop b).dropLast := by
  have hz : u.drop b ≠ [] := by
    intro h
    have := congrArg List.length h
    simp only [List.length_drop, List.length_nil] at this
    omega
  have hu : u.dropLast = u.take b ++ (u.drop b).dropLast := by
    conv_lhs => rw [← List.take_append_drop b u]
    exact List.dropLast_append_of_ne_nil _ hz
  have hlen : (u.take b).length = b := by
    simp only [List.length_take]
    omega
  rw [List.dropLast_append_of_ne_nil _ hz, hu]
  unfold specRemoveRange
  rw [List.take_append_of_le_length (by omega), List.take_take, List.drop_left' hlen]
  congr 2
  omega

theorem textOffset_lt (lines : Lines) (l k : Nat) (hl : l < lines.length)
    (hk : k ≤ (lines.get ⟨l, hl⟩).length) :
    textOffset lines l k < (unlinesAll lines).length := by
  have h := congrArg List.length (text_drop lines l k hl hk)
  simp only [List.length_drop, List.length_append, List.length_singleton] at h
  omega

theorem textOffset_le (lines : Lines) (ls le ks ke : Nat) (hle : le < lines.length)
    (hlt : ls < le) (hks : ks ≤ (lines.get ⟨ls, by omega⟩).length) :
    textOffset lines ls ks ≤ textOffset lines le ke := by
  have hls2 : ls < (lines.take le).length := by
    simp only [List.length_take]
    omega
  have h := congrArg unlinesAll (lines_split (lines.take le) ls hls2).1
  rw [unlinesAll_append, unlinesAll_cons, List.take_take] at h
  have hmin : min ls le = ls := by omega
  rw [hmin] at h
  have hget : (lines.take le).get ⟨ls, hls2⟩ = lines.get ⟨ls, by omega⟩ := by
    simp [List.getElem_take]
  rw [hget] at h
  have hlen := congrArg List.length h
  simp only [List.length_append, List.length_singleton, lineChars, List.length_map] at hlen
  simp only [textOffset]
  omega

theorem lines_split_two (lines : Lines) (ls le : Nat) (hlt : ls < le) (hle : le < lines.length) :
    lines = lines.take ls ++ lines.get ⟨ls, by omega⟩ ::
      ((lines.drop (ls + 1)).take (le - ls - 1) ++ lines.get ⟨le, hle⟩ :: lines.drop (le + 1)) ∧
    (lines.take ls).length = ls ∧
    ((lines.drop (ls + 1)).take (le - ls - 1)).length = le - ls - 1 := by
  have hls : ls < lines.length := by omega
  obtain ⟨h1, h2⟩ := lines_split lines ls hls
  have hj : le - ls - 1 < (lines.drop (ls + 1)).length := by
    simp only [List.length_drop]
    omega
  obtain ⟨h3, h4⟩ := lines_split (lines.drop (ls + 1)) (le - ls - 1) hj
  have hget : (lines.drop (ls + 1)).get ⟨le - ls - 1, hj⟩ = lines.get ⟨le, hle⟩ := by
    simp only [List.get_eq_getElem, List.getElem_drop]
    congr 1
    omega
  have hdrop : (lines.drop (ls + 1)).drop (le - ls - 1 + 1) = lines.drop (le + 1) := by
    rw [List.drop_drop]
    congr 1
    omega
  rw [hget, hdrop] at h3
  refine ⟨?_, h2, h4⟩
  rw [← h3]
  exact h1

/-- C14: for every buffer that is not read-only (tab size at least 1) and every two
coordinates `start < end` on character boundaries of lines of the buffer (byte indices
`ks`, `ke` inside their lines), `DeleteRange` returns; the full text of the buffer is
then the old text without the bytes from the position of `start` up to, not including,
the position of `end`, and the buffer has `end.line - start.line` lines less. For the
buffer `ab`, `cd` the range `(0, 1)` to `(1, 1)` leaves the one line `ad`. -/
theorem DeleteRange_removes_text (ed : Editor) (ls le ks ke : Nat) (cs ce : Int)
    (old : List Char8) (hro : ed.mReadOnly = false) (ht : 1 ≤ ed.mTabSize)
    (hls : ls < ed.mLines.length) (hle : le < ed.mLines.length)
    (hbs : ((ks : Int), cs) ∈ lineBoundaries ed.mTabSize (ed.mLines.get ⟨ls, hls⟩))
    (hks : ks ≤ (ed.mLines.get ⟨ls, hls⟩).length)
    (hbe : ((ke : Int), ce) ∈ lineBoundaries ed.mTabSize (ed.mLines.get ⟨le, hle⟩))
    (hke : ke ≤ (ed.mLines.get ⟨le, hle⟩).length)
    (hlt : (⟨(ls : Int), cs⟩ : Coordinates).lt ⟨(le : Int), ce⟩ = true)
    (hold : GetText ed = Except.ok old) :
    (∃ e', DeleteRange ed ⟨(ls : Int), cs⟩ ⟨(le : Int), ce⟩ = Except.ok e' ∧
      GetText e' = Except.ok (specRemoveRange old (textOffset ed.mLines ls ks)
        (textOffset ed.mLines le ke)) ∧
      (e'.mLines.length : Int) = (ed.mLines.length : Int) - ((le : Int) - (ls : Int))) ∧
    (DeleteRange twoLinesAbCd ⟨0, 1⟩ ⟨1, 1⟩).map GetTextLines = Except.ok [[97, 100]] := by
  refine ⟨?_, by decide⟩
  have hne : ed.mLines ≠ [] := by
    intro h
    rw [h] at hls
    exact absurd hls (by simp)
  rw [GetText_dropLast ed hne] at hold
  have hold2 : old = (unlinesAll ed.mLines).dropLast := by
    injection hold with h
    exact h.symm
  have hpos : ∃ e', DeleteRange ed ⟨(ls : Int), cs⟩ ⟨(le : Int), ce⟩ = Except.ok e' ∧
      e'.mLines = ed.mLines.take ls ++
        ((ed.mLines.get ⟨ls, hls⟩).take ks ++ (ed.mLines.get ⟨le, hle⟩).drop ke)
          :: ed.mLines.drop (le + 1) ∧
      ls ≤ le ∧ textOffset ed.mLines ls ks ≤ textOffset ed.mLines le ke := by
    by_cases hsame : ls = le
    · subst hsame
      have hcol : cs < ce := by
        simpa [Coordinates.lt] using hlt
      obtain ⟨hk, e', h1, h2⟩ := DeleteRange_same_line ed ls ks ke cs ce hro ht hls hbs hbe hke
        hcol
      exact ⟨e', h1, h2, le_refl _, by simp only [textOffset]; omega⟩
    · have hlines : ls < le := by
        have hne2 : ¬ ((ls : Int) = (le : Int)) := by omega
        simp only [Coordinates.lt, ne_eq, hne2, not_false_eq_true, if_true,
          decide_eq_true_eq] at hlt
        omega
      obtain ⟨h1, h2, h3⟩ := lines_split_two ed.mLines ls le hlines hle
      obtain ⟨e', h4, h5⟩ := DeleteRange_lines ed (ed.mLines.take ls)
        ((ed.mLines.drop (ls + 1)).take (le - ls - 1)) (ed.mLines.drop (le + 1))
        (ed.mLines.get ⟨ls, hls⟩) (ed.mLines.get ⟨le, hle⟩) ks ke ⟨(ls : Int), cs⟩
        ⟨(le : Int), ce⟩ hro h1 (by simp only [h2]) (by simp only [h2, h3]; omega)
        (GetCharacterIndex_boundary ed ls hls ht _ hbs)
        (GetCharacterIndex_boundary ed le hle ht _ hbe) hks hke
      exact ⟨e', h4, h5, by omega, textOffset_le ed.mLines ls le ks ke hle hlines hks⟩
  obtain ⟨e', hrun, hres, hll, hoff⟩ := hpos
  have hne2 : e'.mLines ≠ [] := by
    rw [hres]
    simp
  refine ⟨e', hrun, ?_, ?_⟩
  · rw [GetText_dropLast e' hne2, hold2,
      specRemoveRange_dropLast _ _ _ hoff (textOffset_lt ed.mLines le ke hle hke),
      text_take ed.mLines ls ks hls hks, text_drop ed.mLines le ke hle hke, hres]
    congr 2
    simp [unlinesAll_append, unlinesAll_cons, lineChars_append]
  · rw [hres]
    simp only [List.length_append, List.length_cons, List.length_take, List.length_drop,
      Nat.cast_add, Nat.cast_one]
    omega

theorem DeleteRange_removes_text_witness :
    ∃ e', DeleteRange twoLinesAbCd ⟨((0 : Nat) : Int), 1⟩ ⟨((1 : Nat) : Int), 1⟩
        = Except.ok e' ∧
      GetText e' = Except.ok (specRemoveRange [97, 98, 10, 99, 100]
        (textOffset twoLinesAbCd.mLines 0 1) (textOffset twoLinesAbCd.mLines 1 1)) ∧
      (e'.mLines.length : Int)
        = (twoLinesAbCd.mLines.length : Int) - (((1 : Nat) : Int) - ((0 : Nat) : Int)) :=
  (DeleteRange_removes_text twoLinesAbCd 0 1 1 1 1 1 [97, 98, 10, 99, 100] (by decide)
    (by decide) (by decide) (by decide) (by decide) (by decide) (by decide) (by decide)
    (by decide) (by decide)).1

/-! ### The read-only editor -/

/-- C17 (counterexample): `SetText` and `SetTextLines` have no read-only guard: on the
read-only editor holding `ab` both return and leave the text `x`. -/
theorem SetText_ignores_read_only :
    readOnlyAb.mReadOnly = true ∧ GetTextLines readOnlyAb = [[97, 98]] ∧
    (SetText readOnlyAb [120]).mReadOnly = true ∧
    GetTextLines (SetText readOnlyAb [120]) = [[120]] ∧
    GetTextLines (SetTextLines readOnlyAb [[120]]) = [[120]] :=
  ⟨by decide, by decide, by decide, by decide, by decide⟩

theorem assertThat_false : assertThat false = Except.error Fault.assertion := rfl

theorem UndoLoop_read_only (ed : Editor) (hro : ed.mReadOnly = true) (n : Nat) :
    UndoLoop n ed = Except.ok ed := by
  cases n with
  | zero => rfl
  | succ k => simp [UndoLoop, CanUndo, hro, pure, Except.pure]

theorem RedoLoop_read_only (ed : Editor) (hro : ed.mReadOnly = true) (n : Nat) :
    RedoLoop n ed = Except.ok ed := by
  cases n with
  | zero => rfl
  | succ k => simp [RedoLoop, CanRedo, hro, pure, Except.pure]

theorem InsertTextAt_read_only (ed : Editor) (hro : ed.mReadOnly = true) (w : Coordinates)
    (t : List Char8) : InsertTextAt ed w t = Except.error Fault.assertion := by
  simp [InsertTextAt, hro, assertThat_false, bind, Except.bind]

theorem InsertText_read_only (ed : Editor) (hro : ed.mReadOnly = true) (t : List Char8) :
    (∃ f, InsertText ed (some t) = Except.error f) ∧
    (ed.mTabSize ≠ 0 → InsertText ed (some t) = Except.error Fault.assertion) := by
  constructor
  · simp only [InsertText, bind, Except.bind]
    cases hpos : GetActualCursorCoordinates ed with
    | error f => exact ⟨f, rfl⟩
    | ok pos =>
      simp only [InsertTextAt_read_only ed hro]
      exact ⟨_, rfl⟩
  · intro ht
    obtain ⟨pos, hpos⟩ := SanitizeCoordinates_ok ed ed.mState.mCursorPosition ht
    simp only [InsertText, GetActualCursorCoordinates, hpos, bind, Except.bind,
      InsertTextAt_read_only ed hro]

/-- C17 (amended): while the editor is read-only, `EnterCharacter`, `Delete` and
`Backspace` stop at their failed read-only assertion, `InsertText` with a text never
returns (with a tab size other than 0 it stops at the failed assertion of `InsertTextAt`),
and `InsertText` with a null pointer, `Cut`, `Paste`, `Undo` and `Redo` leave the editor,
and so the buffer text, unchanged. -/
theorem read_only_keeps_text (ed : Editor) (hro : ed.mReadOnly = true) :
    (∀ (c : Nat) (shift : Bool), EnterCharacter ed c shift = Except.error Fault.assertion) ∧
    Delete ed = Except.error Fault.assertion ∧
    Backspace ed = Except.error Fault.assertion ∧
    (∀ t, (∃ f, InsertText ed (some t) = Except.error f) ∧
      (ed.mTabSize ≠ 0 → InsertText ed (some t) = Except.error Fault.assertion)) ∧
    InsertText ed none = Except.ok ed ∧
    (∀ r, Cut ed = Except.ok r → r.1 = ed) ∧
    (∀ clip, Paste ed clip = Except.ok ed) ∧
    (∀ n, Undo ed n = Except.ok ed) ∧
    (∀ n, Redo ed n = Except.ok ed) := by
  refine ⟨?_, ?_, ?_, InsertText_read_only ed hro, rfl, ?_, ?_, ?_, ?_⟩
  · intro c shift
    simp [EnterCharacter, hro, assertThat_false, bind, Except.bind]
  · simp [Delete, hro, assertThat_false, bind, Except.bind]
  · simp [Backspace, hro, assertThat_false, bind, Except.bind]
  · intro r hr
    simp only [Cut, hro, if_true, bind, Except.bind] at hr
    cases hc : Copy ed with
    | error f =>
      rw [hc] at hr
      cases hr
    | ok clip =>
      rw [hc] at hr
      simp only [pure, Except.pure] at hr
      injection hr with h
      rw [← h]
  · intro clip
    simp [Paste, hro, pure, Except.pure]
  · intro n
    exact UndoLoop_read_only ed hro _
  · intro n
    exact RedoLoop_read_only ed hro _

theorem read_only_keeps_text_witness :
    readOnlyAbLogged.mReadOnly = true ∧
    EnterCharacter readOnlyAbLogged 120 false = Except.error Fault.assertion ∧
    (Cut readOnlyAbLogged).map (fun r => (GetTextLines r.1, r.2))
      = Except.ok ([[97, 98]], some [97]) ∧
    Undo readOnlyAbLogged 1 = Except.ok readOnlyAbLogged :=
  ⟨by decide, (read_only_keeps_text readOnlyAbLogged (by decide)).1 120 false, by decide,
    (read_only_keeps_text readOnlyAbLogged (by decide)).2.2.2.2.2.2.2.1 1⟩

/-! ### The undo log -/

theorem Res.sat_self {α : Type} (x : Res α) : Res.sat x (fun a => x = Except.ok a) :=
  fun _ h => h

theorem setLine_log (ed : Editor) (i : Int) (line : Line) :
    Res.sat (setLine ed i line) (fun r => r.log = ed.log) := by
  unfold setLine
  exact Res.sat_bind_any (fun _ => Res.sat_pure rfl)

theorem InsertLine_log (ed : Editor) (k : Int) :
    Res.sat (InsertLine ed k) (fun r => r.log = ed.log) := by
  unfold InsertLine
  exact Res.sat_bind_any (fun _ => Res.sat_bind_any (fun _ => Res.sat_pure rfl))

theorem RemoveLine_log (ed : Editor) (k : Int) :
    Res.sat (RemoveLine ed k) (fun r => r.log = ed.log) := by
  unfold RemoveLine
  exact Res.sat_bind_any (fun _ => Res.sat_bind_any (fun _ => Res.sat_bind_any (fun _ =>
    Res.sat_bind_any (fun _ => Res.sat_pure rfl))))

theorem RemoveLineRange_log (ed : Editor) (a b : Int) :
    Res.sat (RemoveLineRange ed a b) (fun r => r.log = ed.log) := by
  unfold RemoveLineRange
  exact Res.sat_bind_any (fun _ => Res.sat_bind_any (fun _ => Res.sat_bind_any (fun _ =>
    Res.sat_bind_any (fun _ => Res.sat_bind_any (fun _ => Res.sat_pure rfl)))))

theorem DeleteRange_log (ed : Editor) (a b : Coordinates) :
    Res.sat (DeleteRange ed a b) (fun r => r.log = ed.log) := by
  unfold DeleteRange
  refine Res.sat_bind_any (fun _ => Res.sat_bind_any (fun _ => Res.sat_ite
    (fun _ => Res.sat_pure rfl) (fun _ => Res.sat_bind_any (fun start => Res.sat_bind_any
      (fun end_ => Res.sat_ite (fun _ => ?_) (fun _ => ?_))))))
  · exact Res.sat_bind_any (fun line => Res.sat_bind_any (fun n => Res.sat_bind_any
      (fun line1 => Res.sat_bind (setLine_log ed _ _) (fun ed1 h1 => Res.sat_pure h1))))
  · refine Res.sat_bind_any (fun firstLine => Res.sat_bind_any (fun lastLine =>
      Res.sat_bind_any (fun firstLine1 => Res.sat_bind (setLine_log ed _ _)
        (fun ed1 h1 => Res.sat_bind_any (fun lastLine1 =>
          Res.sat_bind (setLine_log ed1 _ _) (fun ed2 h2 =>
            Res.sat_bind (P := fun e => e.log = ed.log)
              (Res.sat_ite (fun _ => Res.sat_mono (setLine_log ed2 _ _)
                  (fun e he => by rw [he, h2, h1]))
                (fun _ => Res.sat_pure (by rw [h2, h1])))
              (fun ed3 h3 => Res.sat_bind (P := fun e => e.log = ed.log)
                (Res.sat_ite (fun _ => Res.sat_mono (RemoveLineRange_log ed3 _ _)
                    (fun e he => by rw [he, h3]))
                  (fun _ => Res.sat_pure h3))
                (fun ed4 h4 => Res.sat_pure h4))))))))

@[simp] theorem Colorize_log (ed : Editor) (a b : Int) : (Colorize ed a b).log = ed.log :=
  rfl

@[simp] theorem EnsureCursorVisible_log (ed : Editor) :
    (EnsureCursorVisible ed).log = ed.log := by
  unfold EnsureCursorVisible
  split_ifs <;> rfl

@[simp] theorem SetCursorPosition_log (ed : Editor) (p : Coordinates) :
    (SetCursorPosition ed p).log = ed.log := by
  unfold SetCursorPosition
  split_ifs
  · rw [EnsureCursorVisible_log]
    rfl
  · rfl

theorem SetSelection_log (ed : Editor) (a b : Coordinates) (m : SelectionMode) :
    Res.sat (SetSelection ed a b m) (fun r => r.log = ed.log) := by
  unfold SetSelection
  exact Res.sat_bind_any (fun _ => Res.sat_bind_any (fun _ => Res.sat_bind_any (fun _ =>
    Res.sat_ite (fun _ => Res.sat_pure rfl) (fun _ => Res.sat_pure rfl))))

theorem DeleteSelection_log (ed : Editor) :
    Res.sat (DeleteSelection ed) (fun r => r.log = ed.log) := by
  unfold DeleteSelection
  refine Res.sat_bind_any (fun _ => Res.sat_ite (fun _ => Res.sat_pure rfl) (fun _ =>
    Res.sat_bind (DeleteRange_log ed _ _) (fun ed1 h1 =>
      Res.sat_bind (SetSelection_log ed1 _ _ _) (fun ed2 h2 => Res.sat_pure ?_))))
  simp only [Colorize_log, SetCursorPosition_log, h2]
  exact h1

theorem InsertTextAtLoop_log (fuel : Nat) : ∀ (text : List Char8) (ed : Editor)
    (w : Coordinates) (c t : Int),
    Res.sat (InsertTextAtLoop fuel text ed w c t) (fun r => r.1.log = ed.log) := by
  induction fuel with
  | zero => intro text ed w c t; exact Res.sat_pure rfl
  | succ n ih =>
    intro text ed w c t
    cases text with
    | nil => exact Res.sat_pure rfl
    | cons ch rest =>
      simp only [InsertTextAtLoop]
      refine Res.sat_ite (fun _ => Res.sat_pure rfl) (fun _ => Res.sat_bind_any (fun _ =>
        Res.sat_ite (fun _ => ih _ _ _ _ _) (fun _ => Res.sat_ite (fun _ => ?_) (fun _ => ?_))))
      · refine Res.sat_bind_any (fun cur => Res.sat_bind (P := fun e => e.log = ed.log) ?_
          (fun ed2 h2 => Res.sat_mono (ih _ _ _ _ _) (fun r hr => hr.trans h2)))
        refine Res.sat_ite (fun _ => ?_) (fun _ => InsertLine_log ed _)
        exact Res.sat_bind (InsertLine_log ed _) (fun ed1 h1 =>
          Res.sat_bind_any (fun _ => Res.sat_bind_any (fun _ => Res.sat_bind_any (fun _ =>
            Res.sat_bind (setLine_log ed1 _ _) (fun ed1a h1a =>
              Res.sat_mono (setLine_log ed1a _ _) (fun e he => by rw [he, h1a, h1]))))))
      · exact Res.sat_bind_any (fun line => Res.sat_bind_any (fun r =>
          Res.sat_bind (setLine_log ed _ _) (fun ed1 h1 =>
            Res.sat_mono (ih _ _ _ _ _) (fun r hr => hr.trans h1))))

theorem InsertTextAt_log (ed : Editor) (w : Coordinates) (t : List Char8) :
    Res.sat (InsertTextAt ed w t) (fun r => r.1.log = ed.log) := by
  unfold InsertTextAt
  exact Res.sat_bind_any (fun _ => Res.sat_bind_any (fun _ =>
    InsertTextAtLoop_log _ _ _ _ _ _))

theorem InsertText_log (ed : Editor) (t : Option (List Char8)) :
    Res.sat (InsertText ed t) (fun r => r.log = ed.log) := by
  cases t with
  | none => exact Res.sat_pure rfl
  | some value =>
    simp only [InsertText]
    refine Res.sat_bind_any (fun pos => Res.sat_bind (InsertTextAt_log ed pos value)
      (fun r hr => Res.sat_bind (SetSelection_log r.1 _ _ _) (fun ed1 h1 => Res.sat_pure ?_)))
    simp only [Colorize_log, SetCursorPosition_log, h1]
    exact hr

theorem AddUndo_grew (ed0 ed : Editor) (u : UndoRecord) (h : ed.log = ed0.log) :
    Res.sat (AddUndo ed u) (fun r => logGrew ed0 r) := by
  have hidx : ed.mUndoIndex = ed0.mUndoIndex := congrArg Prod.fst h
  unfold AddUndo
  refine Res.sat_bind_any (fun _ => Res.sat_ite (fun _ => Res.sat_throw) (fun hneg =>
    Res.sat_ite (fun _ => Res.sat_throw) (fun hne => Res.sat_pure ?_)))
  refine ⟨by simp only [hidx], ?_⟩
  have hlen : (vecResize ed.mUndoBuffer (ed.mUndoIndex + 1).toNat UndoRecord.empty).length
      = (ed.mUndoIndex + 1).toNat := by
    simp only [vecResize, List.length_append, List.length_take, List.length_replicate]
    omega
  have hpos : 0 < (ed.mUndoIndex + 1).toNat := by
    rcases Nat.eq_zero_or_pos (ed.mUndoIndex + 1).toNat with h0 | h0
    · exfalso
      apply hne
      rw [h0] at hlen ⊢
      rw [List.length_eq_zero.mp hlen]
      rfl
    · exact h0
  simp only [List.length_append, List.length_dropLast, List.length_singleton, hlen]
  omega

theorem AddUndo_option_log (ed : Editor) (r : Editor × Option UndoRecord)
    (h : r.1.log = ed.log) (hn : r.2 = none → r.1.mLines = ed.mLines) :
    Res.sat (match r.2 with
      | none => (pure r.1 : Res Editor)
      | some u1 => AddUndo r.1 { u1 with mAfter := r.1.mState })
      (fun e => e.mLines = ed.mLines ∨ logGrew ed e) := by
  obtain ⟨e, o⟩ := r
  cases o with
  | none => exact Res.sat_pure (Or.inl (hn rfl))
  | some u1 => exact Res.sat_mono (AddUndo_grew ed _ _ h) (fun e he => Or.inr he)

theorem Delete_log (ed : Editor) :
    Res.sat (Delete ed) (fun e => e.mLines = ed.mLines ∨ logGrew ed e) := by
  unfold Delete
  refine Res.sat_bind_any (fun _ => Res.sat_ite (fun _ => Res.sat_pure (Or.inl rfl)) (fun _ =>
    Res.sat_bind (P := fun r => r.1.log = ed.log ∧ (r.2 = none → r.1.mLines = ed.mLines)) ?_
      (fun r hr => AddUndo_option_log ed r hr.1 hr.2)))
  refine Res.sat_ite (fun _ => Res.sat_bind_any (fun removed =>
    Res.sat_bind (DeleteSelection_log ed) (fun ed1 h1 =>
      Res.sat_pure ⟨h1, fun h => by cases h⟩))) (fun _ => ?_)
  refine Res.sat_bind_any (fun pos => Res.sat_bind_any (fun line => Res.sat_bind_any (fun m =>
    Res.sat_ite (fun _ => Res.sat_ite
      (fun _ => Res.sat_pure ⟨SetCursorPosition_log ed pos, fun _ =>
        SetCursorPosition_mLines ed pos⟩) (fun _ => ?_))
      (fun _ => ?_))))
  · refine Res.sat_bind_any (fun rs => Res.sat_bind_any (fun re => Res.sat_bind_any
      (fun nextLine => Res.sat_bind (setLine_log _ _ _) (fun ed2 h2 =>
        Res.sat_bind (RemoveLine_log ed2 _) (fun ed3 h3 =>
          Res.sat_pure ⟨?_, fun h => by cases h⟩)))))
    exact h3.trans (h2.trans (SetCursorPosition_log ed pos))
  · refine Res.sat_bind_any (fun cindex => Res.sat_bind_any (fun rs => Res.sat_bind_any
      (fun removed => Res.sat_bind_any (fun g => Res.sat_bind_any (fun line1 =>
        Res.sat_bind (setLine_log _ _ _) (fun ed2 h2 =>
          Res.sat_pure ⟨?_, fun h => by cases h⟩))))))
    exact h2.trans (SetCursorPosition_log ed pos)

theorem Backspace_log (ed : Editor) :
    Res.sat (Backspace ed) (fun e => e.mLines = ed.mLines ∨ logGrew ed e) := by
  unfold Backspace
  refine Res.sat_bind_any (fun _ => Res.sat_ite (fun _ => Res.sat_pure (Or.inl rfl)) (fun _ =>
    Res.sat_bind (P := fun r => r.1.log = ed.log ∧ (r.2 = none → r.1.mLines = ed.mLines)) ?_
      (fun r hr => AddUndo_option_log ed r hr.1 hr.2)))
  refine Res.sat_ite (fun _ => Res.sat_bind_any (fun removed =>
    Res.sat_bind (DeleteSelection_log ed) (fun ed1 h1 =>
      Res.sat_pure ⟨h1, fun h => by cases h⟩))) (fun _ => ?_)
  refine Res.sat_bind_any (fun pos => Res.sat_ite
    (fun _ => Res.sat_ite
      (fun _ => Res.sat_pure ⟨SetCursorPosition_log ed pos, fun _ =>
        SetCursorPosition_mLines ed pos⟩) (fun _ => ?_))
    (fun _ => ?_))
  · refine Res.sat_bind_any (fun m => Res.sat_bind_any (fun re => Res.sat_bind_any
      (fun line => Res.sat_bind_any (fun prevLine => Res.sat_bind_any (fun prevSize =>
        Res.sat_bind (setLine_log _ _ _) (fun ed2 h2 =>
          Res.sat_bind (RemoveLine_log _ _) (fun ed4 h4 =>
            Res.sat_pure ⟨?_, fun h => by cases h⟩)))))))
    simp only [Colorize_log, EnsureCursorVisible_log]
    exact h4.trans (h2.trans (SetCursorPosition_log ed pos))
  · refine Res.sat_bind_any (fun line => Res.sat_bind_any (fun cindex0 => Res.sat_bind_any
      (fun cindex => Res.sat_bind_any (fun rs0 => Res.sat_bind_any (fun er =>
        Res.sat_bind (setLine_log _ _ _) (fun ed3 h3 =>
          Res.sat_pure ⟨?_, fun h => by cases h⟩))))))
    simp only [Colorize_log, EnsureCursorVisible_log]
    exact h3.trans (SetCursorPosition_log ed pos)

theorem Cut_log (ed : Editor) :
    Res.sat (Cut ed) (fun r => r.1.mLines = ed.mLines ∨ logGrew ed r.1) := by
  unfold Cut
  refine Res.sat_ite (fun _ => Res.sat_bind_any (fun clip => Res.sat_pure (Or.inl rfl)))
    (fun _ => Res.sat_ite (fun _ => ?_) (fun _ => Res.sat_pure (Or.inl rfl)))
  exact Res.sat_bind_any (fun removed => Res.sat_bind_any (fun clip =>
    Res.sat_bind (DeleteSelection_log ed) (fun ed1 h1 =>
      Res.sat_bind (AddUndo_grew ed ed1 _ h1) (fun ed2 h2 => Res.sat_pure (Or.inr h2)))))

theorem Paste_log (ed : Editor) (clipText : Option (List Char8)) :
    Res.sat (Paste ed clipText) (fun e => e.mLines = ed.mLines ∨ logGrew ed e) := by
  unfold Paste
  refine Res.sat_ite (fun _ => Res.sat_pure (Or.inl rfl)) (fun _ => ?_)
  cases clipText with
  | none => exact Res.sat_pure (Or.inl rfl)
  | some clip =>
    simp only
    refine Res.sat_ite (fun _ => ?_) (fun _ => Res.sat_pure (Or.inl rfl))
    refine Res.sat_bind (P := fun eu => eu.1.log = ed.log) ?_ (fun eu heu => ?_)
    · exact Res.sat_ite (fun _ => Res.sat_bind_any (fun removed =>
        Res.sat_bind (DeleteSelection_log ed) (fun ed1 h1 => Res.sat_pure h1)))
        (fun _ => Res.sat_pure rfl)
    · exact Res.sat_bind_any (fun addedStart =>
        Res.sat_bind (InsertText_log eu.1 _) (fun ed2 h2 =>
          Res.sat_bind_any (fun addedEnd =>
            Res.sat_mono (AddUndo_grew ed ed2 _ (h2.trans heu)) (fun e he => Or.inr he))))

theorem unindentSpaces_unmodified (n : Nat) : ∀ (line : Line) (m : Bool),
    (unindentSpaces n line m).2 = false → m = false ∧ (unindentSpaces n line m).1 = line := by
  induction n with
  | zero => intro line m h; exact ⟨h, rfl⟩
  | succ k ih =>
    intro line m h
    cases line with
    | nil => exact ⟨h, rfl⟩
    | cons g rest =>
      simp only [unindentSpaces] at h ⊢
      by_cases h32 : g.mChar = 32
      · rw [if_pos h32] at h
        exact absurd (ih rest true h).1 (by simp)
      · rw [if_neg h32] at h ⊢
        exact ⟨h, rfl⟩

theorem indentLine_unmodified (tabSize : Int) (aShift : Bool) (line : Line) (m : Bool)
    (h : (indentLine tabSize aShift line m).2 = false) :
    m = false ∧ (indentLine tabSize aShift line m).1 = line := by
  unfold indentLine at h ⊢
  cases aShift with
  | false => simp at h
  | true =>
    cases line with
    | nil => exact ⟨by simpa using h, by simp⟩
    | cons g rest =>
      simp only [if_true] at h ⊢
      by_cases h9 : g.mChar = 9
      · simp [h9] at h
      · simp only [h9, if_false] at h ⊢
        exact unindentSpaces_unmodified _ _ _ h

theorem list_set_self {α : Type} (l : List α) : ∀ (n : Nat) (h : n < l.length),
    l.set n (l.get ⟨n, h⟩) = l := by
  induction l with
  | nil => intro n h; exact absurd h (by simp)
  | cons x xs ih =>
    intro n h
    cases n with
    | zero => rfl
    | succ k =>
      simp only [List.set_cons_succ, List.get_cons_succ]
      rw [ih k (by simpa using h)]

theorem vecSet_vecAt {α : Type} (v : List α) (i : Int) (x : α)
    (h : vecAt v i = Except.ok x) : vecSet v i x = Except.ok v := by
  unfold vecAt at h
  unfold vecSet
  by_cases h0 : i < 0
  · simp [h0] at h
  · rw [if_neg h0] at h
    cases hget : v[i.toNat]? with
    | none =>
      rw [hget] at h
      cases h
    | some y =>
      rw [hget] at h
      have hxy : y = x := by
        simp only [pure, Except.pure] at h
        injection h
      subst hxy
      obtain ⟨hlt, hval⟩ := List.getElem?_eq_some_iff.mp hget
      have hcond : ¬ (i < 0 ∨ (v.length : Int) ≤ i) := by omega
      rw [if_neg hcond]
      simp only [pure, Except.pure]
      congr 1
      rw [← hval]
      exact list_set_self v _ hlt

theorem indentLines_log (aShift : Bool) (endLine : Int) (fuel : Nat) :
    ∀ (i : Int) (ed : Editor) (modified : Bool),
    Res.sat (indentLines aShift endLine fuel i ed modified)
      (fun r => r.1.log = ed.log ∧ (r.2 = false → modified = false ∧ r.1.mLines = ed.mLines)) := by
  induction fuel with
  | zero => intro i ed m; exact Res.sat_pure ⟨rfl, fun h => ⟨h, rfl⟩⟩
  | succ n ih =>
    intro i ed m
    simp only [indentLines]
    refine Res.sat_ite (fun _ => ?_) (fun _ => Res.sat_pure ⟨rfl, fun h => ⟨h, rfl⟩⟩)
    refine Res.sat_bind (Res.sat_self _) (fun line hline => ?_)
    refine Res.sat_bind (P := fun e1 => e1.log = ed.log ∧
      setLine ed i (indentLine ed.mTabSize aShift line m).1 = Except.ok e1) ?_ (fun ed1 h1 => ?_)
    · intro e1 he1
      exact ⟨setLine_log ed _ _ e1 he1, he1⟩
    · refine Res.sat_mono (ih _ ed1 _) (fun r hr => ⟨hr.1.trans h1.1, fun hfalse => ?_⟩)
      obtain ⟨hm, hlines⟩ := hr.2 hfalse
      obtain ⟨hm0, hsame⟩ := indentLine_unmodified _ _ _ _ hm
      refine ⟨hm0, ?_⟩
      have hset := h1.2
      rw [hsame] at hset
      unfold setLine at hset
      rw [vecSet_vecAt _ _ _ hline] at hset
      simp only [bind, Except.bind, pure, Except.pure] at hset
      injection hset with hset
      rw [hlines, ← hset]

theorem EnterCharacterIndent_log (ed : Editor) (aShift : Bool) (u : UndoRecord) :
    Res.sat (EnterCharacterIndent ed aShift u)
      (fun e => e.mLines = ed.mLines ∨ logGrew ed e) := by
  unfold EnterCharacterIndent
  refine Res.sat_bind_any (fun m => Res.sat_bind_any (fun removed =>
    Res.sat_bind (indentLines_log _ _ _ _ _ _) (fun r hr =>
      Res.sat_ite (fun _ => ?_) (fun hfalse => Res.sat_pure (Or.inl ?_)))))
  · refine Res.sat_bind_any (fun c0 => Res.sat_bind_any (fun er =>
      Res.sat_bind (AddUndo_grew ed _ _ hr.1) (fun ed3 h3 => Res.sat_pure (Or.inr ?_))))
    unfold logGrew at h3 ⊢
    have hlog := EnsureCursorVisible_log { ed3 with mTextChanged := true }
    have hi : (EnsureCursorVisible { ed3 with mTextChanged := true }).mUndoIndex
        = ed3.mUndoIndex := congrArg Prod.fst hlog
    have hb : (EnsureCursorVisible { ed3 with mTextChanged := true }).mUndoBuffer
        = ed3.mUndoBuffer := congrArg Prod.snd hlog
    rw [hi, hb]
    exact h3
  · exact (hr.2 (by simpa using hfalse)).2

theorem logGrew_congr (ed e e' : Editor) (h : e'.log = e.log) (hg : logGrew ed e) :
    logGrew ed e' := by
  have hi : e'.mUndoIndex = e.mUndoIndex := congrArg Prod.fst h
  have hb : e'.mUndoBuffer = e.mUndoBuffer := congrArg Prod.snd h
  unfold logGrew at hg ⊢
  rw [hi, hb]
  exact hg

theorem EnterCharacter_log (ed : Editor) (aChar : Nat) (aShift : Bool)
    (henc : (ImTextCharToUtf8 aChar).length > 0) :
    Res.sat (EnterCharacter ed aChar aShift)
      (fun e => e.mLines = ed.mLines ∨ logGrew ed e) := by
  unfold EnterCharacter
  refine Res.sat_bind_any (fun _ => Res.sat_ite
    (fun _ => EnterCharacterIndent_log ed aShift _) (fun _ => ?_))
  refine Res.sat_bind (P := fun eu => eu.1.log = ed.log) ?_ (fun eu heu => ?_)
  · exact Res.sat_ite (fun _ => Res.sat_bind_any (fun removed =>
      Res.sat_bind (DeleteSelection_log ed) (fun ed1 h1 => Res.sat_pure h1)))
      (fun _ => Res.sat_pure rfl)
  · refine Res.sat_bind_any (fun coord => Res.sat_bind_any (fun _ =>
      Res.sat_bind (P := fun r => ∃ p, r = some p ∧ p.1.log = ed.log) ?_ (fun r hr => ?_)))
    · refine Res.sat_ite (fun _ => ?_) (fun _ => ?_)
      · refine Res.sat_bind (InsertLine_log eu.1 _) (fun ed2 h2 =>
          Res.sat_bind_any (fun line => Res.sat_bind_any (fun newLine0 =>
            Res.sat_bind (setLine_log ed2 _ _) (fun ed3 h3 =>
              Res.sat_bind_any (fun cindex => Res.sat_bind_any (fun tail =>
                Res.sat_bind (setLine_log ed3 _ _) (fun ed4 h4 =>
                  Res.sat_bind_any (fun kept =>
                    Res.sat_bind (setLine_log ed4 _ _) (fun ed5 h5 =>
                      Res.sat_bind_any (fun col => Res.sat_pure ⟨_, rfl, ?_⟩))))))))))
        simp only [SetCursorPosition_log]
        exact h5.trans (h4.trans (h3.trans (h2.trans heu)))
      · refine Res.sat_ite (fun _ => ?_) (fun hn => absurd henc hn)
        refine Res.sat_bind_any (fun line => Res.sat_bind_any (fun cindex =>
          Res.sat_bind_any (fun lu => Res.sat_bind_any (fun ins =>
            Res.sat_bind (setLine_log eu.1 _ _) (fun ed2 h2 =>
              Res.sat_bind_any (fun col => Res.sat_pure ⟨_, rfl, ?_⟩))))))
        simp only [SetCursorPosition_log]
        exact h2.trans heu
    · obtain ⟨p, rfl, hp⟩ := hr
      obtain ⟨ed2, u3⟩ := p
      refine Res.sat_bind_any (fun addedEnd =>
        Res.sat_bind (AddUndo_grew ed { ed2 with mTextChanged := true } _ hp)
          (fun ed4 h4 => Res.sat_pure (Or.inr ?_)))
      exact logGrew_congr ed ed4 _ (by simp only [EnsureCursorVisible_log, Colorize_log]) h4

/-- C18 (counterexample): `InsertText` changes the text of the buffer `ab` to `xab` and
leaves the undo log as it was, empty with the cursor at 0. -/
theorem InsertText_adds_no_undo_record :
    GetTextLines oneLineAb = [[97, 98]] ∧ oneLineAb.mUndoIndex = 0 ∧
    oneLineAb.mUndoBuffer.length = 0 ∧
    (InsertText oneLineAb (some [120])).map
        (fun e => (GetTextLines e, e.mUndoIndex, e.mUndoBuffer.length))
      = Except.ok ([[120, 97, 98]], 0, 0) :=
  ⟨by decide, by decide, by decide, by decide⟩

/-- C18 (amended): each call of `EnterCharacter` (with a character that has a UTF-8
encoding), `Paste`, `Cut`, `Delete` or `Backspace` that returns and has changed the lines
of the buffer has added exactly one record to the undo log: the log cursor is one
further and stands at the end of the records. -/
theorem text_change_adds_one_record (ed : Editor) :
    (∀ (c : Nat) (shift : Bool) (e' : Editor), (ImTextCharToUtf8 c).length > 0 →
      EnterCharacter ed c shift = Except.ok e' → e'.mLines ≠ ed.mLines → logGrew ed e') ∧
    (∀ (clip : Option (List Char8)) (e' : Editor),
      Paste ed clip = Except.ok e' → e'.mLines ≠ ed.mLines → logGrew ed e') ∧
    (∀ (r : Editor × Option (List Char8)),
      Cut ed = Except.ok r → r.1.mLines ≠ ed.mLines → logGrew ed r.1) ∧
    (∀ e' : Editor, Delete ed = Except.ok e' → e'.mLines ≠ ed.mLines → logGrew ed e') ∧
    (∀ e' : Editor, Backspace ed = Except.ok e' → e'.mLines ≠ ed.mLines → logGrew ed e') := by
  refine ⟨fun c shift e' henc hrun hne => ?_, fun clip e' hrun hne => ?_,
    fun r hrun hne => ?_, fun e' hrun hne => ?_, fun e' hrun hne => ?_⟩
  · exact (EnterCharacter_log ed c shift henc e' hrun).resolve_left hne
  · exact (Paste_log ed clip e' hrun).resolve_left hne
  · exact (Cut_log ed r hrun).resolve_left hne
  · exact (Delete_log ed e' hrun).resolve_left hne
  · exact (Backspace_log ed e' hrun).resolve_left hne

theorem text_change_adds_one_record_witness :
    Delete oneLineAb = Except.ok oneLineAbDeleted ∧
    GetTextLines oneLineAbDeleted = [[98]] ∧ oneLineAb.mUndoIndex = 0 ∧
    logGrew oneLineAb oneLineAbDeleted :=
  have hrun : Delete oneLineAb = Except.ok oneLineAbDeleted := by
    have h : (Delete oneLineAb).map GetTextLines = Except.ok [[98]] := by decide
    unfold oneLineAbDeleted
    cases hd : Delete oneLineAb with
    | ok e => rfl
    | error f =>
      rw [hd] at h
      cases h
  ⟨hrun, by decide, by decide,
    (text_change_adds_one_record oneLineAb).2.2.2.1 oneLineAbDeleted hrun (by decide)⟩

/-! ### Word selection -/

theorem specBoundaries_le_last (tabSize : Int) (ht : 1 ≤ tabSize) (l : List Char8) :
    ∀ (skip : Nat) (off col : Int) (q : Int × Int),
      q ∈ specBoundaries tabSize l skip off col →
      q.2 ≤ ((specBoundaries tabSize l skip off col).getLastD (0, 0)).2 := by
  induction l with
  | nil =>
    intro skip off col q hq
    simp only [specBoundaries, List.mem_singleton] at hq
    subst hq
    simp [specBoundaries, List.getLastD]
  | cons b rest ih =>
    intro skip off col q hq
    cases skip with
    | zero =>
      simp only [specBoundaries] at hq ⊢
      rw [getLastD_cons_of_ne_nil _ _ _ (specBoundaries_ne_nil _ _ _ _ _)]
      rw [List.mem_cons] at hq
      rcases hq with hq | hq
      · subst hq
        have hmem := getLastD_mem _ ((0 : Int), (0 : Int))
          (specBoundaries_ne_nil tabSize rest (UTF8CharLength b - 1).toNat (off + 1)
            (if b = 9 then specNextTabColumn tabSize col else col + 1))
        have hlow := specBoundaries_lower tabSize ht rest _ _ _ _ hmem
        have hgt := specNextTabColumn_gt tabSize col ht
        by_cases h9 : b = 9
        · simp only [if_pos h9] at hlow ⊢
          omega
        · simp only [if_neg h9] at hlow ⊢
          omega
      · exact ih _ _ _ q hq
    | succ k =>
      simp only [specBoundaries] at hq ⊢
      exact ih _ _ _ q hq

theorem vecAt_eq_ok {α : Type} (v : List α) (i : Int) (x : α) (h : vecAt v i = Except.ok x) :
    ∃ (k : Nat) (hk : k < v.length), i = (k : Int) ∧ x = v.get ⟨k, hk⟩ := by
  unfold vecAt at h
  by_cases h0 : i < 0
  · simp [h0] at h
  · rw [if_neg h0] at h
    cases hget : v[i.toNat]? with
    | none =>
      rw [hget] at h
      cases h
    | some y =>
      rw [hget] at h
      have hxy : y = x := by
        simp only [pure, Except.pure] at h
        injection h
      subst hxy
      obtain ⟨hlt, hval⟩ := List.getElem?_eq_some_iff.mp hget
      exact ⟨i.toNat, hlt, by omega, hval.symm⟩

theorem vecSet_eq_ok {α : Type} (v : List α) (i : Int) (x : α) (w : List α)
    (h : vecSet v i x = Except.ok w) :
    ∃ (k : Nat), k < v.length ∧ i = (k : Int) ∧ w = v.set k x := by
  unfold vecSet at h
  by_cases h0 : i < 0 ∨ (v.length : Int) ≤ i
  · simp [h0] at h
  · rw [if_neg h0] at h
    simp only [pure, Except.pure] at h
    injection h with h
    exact ⟨i.toNat, by omega, by omega, h.symm⟩

theorem glyphUpdate_spec (line : Line) (i : Int) (f : Glyph → Glyph) (line1 : Line)
    (h : glyphUpdate line i f = Except.ok line1) :
    ∃ (k : Nat) (hk : k < line.length), i = (k : Int) ∧
      line1 = line.set k (f (line.get ⟨k, hk⟩)) := by
  unfold glyphUpdate at h
  cases hg : vecAt line i with
  | error e =>
    rw [hg] at h
    cases h
  | ok g =>
    rw [hg] at h
    obtain ⟨k, hk, hik, hgk⟩ := vecAt_eq_ok line i g hg
    obtain ⟨k2, _, hik2, hw⟩ := vecSet_eq_ok line i (f g) line1 h
    have : k2 = k := by omega
    subst this
    exact ⟨k2, hk, hik, by rw [hw, hgk]⟩

theorem blockFlags_set (line : Line) (k : Nat) (g : Glyph) :
    blockFlags (line.set k g) = (blockFlags line).set k g.mMultiLineComment := by
  unfold blockFlags
  induction line generalizing k with
  | nil => rfl
  | cons x xs ih =>
    cases k with
    | zero => rfl
    | succ n => simp [List.set, ih]

theorem blockFlags_length (line : Line) : (blockFlags line).length = line.length := by
  simp [blockFlags]

/-- A glyph update that leaves the flag `mMultiLineComment` alone leaves the flags of
the line alone. -/
theorem glyphUpdate_keeps_flags (line : Line) (i : Int) (f : Glyph → Glyph) (line1 : Line)
    (hf : ∀ g, (f g).mMultiLineComment = g.mMultiLineComment)
    (h : glyphUpdate line i f = Except.ok line1) :
    blockFlags line1 = blockFlags line ∧ 0 ≤ i ∧ i < (line.length : Int) := by
  obtain ⟨k, hk, hik, hl⟩ := glyphUpdate_spec line i f line1 h
  refine ⟨?_, by omega, by omega⟩
  rw [hl, blockFlags_set, hf]
  have hk2 : k < (blockFlags line).length := by rw [blockFlags_length]; exact hk
  have hget : (line.get ⟨k, hk⟩).mMultiLineComment = (blockFlags line).get ⟨k, hk2⟩ := by
    simp [blockFlags]
  rw [hget]
  exact list_set_self (blockFlags line) k hk2

/-- A glyph update that sets the flag `mMultiLineComment` to `v` sets it in the flags of
the line. -/
theorem glyphUpdate_sets_flag (line : Line) (i : Int) (f : Glyph → Glyph) (v : Bool)
    (line1 : Line) (hf : ∀ g, (f g).mMultiLineComment = v)
    (h : glyphUpdate line i f = Except.ok line1) :
    blockFlags line1 = (blockFlags line).set i.toNat v ∧ 0 ≤ i ∧ i < (line.length : Int) := by
  obtain ⟨k, hk, hik, hl⟩ := glyphUpdate_spec line i f line1 h
  refine ⟨?_, by omega, by omega⟩
  rw [hl, blockFlags_set, hf]
  congr 1
  omega

theorem glyphUpdate_flag (line : Line) (i : Int) (f : Glyph → Glyph) (line1 : Line)
    (h : glyphUpdate line i f = Except.ok line1) :
    ∃ g, blockFlags line1 = (blockFlags line).set i.toNat (f g).mMultiLineComment ∧
      0 ≤ i ∧ i < (line.length : Int) := by
  obtain ⟨k, hk, hik, hl⟩ := glyphUpdate_spec line i f line1 h
  refine ⟨line.get ⟨k, hk⟩, ?_, by omega, by omega⟩
  rw [hl, blockFlags_set]
  congr 1
  omega

theorem inComment_iff (s : CommentScan) (i : Int) :
    s.inComment i = true ↔ (s.commentStartLine < s.currentLine ∨
      (s.commentStartLine = s.currentLine ∧ s.commentStartIndex ≤ i)) := by
  simp [CommentScan.inComment]

theorem commentString_ok (n : Nat) (s : CommentScan) (line : Line) (c : Char8)
    (hcs : s.commentStartLine = (n : Int) ∨
      (s.commentStartLine < (n : Int) ∧ s.inComment s.currentIndex = true)) :
    Res.sat (commentString s line c (s.inComment s.currentIndex)) (BranchOK n s line) := by
  have hv : (s.commentStartLine < (n : Int) ∨ s.commentStartLine < (n : Int)) →
      s.inComment s.currentIndex = true := by
    intro h
    rcases hcs with h1 | h1
    · omega
    · exact h1.2
  have hcs2 : s.commentStartLine = (n : Int) ∨ (s.commentStartLine < (n : Int) ∧
      (s.commentStartLine < s.currentLine ∨
        (s.commentStartLine = s.currentLine ∧ s.commentStartIndex ≤ s.currentIndex))) := by
    rcases hcs with h1 | h1
    · exact Or.inl h1
    · exact Or.inr ⟨h1.1, (inComment_iff s _).mp h1.2⟩
  unfold commentString
  refine Res.sat_bind (Res.sat_self _) (fun line1 h1 => ?_)
  obtain ⟨hf1, h0, hlt⟩ := glyphUpdate_sets_flag line s.currentIndex _
    (s.inComment s.currentIndex) line1 (fun _ => rfl) h1
  have hskip : Res.sat (do
      let line2 ← (if s.currentIndex + 1 < (line1.length : Int) then
          glyphUpdate line1 (s.currentIndex + 1)
            (fun g => { g with mMultiLineComment := s.inComment s.currentIndex })
        else pure line1)
      pure (line2, { s with currentIndex := s.currentIndex + 1 })) (BranchOK n s line) := by
    refine Res.sat_bind (P := fun line2 => blockFlags line2
      = ((blockFlags line).set s.currentIndex.toNat (s.inComment s.currentIndex)).set
          (s.currentIndex.toNat + 1) (s.inComment s.currentIndex)) ?_ (fun line2 h2 => ?_)
    · refine Res.sat_ite (fun hin => ?_) (fun hout => Res.sat_pure ?_)
      · intro line2 h2
        obtain ⟨hf2, _, _⟩ := glyphUpdate_sets_flag line1 (s.currentIndex + 1) _
          (s.inComment s.currentIndex) line2 (fun _ => rfl) h2
        rw [hf2, hf1]
        congr 1
        omega
      · rw [hf1]
        have hlen : (blockFlags line1).length = line1.length := blockFlags_length line1
        rw [hf1, List.length_set, blockFlags_length] at hlen
        exact (List.set_eq_of_length_le (by
          rw [List.length_set, blockFlags_length]
          omega)).symm
    · exact Res.sat_pure ⟨rfl, rfl, h0, hlt, ⟨_, Or.inr ⟨rfl, h2⟩, hv⟩, hcs2⟩
  refine Res.sat_ite (fun _ => ?_) (fun _ => Res.sat_ite (fun _ => hskip) (fun _ => ?_))
  · refine Res.sat_bind_any (fun doubled => Res.sat_ite (fun _ => hskip) (fun _ => ?_))
    exact Res.sat_pure ⟨rfl, rfl, h0, hlt, ⟨_, Or.inl ⟨rfl, hf1⟩, hv⟩, hcs2⟩
  · exact Res.sat_pure ⟨rfl, rfl, h0, hlt, ⟨_, Or.inl ⟨rfl, hf1⟩, hv⟩, hcs2⟩

theorem commentDefault_tail (n : Nat) (s s6 : CommentScan) (line line1 : Line) (w5 e1 e2 : Bool)
    (hn : s.lines.length = n) (hl : s.currentLine < (n : Int))
    (hcs2 : s.commentStartLine = (n : Int) ∨ (s.commentStartLine < (n : Int) ∧
      (s.commentStartLine < s.currentLine ∨
        (s.commentStartLine = s.currentLine ∧ s.commentStartIndex ≤ s.currentIndex))))
    (h6l : s6.lines = s.lines) (h6c : s6.currentLine = s.currentLine)
    (h6i : s6.currentIndex = s.currentIndex)
    (h6s : (s6.commentStartLine = s.commentStartLine ∧
        s6.commentStartIndex = s.commentStartIndex) ∨
      (s6.commentStartLine = s.currentLine ∧ s6.commentStartIndex = s.currentIndex))
    (h1 : glyphUpdate line s.currentIndex
      (fun g => { g with mMultiLineComment := s6.inComment s.currentIndex, mComment := w5 })
      = Except.ok line1) :
    BranchOK n s line (line1,
      { (if e2 then { (if e1 then { s6 with commentStartIndex := 0,
                                            commentStartLine := (s.lines.length : Int) }
                       else s6) with commentStartIndex := 0,
                                     commentStartLine := (s.lines.length : Int) }
         else (if e1 then { s6 with commentStartIndex := 0,
                                    commentStartLine := (s.lines.length : Int) }
               else s6)) with withinSingleLineComment := w5 }) := by
  obtain ⟨g, hf1, h0, hlt⟩ := glyphUpdate_flag line s.currentIndex _ line1 h1
  simp only at hf1
  clear h1
  refine ⟨?_, ?_, h0, hlt, ⟨_, Or.inl ⟨?_, hf1⟩, ?_⟩, ?_⟩
  · cases e1 <;> cases e2 <;> exact h6l
  · cases e1 <;> cases e2 <;> exact h6c
  · cases e1 <;> cases e2 <;> exact h6i
  · intro hopen
    rw [inComment_iff, h6c]
    rw [hn] at hopen
    cases e1 <;> cases e2 <;>
      simp only [Bool.false_eq_true, if_false, if_true] at hopen <;> omega
  · rw [hn]
    cases e1 <;> cases e2 <;> simp only [Bool.false_eq_true, if_false, if_true, true_or]
    rcases h6s with ⟨a, b⟩ | ⟨a, b⟩
    · rw [a, b]
      exact hcs2
    · rw [a, b]
      exact Or.inr ⟨hl, Or.inr ⟨rfl, le_refl _⟩⟩

theorem commentDefault_ok (n : Nat) (ld : LanguageDefinition) (s : CommentScan) (line : Line)
    (w : Bool) (hn : s.lines.length = n) (hl : s.currentLine < (n : Int))
    (hcs : s.commentStartLine = (n : Int) ∨
      (s.commentStartLine < (n : Int) ∧ s.inComment s.currentIndex = true)) :
    Res.sat (commentDefault ld s line w) (BranchOK n s line) := by
  have hcs2 : s.commentStartLine = (n : Int) ∨ (s.commentStartLine < (n : Int) ∧
      (s.commentStartLine < s.currentLine ∨
        (s.commentStartLine = s.currentLine ∧ s.commentStartIndex ≤ s.currentIndex))) := by
    rcases hcs with h1 | h1
    · exact Or.inl h1
    · exact Or.inr ⟨h1.1, (inComment_iff s _).mp h1.2⟩
  unfold commentDefault
  refine Res.sat_bind_any (fun a1 => Res.sat_bind_any (fun a2 => Res.sat_bind_any (fun a3 =>
    Res.sat_bind_any (fun b1 => Res.sat_bind_any (fun b2 => Res.sat_bind_any (fun b3 =>
      Res.sat_bind (Res.sat_self _) (fun line1 h1 => Res.sat_bind_any (fun e1 =>
        Res.sat_bind_any (fun e2 => Res.sat_pure ?_)))))))))
  refine commentDefault_tail n s _ line line1 _ e1 e2 hn hl hcs2 ?_ ?_ ?_ ?_ h1
  · cases a3 <;> cases b3 <;> rfl
  · cases a3 <;> cases b3 <;> rfl
  · cases a3 <;> cases b3 <;> rfl
  · cases a3 <;> cases b3 <;> simp

theorem map_length_set (ls : Lines) : ∀ (k : Nat) (x line : Line), ls[k]? = some line →
    x.length = line.length → (ls.set k x).map List.length = ls.map List.length := by
  induction ls with
  | nil => intro k x line h _; simp at h
  | cons a rest ih =>
    intro k x line h hx
    cases k with
    | zero =>
      simp only [List.getElem?_cons_zero, Option.some.injEq] at h
      subst h
      simp [hx]
    | succ m =>
      simp only [List.getElem?_cons_succ] at h
      simp only [List.set_cons_succ, List.map_cons, ih m x line h hx]

theorem flagAt_set (ls : Lines) (k : Nat) (x : Line) (hk : k < ls.length) (l j : Nat) :
    flagAt (ls.set k x) l j = if l = k then (blockFlags x)[j]? else flagAt ls l j := by
  unfold flagAt
  by_cases hlk : l = k
  · subst hlk
    simp [List.getElem?_set_self, hk]
  · simp only [if_neg hlk]
    rw [List.getElem?_set_ne (fun h => hlk h.symm)]

theorem flagAt_eq (ls : Lines) (l j : Nat) (line : Line) (h : ls[l]? = some line) :
    flagAt ls l j = (blockFlags line)[j]? := by
  simp [flagAt, h]

theorem BranchOK_congr (n : Nat) (s t : CommentScan) (line : Line) (r : Line × CommentScan)
    (h1 : s.lines = t.lines) (h2 : s.currentLine = t.currentLine)
    (h3 : s.currentIndex = t.currentIndex) (h4 : s.commentStartLine = t.commentStartLine)
    (h : BranchOK n s line r) : BranchOK n t line r := by
  unfold BranchOK at h ⊢
  rw [h1, h2, h3, h4] at h
  exact h

theorem commentStep_tail (n : Nat) (b b2 : CommentScan) (line line2 : Line)
    (r : Line × CommentScan) (lines : Lines) (f : Glyph → Glyph) (d : Int) (hd : 1 ≤ d)
    (hinv : ScanInv n b) (hL : b.lines[b.currentLine.toNat]? = some line)
    (hr : BranchOK n b line r)
    (hf : ∀ g, (f g).mMultiLineComment = g.mMultiLineComment)
    (h2 : glyphUpdate r.1 r.2.currentIndex f = Except.ok line2)
    (h3 : vecSet r.2.lines r.2.currentLine line2 = Except.ok lines)
    (hlines : b2.lines = lines)
    (hcsl : b2.commentStartLine = r.2.commentStartLine)
    (hcsi : b2.commentStartIndex = r.2.commentStartIndex)
    (hpos : (b2.currentLine = b.currentLine + 1 ∧ b2.currentIndex = 0) ∨
      (b2.currentLine = b.currentLine ∧ b2.currentIndex = r.2.currentIndex + d ∧
        r.2.currentIndex + d < (line2.length : Int))) :
    StepOK n b b2 := by
  obtain ⟨hbn, hb0, hbi, _, _⟩ := hinv
  obtain ⟨hrl, hrc, h0, hlt, ⟨v, hwrite, hv⟩, hcs⟩ := hr
  obtain ⟨hkeep, hk0, hklt⟩ := glyphUpdate_keeps_flags r.1 r.2.currentIndex f line2 hf h2
  obtain ⟨k, hkn, hkL, hset⟩ := vecSet_eq_ok r.2.lines r.2.currentLine line2 lines h3
  rw [hrl] at hset hkn
  rw [hrc] at hkL
  have hkk : b.currentLine.toNat = k := by omega
  rw [hkk] at hL
  have hF : (blockFlags line).length = line.length := blockFlags_length line
  have hi : b.currentIndex.toNat < (blockFlags line).length := by omega
  -- the flags of the line after the turn
  have hflags : blockFlags line2 = (blockFlags line).set b.currentIndex.toNat v ∨
      (r.2.currentIndex = b.currentIndex + 1 ∧
        blockFlags line2 = ((blockFlags line).set b.currentIndex.toNat v).set
          (b.currentIndex.toNat + 1) v) := by
    rcases hwrite with ⟨_, hw⟩ | ⟨hw1, hw⟩
    · exact Or.inl (hkeep.trans hw)
    · exact Or.inr ⟨hw1, hkeep.trans hw⟩
  have hidx : r.2.currentIndex = b.currentIndex ∨ r.2.currentIndex = b.currentIndex + 1 := by
    rcases hwrite with ⟨hw1, _⟩ | ⟨hw1, _⟩
    · exact Or.inl hw1
    · exact Or.inr hw1
  have hlen2 : line2.length = line.length := by
    have h : line2.length = r.1.length := by
      have h := congrArg List.length hkeep
      simpa only [blockFlags_length] using h
    rcases hwrite with ⟨_, hw⟩ | ⟨_, hw⟩
    · have h' := congrArg List.length hw
      simp only [List.length_set, blockFlags_length] at h'
      omega
    · have h' := congrArg List.length hw
      simp only [List.length_set, blockFlags_length] at h'
      omega
  have hget2 : lines[k]? = some line2 := by
    rw [hset, List.getElem?_set_self hkn]
  have hat : (blockFlags line2)[b.currentIndex.toNat]? = some v := by
    rcases hflags with hw | ⟨_, hw⟩
    · rw [hw, List.getElem?_set_self hi]
    · rw [hw, List.getElem?_set_ne (by omega), List.getElem?_set_self hi]
  refine ⟨⟨?_, ?_, ?_, ?_, ?_⟩, ?_, ?_, ?_, ?_⟩
  · rw [hlines, hset, List.length_set]
    exact hbn
  · rcases hpos with ⟨h, _⟩ | ⟨h, _⟩ <;> omega
  · rcases hpos with ⟨_, h⟩ | ⟨_, h, _⟩ <;> omega
  · rw [hcsl]
    rcases hcs with hc | ⟨hc1, hc2⟩
    · exact Or.inl hc
    · refine Or.inr ⟨hc1, ?_⟩
      rw [inComment_iff, hcsl, hcsi]
      rcases hpos with ⟨h, h'⟩ | ⟨h, h', _⟩ <;> omega
  · rcases hpos with ⟨_, h⟩ | ⟨h, h', hlt2⟩
    · exact Or.inl h
    · refine Or.inr ⟨line2, ?_, by omega⟩
      rw [hlines, h, hkk]
      exact hget2
  · unfold posBefore
    rcases hpos with ⟨h, h'⟩ | ⟨h, h', _⟩ <;> omega
  · rw [hlines, hset]
    exact map_length_set b.lines k line2 line hL hlen2
  · intro l j hlj
    rw [hlines, hset, flagAt_set b.lines k line2 hkn]
    by_cases hlk : l = k
    · rw [if_pos hlk, hlk, flagAt_eq b.lines k j line hL]
      have hlL : (l : Int) = b.currentLine := by omega
      have hj : (j : Int) < b.currentIndex ∨ r.2.currentIndex < (j : Int) := by
        unfold posBefore at hlj
        rcases hlj with h | h
        · exact Or.inl (by omega)
        · rcases hpos with ⟨hp, hp'⟩ | ⟨hp, hp', _⟩
          · exfalso
            apply h
            exact Or.inl (by omega)
          · exact Or.inr (by omega)
      rcases hflags with hw | ⟨hw1, hw⟩
      · rw [hw, List.getElem?_set_ne (by omega)]
      · rw [hw, List.getElem?_set_ne (by omega), List.getElem?_set_ne (by omega)]
    · rw [if_neg hlk]
  · intro hopen
    refine ⟨line2, ?_, Or.inr ?_⟩
    · rw [hlines, hkk]
      exact hget2
    · rw [hat, hv (by rw [← hcsl]; exact hopen)]

theorem commentStep_ok (n : Nat) (ld : LanguageDefinition) (b : CommentScan)
    (hinv : ScanInv n b) :
    Res.sat (commentStep ld b) (StepOK n b) := by
  unfold commentStep
  refine Res.sat_bind (Res.sat_self _) (fun line hline => ?_)
  obtain ⟨k, hk, hkL, hget⟩ := vecAt_eq_ok _ _ _ hline
  obtain ⟨hbn, hb0, hbi, hcs, hidx⟩ := hinv
  have hkk : b.currentLine.toNat = k := by omega
  have hL : b.lines[b.currentLine.toNat]? = some line := by
    rw [hkk, hget]
    exact List.getElem?_eq_getElem hk
  have hl : b.currentLine < (n : Int) := by omega
  refine Res.sat_ite (fun hempty => Res.sat_pure ?_) (fun hne => ?_)
  · have hnil : line = [] := by
      cases line with
      | nil => rfl
      | cons x xs => simp at hempty
    refine ⟨⟨hbn, ?_, le_refl _, ?_, Or.inl rfl⟩, ?_, rfl, fun _ _ _ => rfl, fun _ =>
      ⟨line, hL, Or.inl hnil⟩⟩
    · show 0 ≤ b.currentLine + 1
      omega
    · rcases hcs with hc | ⟨hc1, hc2⟩
      · exact Or.inl hc
      · refine Or.inr ⟨hc1, ?_⟩
        rw [inComment_iff] at hc2 ⊢
        show b.commentStartLine < b.currentLine + 1 ∨
          (b.commentStartLine = b.currentLine + 1 ∧ b.commentStartIndex ≤ 0)
        omega
    · show posBefore b.currentLine b.currentIndex (b.currentLine + 1) 0
      exact Or.inl (by omega)
  · refine Res.sat_bind_any (fun g => ?_)
    refine Res.sat_bind (P := BranchOK n b line) ?_ (fun r hr => ?_)
    · refine Res.sat_ite (fun _ => ?_) (fun _ => Res.sat_ite (fun _ => ?_) (fun _ => ?_))
      · exact Res.sat_mono (commentString_ok n _ line g.mChar hcs)
          (fun r hr => BranchOK_congr n _ b line r rfl rfl rfl rfl hr)
      · refine Res.sat_bind (Res.sat_self _) (fun line1 h1 => Res.sat_pure ?_)
        obtain ⟨g1, hf1, h0, hlt⟩ := glyphUpdate_flag line _ _ line1 h1
        refine ⟨rfl, rfl, h0, hlt, ⟨_, Or.inl ⟨rfl, hf1⟩, ?_⟩, ?_⟩
        · intro hopen
          rcases hcs with hc | ⟨hc1, hc2⟩
          · exfalso
            have h1 : b.commentStartLine < (n : Int) := by
              rcases hopen with h | h
              · exact h
              · exact h
            omega
          · exact hc2
        · rcases hcs with hc | ⟨hc1, hc2⟩
          · exact Or.inl hc
          · exact Or.inr ⟨hc1, (inComment_iff b _).mp hc2⟩
      · exact Res.sat_mono (commentDefault_ok n ld _ line _ hbn hl hcs)
          (fun r hr => BranchOK_congr n _ b line r rfl rfl rfl rfl hr)
    · refine Res.sat_bind (Res.sat_self _) (fun line2 h2 => Res.sat_bind (Res.sat_self _)
        (fun lines h3 => ?_))
      have hd := UTF8CharLength_pos g.mChar
      refine Res.sat_ite (fun hw => Res.sat_pure ?_) (fun hs => Res.sat_pure ?_)
      · exact commentStep_tail n b _ line line2 r lines
          (fun g => { g with mPreprocessor := r.2.withinPreproc }) (UTF8CharLength g.mChar)
          (by omega) ⟨hbn, hb0, hbi, hcs, hidx⟩ hL hr (fun _ => rfl) h2 h3 rfl rfl rfl
          (Or.inl ⟨by rw [← hr.2.1], rfl⟩)
      · exact commentStep_tail n b _ line line2 r lines
          (fun g => { g with mPreprocessor := r.2.withinPreproc }) (UTF8CharLength g.mChar)
          (by omega) ⟨hbn, hb0, hbi, hcs, hidx⟩ hL hr (fun _ => rfl) h2 h3 rfl rfl rfl
          (Or.inr ⟨hr.2.1, rfl, by omega⟩)

theorem textSteps_eq (ls : Lines) :
    textSteps ls = ((ls.map List.length).map fun x => x + 1).sum := by
  unfold textSteps
  rw [List.map_map]
  rfl

theorem lensSum_drop_succ (lens : List Nat) (k : Nat) (hk : k < lens.length) :
    ((lens.drop k).map fun x => x + 1).sum
      = lens.get ⟨k, hk⟩ + 1 + ((lens.drop (k + 1)).map fun x => x + 1).sum := by
  rw [List.drop_eq_getElem_cons hk]
  simp only [List.map_cons, List.sum_cons, List.get_eq_getElem]

theorem lensSum_drop_mono (lens : List Nat) (k : Nat) : ∀ (m : Nat),
    ((lens.drop (k + m)).map fun x => x + 1).sum ≤ ((lens.drop k).map fun x => x + 1).sum := by
  intro m
  induction m with
  | zero => exact le_refl _
  | succ j ih =>
    by_cases hk : k + j < lens.length
    · have h := lensSum_drop_succ lens (k + j) hk
      have e : k + (j + 1) = k + j + 1 := by omega
      rw [e]
      omega
    · have e : lens.drop (k + (j + 1)) = [] := List.drop_eq_nil_of_le (by omega)
      rw [e]
      simp

theorem scanMeasure_eq (b : CommentScan) :
    scanMeasure b = (((b.lines.map List.length).drop b.currentLine.toNat).map
      fun x => x + 1).sum - b.currentIndex.toNat := by
  unfold scanMeasure
  rw [textSteps_eq, List.map_drop]

theorem scanMeasure_pos (n : Nat) (b : CommentScan) (hinv : ScanInv n b)
    (hl : b.currentLine < (n : Int)) : 0 < scanMeasure b := by
  obtain ⟨hbn, hb0, hbi, _, hidx⟩ := hinv
  rw [scanMeasure_eq]
  have hk : b.currentLine.toNat < (b.lines.map List.length).length := by
    rw [List.length_map]
    omega
  have h := lensSum_drop_succ (b.lines.map List.length) b.currentLine.toNat hk
  rcases hidx with h0 | ⟨line, hline, hlt⟩
  · rw [h0]
    simp only [Int.toNat_zero, Nat.sub_zero]
    omega
  · have hget : (b.lines.map List.length).get ⟨b.currentLine.toNat, hk⟩ = line.length := by
      have h1 : (b.lines.map List.length)[b.currentLine.toNat]? = some line.length := by
        rw [List.getElem?_map, hline]
        rfl
      have h2 := List.getElem?_eq_getElem hk
      rw [h1] at h2
      simp only [List.get_eq_getElem]
      injection h2 with h2
      exact h2.symm
    rw [hget] at h
    omega

theorem scanMeasure_lt (n : Nat) (b b2 : CommentScan) (hinv : ScanInv n b)
    (hl : b.currentLine < (n : Int)) (h : StepOK n b b2) : scanMeasure b2 < scanMeasure b := by
  obtain ⟨hinv2, hpos, hshape, _, _⟩ := h
  obtain ⟨hbn, hb0, hbi, _, hidx⟩ := hinv
  obtain ⟨hbn2, hb02, hbi2, _, hidx2⟩ := hinv2
  rw [scanMeasure_eq, scanMeasure_eq, hshape]
  have hk : b.currentLine.toNat < (b.lines.map List.length).length := by
    rw [List.length_map]
    omega
  have hsum := lensSum_drop_succ (b.lines.map List.length) b.currentLine.toNat hk
  -- the index of a state is at most the length of its line
  have hbound : ∀ (c : CommentScan) (hc : c.currentLine.toNat < (b.lines.map List.length).length),
      c.lines.map List.length = b.lines.map List.length →
      (c.currentIndex = 0 ∨ ∃ line, c.lines[c.currentLine.toNat]? = some line ∧
        c.currentIndex < (line.length : Int)) →
      c.currentIndex.toNat ≤ (b.lines.map List.length).get ⟨c.currentLine.toNat, hc⟩ := by
    intro c hc hs hi
    rcases hi with h0 | ⟨line, hline, hlt⟩
    · rw [h0]
      simp
    · have h1 : (b.lines.map List.length)[c.currentLine.toNat]? = some line.length := by
        rw [← hs, List.getElem?_map, hline]
        rfl
      have h2 := List.getElem?_eq_getElem hc
      rw [h1] at h2
      simp only [List.get_eq_getElem]
      injection h2 with h2
      rw [← h2]
      omega
  have hb := hbound b hk rfl hidx
  unfold posBefore at hpos
  rcases hpos with hlt | ⟨heq, hlt⟩
  · have hmono := lensSum_drop_mono (b.lines.map List.length) (b.currentLine.toNat + 1)
      (b2.currentLine.toNat - (b.currentLine.toNat + 1))
    have e : b.currentLine.toNat + 1 + (b2.currentLine.toNat - (b.currentLine.toNat + 1))
        = b2.currentLine.toNat := by omega
    rw [e] at hmono
    omega
  · have e : b2.currentLine.toNat = b.currentLine.toNat := by omega
    have hb2 := hbound b2 (by rw [e]; exact hk) hshape hidx2
    simp only [e] at hb2 ⊢
    omega

theorem posBefore_trans (l j l1 j1 l2 j2 : Int) (h1 : posBefore l j l1 j1)
    (h2 : posBefore l1 j1 l2 j2 ∨ (l1 = l2 ∧ j1 = j2)) : posBefore l j l2 j2 := by
  unfold posBefore at *
  omega

theorem commentRun_succ (ld : LanguageDefinition) (m : Nat) (s : CommentScan) :
    commentRun ld (m + 1) s = commentStep ld s >>= commentRun ld m := rfl

theorem commentRun_add (ld : LanguageDefinition) (m j : Nat) : ∀ (s : CommentScan),
    commentRun ld (m + j) s = commentRun ld m s >>= commentRun ld j := by
  induction m with
  | zero =>
    intro s
    simp [commentRun, pure, Except.pure, bind, Except.bind]
  | succ k ih =>
    intro s
    have e : k + 1 + j = (k + j) + 1 := by omega
    rw [e, commentRun_succ, commentRun_succ]
    cases hs : commentStep ld s with
    | error f => rfl
    | ok s1 =>
      simp only [bind, Except.bind]
      exact ih s1

/-- What `k` turns of the comment pass do: the position does not go back, the lines keep
their lengths, and no flag before the position of the start is touched. -/
theorem commentRun_ok (n : Nat) (ld : LanguageDefinition) (k : Nat) :
    ∀ (b f : CommentScan), ScanInv n b → commentRun ld k b = Except.ok f →
    ScanInv n f ∧
    (posBefore b.currentLine b.currentIndex f.currentLine f.currentIndex ∨
      (b.currentLine = f.currentLine ∧ b.currentIndex = f.currentIndex)) ∧
    f.lines.map List.length = b.lines.map List.length ∧
    (∀ (l j : Nat), posBefore l j b.currentLine b.currentIndex →
      flagAt f.lines l j = flagAt b.lines l j) := by
  induction k with
  | zero =>
    intro b f hinv h
    simp only [commentRun, pure, Except.pure] at h
    injection h with h
    subst h
    exact ⟨hinv, Or.inr ⟨rfl, rfl⟩, rfl, fun _ _ _ => rfl⟩
  | succ m ih =>
    intro b f hinv h
    rw [commentRun_succ] at h
    cases hs : commentStep ld b with
    | error e =>
      rw [hs] at h
      cases h
    | ok b1 =>
      rw [hs] at h
      simp only [bind, Except.bind] at h
      obtain ⟨hinv1, hpos1, hshape1, hframe1, _⟩ := commentStep_ok n ld b hinv b1 hs
      obtain ⟨hinvf, hposf, hshapef, hframef⟩ := ih b1 f hinv1 h
      refine ⟨hinvf, Or.inl (posBefore_trans _ _ _ _ _ _ hpos1 hposf), hshapef.trans hshape1,
        fun l j hlj => ?_⟩
      rw [hframef l j (posBefore_trans _ _ _ _ _ _ hlj (Or.inl hpos1)),
        hframe1 l j (Or.inl hlj)]

theorem commentStep_at_end (ld : LanguageDefinition) (b : CommentScan)
    (h : ¬ (b.currentLine < (b.lines.length : Int))) :
    commentStep ld b = Except.error Fault.outOfBounds := by
  have hv : vecAt b.lines b.currentLine = Except.error Fault.outOfBounds := by
    unfold vecAt
    by_cases h0 : b.currentLine < 0
    · rw [if_pos h0]
      rfl
    · rw [if_neg h0]
      have hnone : b.lines[b.currentLine.toNat]? = none := by
        rw [List.getElem?_eq_none_iff]
        omega
      rw [hnone]
      rfl
  unfold commentStep
  rw [hv]
  rfl

/-- The loop of the comment pass ends when it is given as many turns as its measure: it
returns the state after some number of turns, and that state is behind the last line. -/
theorem commentLoop_run (n : Nat) (ld : LanguageDefinition) (fuel : Nat) :
    ∀ (b f : CommentScan), ScanInv n b → scanMeasure b ≤ fuel →
    commentLoop ld fuel b = Except.ok f →
    ∃ k, commentRun ld k b = Except.ok f ∧ ¬ (f.currentLine < (n : Int)) := by
  induction fuel with
  | zero =>
    intro b f hinv hm h
    simp only [commentLoop, pure, Except.pure] at h
    injection h with h
    subst h
    refine ⟨0, rfl, fun hl => ?_⟩
    have := scanMeasure_pos n b hinv hl
    omega
  | succ m ih =>
    intro b f hinv hm h
    by_cases hl : b.currentLine < (n : Int)
    · have hl2 : b.currentLine < (b.lines.length : Int) := by
        rw [hinv.1]
        exact hl
      simp only [commentLoop, hl2, if_true] at h
      cases hs : commentStep ld b with
      | error e =>
        rw [hs] at h
        cases h
      | ok b1 =>
        rw [hs] at h
        simp only [bind, Except.bind] at h
        have hstep := commentStep_ok n ld b hinv b1 hs
        have hlt := scanMeasure_lt n b b1 hinv hl hstep
        obtain ⟨k, hk, hend⟩ := ih b1 f hstep.1 (by omega) h
        refine ⟨k + 1, ?_, hend⟩
        rw [commentRun_succ, hs]
        exact hk
    · have hl2 : ¬ (b.currentLine < (b.lines.length : Int)) := by
        rw [hinv.1]
        exact hl
      simp only [commentLoop, hl2, if_false, pure, Except.pure] at h
      injection h with h
      subst h
      exact ⟨0, rfl, hl⟩

theorem ScanInv_start (lines : Lines) : ScanInv lines.length (CommentScan.start lines) :=
  ⟨rfl, le_refl _, le_refl _, Or.inl rfl, Or.inl rfl⟩

theorem scanMeasure_start (lines : Lines) :
    scanMeasure (CommentScan.start lines) = textSteps lines := by
  simp [scanMeasure, CommentScan.start]

theorem commentPass_run (ld : LanguageDefinition) (lines final : Lines)
    (hpass : commentPass ld lines = Except.ok final) :
    ∃ k f, commentRun ld k (CommentScan.start lines) = Except.ok f ∧ f.lines = final ∧
      ¬ (f.currentLine < (lines.length : Int)) ∧ ScanInv lines.length f := by
  unfold commentPass at hpass
  cases hloop : commentLoop ld (textSteps lines) (CommentScan.start lines) with
  | error e =>
    rw [hloop] at hpass
    cases hpass
  | ok f =>
    rw [hloop] at hpass
    simp only [bind, Except.bind, pure, Except.pure] at hpass
    injection hpass with hpass
    obtain ⟨k, hk, hend⟩ := commentLoop_run lines.length ld (textSteps lines)
      (CommentScan.start lines) f (ScanInv_start lines)
      (le_of_eq (scanMeasure_start lines)) hloop
    exact ⟨k, f, hk, hpass, hend,
      (commentRun_ok lines.length ld k _ f (ScanInv_start lines) hk).1⟩

/-- A run of the comment pass that ends behind the last line goes through every state
that a shorter run reaches inside the text. -/
theorem commentRun_through (ld : LanguageDefinition) (s f b : CommentScan) (k m : Nat)
    (hk : commentRun ld k s = Except.ok f) (hm : commentRun ld m s = Except.ok b)
    (hb : b.currentLine < (b.lines.length : Int))
    (hf : ¬ (f.currentLine < (f.lines.length : Int))) :
    ∃ b2 j, commentStep ld b = Except.ok b2 ∧ commentRun ld j b2 = Except.ok f := by
  by_cases hkm : k ≤ m
  · obtain ⟨d, rfl⟩ := Nat.exists_eq_add_of_le hkm
    rw [commentRun_add, hk] at hm
    simp only [bind, Except.bind] at hm
    cases d with
    | zero =>
      simp only [commentRun, pure, Except.pure] at hm
      injection hm with hm
      subst hm
      exact absurd hb hf
    | succ d =>
      rw [commentRun_succ, commentStep_at_end ld f hf] at hm
      cases hm
  · obtain ⟨j, rfl⟩ : ∃ j, k = m + (j + 1) := ⟨k - m - 1, by omega⟩
    rw [commentRun_add, hm] at hk
    simp only [bind, Except.bind] at hk
    rw [commentRun_succ] at hk
    cases hs : commentStep ld b with
    | error e =>
      rw [hs] at hk
      cases hk
    | ok b2 =>
      rw [hs] at hk
      exact ⟨b2, j, rfl, hk⟩

/-- C22: `SetTabSize(0)` stores the tab size 0, and on the line of one tab character the
tab-stop computation of `GetLineMaxColumn`, `GetCharacterIndex` and `GetCharacterColumn`
then divides by zero. -/
theorem tab_size_zero_divides_by_zero :
    tabLineTabSizeZero.mTabSize = 0 ∧
    GetText tabLineTabSizeZero = Except.ok [9] ∧
    GetLineMaxColumn tabLineTabSizeZero 0 = Except.error Fault.divideByZero ∧
    GetCharacterIndex tabLineTabSizeZero ⟨0, 1⟩ = Except.error Fault.divideByZero ∧
    GetCharacterColumn tabLineTabSizeZero 0 1 = Except.error Fault.divideByZero := by
  refine ⟨by decide, by decide, by decide, by decide, by decide⟩

/-- C23: in the three lines `a`, `b`, `c`, with the cursor put at (2,0), `MoveUp(1, true)`
leaves the cursor at (1,0) and the anchors at (1,0) and (2,0), so the cursor is at the
start anchor only; `MoveTop(true)` then moves the cursor to (0,0), sets the start anchor
to (0,0) and sets the end anchor, which was not at the cursor, to (1,0). From the cursor
at (0,0), `MoveDown(1, true)` leaves the cursor at the end anchor (1,0) with the start
anchor (0,0); `MoveBottom(true)` then sets the start anchor to (1,0). -/
theorem MoveTop_moves_other_anchor :
    (MoveUp (SetCursorPosition threeLinesAbc ⟨2, 0⟩) 1 true).map Editor.anchors =
      Except.ok (⟨1, 0⟩, ⟨1, 0⟩, ⟨2, 0⟩) ∧
    ((MoveUp (SetCursorPosition threeLinesAbc ⟨2, 0⟩) 1 true).bind
        fun ed => MoveTop ed true).map Editor.anchors =
      Except.ok (⟨0, 0⟩, ⟨0, 0⟩, ⟨1, 0⟩) ∧
    (MoveDown threeLinesAbc 1 true).map Editor.anchors =
      Except.ok (⟨1, 0⟩, ⟨0, 0⟩, ⟨1, 0⟩) ∧
    ((MoveDown threeLinesAbc 1 true).bind fun ed => MoveBottom ed true).map Editor.anchors =
      Except.ok (⟨2, 0⟩, ⟨1, 0⟩, ⟨2, 0⟩) := by
  refine ⟨by decide, by decide, by decide, by decide⟩

/-- C24 (counterexample): in the two lines `ab`, `cd` the coordinate (0,1) is on a
character boundary and not at the end of its line (the line ends at column 2), and
`Advance` takes it to (1,0), the start of the next line, not to (0,2); from (0,0) it
yields (0,1) and from the line end (0,2) it yields (1,0). -/
theorem Advance_skips_line_end :
    GetLineMaxColumn twoLinesAbCd 0 = Except.ok 2 ∧
    GetCharacterIndex twoLinesAbCd ⟨0, 1⟩ = Except.ok 1 ∧
    Advance twoLinesAbCd ⟨0, 1⟩ = Except.ok ⟨1, 0⟩ ∧
    Advance twoLinesAbCd ⟨0, 0⟩ = Except.ok ⟨0, 1⟩ ∧
    Advance twoLinesAbCd ⟨0, 2⟩ = Except.ok ⟨1, 0⟩ := by
  refine ⟨by decide, by decide, by decide, by decide, by decide⟩

set_option maxRecDepth 100000 in
/-- C26: with the built-in language definition the comment pass flags every glyph of the
line `--[[ x` both `mMultiLineComment` and `mComment`: at index 0 the test of the
single-line marker `--` against the second multi-line marker `/*` enters the single-line
state although the first multi-line marker `--[[` matches there. The glyphs of the line
`/* x` get `mMultiLineComment` only. -/
theorem block_start_enters_single_line_state :
    (commentPass LanguageDefinition.CPlusPlus
        (SetText Editor.init [45, 45, 91, 91, 32, 120]).mLines).map
        (fun ls => ls.map commentFlags) =
      Except.ok [[(true, true), (true, true), (true, true), (true, true), (true, true),
        (true, true)]] ∧
    (commentPass LanguageDefinition.CPlusPlus
        (SetText Editor.init [47, 42, 32, 120]).mLines).map
        (fun ls => ls.map commentFlags) =
      Except.ok [[(true, false), (true, false), (true, false), (true, false)]] := by
  refine ⟨by decide, by decide⟩

theorem vecAt_getElem? {α : Type} (v : List α) (i : Int) (x : α) (h : vecAt v i = Except.ok x) :
    0 ≤ i ∧ i < (v.length : Int) ∧ v[i.toNat]? = some x := by
  obtain ⟨k, hk, hik, hx⟩ := vecAt_eq_ok v i x h
  subst hik
  refine ⟨by omega, by omega, ?_⟩
  rw [Int.toNat_ofNat, hx]
  exact List.getElem?_eq_getElem hk

theorem glyphUpdate_eq (line : Line) (i : Int) (f : Glyph → Glyph) (line1 : Line)
    (h : glyphUpdate line i f = Except.ok line1) :
    line1 = glyphMod line i f ∧ 0 ≤ i ∧ i < (line.length : Int) := by
  obtain ⟨k, hk, hik, hl⟩ := glyphUpdate_spec line i f line1 h
  subst hik
  refine ⟨?_, by omega, by omega⟩
  unfold glyphMod
  rw [Int.toNat_ofNat, List.getElem?_eq_getElem hk, hl]
  rfl

theorem lineChars_glyphMod (line : Line) (i : Int) (f : Glyph → Glyph)
    (hf : ∀ g, (f g).mChar = g.mChar) : lineChars (glyphMod line i f) = lineChars line := by
  unfold glyphMod
  cases hg : (line)[i.toNat]? with
  | none => rfl
  | some g =>
    simp only
    unfold lineChars
    rw [List.map_set, hf]
    obtain ⟨hlt, hval⟩ := List.getElem?_eq_some_iff.mp hg
    have h2 : i.toNat < (List.map (fun g => g.mChar) line).length := by
      rw [List.length_map]
      exact hlt
    have h3 : g.mChar = (List.map (fun g => g.mChar) line).get ⟨i.toNat, h2⟩ := by
      simp [hval]
    rw [h3]
    exact list_set_self _ _ h2

theorem glyphMod_length (line : Line) (i : Int) (f : Glyph → Glyph) :
    (glyphMod line i f).length = line.length := by
  unfold glyphMod
  cases (line)[i.toNat]? with
  | none => rfl
  | some g => simp

theorem equalsAt_eq (m : List Char8) (line : Line) :
    ∀ (i : Int) (r : Bool), 0 ≤ i → equalsAt m line i = Except.ok r →
      r = markerAt m ((lineChars line).drop i.toNat) := by
  induction m with
  | nil =>
    intro i r _ h
    simp only [equalsAt, pure, Except.pure] at h
    injection h with h
    rw [← h]
    rfl
  | cons a rest ih =>
    intro i r h0 h
    unfold equalsAt at h
    cases hg : vecAt line i with
    | error e =>
      rw [hg] at h
      cases h
    | ok g =>
      rw [hg] at h
      simp only [bind, Except.bind] at h
      obtain ⟨_, hlt, hget⟩ := vecAt_getElem? line i g hg
      have hdrop : (lineChars line).drop i.toNat =
          g.mChar :: (lineChars line).drop (i + 1).toNat := by
        have h1 : i.toNat < (lineChars line).length := by
          unfold lineChars
          rw [List.length_map]
          omega
        rw [List.drop_eq_getElem_cons h1]
        have h2 : (lineChars line)[i.toNat] = g.mChar := by
          have h3 : (lineChars line)[i.toNat]? = some g.mChar := by
            unfold lineChars
            rw [List.getElem?_map, hget]
            rfl
          rw [List.getElem?_eq_getElem h1] at h3
          injection h3
        rw [h2]
        congr 2
        omega
      rw [hdrop]
      by_cases hp : predEq a g = true
      · rw [if_pos hp] at h
        have := ih (i + 1) r (by omega) h
        rw [this]
        unfold predEq at hp
        simp only [markerAt, hp, Bool.true_and]
      · rw [if_neg hp] at h
        simp only [pure, Except.pure] at h
        injection h with h
        rw [← h]
        unfold predEq at hp
        simp only [markerAt]
        simp only [Bool.not_eq_true] at hp
        rw [hp]
        rfl

theorem bind_ok {α β : Type} (x : Res α) (f : α → Res β) (r : β)
    (h : (x >>= f) = Except.ok r) : ∃ a, x = Except.ok a ∧ f a = Except.ok r := by
  cases x with
  | error e => cases h
  | ok a => exact ⟨a, rfl, h⟩

theorem lineChars_length (line : Line) : (lineChars line).length = line.length := by
  simp [lineChars]

theorem singleLineAt_eq (single start : List Char8) (line : Line) (i : Int) (r : Bool)
    (h0 : 0 ≤ i) (h : singleLineAt single start line i = Except.ok r) :
    r = singleLineT single start (lineChars line) i := by
  unfold singleLineAt at h
  unfold singleLineT
  rw [lineChars_length]
  by_cases hc : single.length > 0 ∧ i + (single.length : Int) ≤ (line.length : Int)
  · rw [if_pos hc] at h
    obtain ⟨m, hm, h⟩ := bind_ok _ _ _ h
    have hm2 := equalsAt_eq single line i m h0 hm
    by_cases hmt : m = true
    · rw [if_pos hmt] at h
      obtain ⟨m2, hm2b, h⟩ := bind_ok _ _ _ h
      have hm3 := equalsAt_eq start line i m2 h0 hm2b
      simp only [pure, Except.pure] at h
      injection h with h
      rw [← h, ← hm2, ← hm3, hmt]
      simp [hc]
    · rw [if_neg hmt] at h
      simp only [pure, Except.pure] at h
      injection h with h
      simp only [Bool.not_eq_true] at hmt
      rw [← h, ← hm2, hmt]
      simp
  · rw [if_neg hc] at h
    simp only [pure, Except.pure] at h
    injection h with h
    rw [← h]
    simp [hc]

theorem multiLineAt_eq (start : List Char8) (line : Line) (i : Int) (within r : Bool)
    (h0 : 0 ≤ i) (h : multiLineAt start line i within = Except.ok r) :
    r = multiLineT start (lineChars line) i within := by
  unfold multiLineAt at h
  unfold multiLineT
  rw [lineChars_length]
  by_cases hc : within = false ∧ i + (start.length : Int) ≤ (line.length : Int)
  · rw [if_pos hc] at h
    rw [equalsAt_eq start line i r h0 h]
    simp [hc]
  · rw [if_neg hc] at h
    simp only [pure, Except.pure] at h
    injection h with h
    rw [← h]
    simp [hc]

theorem endMarkerAt_eq (endStr : List Char8) (line : Line) (i : Int) (r : Bool)
    (h : endMarkerAt endStr line i = Except.ok r) :
    r = endMarkerT endStr (lineChars line) i := by
  unfold endMarkerAt at h
  unfold endMarkerT
  by_cases hc : i + 1 ≥ (endStr.length : Int)
  · rw [if_pos hc] at h
    rw [equalsAt_eq endStr line _ r (by omega) h]
    simp [hc]
  · rw [if_neg hc] at h
    simp only [pure, Except.pure] at h
    injection h with h
    rw [← h]
    simp [hc]

theorem commentDefault_eq (ld : LanguageDefinition) (s : CommentScan) (line : Line)
    (within0 : Bool) (r : Line × CommentScan) (h0 : 0 ≤ s.currentIndex)
    (h : commentDefault ld s line within0 = Except.ok r) :
    r = commentDefaultT ld s line within0 := by
  unfold commentDefault at h
  obtain ⟨a1, ha1, h⟩ := bind_ok _ _ _ h
  obtain ⟨a2, ha2, h⟩ := bind_ok _ _ _ h
  obtain ⟨a3, ha3, h⟩ := bind_ok _ _ _ h
  obtain ⟨b1, hb1, h⟩ := bind_ok _ _ _ h
  obtain ⟨b2, hb2, h⟩ := bind_ok _ _ _ h
  obtain ⟨b3, hb3, h⟩ := bind_ok _ _ _ h
  obtain ⟨line1, hl1, h⟩ := bind_ok _ _ _ h
  obtain ⟨e1, he1, h⟩ := bind_ok _ _ _ h
  obtain ⟨e2, he2, h⟩ := bind_ok _ _ _ h
  simp only [pure, Except.pure] at h
  injection h with h
  have ha1 := singleLineAt_eq _ _ _ _ _ h0 ha1
  have ha2 := singleLineAt_eq _ _ _ _ _ h0 ha2
  have ha3 := multiLineAt_eq _ _ _ _ _ h0 ha3
  have hb1 := singleLineAt_eq _ _ _ _ _ h0 hb1
  have hb2 := singleLineAt_eq _ _ _ _ _ h0 hb2
  have hb3 := multiLineAt_eq _ _ _ _ _ h0 hb3
  obtain ⟨hl1, _, _⟩ := glyphUpdate_eq _ _ _ _ hl1
  have hch : lineChars line1 = lineChars line := by
    rw [hl1]
    exact lineChars_glyphMod _ _ _ (fun _ => rfl)
  have he1 := endMarkerAt_eq _ _ _ _ he1
  have he2 := endMarkerAt_eq _ _ _ _ he2
  rw [hch] at he1 he2
  rw [← h, hl1]
  unfold commentDefaultT turnOpens turnCloses turnSingle
  simp only [← ha1, ← ha2, ← ha3, ← hb1, ← hb2, ← hb3, ← he1, ← he2]
  cases a3 <;> cases b3 <;> cases e1 <;> cases e2 <;>
    simp [CommentScan.inComment]

theorem charAtD_eq (line : Line) (i : Int) :
    charAtD line i = ((lineChars line)[i.toNat]?).getD 0 := by
  unfold charAtD lineChars
  rw [List.getElem?_map]
  cases (line)[i.toNat]? <;> rfl

theorem charAtD_glyphMod (line : Line) (i j : Int) (f : Glyph → Glyph)
    (hf : ∀ g, (f g).mChar = g.mChar) : charAtD (glyphMod line i f) j = charAtD line j := by
  rw [charAtD_eq, charAtD_eq, lineChars_glyphMod line i f hf]

theorem vecAt_charAtD (line : Line) (i : Int) (g : Glyph) (h : vecAt line i = Except.ok g) :
    g.mChar = charAtD line i := by
  obtain ⟨_, _, hget⟩ := vecAt_getElem? line i g h
  unfold charAtD
  rw [hget]

theorem glyphMod_outside (line : Line) (i : Int) (f : Glyph → Glyph)
    (h : (line.length : Int) ≤ i) : glyphMod line i f = line := by
  unfold glyphMod
  have hnone : (line)[i.toNat]? = none := by
    rw [List.getElem?_eq_none_iff]
    omega
  rw [hnone]

theorem commentString_eq (s : CommentScan) (line : Line) (c : Char8) (inComment : Bool)
    (r : Line × CommentScan) (h : commentString s line c inComment = Except.ok r) :
    r = commentStringT s line c inComment := by
  unfold commentString at h
  obtain ⟨line1, hl1, h⟩ := bind_ok _ _ _ h
  obtain ⟨hl1, h0, hlt⟩ := glyphUpdate_eq _ _ _ _ hl1
  have hlen : line1.length = line.length := by rw [hl1, glyphMod_length]
  have hskip : ∀ line2, (if s.currentIndex + 1 < (line1.length : Int) then
        glyphUpdate line1 (s.currentIndex + 1) (fun g => { g with mMultiLineComment := inComment })
      else pure line1) = Except.ok line2 →
      line2 = glyphMod line1 (s.currentIndex + 1)
        (fun g => { g with mMultiLineComment := inComment }) := by
    intro line2 h2
    by_cases hin : s.currentIndex + 1 < (line1.length : Int)
    · rw [if_pos hin] at h2
      exact (glyphUpdate_eq _ _ _ _ h2).1
    · rw [if_neg hin] at h2
      simp only [pure, Except.pure] at h2
      injection h2 with h2
      rw [← h2, glyphMod_outside _ _ _ (by omega)]
  unfold commentStringT stringSkips
  by_cases hq : c = 34
  · rw [if_pos hq] at h
    obtain ⟨doubled, hd, h⟩ := bind_ok _ _ _ h
    have hdv : doubled = decide (s.currentIndex + 1 < (line.length : Int) ∧
        charAtD line (s.currentIndex + 1) = 34) := by
      by_cases hin : s.currentIndex + 1 < (line1.length : Int)
      · rw [if_pos hin] at hd
        obtain ⟨g, hg, hd⟩ := bind_ok _ _ _ hd
        simp only [pure, Except.pure] at hd
        injection hd with hd
        have hgc := vecAt_charAtD _ _ _ hg
        rw [hl1, charAtD_glyphMod line s.currentIndex (s.currentIndex + 1)
          (fun g => { g with mMultiLineComment := inComment }) (fun _ => rfl)] at hgc
        rw [← hd, hgc]
        rw [hlen] at hin
        simp [hin]
      · rw [if_neg hin] at hd
        simp only [pure, Except.pure] at hd
        injection hd with hd
        rw [hlen] at hin
        rw [← hd]
        simp [hin]
    by_cases hdt : doubled = true
    · rw [if_pos hdt] at h
      obtain ⟨line2, hl2, h⟩ := bind_ok _ _ _ h
      have hl2 := hskip line2 hl2
      simp only [pure, Except.pure] at h
      injection h with h
      rw [hdv] at hdt
      rw [← h, hl2, hl1]
      simp [hq, hdt]
    · rw [if_neg hdt] at h
      simp only [pure, Except.pure] at h
      injection h with h
      rw [hdv] at hdt
      rw [← h, hl1]
      simp only [Bool.not_eq_true] at hdt
      simp [hq, hdt]
  · rw [if_neg hq] at h
    by_cases hb : c = 92
    · rw [if_pos hb] at h
      obtain ⟨line2, hl2, h⟩ := bind_ok _ _ _ h
      have hl2 := hskip line2 hl2
      simp only [pure, Except.pure] at h
      injection h with h
      rw [← h, hl2, hl1]
      simp [hq, hb]
    · rw [if_neg hb] at h
      simp only [pure, Except.pure] at h
      injection h with h
      rw [← h, hl1]
      simp [hq, hb]

theorem commentStep_unfold (ld : LanguageDefinition) (s0 : CommentScan) :
    commentStep ld s0 = (do
      let line ← vecAt s0.lines s0.currentLine
      if line.isEmpty then pure (turnEmpty s0)
      else do
        let g ← vecAt line s0.currentIndex
        let r ← turnBranch ld (turnFirst ld (turnReset s0) line g.mChar) line g.mChar
        turnFinish r g.mChar) := rfl

theorem turnBranch_eq (ld : LanguageDefinition) (s3 : CommentScan) (line : Line) (c : Char8)
    (r : Line × CommentScan) (h0 : 0 ≤ s3.currentIndex)
    (h : turnBranch ld s3 line c = Except.ok r) : r = turnBranchT ld s3 line c := by
  unfold turnBranch at h
  unfold turnBranchT
  by_cases hstr : s3.withinString = true
  · rw [if_pos hstr] at h ⊢
    exact commentString_eq _ _ _ _ _ h
  · rw [if_neg hstr] at h ⊢
    simp only at h ⊢
    by_cases hq : c = 34
    · rw [if_pos hq] at h ⊢
      obtain ⟨line1, hl1, h⟩ := bind_ok _ _ _ h
      obtain ⟨hl1, _, _⟩ := glyphUpdate_eq _ _ _ _ hl1
      simp only [pure, Except.pure] at h
      injection h with h
      rw [← h, hl1]
    · rw [if_neg hq] at h ⊢
      exact commentDefault_eq _ _ _ _ _ h0 h

theorem turnFinish_eq (r : Line × CommentScan) (c : Char8) (b2 : CommentScan)
    (h : turnFinish r c = Except.ok b2) :
    b2 = turnFinishT r c ∧ 0 ≤ r.2.currentIndex ∧ r.2.currentIndex < (r.1.length : Int) := by
  unfold turnFinish at h
  obtain ⟨line2, hl2, h⟩ := bind_ok _ _ _ h
  obtain ⟨lines, hls, h⟩ := bind_ok _ _ _ h
  obtain ⟨hl2, hi0, hi1⟩ := glyphUpdate_eq _ _ _ _ hl2
  obtain ⟨k, hk, hik, hls⟩ := vecSet_eq_ok _ _ _ _ hls
  have hk2 : r.2.currentLine.toNat = k := by omega
  have hlen : line2.length = r.1.length := by rw [hl2, glyphMod_length]
  refine ⟨?_, hi0, hi1⟩
  unfold turnFinishT
  simp only at h ⊢
  rw [hlen] at h
  by_cases hadv : r.2.currentIndex + UTF8CharLength c ≥ (r.1.length : Int)
  · rw [if_pos hadv] at h
    simp only [pure, Except.pure] at h
    injection h with h
    rw [← h, hls, hl2, hk2, if_pos hadv, if_pos hadv]
  · rw [if_neg hadv] at h
    simp only [pure, Except.pure] at h
    injection h with h
    rw [← h, hls, hl2, hk2, if_neg hadv, if_neg hadv]

theorem turnBranchT_index (ld : LanguageDefinition) (s3 : CommentScan) (line : Line)
    (c : Char8) :
    (turnBranchT ld s3 line c).2.currentIndex =
      (if s3.withinString ∧ stringSkips line s3.currentIndex c then s3.currentIndex + 1
       else s3.currentIndex) := by
  unfold turnBranchT
  by_cases hstr : s3.withinString = true
  · simp [hstr, commentStringT]
  · by_cases hq : c = 34
    · simp [hstr, hq, turnPreproc]
    · simp [hstr, hq, commentDefaultT, turnPreproc]

theorem turnBranchT_length (ld : LanguageDefinition) (s3 : CommentScan) (line : Line)
    (c : Char8) : (turnBranchT ld s3 line c).1.length = line.length := by
  unfold turnBranchT
  by_cases hstr : s3.withinString = true
  · simp only [hstr, if_true, commentStringT]
    split_ifs <;> simp only [glyphMod_length]
  · by_cases hq : c = 34
    · simp [hstr, hq, glyphMod_length]
    · simp [hstr, hq, commentDefaultT, glyphMod_length]

/-- A turn of the comment pass that returns reads a line of the buffer, at an index inside
the line when the line is not empty, writes inside the line, and leaves the state
`commentStepT`. -/
theorem commentStep_eq (ld : LanguageDefinition) (b b2 : CommentScan)
    (h : commentStep ld b = Except.ok b2) :
    ∃ line, 0 ≤ b.currentLine ∧ b.currentLine < (b.lines.length : Int) ∧
      b.lines[b.currentLine.toNat]? = some line ∧
      (line.isEmpty = false → 0 ≤ b.currentIndex ∧ b.currentIndex < (line.length : Int) ∧
        turnTarget b line < (line.length : Int)) ∧
      b2 = commentStepT ld b line := by
  rw [commentStep_unfold] at h
  obtain ⟨line, hline, h⟩ := bind_ok _ _ _ h
  obtain ⟨hl0, hl1, hlget⟩ := vecAt_getElem? _ _ _ hline
  refine ⟨line, hl0, hl1, hlget, ?_⟩
  unfold commentStepT
  by_cases hemp : line.isEmpty = true
  · rw [if_pos hemp] at h ⊢
    simp only [pure, Except.pure] at h
    injection h with h
    exact ⟨fun hne => absurd hemp (by rw [hne]; decide), h.symm⟩
  · rw [if_neg hemp] at h ⊢
    obtain ⟨g, hg, h⟩ := bind_ok _ _ _ h
    obtain ⟨hi0, hi1, _⟩ := vecAt_getElem? _ _ _ hg
    have hc := vecAt_charAtD _ _ _ hg
    obtain ⟨r, hr, h⟩ := bind_ok _ _ _ h
    have hr := turnBranch_eq ld (turnFirst ld (turnReset b) line g.mChar) line g.mChar r hi0 hr
    obtain ⟨h, _, htgt⟩ := turnFinish_eq _ _ _ h
    refine ⟨fun _ => ⟨hi0, hi1, ?_⟩, ?_⟩
    · rw [hr, turnBranchT_index, turnBranchT_length, hc] at htgt
      exact htgt
    · rw [h, hr, hc]

theorem turnChar_of_line (b : CommentScan) (line : Line)
    (hline : b.lines[b.currentLine.toNat]? = some line) :
    turnChar b = (lineChars line)[b.currentIndex.toNat]? := by
  unfold turnChar
  rw [hline]
  rfl

theorem turnChar_inside (b : CommentScan) (line : Line)
    (hline : b.lines[b.currentLine.toNat]? = some line)
    (hi : 0 ≤ b.currentIndex ∧ b.currentIndex < (line.length : Int)) :
    turnChar b = some (charAtD line b.currentIndex) := by
  rw [turnChar_of_line b line hline, charAtD_eq]
  have h1 : b.currentIndex.toNat < (lineChars line).length := by
    rw [lineChars_length]
    omega
  rw [List.getElem?_eq_getElem h1]
  rfl

theorem turnChar_empty (b : CommentScan) (line : Line)
    (hline : b.lines[b.currentLine.toNat]? = some line) (hemp : line.isEmpty = true) :
    turnChar b = none := by
  rw [turnChar_of_line b line hline]
  have : line = [] := List.isEmpty_iff.mp hemp
  rw [this]
  rfl

set_option maxRecDepth 100000 in
/-- C27 (counterexample): in the lines `/* " */` and `x` the quote at index 3 stands
inside a multi-line comment (a comment start is recorded at line 0 when the turn at the
quote begins, and the pass is outside a string); the turn enters the string state, the end
marker behind the quote is not recognised, and the glyph `x` of the next line is flagged
`mMultiLineComment`. In the lines `// "` and `/* x */` the quote stands inside a
single-line comment; the turn enters the string state and the start marker of the next
line is not recognised. In the line of a backslash, a quote and ` /* x */` the quote
stands right after a backslash outside a string; the turn enters the string state and the
start marker is not recognised. -/
theorem quote_in_comment_starts_string :
    ((scanAfter LanguageDefinition.CPlusPlus quoteInBlockLines 3).commentStartLine = 0 ∧
      (scanAfter LanguageDefinition.CPlusPlus quoteInBlockLines 3).withinString = false ∧
      turnChar (scanAfter LanguageDefinition.CPlusPlus quoteInBlockLines 3) = some 34 ∧
      (scanAfter LanguageDefinition.CPlusPlus quoteInBlockLines 4).withinString = true ∧
      (commentPass LanguageDefinition.CPlusPlus quoteInBlockLines).map
          (fun ls => ls.map blockFlags) =
        Except.ok [[true, true, true, true, true, true, true], [true]]) ∧
    ((scanAfter LanguageDefinition.CPlusPlus quoteInLineCommentLines 3).withinSingleLineComment
        = true ∧
      (scanAfter LanguageDefinition.CPlusPlus quoteInLineCommentLines 3).withinString = false ∧
      turnChar (scanAfter LanguageDefinition.CPlusPlus quoteInLineCommentLines 3) = some 34 ∧
      (scanAfter LanguageDefinition.CPlusPlus quoteInLineCommentLines 4).withinString = true ∧
      (commentPass LanguageDefinition.CPlusPlus quoteInLineCommentLines).map
          (fun ls => ls.map blockFlags) =
        Except.ok [[false, false, false, false],
          [false, false, false, false, false, false, false]]) ∧
    (turnChar (scanAfter LanguageDefinition.CPlusPlus quoteAfterBackslashLines 0) = some 92 ∧
      (scanAfter LanguageDefinition.CPlusPlus quoteAfterBackslashLines 1).withinString = false ∧
      turnChar (scanAfter LanguageDefinition.CPlusPlus quoteAfterBackslashLines 1) = some 34 ∧
      (scanAfter LanguageDefinition.CPlusPlus quoteAfterBackslashLines 2).withinString = true ∧
      (commentPass LanguageDefinition.CPlusPlus quoteAfterBackslashLines).map
          (fun ls => ls.map blockFlags) =
        Except.ok [[false, false, false, false, false, false, false, false, false, false]]) := by
  refine ⟨⟨by decide, by decide, by decide, by decide, by decide⟩,
    ⟨by decide, by decide, by decide, by decide, by decide⟩,
    ⟨by decide, by decide, by decide, by decide, by decide⟩⟩

/-- C27 (amended): a turn of the comment pass that begins outside the string state enters
the string state if and only if its glyph is a quote, whatever the comment state and
whatever glyph stands before the quote; a turn that begins inside the string state
recognises no comment marker: it leaves the recorded comment start as it is and does not
enter the single-line comment state. -/
theorem string_state_entered_on_quote (ld : LanguageDefinition) (b b2 : CommentScan)
    (h : commentStep ld b = Except.ok b2) :
    (b.withinString = false → (b2.withinString = true ↔ turnChar b = some 34)) ∧
    (b.withinString = true →
      b2.commentStartLine = b.commentStartLine ∧
      b2.commentStartIndex = b.commentStartIndex ∧
      (b2.withinSingleLineComment = true → b.withinSingleLineComment = true)) := by
  obtain ⟨line, _, _, hline, hin, hb2⟩ := commentStep_eq ld b b2 h
  by_cases hemp : line.isEmpty = true
  · rw [turnChar_empty b line hline hemp, hb2]
    unfold commentStepT
    rw [if_pos hemp]
    refine ⟨fun hs => ?_, fun _ => ⟨rfl, rfl, ?_⟩⟩
    · simp [turnEmpty, turnReset, hs]
    · simp only [turnEmpty, turnReset]
      split_ifs <;> simp
  · have hemp2 : line.isEmpty = false := by simpa using hemp
    rw [turnChar_inside b line hline ⟨(hin hemp2).1, (hin hemp2).2.1⟩, hb2]
    unfold commentStepT
    rw [if_neg hemp]
    refine ⟨fun hs => ?_, fun hs => ?_⟩
    · by_cases hq : charAtD line b.currentIndex = 34
      · simp [turnFinishT, turnBranchT, turnFirst, turnReset, turnPreproc, hs, hq]
      · simp [turnFinishT, turnBranchT, turnFirst, turnReset, turnPreproc, hs, hq,
          commentDefaultT]
    · simp only [turnFinishT, turnBranchT, turnFirst, turnReset, hs, if_true,
        commentStringT]
      refine ⟨trivial, trivial, ?_⟩
      split_ifs <;> simp

set_option maxRecDepth 100000 in
/-- C27 (witness): the turn at the quote of the line `/* " */`, which begins inside a
multi-line comment and outside a string. -/
theorem string_state_entered_on_quote_witness :
    commentStep LanguageDefinition.CPlusPlus
        (scanAfter LanguageDefinition.CPlusPlus quoteInBlockLines 3) =
      Except.ok (scanAfter LanguageDefinition.CPlusPlus quoteInBlockLines 4) ∧
    (((scanAfter LanguageDefinition.CPlusPlus quoteInBlockLines 3).withinString = false →
        ((scanAfter LanguageDefinition.CPlusPlus quoteInBlockLines 4).withinString = true ↔
          turnChar (scanAfter LanguageDefinition.CPlusPlus quoteInBlockLines 3) = some 34)) ∧
      ((scanAfter LanguageDefinition.CPlusPlus quoteInBlockLines 3).withinString = true →
        (scanAfter LanguageDefinition.CPlusPlus quoteInBlockLines 4).commentStartLine =
          (scanAfter LanguageDefinition.CPlusPlus quoteInBlockLines 3).commentStartLine ∧
        (scanAfter LanguageDefinition.CPlusPlus quoteInBlockLines 4).commentStartIndex =
          (scanAfter LanguageDefinition.CPlusPlus quoteInBlockLines 3).commentStartIndex ∧
        ((scanAfter LanguageDefinition.CPlusPlus quoteInBlockLines 4).withinSingleLineComment
            = true →
          (scanAfter LanguageDefinition.CPlusPlus quoteInBlockLines 3).withinSingleLineComment
            = true))) :=
  ⟨by decide, string_state_entered_on_quote LanguageDefinition.CPlusPlus _ _ (by decide)⟩

theorem glyphMod_map_keep {α : Type} (p : Glyph → α) (line : Line) (i : Int)
    (f : Glyph → Glyph) (hf : ∀ g, p (f g) = p g) :
    (glyphMod line i f).map p = line.map p := by
  unfold glyphMod
  cases hg : (line)[i.toNat]? with
  | none => rfl
  | some g =>
    simp only
    rw [List.map_set, hf]
    obtain ⟨hlt, hval⟩ := List.getElem?_eq_some_iff.mp hg
    have h2 : i.toNat < (List.map p line).length := by
      rw [List.length_map]
      exact hlt
    have h3 : p g = (List.map p line).get ⟨i.toNat, h2⟩ := by
      simp [hval]
    rw [h3]
    exact list_set_self _ _ h2

theorem glyphMod_map_set {α : Type} (p : Glyph → α) (line : Line) (i : Int)
    (f : Glyph → Glyph) (v : α) (hf : ∀ g, p (f g) = v) :
    (glyphMod line i f).map p = (line.map p).set i.toNat v := by
  unfold glyphMod
  cases hg : (line)[i.toNat]? with
  | none =>
    simp only
    have hlen : line.length ≤ i.toNat := List.getElem?_eq_none_iff.mp hg
    exact (List.set_eq_of_length_le (by rw [List.length_map]; exact hlen)).symm
  | some g =>
    simp only
    rw [List.map_set, hf]

theorem turnBranchT_lines (ld : LanguageDefinition) (s3 : CommentScan) (line : Line)
    (c : Char8) : (turnBranchT ld s3 line c).2.lines = s3.lines ∧
      (turnBranchT ld s3 line c).2.currentLine = s3.currentLine := by
  unfold turnBranchT
  by_cases hstr : s3.withinString = true
  · simp [hstr, commentStringT]
  · by_cases hq : c = 34
    · simp [hstr, hq, turnPreproc]
    · simp [hstr, hq, commentDefaultT, turnPreproc]

/-- The line a turn of the comment pass on a line with glyphs puts back. -/
theorem commentStepT_lines (ld : LanguageDefinition) (b : CommentScan) (line : Line)
    (hne : line.isEmpty = false) :
    (commentStepT ld b line).lines = b.lines.set b.currentLine.toNat
      (glyphMod (turnBranchT ld (turnFirst ld (turnReset b) line
          (charAtD line b.currentIndex)) line (charAtD line b.currentIndex)).1
        (turnTarget b line)
        (fun g => { g with mPreprocessor := (commentStepT ld b line).withinPreproc })) := by
  unfold commentStepT
  simp only [hne, Bool.false_eq_true, if_false]
  unfold turnFinishT
  simp only
  rw [(turnBranchT_lines _ _ _ _).1, (turnBranchT_lines _ _ _ _).2, turnBranchT_index]
  rfl

/-- The position a turn of the comment pass on a line with glyphs leaves. -/
theorem commentStepT_pos (ld : LanguageDefinition) (b : CommentScan) (line : Line)
    (hne : line.isEmpty = false) :
    (commentStepT ld b line).currentLine =
        (if turnTarget b line + UTF8CharLength (charAtD line b.currentIndex) ≥
            (line.length : Int) then b.currentLine + 1 else b.currentLine) ∧
      (commentStepT ld b line).currentIndex =
        (if turnTarget b line + UTF8CharLength (charAtD line b.currentIndex) ≥
            (line.length : Int) then 0
         else turnTarget b line + UTF8CharLength (charAtD line b.currentIndex)) := by
  unfold commentStepT
  simp only [hne, Bool.false_eq_true, if_false]
  unfold turnFinishT
  simp only
  rw [(turnBranchT_lines _ _ _ _).2, turnBranchT_index, turnBranchT_length]
  exact ⟨rfl, rfl⟩

/-- The states `withinSingleLineComment` and `concatenate` a turn of the comment pass on a
line with glyphs leaves. -/
theorem commentStepT_single (ld : LanguageDefinition) (b : CommentScan) (line : Line)
    (hne : line.isEmpty = false) :
    (commentStepT ld b line).withinSingleLineComment =
        (if b.withinString = false ∧ charAtD line b.currentIndex ≠ 34 then
          turnSingle ld (lineChars line) b.currentIndex (turnReset b).withinSingleLineComment
         else (turnReset b).withinSingleLineComment) ∧
      (commentStepT ld b line).concatenate =
        decide (b.currentIndex = (line.length : Int) - 1 ∧ charAtD line b.currentIndex = 92) := by
  unfold commentStepT
  simp only [hne, Bool.false_eq_true, if_false]
  unfold turnFinishT turnBranchT
  by_cases hstr : b.withinString = true
  · simp [hstr, commentStringT, turnFirst, turnReset]
  · by_cases hq : charAtD line b.currentIndex = 34
    · simp [hstr, hq, turnPreproc, turnFirst, turnReset]
    · simp [hstr, hq, commentDefaultT, turnPreproc, turnFirst, turnReset]

/-- The flags `mComment` of the line a turn of the comment pass puts back: the turn
writes the flag of its glyph outside a string, when the glyph is no quote. -/
theorem turnBranchT_comFlags (ld : LanguageDefinition) (s3 : CommentScan) (line : Line)
    (c : Char8) :
    (turnBranchT ld s3 line c).1.map (fun g => g.mComment) =
      (if s3.withinString = false ∧ c ≠ 34 then
        (line.map (fun g => g.mComment)).set s3.currentIndex.toNat
          (turnSingle ld (lineChars line) s3.currentIndex s3.withinSingleLineComment)
       else line.map (fun g => g.mComment)) := by
  unfold turnBranchT
  by_cases hstr : s3.withinString = true
  · simp only [hstr, if_true, commentStringT, Bool.true_eq_false, false_and, if_false]
    split_ifs
    · rw [glyphMod_map_keep, glyphMod_map_keep] <;> exact fun _ => rfl
    · rw [glyphMod_map_keep]
      exact fun _ => rfl
  · have hstr2 : s3.withinString = false := by simpa using hstr
    by_cases hq : c = 34
    · simp only [hstr2, hq, Bool.false_eq_true, if_false, if_true, ne_eq, not_true_eq_false,
        and_false]
      rw [glyphMod_map_keep]
      exact fun _ => rfl
    · simp only [hstr2, hq, Bool.false_eq_true, if_false, ne_eq, not_false_eq_true, and_self,
        if_true, commentDefaultT]
      rw [glyphMod_map_set (fun g => g.mComment) line _ _
        (turnSingle ld (lineChars line) s3.currentIndex s3.withinSingleLineComment)]
      · rfl
      · exact fun _ => rfl

theorem projAt_set {α : Type} (p : Glyph → α) (ls : Lines) (k : Nat) (x : Line)
    (hk : k < ls.length) (l j : Nat) :
    projAt p (ls.set k x) l j = if l = k then (x.map p)[j]? else projAt p ls l j := by
  unfold projAt
  by_cases hlk : l = k
  · subst hlk
    simp [List.getElem?_set_self, hk]
  · simp only [if_neg hlk]
    rw [List.getElem?_set_ne (fun h => hlk h.symm)]

theorem projAt_eq {α : Type} (p : Glyph → α) (ls : Lines) (l j : Nat) (line : Line)
    (h : ls[l]? = some line) : projAt p ls l j = (line.map p)[j]? := by
  simp [projAt, h]

theorem list_set_same {α : Type} (l : List α) (k : Nat) (x : α) (h : l[k]? = some x) :
    l.set k x = l := by
  obtain ⟨hlt, hval⟩ := List.getElem?_eq_some_iff.mp h
  rw [← hval]
  exact list_set_self l k hlt

theorem turnBranchT_keep {α : Type} (p : Glyph → α)
    (hp : ∀ (g : Glyph) (x y : Bool), p { g with mComment := x, mMultiLineComment := y } = p g)
    (ld : LanguageDefinition) (s3 : CommentScan) (line : Line) (c : Char8) :
    (turnBranchT ld s3 line c).1.map p = line.map p := by
  unfold turnBranchT
  by_cases hstr : s3.withinString = true
  · simp only [hstr, if_true, commentStringT]
    split_ifs
    · rw [glyphMod_map_keep, glyphMod_map_keep] <;> exact fun g => hp g g.mComment _
    · rw [glyphMod_map_keep]
      exact fun g => hp g g.mComment _
  · have hstr2 : s3.withinString = false := by simpa using hstr
    by_cases hq : c = 34
    · simp only [hstr2, hq, Bool.false_eq_true, if_false, if_true]
      rw [glyphMod_map_keep]
      exact fun g => hp g g.mComment _
    · simp only [hstr2, hq, Bool.false_eq_true, if_false, commentDefaultT]
      rw [glyphMod_map_keep]
      exact fun g => hp g _ _

/-- A turn of the comment pass changes nothing of a glyph but the three flags
`mComment`, `mMultiLineComment` and `mPreprocessor`. -/
theorem commentStepT_keep {α : Type} (p : Glyph → α)
    (hp : ∀ (g : Glyph) (x y z : Bool),
      p { g with mComment := x, mMultiLineComment := y, mPreprocessor := z } = p g)
    (ld : LanguageDefinition) (b : CommentScan) (line : Line)
    (hline : b.lines[b.currentLine.toNat]? = some line) :
    (commentStepT ld b line).lines.map (List.map p) = b.lines.map (List.map p) := by
  by_cases hemp : line.isEmpty = true
  · unfold commentStepT
    rw [if_pos hemp]
    rfl
  · have hne : line.isEmpty = false := by simpa using hemp
    rw [commentStepT_lines ld b line hne, List.map_set, glyphMod_map_keep p _ _ _
      (fun g => hp g g.mComment g.mMultiLineComment _),
      turnBranchT_keep p (fun g x y => hp g x y g.mPreprocessor)]
    apply list_set_same
    rw [List.getElem?_map, hline]
    rfl

theorem commentRun_invariant (ld : LanguageDefinition) (P : CommentScan → Prop)
    (hstep : ∀ b b2, P b → commentStep ld b = Except.ok b2 → P b2) :
    ∀ (k : Nat) (b f : CommentScan), P b → commentRun ld k b = Except.ok f → P f := by
  intro k
  induction k with
  | zero =>
    intro b f hb h
    simp only [commentRun, pure, Except.pure] at h
    injection h with h
    rw [← h]
    exact hb
  | succ m ih =>
    intro b f hb h
    rw [commentRun_succ] at h
    obtain ⟨b1, h1, h⟩ := bind_ok _ _ _ h
    exact ih b1 f (hstep b b1 hb h1) h

/-- The comment pass changes nothing of a glyph but the three flags `mComment`,
`mMultiLineComment` and `mPreprocessor`. -/
theorem commentPass_keep {α : Type} (p : Glyph → α)
    (hp : ∀ (g : Glyph) (x y z : Bool),
      p { g with mComment := x, mMultiLineComment := y, mPreprocessor := z } = p g)
    (ld : LanguageDefinition) (lines final : Lines)
    (hpass : commentPass ld lines = Except.ok final) :
    final.map (List.map p) = lines.map (List.map p) := by
  obtain ⟨k, f, hk, hfinal, _, _⟩ := commentPass_run ld lines final hpass
  rw [← hfinal]
  refine commentRun_invariant ld (fun b => b.lines.map (List.map p) = lines.map (List.map p))
    (fun b b2 hb h => ?_) k _ f rfl hk
  obtain ⟨line, _, _, hline, _, hb2⟩ := commentStep_eq ld b b2 h
  rw [hb2, commentStepT_keep p hp ld b line hline]
  exact hb

theorem singleLineT_marker (single start chars : List Char8) (i : Int)
    (h : singleLineT single start chars i = true) :
    0 < single.length ∧ markerAt single (chars.drop i.toNat) = true := by
  unfold singleLineT at h
  simp only [Bool.and_eq_true, decide_eq_true_eq] at h
  exact ⟨h.1.1, h.2.1⟩

theorem turnSingle_source (ld : LanguageDefinition) (chars : List Char8) (i : Int) (w0 : Bool)
    (h : turnSingle ld chars i w0 = true) :
    w0 = true ∨ singleMarkerAt ld chars i.toNat = true := by
  unfold turnSingle at h
  simp only [Bool.or_eq_true] at h
  unfold singleMarkerAt
  simp only [Bool.or_eq_true, Bool.and_eq_true, decide_eq_true_eq]
  rcases h with (((h | h) | h) | h) | h
  · exact Or.inl h
  · exact Or.inr (Or.inl (singleLineT_marker _ _ _ _ h))
  · exact Or.inr (Or.inr (singleLineT_marker _ _ _ _ h))
  · exact Or.inr (Or.inl (singleLineT_marker _ _ _ _ h))
  · exact Or.inr (Or.inr (singleLineT_marker _ _ _ _ h))

theorem hasSource_mono (ld : LanguageDefinition) (cs : List (List Char8)) (l : Nat) (i j : Int)
    (hij : i ≤ j) (h : hasSource ld cs l i) : hasSource ld cs l j := by
  rcases h with ⟨k, hk, hm⟩ | h
  · exact Or.inl ⟨k, by omega, hm⟩
  · exact Or.inr h

theorem turnTarget_bounds (b : CommentScan) (line : Line) :
    b.currentIndex ≤ turnTarget b line ∧ turnTarget b line ≤ b.currentIndex + 1 := by
  unfold turnTarget
  split_ifs <;> omega

theorem charsOf_getElem? (lines : Lines) (k : Nat) (line : Line) (h : lines[k]? = some line) :
    (charsOf lines)[k]? = some (lineChars line) := by
  unfold charsOf
  rw [List.getElem?_map, h]
  rfl

theorem charAtD_inside (line : Line) (i : Int) (h0 : 0 ≤ i) (h1 : i < (line.length : Int)) :
    (lineChars line)[i.toNat]? = some (charAtD line i) := by
  rw [charAtD_eq]
  have h2 : i.toNat < (lineChars line).length := by
    rw [lineChars_length]
    omega
  rw [List.getElem?_eq_getElem h2]
  rfl

/-- The flags `mComment` of the line a turn of the comment pass puts back: the turn
writes the flag of its glyph outside a string, when the glyph is no quote. -/
theorem commentStepT_comFlags (ld : LanguageDefinition) (b : CommentScan) (line : Line)
    (hne : line.isEmpty = false) :
    ∃ line2, (commentStepT ld b line).lines = b.lines.set b.currentLine.toNat line2 ∧
      line2.map (fun g => g.mComment) =
        (if b.withinString = false ∧ charAtD line b.currentIndex ≠ 34 then
          (line.map (fun g => g.mComment)).set b.currentIndex.toNat
            (turnSingle ld (lineChars line) b.currentIndex
              (turnReset b).withinSingleLineComment)
         else line.map (fun g => g.mComment)) := by
  refine ⟨_, commentStepT_lines ld b line hne, ?_⟩
  rw [glyphMod_map_keep]
  · exact turnBranchT_comFlags ld _ line _
  · exact fun _ => rfl

/-- A turn of the comment pass keeps the invariant of the single-line comment state. -/
theorem SingleInv_step (ld : LanguageDefinition) (lines0 : Lines) (b b2 : CommentScan)
    (hinv : SingleInv ld lines0 b) (h : commentStep ld b = Except.ok b2) :
    SingleInv ld lines0 b2 := by
  obtain ⟨hchars, hcl0, hci0, hw, hconc, hflags⟩ := hinv
  obtain ⟨line, _, hcl1, hline, hin, hb2⟩ := commentStep_eq ld b b2 h
  have hcs : (charsOf lines0)[b.currentLine.toNat]? = some (lineChars line) := by
    rw [← hchars]
    exact charsOf_getElem? _ _ _ hline
  have hkeep : charsOf b2.lines = charsOf lines0 := by
    rw [← hchars, hb2]
    exact commentStepT_keep (fun g => g.mChar) (fun _ _ _ _ => rfl) ld b line hline
  by_cases hemp : line.isEmpty = true
  · have hb2e : b2 = turnEmpty b := by
      rw [hb2]
      unfold commentStepT
      rw [if_pos hemp]
    refine ⟨hkeep, ?_, ?_, ?_, ?_, ?_⟩
    · rw [hb2e]
      show 0 ≤ b.currentLine + 1
      omega
    · rw [hb2e]
      exact le_refl _
    · intro _
      left
      rw [hb2e]
      exact ⟨rfl, rfl⟩
    · intro hc
      rw [hb2e] at hc
      cases hc
    · rw [hb2e]
      exact hflags
  · have hne : line.isEmpty = false := by simpa using hemp
    obtain ⟨hi0, hi1, htgt⟩ := hin hne
    obtain ⟨hposl, hposi⟩ := commentStepT_pos ld b line hne
    obtain ⟨hsing, hcon⟩ := commentStepT_single ld b line hne
    obtain ⟨htl, htu⟩ := turnTarget_bounds b line
    have hlen := UTF8CharLength_pos (charAtD line b.currentIndex)
    rw [← hb2] at hposl hposi hsing hcon
    have hws1 : (turnReset b).withinSingleLineComment = true →
        hasSource ld (charsOf lines0) b.currentLine.toNat b.currentIndex := by
      intro hr
      have hr2 : (decide (b.currentIndex = 0) && !b.concatenate) = false ∧
          b.withinSingleLineComment = true := by
        simp only [turnReset] at hr
        split_ifs at hr with hf
        · exact ⟨by simpa using hf, hr⟩
      rcases hw hr2.2 with ⟨hz, hc⟩ | hsrc
      · rw [hz, hc] at hr2
        simp at hr2
      · exact hsrc
    have hw2 : b2.withinSingleLineComment = true →
        hasSource ld (charsOf lines0) b.currentLine.toNat (b.currentIndex + 1) := by
      intro hb
      rw [hsing] at hb
      have hcase : (turnReset b).withinSingleLineComment = true ∨
          singleMarkerAt ld (lineChars line) b.currentIndex.toNat = true := by
        split_ifs at hb
        · exact turnSingle_source _ _ _ _ hb
        · exact Or.inl hb
      rcases hcase with hr | hm
      · exact hasSource_mono _ _ _ _ _ (by omega) (hws1 hr)
      · left
        refine ⟨b.currentIndex.toNat, by omega, ?_⟩
        rw [hcs]
        exact hm
    have hjoin : b2.concatenate = true →
        b2.currentLine = b.currentLine + 1 ∧
        joinedToPrev (charsOf lines0) (b.currentLine + 1).toNat = true := by
      intro hc
      rw [hcon] at hc
      simp only [decide_eq_true_eq] at hc
      obtain ⟨hlast, hc92⟩ := hc
      have htgt2 : turnTarget b line = b.currentIndex := by
        unfold turnTarget at htgt ⊢
        split_ifs at htgt ⊢ with hs
        · omega
        · rfl
      have hadv : turnTarget b line + UTF8CharLength (charAtD line b.currentIndex) ≥
          (line.length : Int) := by
        rw [htgt2]
        omega
      rw [if_pos hadv] at hposl
      refine ⟨hposl, ?_⟩
      unfold joinedToPrev
      have h1 : (b.currentLine + 1).toNat - 1 = b.currentLine.toNat := by omega
      rw [h1, hcs]
      have h2 : (lineChars line).getLast? = some 92 := by
        rw [List.getLast?_eq_getElem?, lineChars_length]
        have h3 : line.length - 1 = b.currentIndex.toNat := by omega
        rw [h3, charAtD_inside line b.currentIndex hi0 hi1, hc92]
      simp only [Option.some_bind, h2, beq_self_eq_true, Bool.and_true, decide_eq_true_eq]
      omega
    refine ⟨hkeep, ?_, ?_, ?_, ?_, ?_⟩
    · rw [hposl]
      split_ifs <;> omega
    · rw [hposi]
      split_ifs <;> omega
    · intro hb
      by_cases hadv : turnTarget b line + UTF8CharLength (charAtD line b.currentIndex) ≥
          (line.length : Int)
      · rw [if_pos hadv] at hposl hposi
        by_cases hc : b2.concatenate = true
        · right
          right
          rw [hposl]
          exact (hjoin hc).2
        · left
          exact ⟨hposi, by simpa using hc⟩
      · rw [if_neg hadv] at hposl hposi
        right
        rw [hposl, hposi]
        exact hasSource_mono _ _ _ _ _ (by omega) (hw2 hb)
    · intro hc
      obtain ⟨hl, hj⟩ := hjoin hc
      rw [hl]
      exact hj
    · intro l j hnew hold
      obtain ⟨line2, hl2, hf2⟩ := commentStepT_comFlags ld b line hne
      rw [hb2, hl2, projAt_set _ _ _ _ (by omega)] at hnew
      by_cases hl : l = b.currentLine.toNat
      · rw [if_pos hl, hf2] at hnew
        by_cases hd : b.withinString = false ∧ charAtD line b.currentIndex ≠ 34
        · rw [if_pos hd] at hnew
          by_cases hj : j = b.currentIndex.toNat
          · have hb : b2.withinSingleLineComment = true := by
              rw [hsing, if_pos hd]
              rw [hj, List.getElem?_set_self (by
                rw [List.length_map]
                omega)] at hnew
              injection hnew
            rw [hl]
            have hji : (j : Int) + 1 = b.currentIndex + 1 := by omega
            rw [hji]
            exact hw2 hb
          · rw [List.getElem?_set_ne (fun h => hj h.symm)] at hnew
            refine hflags l j ?_ hold
            rw [hl, projAt_eq _ _ _ _ line hline]
            exact hnew
        · rw [if_neg hd] at hnew
          refine hflags l j ?_ hold
          rw [hl, projAt_eq _ _ _ _ line hline]
          exact hnew
      · rw [if_neg hl] at hnew
        exact hflags l j hnew hold

theorem SingleInv_start (ld : LanguageDefinition) (lines : Lines) :
    SingleInv ld lines (CommentScan.start lines) := by
  refine ⟨rfl, le_refl _, le_refl _, fun h => ?_, fun h => ?_, fun l j hnew hold => ?_⟩
  · cases h
  · cases h
  · have h : projAt (fun g => g.mComment) lines l j = some true := hnew
    rw [hold] at h
    cases h

set_option maxRecDepth 100000 in
/-- C25 (counterexample): in the lines `//a` with a backslash at its end, and `b`, the
pass begins the second line with the single-line comment state and `concatenate` set, and
the glyph `b` gets `mComment`, although no single-line comment marker stands on its
line. -/
theorem single_line_state_crosses_line_end :
    (commentPass LanguageDefinition.CPlusPlus continuedCommentLines).map
        (fun ls => ls.map fun line => line.map fun g => g.mComment) =
      Except.ok [[true, true, true, true], [true]] ∧
    continuedCommentLines.map (fun line => line.map fun g => g.mComment) =
      [[false, false, false, false], [false]] ∧
    charsOf continuedCommentLines = [[47, 47, 97, 92], [98]] ∧
    singleMarkerAt LanguageDefinition.CPlusPlus [98] 0 = false ∧
    ((scanAfter LanguageDefinition.CPlusPlus continuedCommentLines 4).currentLine,
      (scanAfter LanguageDefinition.CPlusPlus continuedCommentLines 4).currentIndex,
      (scanAfter LanguageDefinition.CPlusPlus continuedCommentLines 4).withinSingleLineComment,
      (scanAfter LanguageDefinition.CPlusPlus continuedCommentLines 4).concatenate) =
      (1, 0, true, true) := by
  refine ⟨by decide, by decide, by decide, by decide, by decide⟩

/-- C25 (amended): when the comment pass returns, a glyph that did not have `mComment`
and has it after the pass stands on a line with a single-line comment marker at or before
the glyph, or on a line that follows a line ending in a backslash; and a turn that begins
a line keeps the single-line comment state only on a line that follows a line ending in a
backslash. -/
theorem comment_flag_has_source (ld : LanguageDefinition) (lines final : Lines)
    (hpass : commentPass ld lines = Except.ok final) :
    (∀ l j : Nat, projAt (fun g => g.mComment) final l j = some true →
      projAt (fun g => g.mComment) lines l j = some false →
      (∃ k : Nat, k ≤ j ∧ singleMarkerAt ld (((charsOf lines)[l]?).getD []) k = true) ∨
        joinedToPrev (charsOf lines) l = true) ∧
    (∀ (m : Nat) (b : CommentScan), commentRun ld m (CommentScan.start lines) = Except.ok b →
      b.currentIndex = 0 → (turnReset b).withinSingleLineComment = true →
      joinedToPrev (charsOf lines) b.currentLine.toNat = true) := by
  have hrun : ∀ (m : Nat) (b : CommentScan),
      commentRun ld m (CommentScan.start lines) = Except.ok b → SingleInv ld lines b :=
    fun m b hb => commentRun_invariant ld (SingleInv ld lines)
      (fun b1 b2 h1 h2 => SingleInv_step ld lines b1 b2 h1 h2) m _ b (SingleInv_start ld lines) hb
  refine ⟨fun l j hnew hold => ?_, fun m b hb hz hr => ?_⟩
  · obtain ⟨k, f, hk, hfinal, _, _⟩ := commentPass_run ld lines final hpass
    obtain ⟨_, _, _, _, _, hflags⟩ := hrun k f hk
    rw [← hfinal] at hnew
    rcases hflags l j hnew hold with ⟨k2, hk2, hm⟩ | hj
    · exact Or.inl ⟨k2, by omega, hm⟩
    · exact Or.inr hj
  · obtain ⟨_, _, _, _, hconc, _⟩ := hrun m b hb
    apply hconc
    simp only [turnReset, hz] at hr
    split_ifs at hr with hf
    · simpa using hf

set_option maxRecDepth 100000 in
/-- C25 (witness): the glyph `b` of the second of the lines `//a` with a backslash at its
end, and `b`. -/
theorem comment_flag_has_source_witness :
    commentPass LanguageDefinition.CPlusPlus continuedCommentLines =
      Except.ok (passResult LanguageDefinition.CPlusPlus continuedCommentLines) ∧
    ((∀ l j : Nat,
        projAt (fun g => g.mComment)
          (passResult LanguageDefinition.CPlusPlus continuedCommentLines) l j = some true →
        projAt (fun g => g.mComment) continuedCommentLines l j = some false →
        (∃ k : Nat, k ≤ j ∧ singleMarkerAt LanguageDefinition.CPlusPlus
            (((charsOf continuedCommentLines)[l]?).getD []) k = true) ∨
          joinedToPrev (charsOf continuedCommentLines) l = true) ∧
      (∀ (m : Nat) (b : CommentScan),
        commentRun LanguageDefinition.CPlusPlus m (CommentScan.start continuedCommentLines) =
          Except.ok b →
        b.currentIndex = 0 → (turnReset b).withinSingleLineComment = true →
        joinedToPrev (charsOf continuedCommentLines) b.currentLine.toNat = true)) :=
  ⟨by decide, comment_flag_has_source LanguageDefinition.CPlusPlus continuedCommentLines _
    (by decide)⟩

theorem isspace_cases (c : Nat) (h : isspace c = true) :
    c = 32 ∨ c = 9 ∨ c = 10 ∨ c = 11 ∨ c = 12 ∨ c = 13 := by
  unfold isspace at h
  simp only [Bool.or_eq_true, decide_eq_true_eq] at h
  tauto

theorem isspace_ascii (c : Nat) (h : isspace c = true) :
    UTF8CharLength c = 1 ∧ c ≠ 34 ∧ c ≠ 92 ∧ c < 128 := by
  rcases isspace_cases c h with h | h | h | h | h | h <;> subst h <;> decide

theorem isspace_ne_marker (ld : LanguageDefinition)
    (hpp : isspace (ld.mPreprocChar % 256) = false) (c : Nat) (h : isspace c = true) :
    (c : Int) ≠ charToInt ld.mPreprocChar := by
  intro heq
  unfold charToInt at heq
  split_ifs at heq with hlt
  · have hc : c = ld.mPreprocChar % 256 := by exact_mod_cast heq
    rw [hc, hpp] at h
    cases h
  · have := (isspace_ascii c h).2.2.2
    omega

theorem firstNonSpace_le (chars : List Char8) : firstNonSpace chars ≤ chars.length := by
  unfold firstNonSpace
  induction chars with
  | nil => simp
  | cons x xs ih =>
    by_cases hx : isspace x = true
    · rw [List.takeWhile_cons_of_pos hx]
      simp only [List.length_cons]
      omega
    · rw [List.takeWhile_cons_of_neg hx]
      simp

theorem firstNonSpace_before (chars : List Char8) :
    ∀ (j : Nat) (c : Char8), j < firstNonSpace chars → chars[j]? = some c → isspace c = true := by
  unfold firstNonSpace
  induction chars with
  | nil =>
    intro j c hj
    simp at hj
  | cons x xs ih =>
    intro j c hj hc
    by_cases hx : isspace x = true
    · rw [List.takeWhile_cons_of_pos hx] at hj
      cases j with
      | zero =>
        simp only [List.getElem?_cons_zero, Option.some.injEq] at hc
        rw [← hc]
        exact hx
      | succ n =>
        simp only [List.getElem?_cons_succ] at hc
        simp only [List.length_cons] at hj
        exact ih n c (by omega) hc
    · rw [List.takeWhile_cons_of_neg hx] at hj
      simp at hj

theorem firstNonSpace_at (chars : List Char8) :
    ∀ (c : Char8), chars[firstNonSpace chars]? = some c → isspace c = false := by
  unfold firstNonSpace
  induction chars with
  | nil =>
    intro c hc
    simp at hc
  | cons x xs ih =>
    intro c hc
    by_cases hx : isspace x = true
    · rw [List.takeWhile_cons_of_pos hx] at hc
      simp only [List.length_cons, List.getElem?_cons_succ] at hc
      exact ih c hc
    · rw [List.takeWhile_cons_of_neg hx] at hc
      simp only [List.length_nil, List.getElem?_cons_zero, Option.some.injEq] at hc
      rw [← hc]
      simpa using hx

/-- The states `withinString`, `firstChar` and `withinPreproc` a turn of the comment pass
on a line with glyphs leaves. -/
theorem commentStepT_latch (ld : LanguageDefinition) (b : CommentScan) (line : Line)
    (hne : line.isEmpty = false) :
    (commentStepT ld b line).withinString =
        (if b.withinString then
          (if charAtD line b.currentIndex = 34 ∧
              stringSkips line b.currentIndex (charAtD line b.currentIndex) = false then false
           else true)
         else decide (charAtD line b.currentIndex = 34)) ∧
      (commentStepT ld b line).firstChar =
        (turnFirst ld (turnReset b) line (charAtD line b.currentIndex)).firstChar ∧
      (commentStepT ld b line).withinPreproc =
        (if b.withinString then (turnReset b).withinPreproc
         else (turnPreproc ld (turnFirst ld (turnReset b) line (charAtD line b.currentIndex))
            (charAtD line b.currentIndex)).withinPreproc) := by
  unfold commentStepT
  simp only [hne, Bool.false_eq_true, if_false]
  unfold turnFinishT turnBranchT
  by_cases hstr : b.withinString = true
  · simp [hstr, commentStringT, turnFirst, turnReset]
  · by_cases hq : charAtD line b.currentIndex = 34
    · simp [hstr, hq, turnPreproc, turnFirst, turnReset]
    · simp [hstr, hq, commentDefaultT, turnPreproc, turnFirst, turnReset]

theorem turnReset_first (b : CommentScan)
    (h : (b.currentIndex = 0 ∧ b.concatenate = false) ∨
      (b.firstChar = true ∧ b.withinPreproc = false)) :
    (turnReset b).firstChar = true ∧ (turnReset b).withinPreproc = false := by
  unfold turnReset
  simp only
  rcases h with ⟨hz, hc⟩ | ⟨hf, hp⟩
  · simp [hz, hc]
  · rw [hf, hp]
    split_ifs <;> exact ⟨rfl, rfl⟩

theorem turnReset_later (b : CommentScan) (h : b.currentIndex ≠ 0) :
    (turnReset b).firstChar = b.firstChar ∧ (turnReset b).withinPreproc = b.withinPreproc := by
  unfold turnReset
  simp [h]

/-- A turn of the comment pass on a line that the pass entered outside a string and not
behind a backslash: from the first character that is no white space on, the latch
`withinPreproc` it leaves tells whether that character is the preprocessor marker; and
the turn keeps the invariant on the line. -/
theorem PreprocInv_step (ld : LanguageDefinition)
    (hpp : isspace (ld.mPreprocChar % 256) = false) (b b2 : CommentScan) (line : Line)
    (hline : b.lines[b.currentLine.toNat]? = some line)
    (hinv : PreprocInv ld (lineChars line) b) (h : commentStep ld b = Except.ok b2) :
    (line.isEmpty = false → (firstNonSpace (lineChars line) : Int) ≤ b.currentIndex →
      b2.withinPreproc = startsWithMarker ld (lineChars line)) ∧
    (b2.currentLine = b.currentLine → PreprocInv ld (lineChars line) b2) := by
  obtain ⟨hci0, hlow, hhigh⟩ := hinv
  obtain ⟨line1, _, _, hline1, hin, hb2⟩ := commentStep_eq ld b b2 h
  have hl : line1 = line := by
    rw [hline] at hline1
    injection hline1 with hl
    exact hl.symm
  subst hl
  by_cases hemp : line1.isEmpty = true
  · refine ⟨fun hne => absurd hemp (by rw [hne]; decide), fun hsame => ?_⟩
    rw [hb2] at hsame
    unfold commentStepT at hsame
    rw [if_pos hemp] at hsame
    have : b.currentLine + 1 = b.currentLine := hsame
    omega
  · have hne : line1.isEmpty = false := by simpa using hemp
    obtain ⟨hi0, hi1, htgt⟩ := hin hne
    obtain ⟨hposl, hposi⟩ := commentStepT_pos ld b line1 hne
    obtain ⟨hstr, hfc, hwp⟩ := commentStepT_latch ld b line1 hne
    obtain ⟨htl, htu⟩ := turnTarget_bounds b line1
    have hlen := UTF8CharLength_pos (charAtD line1 b.currentIndex)
    rw [← hb2] at hposl hposi hstr hfc hwp
    have hc := charAtD_inside line1 b.currentIndex hi0 hi1
    rcases lt_trichotomy b.currentIndex (firstNonSpace (lineChars line1) : Int) with hlt | heq | hgt
    · -- a white space before the first character that is none
      have hsp : isspace (charAtD line1 b.currentIndex) = true :=
        firstNonSpace_before _ b.currentIndex.toNat _ (by omega) hc
      obtain ⟨hu1, hq, _, _⟩ := isspace_ascii _ hsp
      have hnm := isspace_ne_marker ld hpp _ hsp
      obtain ⟨hs, hfw⟩ := hlow (by omega)
      obtain ⟨hf1, hp1⟩ := turnReset_first b hfw
      have htg : turnTarget b line1 = b.currentIndex := by
        unfold turnTarget
        simp [hs]
      refine ⟨fun _ hk => by omega, fun hsame => ?_⟩
      rw [htg, hu1] at hposl hposi
      have hnadv : ¬ (b.currentIndex + 1 ≥ (line1.length : Int)) := by
        intro hadv
        rw [if_pos hadv] at hposl
        omega
      rw [if_neg hnadv] at hposi
      refine ⟨by omega, fun _ => ⟨?_, Or.inr ⟨?_, ?_⟩⟩, fun hk => by omega⟩
      · rw [hstr]
        simp [hs, hq]
      · rw [hfc]
        simp [turnFirst, hsp, hf1]
      · rw [hwp]
        simp [hs, turnPreproc, turnFirst, hp1, hnm]
    · -- the first character that is no white space
      have hk : (lineChars line1)[firstNonSpace (lineChars line1)]? =
          some (charAtD line1 b.currentIndex) := by
        rw [← hc]
        congr 1
        omega
      have hsp : isspace (charAtD line1 b.currentIndex) = false := firstNonSpace_at _ _ hk
      obtain ⟨hs, hfw⟩ := hlow (by omega)
      obtain ⟨hf1, hp1⟩ := turnReset_first b hfw
      have hV : startsWithMarker ld (lineChars line1) =
          decide ((charAtD line1 b.currentIndex : Int) = charToInt ld.mPreprocChar) := by
        unfold startsWithMarker
        rw [hk]
      have hfc2 : b2.firstChar = startsWithMarker ld (lineChars line1) := by
        rw [hfc, hV]
        by_cases hm : (charAtD line1 b.currentIndex : Int) = charToInt ld.mPreprocChar
        · simp [turnFirst, hm, hf1]
        · simp [turnFirst, hm, hsp]
      have hwp2 : b2.withinPreproc = startsWithMarker ld (lineChars line1) := by
        rw [hwp, hV]
        by_cases hm : (charAtD line1 b.currentIndex : Int) = charToInt ld.mPreprocChar
        · simp [hs, turnPreproc, turnFirst, hm, hf1]
        · simp [hs, turnPreproc, turnFirst, hm, hp1]
      refine ⟨fun _ _ => hwp2, fun hsame => ?_⟩
      have hnadv : ¬ (turnTarget b line1 + UTF8CharLength (charAtD line1 b.currentIndex) ≥
          (line1.length : Int)) := by
        intro hadv
        rw [if_pos hadv] at hposl
        omega
      rw [if_neg hnadv] at hposi
      refine ⟨by omega, fun hk2 => by omega, fun _ => ⟨hwp2, fun hv => ?_⟩⟩
      rw [hfc2]
      exact hv
    · -- behind the first character that is no white space
      obtain ⟨hp, hf⟩ := hhigh hgt
      have hnz : b.currentIndex ≠ 0 := by omega
      obtain ⟨hf1, hp1⟩ := turnReset_later b hnz
      have hfc2 : startsWithMarker ld (lineChars line1) = false → b2.firstChar = false := by
        intro hv
        rw [hfc]
        simp [turnFirst, hf1, hf hv]
      have hwp2 : b2.withinPreproc = startsWithMarker ld (lineChars line1) := by
        rw [hwp]
        by_cases hs : b.withinString = true
        · simp [hs, hp1, hp]
        · by_cases hv : startsWithMarker ld (lineChars line1) = true
          · simp [hs, turnPreproc, turnFirst, hp1, hp, hv]
          · have hv2 : startsWithMarker ld (lineChars line1) = false := by simpa using hv
            simp [hs, turnPreproc, turnFirst, hp1, hf1, hp, hf hv2, hv2]
      refine ⟨fun _ _ => hwp2, fun hsame => ?_⟩
      have hnadv : ¬ (turnTarget b line1 + UTF8CharLength (charAtD line1 b.currentIndex) ≥
          (line1.length : Int)) := by
        intro hadv
        rw [if_pos hadv] at hposl
        omega
      rw [if_neg hnadv] at hposi
      exact ⟨by omega, fun hk2 => by omega, fun _ => ⟨hwp2, hfc2⟩⟩

/-- The flags `mPreprocessor` of the line a turn of the comment pass puts back: the turn
writes the flag of one glyph, the glyph at `turnTarget`. -/
theorem commentStepT_preFlags (ld : LanguageDefinition) (b : CommentScan) (line : Line)
    (hne : line.isEmpty = false) :
    ∃ line2, (commentStepT ld b line).lines = b.lines.set b.currentLine.toNat line2 ∧
      line2.map (fun g => g.mPreprocessor) =
        (line.map (fun g => g.mPreprocessor)).set (turnTarget b line).toNat
          (commentStepT ld b line).withinPreproc := by
  refine ⟨_, commentStepT_lines ld b line hne, ?_⟩
  rw [glyphMod_map_set (fun g => g.mPreprocessor) _ _ _
    (commentStepT ld b line).withinPreproc (fun _ => rfl)]
  rw [turnBranchT_keep (fun g => g.mPreprocessor) (fun _ _ _ => rfl)]

theorem turnTarget_congr (b : CommentScan) (line line2 : Line)
    (h : lineChars line = lineChars line2) : turnTarget b line = turnTarget b line2 := by
  have hlen : line.length = line2.length := by
    rw [← lineChars_length line, ← lineChars_length line2, h]
  unfold turnTarget stringSkips
  simp only [charAtD_eq, h, hlen]

/-- The turns of the comment pass leave the flags `mPreprocessor` of the glyphs before
the position alone, and never go back to an earlier line. -/
theorem preFlags_frame (ld : LanguageDefinition) (k : Nat) :
    ∀ (b f : CommentScan), commentRun ld k b = Except.ok f →
      b.currentLine ≤ f.currentLine ∧
      ∀ (l j : Nat), posBefore l j b.currentLine b.currentIndex →
        projAt (fun g => g.mPreprocessor) f.lines l j =
          projAt (fun g => g.mPreprocessor) b.lines l j := by
  induction k with
  | zero =>
    intro b f h
    simp only [commentRun, pure, Except.pure] at h
    injection h with h
    rw [← h]
    exact ⟨le_refl _, fun _ _ _ => rfl⟩
  | succ m ih =>
    intro b f h
    rw [commentRun_succ] at h
    obtain ⟨b1, h1, h⟩ := bind_ok _ _ _ h
    obtain ⟨hle, hfr⟩ := ih b1 f h
    obtain ⟨line, hcl0, hcl1, hline, hin, hb1⟩ := commentStep_eq ld b b1 h1
    by_cases hemp : line.isEmpty = true
    · have hb1e : b1 = turnEmpty b := by
        rw [hb1]
        unfold commentStepT
        rw [if_pos hemp]
      have hl1 : b1.currentLine = b.currentLine + 1 := by rw [hb1e]; rfl
      have hi1 : b1.currentIndex = 0 := by rw [hb1e]; rfl
      have hls : b1.lines = b.lines := by rw [hb1e]; rfl
      refine ⟨by omega, fun l j hlj => ?_⟩
      rw [hfr l j (by
        unfold posBefore at hlj ⊢
        rw [hl1, hi1]
        omega), hls]
    · have hne : line.isEmpty = false := by simpa using hemp
      obtain ⟨hi0, hi1, htgt⟩ := hin hne
      obtain ⟨hposl, hposi⟩ := commentStepT_pos ld b line hne
      obtain ⟨htl, htu⟩ := turnTarget_bounds b line
      have hlen := UTF8CharLength_pos (charAtD line b.currentIndex)
      obtain ⟨line2, hl2, hf2⟩ := commentStepT_preFlags ld b line hne
      rw [← hb1] at hposl hposi hl2
      have hl1 : b.currentLine ≤ b1.currentLine := by
        rw [hposl]
        split_ifs <;> omega
      refine ⟨by omega, fun l j hlj => ?_⟩
      rw [hfr l j (by
        unfold posBefore at hlj ⊢
        rw [hposl, hposi]
        split_ifs <;> omega), hl2, projAt_set _ _ _ _ (by omega)]
      by_cases hl : l = b.currentLine.toNat
      · rw [if_pos hl, hf2, List.getElem?_set_ne (by
          unfold posBefore at hlj
          omega), hl, projAt_eq _ _ _ _ line hline]
      · rw [if_neg hl]

theorem commentRun_chars (ld : LanguageDefinition) (k : Nat) (b f : CommentScan)
    (h : commentRun ld k b = Except.ok f) : charsOf f.lines = charsOf b.lines := by
  refine commentRun_invariant ld (fun x => charsOf x.lines = charsOf b.lines)
    (fun x x2 hx hs => ?_) k b f rfl h
  obtain ⟨line, _, _, hline, _, hx2⟩ := commentStep_eq ld x x2 hs
  rw [← hx, hx2]
  exact commentStepT_keep (fun g => g.mChar) (fun _ _ _ _ => rfl) ld x line hline

theorem charsOf_line (ls ls0 : Lines) (k : Nat) (line line0 : Line)
    (hc : charsOf ls = charsOf ls0) (h : ls[k]? = some line) (h0 : ls0[k]? = some line0) :
    lineChars line = lineChars line0 := by
  have h1 := charsOf_getElem? ls k line h
  rw [hc, charsOf_getElem? ls0 k line0 h0] at h1
  injection h1 with h1
  exact h1.symm

set_option maxRecDepth 100000 in
/-- C28 (counterexample): in the two lines of a quote, and of `#a`, the pass enters the
second line inside a string; the first character of the line that is no white space is
the preprocessor marker, and no glyph of the line gets `mPreprocessor`. -/
theorem marker_in_string_sets_no_flag :
    (commentPass LanguageDefinition.CPlusPlus markerInStringLines).map
        (fun ls => ls.map fun line => line.map fun g => g.mPreprocessor) =
      Except.ok [[false], [false, false]] ∧
    charsOf markerInStringLines = [[34], [35, 97]] ∧
    startsWithMarker LanguageDefinition.CPlusPlus [35, 97] = true ∧
    firstNonSpace [35, 97] = 0 ∧
    ((scanAfter LanguageDefinition.CPlusPlus markerInStringLines 1).currentLine,
      (scanAfter LanguageDefinition.CPlusPlus markerInStringLines 1).currentIndex,
      (scanAfter LanguageDefinition.CPlusPlus markerInStringLines 1).withinString) =
      (1, 0, true) := by
  refine ⟨by decide, by decide, by decide, by decide, by decide⟩

/-- C28 (amended): when the comment pass returns, on a line that the pass enters outside
the string state and not joined to the line before by a backslash, every turn that stands
at or behind the first character of the line that is no white space leaves the flag
`mPreprocessor` it writes (the flag of its glyph, or of the glyph behind it when the turn
steps over that glyph inside a string) set if and only if that first character is the
preprocessor marker of the language. -/
theorem preproc_flag_latch (ld : LanguageDefinition) (lines final : Lines)
    (hpass : commentPass ld lines = Except.ok final)
    (hpp : isspace (ld.mPreprocChar % 256) = false) (m0 m : Nat) (b0 b : CommentScan)
    (line : Line) (hb0 : commentRun ld m0 (CommentScan.start lines) = Except.ok b0)
    (hstart : b0.currentIndex = 0 ∧ b0.concatenate = false ∧ b0.withinString = false)
    (hline : lines[b0.currentLine.toNat]? = some line) (hm : m0 ≤ m)
    (hb : commentRun ld m (CommentScan.start lines) = Except.ok b)
    (hsame : b.currentLine = b0.currentLine)
    (hin : b.currentIndex < (line.length : Int))
    (hk : (firstNonSpace (lineChars line) : Int) ≤ b.currentIndex) :
    projAt (fun g => g.mPreprocessor) final b.currentLine.toNat (turnTarget b line).toNat =
      some (startsWithMarker ld (lineChars line)) := by
  obtain ⟨d, rfl⟩ := Nat.exists_eq_add_of_le hm
  rw [commentRun_add, hb0] at hb
  simp only [bind, Except.bind] at hb
  have hc0 : charsOf b0.lines = charsOf lines := commentRun_chars ld m0 _ b0 hb0
  -- the invariant holds at the turn
  have hQ : b0.currentLine ≤ b.currentLine ∧ charsOf b.lines = charsOf lines ∧
      (b.currentLine = b0.currentLine → PreprocInv ld (lineChars line) b) := by
    refine commentRun_invariant ld (fun x => b0.currentLine ≤ x.currentLine ∧
      charsOf x.lines = charsOf lines ∧
      (x.currentLine = b0.currentLine → PreprocInv ld (lineChars line) x))
      (fun x x2 hx hs => ?_) d b0 b ⟨le_refl _, hc0, fun _ => ?_⟩ hb
    · obtain ⟨hxl, hxc, hxi⟩ := hx
      obtain ⟨hle, _⟩ := preFlags_frame ld 1 x x2 (by
        rw [commentRun_succ, hs]
        rfl)
      obtain ⟨linex, _, _, hlinex, _, hx2⟩ := commentStep_eq ld x x2 hs
      refine ⟨by omega, ?_, fun h2 => ?_⟩
      · rw [← hxc, hx2]
        exact commentStepT_keep (fun g => g.mChar) (fun _ _ _ _ => rfl) ld x linex hlinex
      · have hxs : x.currentLine = b0.currentLine := by omega
        have hcx : lineChars linex = lineChars line :=
          charsOf_line _ _ _ _ _ hxc hlinex (by rw [hxs]; exact hline)
        have := (PreprocInv_step ld hpp x x2 linex hlinex (by
          rw [hcx]
          exact hxi hxs) hs).2 (by omega)
        rw [hcx] at this
        exact this
    · exact ⟨by rw [hstart.1], fun _ => ⟨hstart.2.2, Or.inl ⟨hstart.1, hstart.2.1⟩⟩,
        fun h => by rw [hstart.1] at h; omega⟩
  obtain ⟨_, hcb, hinvb⟩ := hQ
  have hinvb := hinvb hsame
  -- the turn takes place
  obtain ⟨K, f, hK, hfinal, hend, hinvf⟩ := commentPass_run ld lines final hpass
  have hrunb : commentRun ld (m0 + d) (CommentScan.start lines) = Except.ok b := by
    rw [commentRun_add, hb0]
    exact hb
  have hlenb : b.lines.length = lines.length := by
    have := congrArg List.length hcb
    simpa [charsOf] using this
  have hLlt : b0.currentLine.toNat < lines.length := (List.getElem?_eq_some_iff.mp hline).1
  obtain ⟨b2, j, hs, hj⟩ := commentRun_through ld _ f b K (m0 + d) hK hrunb
    (by rw [hlenb, hsame]; omega) (by rw [hinvf.1]; exact hend)
  obtain ⟨lineb, hcl0, _, hlineb, hinb, hb2⟩ := commentStep_eq ld b b2 hs
  have hcl : lineChars lineb = lineChars line :=
    charsOf_line _ _ _ _ _ hcb hlineb (by rw [hsame]; exact hline)
  have hlen : lineb.length = line.length := by
    rw [← lineChars_length lineb, ← lineChars_length line, hcl]
  have hne : lineb.isEmpty = false := by
    cases hl : lineb with
    | nil =>
      rw [hl] at hlen
      simp only [List.length_nil] at hlen
      have := hinvb.1
      omega
    | cons x xs => rfl
  obtain ⟨hi0, hi1, htgt⟩ := hinb hne
  have hwp : b2.withinPreproc = startsWithMarker ld (lineChars line) := by
    have := (PreprocInv_step ld hpp b b2 lineb hlineb (by rw [hcl]; exact hinvb) hs).1 hne
      (by rw [hcl]; exact hk)
    rw [hcl] at this
    exact this
  -- the flag is written and stays
  obtain ⟨line2, hl2, hf2⟩ := commentStepT_preFlags ld b lineb hne
  obtain ⟨hposl, hposi⟩ := commentStepT_pos ld b lineb hne
  obtain ⟨htl, htu⟩ := turnTarget_bounds b lineb
  have hu := UTF8CharLength_pos (charAtD lineb b.currentIndex)
  rw [← hb2] at hl2 hf2 hposl hposi
  obtain ⟨_, hfr⟩ := preFlags_frame ld j b2 f hj
  rw [← hfinal, turnTarget_congr b line lineb hcl.symm,
    hfr b.currentLine.toNat (turnTarget b lineb).toNat (by
      unfold posBefore
      rw [hposl, hposi]
      split_ifs <;> omega), hl2, projAt_set _ _ _ _ (by omega), if_pos rfl, hf2,
    List.getElem?_set_self (by
      rw [List.length_map]
      omega), hwp]

set_option maxRecDepth 100000 in
/-- C28 (witness): the turn at the marker `#` of the second of the lines `x`, and ` #ab`;
the pass enters the line after one turn, the turn at the marker is the third. -/
theorem preproc_flag_latch_witness :
    commentPass LanguageDefinition.CPlusPlus markerLines =
      Except.ok (passResult LanguageDefinition.CPlusPlus markerLines) ∧
    isspace (LanguageDefinition.CPlusPlus.mPreprocChar % 256) = false ∧
    commentRun LanguageDefinition.CPlusPlus 1 (CommentScan.start markerLines) =
      Except.ok (scanAfter LanguageDefinition.CPlusPlus markerLines 1) ∧
    ((scanAfter LanguageDefinition.CPlusPlus markerLines 1).currentIndex = 0 ∧
      (scanAfter LanguageDefinition.CPlusPlus markerLines 1).concatenate = false ∧
      (scanAfter LanguageDefinition.CPlusPlus markerLines 1).withinString = false) ∧
    markerLines[(scanAfter LanguageDefinition.CPlusPlus markerLines 1).currentLine.toNat]? =
      some (Glyph.mk2 32 PaletteIndex.Default :: Glyph.mk2 35 PaletteIndex.Default ::
        Glyph.mk2 97 PaletteIndex.Default :: [Glyph.mk2 98 PaletteIndex.Default]) ∧
    1 ≤ 2 ∧
    commentRun LanguageDefinition.CPlusPlus 2 (CommentScan.start markerLines) =
      Except.ok (scanAfter LanguageDefinition.CPlusPlus markerLines 2) ∧
    (scanAfter LanguageDefinition.CPlusPlus markerLines 2).currentLine =
      (scanAfter LanguageDefinition.CPlusPlus markerLines 1).currentLine ∧
    (scanAfter LanguageDefinition.CPlusPlus markerLines 2).currentIndex < 4 ∧
    (firstNonSpace [32, 35, 97, 98] : Int) ≤
      (scanAfter LanguageDefinition.CPlusPlus markerLines 2).currentIndex ∧
    projAt (fun g => g.mPreprocessor) (passResult LanguageDefinition.CPlusPlus markerLines)
        (scanAfter LanguageDefinition.CPlusPlus markerLines 2).currentLine.toNat
        (turnTarget (scanAfter LanguageDefinition.CPlusPlus markerLines 2)
          (Glyph.mk2 32 PaletteIndex.Default :: Glyph.mk2 35 PaletteIndex.Default ::
            Glyph.mk2 97 PaletteIndex.Default :: [Glyph.mk2 98 PaletteIndex.Default])).toNat =
      some (startsWithMarker LanguageDefinition.CPlusPlus
        (lineChars (Glyph.mk2 32 PaletteIndex.Default :: Glyph.mk2 35 PaletteIndex.Default ::
          Glyph.mk2 97 PaletteIndex.Default :: [Glyph.mk2 98 PaletteIndex.Default]))) :=
  ⟨by decide, by decide, by decide, by decide, by decide, by decide, by decide, by decide,
    by decide, by decide,
    preproc_flag_latch LanguageDefinition.CPlusPlus markerLines
      (passResult LanguageDefinition.CPlusPlus markerLines) (by decide) (by decide) 1 2
      (scanAfter LanguageDefinition.CPlusPlus markerLines 1)
      (scanAfter LanguageDefinition.CPlusPlus markerLines 2)
      (Glyph.mk2 32 PaletteIndex.Default :: Glyph.mk2 35 PaletteIndex.Default ::
        Glyph.mk2 97 PaletteIndex.Default :: [Glyph.mk2 98 PaletteIndex.Default])
      (by decide) (by decide) (by decide) (by decide) (by decide) (by decide)
      (by decide) (by decide)⟩

theorem toBool_ok {α : Type} (x : Res α) (h : x.toBool = true) : ∃ r, x = Except.ok r := by
  cases x with
  | error e => cases h
  | ok r => exact ⟨r, rfl⟩

/-- The line loop of `ColorizeRange` returns when the token loop returns on every line of
the range: it puts the colorized line in the place of every line of the range and leaves
the other lines as they are. -/
theorem ColorizeRangeLoop_spec (ld : LanguageDefinition) (endLine : Int) :
    ∀ (fuel i : Nat) (lines : Lines), endLine ≤ (lines.length : Int) →
      (endLine - (i : Int)).toNat ≤ fuel →
      (∀ (l : Nat) (line : Line), i ≤ l → (l : Int) < endLine → lines[l]? = some line →
        (ColorizeLine ld line).toBool = true) →
      ∃ out, ColorizeRangeLoop ld endLine fuel (i : Int) lines = Except.ok out ∧
        out.length = lines.length ∧
        (∀ (l : Nat) (line : Line), i ≤ l → (l : Int) < endLine → lines[l]? = some line →
          ∃ r, ColorizeLine ld line = Except.ok r ∧ out[l]? = some r) ∧
        (∀ (l : Nat), (l < i ∨ endLine ≤ (l : Int)) → out[l]? = lines[l]?) := by
  intro fuel
  induction fuel with
  | zero =>
    intro i lines _ hfuel _
    refine ⟨lines, rfl, rfl, fun l line hil hle _ => ?_, fun _ _ => rfl⟩
    omega
  | succ n ih =>
    intro i lines hend hfuel htok
    unfold ColorizeRangeLoop
    by_cases hi : (i : Int) < endLine
    · rw [if_pos hi]
      have hilt : i < lines.length := by omega
      have hget : lines[i]? = some (lines.get ⟨i, hilt⟩) := List.getElem?_eq_getElem hilt
      obtain ⟨r, hr⟩ := toBool_ok _ (htok i _ (le_refl _) hi hget)
      have hset : vecSet lines (i : Int) r = Except.ok (lines.set i r) := by
        unfold vecSet
        have : ¬ ((i : Int) < 0 ∨ (lines.length : Int) ≤ (i : Int)) := by omega
        rw [if_neg this]
        rfl
      obtain ⟨out, hout, hlen, hin, hout2⟩ := ih (i + 1) (lines.set i r)
        (by rw [List.length_set]; exact hend) (by omega) (fun l line hil hle hl => by
          rw [List.getElem?_set_ne (by omega)] at hl
          exact htok l line (by omega) hle hl)
      refine ⟨out, ?_, ?_, fun l line hil hle hl => ?_, fun l hl => ?_⟩
      · rw [vecAt_natCast lines i hilt]
        simp only [bind, Except.bind]
        rw [hr]
        simp only
        rw [hset]
        simp only
        have hc : ((i : Int) + 1) = ((i + 1 : Nat) : Int) := by omega
        rw [hc]
        exact hout
      · rw [hlen, List.length_set]
      · by_cases hli : l = i
        · subst hli
          rw [hget] at hl
          injection hl with hl
          rw [← hl]
          refine ⟨r, hr, ?_⟩
          rw [hout2 l (Or.inl (by omega)), List.getElem?_set_self hilt]
        · exact hin l line (by omega) hle (by
            rw [List.getElem?_set_ne (fun h => hli h.symm)]
            exact hl)
      · rw [hout2 l (by omega), List.getElem?_set_ne (by omega)]
    · rw [if_neg hi]
      refine ⟨lines, rfl, rfl, fun l line hil hle _ => ?_, fun _ _ => rfl⟩
      omega

theorem ColorizeRange_spec (ed : Editor) (a : Nat) (toLine : Int) (hne : ed.mLines ≠ [])
    (hlt : (a : Int) < toLine)
    (htok : ∀ (l : Nat) (line : Line), a ≤ l → (l : Int) < toLine →
      ed.mLines[l]? = some line → (ColorizeLine ed.mLanguageDefinition line).toBool = true) :
    ∃ out, ColorizeRange ed (a : Int) toLine = Except.ok { ed with mLines := out } ∧
      (∀ (l : Nat) (line : Line), a ≤ l → (l : Int) < toLine → ed.mLines[l]? = some line →
        ∃ r, ColorizeLine ed.mLanguageDefinition line = Except.ok r ∧ out[l]? = some r) ∧
      (∀ (l : Nat), (l < a ∨ toLine ≤ (l : Int)) → out[l]? = ed.mLines[l]?) := by
  unfold ColorizeRange
  have hemp : ed.mLines.isEmpty = false := by
    cases h : ed.mLines with
    | nil => exact absurd h hne
    | cons x xs => rfl
  have hcond : ¬ (ed.mLines.isEmpty = true ∨ (a : Int) ≥ toLine) := by
    rw [hemp]
    intro h
    rcases h with h | h
    · cases h
    · omega
  rw [if_neg hcond]
  have hend : Max.max 0 (Min.min (ed.mLines.length : Int) toLine) =
      Min.min (ed.mLines.length : Int) toLine := by
    apply max_eq_right
    apply le_min <;> omega
  simp only [hend]
  obtain ⟨out, hout, _, hin, hout2⟩ := ColorizeRangeLoop_spec ed.mLanguageDefinition
    (Min.min (ed.mLines.length : Int) toLine)
    (Min.min (ed.mLines.length : Int) toLine - (a : Int)).toNat a ed.mLines
    (min_le_left _ _) (le_refl _) (fun l line hal hle hl =>
      htok l line hal (lt_of_lt_of_le hle (min_le_right _ _)) hl)
  refine ⟨out, ?_, fun l line hal hle hl => ?_, fun l hl => ?_⟩
  · rw [hout]
    rfl
  · have hllt : l < ed.mLines.length := (List.getElem?_eq_some_iff.mp hl).1
    exact hin l line hal (lt_min (by omega) hle) hl
  · refine hout2 l ?_
    rcases hl with hl | hl
    · exact Or.inl hl
    · exact Or.inr (le_trans (min_le_right _ _) hl)

theorem chunkLines_mem (ed : Editor) (lines : Lines) (l : Nat) (line : Line)
    (hmin : 0 ≤ ed.mColorRangeMin) (hl : lines[l]? = some line)
    (h1 : ed.mColorRangeMin ≤ (l : Int)) (h2 : (l : Int) < chunkEnd ed) :
    line ∈ chunkLines ed lines := by
  unfold chunkLines
  rw [List.mem_iff_getElem?]
  refine ⟨l - ed.mColorRangeMin.toNat, ?_⟩
  rw [List.getElem?_take_of_lt (by omega), List.getElem?_drop]
  have : ed.mColorRangeMin.toNat + (l - ed.mColorRangeMin.toNat) = l := by omega
  rw [this]
  exact hl

theorem checkedLines_styles (ed : Editor) (lines1 : Lines)
    (hpass : checkedLines ed = Except.ok lines1) :
    lines1.map styles = ed.mLines.map styles := by
  unfold checkedLines at hpass
  by_cases hc : ed.mCheckComments = true
  · rw [if_pos hc] at hpass
    exact commentPass_keep (fun g => g.mColorIndex) (fun _ _ _ _ => rfl) _ _ _ hpass
  · rw [if_neg hc] at hpass
    simp only [pure, Except.pure] at hpass
    injection hpass with hpass
    rw [hpass]

theorem colorChunk_pos (ed : Editor) : 0 < colorChunk ed := by
  unfold colorChunk
  split_ifs <;> omega

theorem glyphMod_getElem? (line : Line) (i : Int) (f : Glyph → Glyph) (j : Nat) :
    (glyphMod line i f)[j]? = if j = i.toNat then ((line)[j]?).map f else (line)[j]? := by
  unfold glyphMod
  cases hg : (line)[i.toNat]? with
  | none =>
    simp only
    by_cases hj : j = i.toNat
    · rw [if_pos hj, hj, hg]
      rfl
    · rw [if_neg hj]
  | some g =>
    simp only
    by_cases hj : j = i.toNat
    · rw [if_pos hj, hj, hg, List.getElem?_set_self (List.getElem?_eq_some_iff.mp hg).1]
      rfl
    · rw [if_neg hj, List.getElem?_set_ne (fun h => hj h.symm)]

/-- The paint loop of `ColorizeRange`, when it returns, gives the style to the glyphs of
the token span and leaves the other glyphs, and the flags of all glyphs, as they are. -/
theorem paintToken_spec (color : PaletteIndex) :
    ∀ (n i : Nat) (line out : Line), paintToken color n line (i : Int) = Except.ok out →
      (∀ j, i ≤ j → j < i + n → ∃ g, (line)[j]? = some g ∧
        out[j]? = some { g with mColorIndex := color }) ∧
      (∀ j, (j < i ∨ i + n ≤ j) → out[j]? = (line)[j]?) := by
  intro n
  induction n with
  | zero =>
    intro i line out h
    simp only [paintToken, pure, Except.pure] at h
    injection h with h
    rw [← h]
    exact ⟨fun j h1 h2 => by omega, fun _ _ => rfl⟩
  | succ m ih =>
    intro i line out h
    unfold paintToken at h
    obtain ⟨line1, h1, h⟩ := bind_ok _ _ _ h
    obtain ⟨hl1, _, hilt⟩ := glyphUpdate_eq _ _ _ _ h1
    have hc : ((i : Int) + 1) = ((i + 1 : Nat) : Int) := by omega
    rw [hc] at h
    obtain ⟨hin, hout⟩ := ih (i + 1) line1 out h
    have hget : ∀ j, line1[j]? =
        if j = i then ((line)[j]?).map (fun g => { g with mColorIndex := color })
        else (line)[j]? := by
      intro j
      rw [hl1, glyphMod_getElem?, Int.toNat_ofNat]
    refine ⟨fun j hj1 hj2 => ?_, fun j hj => ?_⟩
    · by_cases hji : j = i
      · have hlt : i < line.length := by omega
        refine ⟨line.get ⟨i, hlt⟩, ?_, ?_⟩
        · rw [hji]
          exact List.getElem?_eq_getElem hlt
        · rw [hout j (Or.inl (by omega)), hget j, if_pos hji, hji,
            List.getElem?_eq_getElem hlt]
          rfl
      · obtain ⟨g, hg, ho⟩ := hin j (by omega) (by omega)
        rw [hget j, if_neg hji] at hg
        exact ⟨g, hg, ho⟩
    · rw [hout j (by omega), hget j, if_neg (by omega)]

theorem ColorizeLineLoop_unfold (ld : LanguageDefinition) (buffer : List Char8)
    (fuel first : Nat) (line : Line) :
    ColorizeLineLoop ld buffer (fuel + 1) first line =
      (if first = buffer.length then pure line
       else if buffer.length < first then throw Fault.outOfBounds
       else
        match tokenAt ld buffer first with
        | none => ColorizeLineLoop ld buffer fuel (first + 1) line
        | some (tokenBegin, tokenEnd, color) =>
          if tokenEnd < tokenBegin then throw Fault.outOfBounds
          else if tokenEnd = 0 then throw Fault.nonTermination
          else do
            let color1 ← (if color = PaletteIndex.Identifier then do
                let g ← vecAt line (first : Int)
                pure (identifierColor ld
                  (((buffer.drop first).drop tokenBegin).take (tokenEnd - tokenBegin))
                  g.mPreprocessor)
              else pure color)
            let line1 ← paintToken color1 (tokenEnd - tokenBegin) line
              ((first + tokenBegin : Nat) : Int)
            ColorizeLineLoop ld buffer fuel (first + tokenEnd) line1) := rfl

/-- A turn of the token loop that returns, at an offset inside the buffer with a token:
the token's end is behind its begin or at it, and behind `first`; the token is painted
and the loop goes on at the token's end. -/
theorem ColorizeLineLoop_token (ld : LanguageDefinition) (buffer : List Char8)
    (fuel first : Nat) (line final : Line) (tb te : Nat) (color : PaletteIndex)
    (hfirst : first ≠ buffer.length) (htok : tokenAt ld buffer first = some (tb, te, color))
    (h : ColorizeLineLoop ld buffer (fuel + 1) first line = Except.ok final) :
    first < buffer.length ∧ tb ≤ te ∧ 0 < te ∧
    ∃ color1 line1,
      (if color = PaletteIndex.Identifier then do
          let g ← vecAt line (first : Int)
          pure (identifierColor ld (((buffer.drop first).drop tb).take (te - tb))
            g.mPreprocessor)
        else pure color : Res PaletteIndex) = Except.ok color1 ∧
      paintToken color1 (te - tb) line ((first + tb : Nat) : Int) = Except.ok line1 ∧
      ColorizeLineLoop ld buffer fuel (first + te) line1 = Except.ok final := by
  rw [ColorizeLineLoop_unfold, if_neg hfirst] at h
  by_cases h1 : buffer.length < first
  · rw [if_pos h1] at h
    cases h
  · rw [if_neg h1, htok] at h
    simp only at h
    by_cases h2 : te < tb
    · rw [if_pos h2] at h
      cases h
    · rw [if_neg h2] at h
      by_cases h3 : te = 0
      · rw [if_pos h3] at h
        cases h
      · rw [if_neg h3] at h
        obtain ⟨color1, hc, h⟩ := bind_ok _ _ _ h
        obtain ⟨line1, hp, h⟩ := bind_ok _ _ _ h
        exact ⟨by omega, by omega, by omega, color1, line1, hc, hp, h⟩

/-- A turn of the token loop that returns, at an offset inside the buffer without a
token: the loop goes on one character further. -/
theorem ColorizeLineLoop_no_token (ld : LanguageDefinition) (buffer : List Char8)
    (fuel first : Nat) (line final : Line)
    (hfirst : first ≠ buffer.length) (htok : tokenAt ld buffer first = none)
    (h : ColorizeLineLoop ld buffer (fuel + 1) first line = Except.ok final) :
    first < buffer.length ∧
      ColorizeLineLoop ld buffer fuel (first + 1) line = Except.ok final := by
  rw [ColorizeLineLoop_unfold, if_neg hfirst] at h
  by_cases h1 : buffer.length < first
  · rw [if_pos h1] at h
    cases h
  · rw [if_neg h1, htok] at h
    exact ⟨by omega, h⟩

/-- The token loop of `ColorizeRange` leaves the glyphs before the offset `first` as they
are. -/
theorem ColorizeLineLoop_frame (ld : LanguageDefinition) (buffer : List Char8) :
    ∀ (fuel first : Nat) (line final : Line),
      ColorizeLineLoop ld buffer fuel first line = Except.ok final →
      ∀ j, j < first → final[j]? = (line)[j]? := by
  intro fuel
  induction fuel with
  | zero =>
    intro first line final h j _
    cases h
  | succ n ih =>
    intro first line final h j hj
    by_cases hend : first = buffer.length
    · rw [ColorizeLineLoop_unfold, if_pos hend] at h
      simp only [pure, Except.pure] at h
      injection h with h
      rw [← h]
    · cases ht : tokenAt ld buffer first with
      | none =>
        obtain ⟨_, h2⟩ := ColorizeLineLoop_no_token ld buffer n first line final hend ht h
        exact ih (first + 1) line final h2 j (by omega)
      | some t =>
        obtain ⟨tb, te, color⟩ := t
        obtain ⟨_, _, _, color1, line1, _, hp, h2⟩ :=
          ColorizeLineLoop_token ld buffer n first line final tb te color hend ht h
        obtain ⟨_, hout⟩ := paintToken_spec color1 _ _ _ _ hp
        rw [ih (first + te) line1 final h2 j (by omega), hout j (Or.inl (by omega))]

theorem identifierColor_eq_spec (ld : LanguageDefinition) (text : List Char8) (flagged : Bool) :
    identifierColor ld text flagged = specTokenStyle ld text flagged := by
  unfold identifierColor specTokenStyle
  simp only [List.contains, List.elem_eq_mem, decide_eq_true_eq]

theorem paintToken_map {β : Type} (f : Glyph → β)
    (hf : ∀ (g : Glyph) (c : PaletteIndex), f { g with mColorIndex := c } = f g)
    (color : PaletteIndex) (n i : Nat) (line out : Line)
    (h : paintToken color n line (i : Int) = Except.ok out) : out.map f = line.map f := by
  obtain ⟨hin, hout⟩ := paintToken_spec color n i line out h
  apply List.ext_getElem?
  intro j
  rw [List.getElem?_map, List.getElem?_map]
  by_cases hj : i ≤ j ∧ j < i + n
  · obtain ⟨g, hg, ho⟩ := hin j hj.1 hj.2
    rw [hg, ho]
    simp only [Option.map_some', hf]
  · rw [hout j (by omega)]

/-- The token loop of `ColorizeRange`, when it returns, has changed nothing of the glyphs
of the line but their styles. -/
theorem ColorizeLineLoop_map {β : Type} (f : Glyph → β)
    (hf : ∀ (g : Glyph) (c : PaletteIndex), f { g with mColorIndex := c } = f g)
    (ld : LanguageDefinition) (buffer : List Char8) :
    ∀ (fuel first : Nat) (line final : Line),
      ColorizeLineLoop ld buffer fuel first line = Except.ok final →
      final.map f = line.map f := by
  intro fuel
  induction fuel with
  | zero =>
    intro first line final h
    cases h
  | succ n ih =>
    intro first line final h
    by_cases hend : first = buffer.length
    · rw [ColorizeLineLoop_unfold, if_pos hend] at h
      simp only [pure, Except.pure] at h
      injection h with h
      rw [← h]
    · cases ht : tokenAt ld buffer first with
      | none =>
        obtain ⟨_, h2⟩ := ColorizeLineLoop_no_token ld buffer n first line final hend ht h
        exact ih (first + 1) line final h2
      | some t =>
        obtain ⟨tb, te, color⟩ := t
        obtain ⟨_, _, _, color1, line1, _, hp, h2⟩ :=
          ColorizeLineLoop_token ld buffer n first line final tb te color hend ht h
        rw [ih (first + te) line1 final h2, paintToken_map f hf color1 _ _ _ _ hp]

theorem ColorizeLineLoop_inside (ld : LanguageDefinition) (buffer : List Char8)
    (fuel first : Nat) (line final : Line)
    (h : ColorizeLineLoop ld buffer fuel first line = Except.ok final) :
    first ≤ buffer.length := by
  cases fuel with
  | zero => cases h
  | succ n =>
    rw [ColorizeLineLoop_unfold] at h
    by_cases hend : first = buffer.length
    · omega
    · rw [if_neg hend] at h
      by_cases h1 : buffer.length < first
      · rw [if_pos h1] at h
        cases h
      · omega

theorem take_painted (s s1 : List PaletteIndex) (first b e : Nat) (color : PaletteIndex)
    (hlen : s1.length = s.length) (hle : first + e ≤ s.length) (hbe : b ≤ e)
    (hdef : ∀ j, first ≤ j → j < s.length → s[j]? = some PaletteIndex.Default)
    (hin : ∀ j, first + b ≤ j → j < first + e → s1[j]? = some color)
    (hout : ∀ j, j < first + b → s1[j]? = s[j]?) :
    s1.take (first + e) =
      s.take first ++ (List.replicate b PaletteIndex.Default ++ List.replicate (e - b) color) := by
  apply List.ext_getElem?
  intro j
  by_cases h1 : j < first
  · rw [List.getElem?_take_of_lt (by omega), List.getElem?_append_left (by
      rw [List.length_take]; omega), List.getElem?_take_of_lt h1]
    exact hout j (by omega)
  · rw [List.getElem?_append_right (by rw [List.length_take]; omega)]
    have hl : (s.take first).length = first := by rw [List.length_take]; omega
    rw [hl]
    by_cases h2 : j < first + b
    · rw [List.getElem?_take_of_lt (by omega), List.getElem?_append_left (by
        rw [List.length_replicate]; omega), List.getElem?_replicate, if_pos (by omega)]
      rw [hout j h2]
      exact hdef j (by omega) (by omega)
    · rw [List.getElem?_append_right (by rw [List.length_replicate]; omega),
        List.length_replicate, List.getElem?_replicate]
      by_cases h3 : j < first + e
      · rw [List.getElem?_take_of_lt h3, if_pos (by omega)]
        exact hin j (by omega) h3
      · rw [if_neg (by omega), List.getElem?_eq_none (by rw [List.length_take]; omega)]

/-- The token loop of `ColorizeRange`, when it returns on a line whose glyphs from `first`
on have the style Default, leaves the styles before `first` and gives the glyphs from
`first` on the styles of the walk `tokenStyles`. -/
theorem ColorizeLineLoop_styles (ld : LanguageDefinition) (buffer : List Char8)
    (pre : List Bool) :
    ∀ (fuel first : Nat) (line final : Line),
      line.length = buffer.length →
      line.map (fun g => g.mPreprocessor) = pre →
      (∀ j, first ≤ j → j < line.length → (styles line)[j]? = some PaletteIndex.Default) →
      ColorizeLineLoop ld buffer fuel first line = Except.ok final →
      styles final = (styles line).take first ++ tokenStyles ld buffer pre fuel first := by
  intro fuel
  induction fuel with
  | zero =>
    intro first line final _ _ _ h
    cases h
  | succ n ih =>
    intro first line final hlen hpre hdef h
    have hslen : (styles line).length = line.length := by
      unfold styles
      rw [List.length_map]
    by_cases hend : first = buffer.length
    · rw [ColorizeLineLoop_unfold, if_pos hend] at h
      simp only [pure, Except.pure] at h
      injection h with h
      rw [← h]
      unfold tokenStyles
      rw [if_pos (by omega), List.append_nil, List.take_of_length_le (by omega)]
    · cases ht : tokenAt ld buffer first with
      | none =>
        obtain ⟨hlt, h2⟩ := ColorizeLineLoop_no_token ld buffer n first line final hend ht h
        rw [ih (first + 1) line final hlen hpre (fun j hj1 hj2 => hdef j (by omega) hj2) h2]
        have hstep : tokenStyles ld buffer pre (n + 1) first =
            PaletteIndex.Default :: tokenStyles ld buffer pre n (first + 1) := by
          rw [tokenStyles, if_neg (by omega), ht]
        rw [hstep]
        have h3 := take_painted (styles line) (styles line) first 1 1 PaletteIndex.Default rfl
          (by omega) (le_refl _) (fun j hj1 hj2 => hdef j hj1 (by omega))
          (fun j hj1 hj2 => by omega) (fun _ _ => rfl)
        rw [h3]
        simp
      | some t =>
        obtain ⟨tb, te, color⟩ := t
        obtain ⟨hlt, hbe, he0, color1, line1, hc, hp, h2⟩ :=
          ColorizeLineLoop_token ld buffer n first line final tb te color hend ht h
        have hle := ColorizeLineLoop_inside ld buffer n (first + te) line1 final h2
        have hlen1 : line1.length = line.length := by
          have := congrArg List.length
            (paintToken_map (fun _ => ()) (fun _ _ => rfl) color1 _ _ _ _ hp)
          simpa using this
        have hpre1 : line1.map (fun g => g.mPreprocessor) = pre := by
          rw [paintToken_map (fun g => g.mPreprocessor) (fun _ _ => rfl) color1 _ _ _ _ hp]
          exact hpre
        obtain ⟨hin, hout⟩ := paintToken_spec color1 _ _ _ _ hp
        have hsty : ∀ (l : Line) (j : Nat),
            (styles l)[j]? = ((l)[j]?).map (fun g => g.mColorIndex) := by
          intro l j
          unfold styles
          rw [List.getElem?_map]
        have hdef1 : ∀ j, first + te ≤ j → j < line1.length →
            (styles line1)[j]? = some PaletteIndex.Default := by
          intro j hj1 hj2
          rw [hsty, hout j (Or.inr (by omega)), ← hsty]
          exact hdef j (by omega) (by omega)
        rw [ih (first + te) line1 final (by omega) hpre1 hdef1 h2]
        have hcolor : color1 = (if color = PaletteIndex.Identifier then
              specTokenStyle ld (((buffer.drop first).drop tb).take (te - tb))
                (pre.getD first false)
             else color) := by
          by_cases hci : color = PaletteIndex.Identifier
          · rw [if_pos hci] at hc ⊢
            obtain ⟨g, hg, hc⟩ := bind_ok _ _ _ hc
            simp only [pure, Except.pure] at hc
            injection hc with hc
            rw [← hc, identifierColor_eq_spec]
            congr 1
            have hg2 : (line)[first]? = some g := by
              unfold vecAt at hg
              split_ifs at hg with hb
              cases hq : (line)[(first : Int).toNat]? with
              | none =>
                rw [hq] at hg
                cases hg
              | some q =>
                rw [hq] at hg
                simp only [Int.toNat_ofNat] at hq
                injection hg with hg
                rw [hq, hg]
            rw [← hpre, List.getD_eq_getElem?_getD, List.getElem?_map, hg2]
            rfl
          · rw [if_neg hci] at hc ⊢
            simp only [pure, Except.pure] at hc
            injection hc with hc
            exact hc.symm
        have hstep : tokenStyles ld buffer pre (n + 1) first =
            List.replicate tb PaletteIndex.Default ++
              (List.replicate (te - tb) color1 ++ tokenStyles ld buffer pre n (first + te)) := by
          rw [tokenStyles, if_neg (by omega), ht, hcolor]
        rw [hstep]
        have h3 := take_painted (styles line) (styles line1) first tb te color1
          (by rw [hslen]; unfold styles; rw [List.length_map]; exact hlen1)
          (by omega) hbe (fun j hj1 hj2 => hdef j hj1 (by omega))
          (fun j hj1 hj2 => by
            obtain ⟨g, hg, ho⟩ := hin j hj1 (by omega)
            rw [hsty, ho]
            rfl)
          (fun j hj => by rw [hsty, hsty, hout j (Or.inl hj)])
        rw [h3]
        simp only [List.append_assoc]

/-- The body of the line loop of `ColorizeRange`, when it returns, has changed nothing of
the line but the styles, and the styles are those of the walk `lineTokenStyles`. -/
theorem ColorizeLine_styles (ld : LanguageDefinition) (line r : Line)
    (h : ColorizeLine ld line = Except.ok r) :
    unstyled r = unstyled line ∧ styles r = lineTokenStyles ld line := by
  unfold ColorizeLine at h
  by_cases hemp : line.isEmpty = true
  · rw [if_pos hemp] at h
    simp only [pure, Except.pure] at h
    injection h with h
    rw [← h]
    have hnil : line = [] := List.isEmpty_iff.mp hemp
    rw [hnil]
    exact ⟨rfl, rfl⟩
  · rw [if_neg hemp] at h
    refine ⟨?_, ?_⟩
    · unfold unstyled
      have hm := @ColorizeLineLoop_map Glyph
        (fun g : Glyph => ({ g with mColorIndex := PaletteIndex.Default } : Glyph))
        (fun _ _ => rfl) ld _ _ _ _ _ h
      rw [hm, List.map_map]
      rfl
    · have h2 := ColorizeLineLoop_styles ld (lineChars line)
        (line.map fun g => g.mPreprocessor) (line.length + 1) 0
        (line.map fun g => { g with mColorIndex := PaletteIndex.Default }) r
        (by rw [List.length_map, lineChars_length])
        (by rw [List.map_map]; rfl)
        (fun j _ hj => by
          unfold styles
          rw [List.map_map, List.getElem?_map]
          rw [List.length_map] at hj
          rw [List.getElem?_eq_getElem hj]
          rfl) h
      rw [h2, List.take_zero, List.nil_append]
      rfl

set_option maxRecDepth 100000 in
/-- C30 (counterexample): the one line `a` with a language definition that has no
tokenize callback and the one token expression `[0-9]*`: the colorizer is enabled, the
range to colorize is `[0, 1)` and the comment pass returns; at the first character the
expression matches the empty string, so the token loop of `ColorizeRange` finds a token
that ends at `first`, sets `first = token_end`, and stands at the same character again:
the call of `ColorizeInternal` does not return, and the range is never advanced. -/
theorem empty_token_never_returns :
    digitsEditor.mColorizerEnabled = true ∧
    digitsEditor.mLines.map lineChars = [[97]] ∧
    digitsEditor.mColorRangeMin = 0 ∧ digitsEditor.mColorRangeMax = 1 ∧
    (checkedLines digitsEditor).toBool = true ∧
    digitsEditor.mLanguageDefinition.mTokenize.isNone = true ∧
    tokenAt digitsLanguage [97] 0 = some (0, 0, PaletteIndex.Number) ∧
    (digitsEditor.mLines.map fun l => (ColorizeLine digitsLanguage l).map styles) =
      [Except.error Fault.nonTermination] ∧
    (ColorizeInternal digitsEditor).map (fun e => e.mLines.map styles) =
      Except.error Fault.nonTermination :=
  ⟨by decide, by decide, by decide, by decide, by decide, by decide, by decide, by decide,
    by decide⟩

/-- C30 (amended): with the colorizer enabled, a buffer with lines and a range to colorize
with `0 ≤ rangeMin < rangeMax`, when the comment pass (if it is due) returns and the token
loop returns on the lines of the chunk, one call of `ColorizeInternal` returns; each line
of `[rangeMin, min(rangeMin + chunk, rangeMax))`, with chunk 10000 if the language has a
tokenize callback and 10 otherwise, is re-tokenized: it is the line that `ColorizeLine`
returns, nothing of it but the styles has changed, and its styles are those of the walk
over its tokens (`lineTokenStyles`), whatever styles it had; every other line is as the
comment pass leaves it, with the styles it had; and the range is the empty sentinel
`(INT_MAX, 0)` when the chunk ends at `rangeMax`, else `rangeMin` has advanced to the end
of the chunk and `rangeMax` is unchanged. -/
theorem ColorizeInternal_chunk (ed : Editor) (lines1 : Lines)
    (hen : ed.mColorizerEnabled = true) (hne : ed.mLines ≠ [])
    (hmin : 0 ≤ ed.mColorRangeMin) (hrange : ed.mColorRangeMin < ed.mColorRangeMax)
    (hpass : checkedLines ed = Except.ok lines1)
    (htok : ∀ line ∈ chunkLines ed lines1,
      (ColorizeLine ed.mLanguageDefinition line).toBool = true) :
    ∃ ed2, ColorizeInternal ed = Except.ok ed2 ∧
      (∀ (l : Nat) (line : Line), lines1[l]? = some line → ed.mColorRangeMin ≤ (l : Int) →
        (l : Int) < chunkEnd ed →
        ∃ r, ed2.mLines[l]? = some r ∧
          ColorizeLine ed.mLanguageDefinition line = Except.ok r ∧
          unstyled r = unstyled line ∧
          styles r = lineTokenStyles ed.mLanguageDefinition line) ∧
      (∀ (l : Nat), ((l : Int) < ed.mColorRangeMin ∨ chunkEnd ed ≤ (l : Int)) →
        ed2.mLines[l]? = lines1[l]? ∧
        (ed2.mLines[l]?).map styles = (ed.mLines[l]?).map styles) ∧
      (if chunkEnd ed = ed.mColorRangeMax then
        ed2.mColorRangeMin = intMax ∧ ed2.mColorRangeMax = 0
       else ed2.mColorRangeMin = chunkEnd ed ∧ ed2.mColorRangeMax = ed.mColorRangeMax) := by
  have hst := checkedLines_styles ed lines1 hpass
  have hne1 : lines1 ≠ [] := by
    intro h
    rw [h] at hst
    have := congrArg List.length hst
    simp only [List.map_nil, List.length_nil, List.length_map] at this
    exact hne (List.length_eq_zero.mp this.symm)
  have hemp : ed.mLines.isEmpty = false := by
    cases h : ed.mLines with
    | nil => exact absurd h hne
    | cons x xs => rfl
  have hed1 : (if ed.mCheckComments = true then do
        let lines ← commentPass ed.mLanguageDefinition ed.mLines
        pure { ed with mLines := lines, mCheckComments := false }
      else pure ed) =
      (Except.ok { ed with mLines := lines1, mCheckComments := false } : Res Editor) := by
    unfold checkedLines at hpass
    by_cases hc : ed.mCheckComments = true
    · rw [if_pos hc] at hpass ⊢
      rw [hpass]
      rfl
    · rw [if_neg hc] at hpass ⊢
      simp only [pure, Except.pure] at hpass ⊢
      injection hpass with hpass
      rw [← hpass]
      have hc2 : ed.mCheckComments = false := by simpa using hc
      congr 1
      cases ed
      simp only at hc2
      simp [hc2]
  have hchunk : (if (ed.mLanguageDefinition.mTokenize.isNone) = true then (10 : Int)
      else 10000) = colorChunk ed := by
    unfold colorChunk
    cases ed.mLanguageDefinition.mTokenize <;> rfl
  have hcp := colorChunk_pos ed
  have hlt : ((ed.mColorRangeMin.toNat : Nat) : Int) < chunkEnd ed := by
    unfold chunkEnd
    rw [Int.toNat_of_nonneg hmin]
    exact lt_min (by omega) hrange
  obtain ⟨out, hout, hin, hout2⟩ := ColorizeRange_spec
    { ed with mLines := lines1, mCheckComments := false } ed.mColorRangeMin.toNat (chunkEnd ed)
    hne1 hlt (fun l line hal hle hl =>
      htok line (chunkLines_mem ed lines1 l line hmin hl (by omega) hle))
  rw [Int.toNat_of_nonneg hmin] at hout
  have hcond : ¬ (ed.mLines.isEmpty = true ∨ ed.mColorizerEnabled = false) := by
    rw [hemp, hen]
    simp
  have hline : ∀ (l : Nat) (line : Line), lines1[l]? = some line →
      ed.mColorRangeMin ≤ (l : Int) → (l : Int) < chunkEnd ed →
      ∃ r, out[l]? = some r ∧
        ColorizeLine ed.mLanguageDefinition line = Except.ok r ∧
        unstyled r = unstyled line ∧
        styles r = lineTokenStyles ed.mLanguageDefinition line := by
    intro l line hl h1 h2
    obtain ⟨r, hr, ho⟩ := hin l line (by omega) h2 hl
    obtain ⟨hu, hs⟩ := ColorizeLine_styles ed.mLanguageDefinition line r hr
    exact ⟨r, ho, hr, hu, hs⟩
  by_cases hfin : chunkEnd ed = ed.mColorRangeMax
  · refine ⟨{ ed with
        mLines := out, mCheckComments := false, mColorRangeMin := intMax,
        mColorRangeMax := 0 }, ?_, hline, ?_, ?_⟩
    · unfold ColorizeInternal
      rw [if_neg hcond, hed1]
      simp only [bind, Except.bind, hrange, if_true, hchunk]
      have hto : Min.min (ed.mColorRangeMin + colorChunk ed) ed.mColorRangeMax = chunkEnd ed :=
        rfl
      rw [hto, hout]
      simp only [hfin, if_true]
      rfl
    · intro l hl
      have h1 : out[l]? = lines1[l]? := hout2 l (by omega)
      refine ⟨h1, ?_⟩
      show (out[l]?).map styles = _
      rw [h1, ← List.getElem?_map, ← List.getElem?_map, hst]
    · rw [if_pos hfin]
      exact ⟨rfl, rfl⟩
  · refine ⟨{ ed with
        mLines := out, mCheckComments := false,
        mColorRangeMin := chunkEnd ed }, ?_, hline, ?_, ?_⟩
    · unfold ColorizeInternal
      rw [if_neg hcond, hed1]
      simp only [bind, Except.bind, hrange, if_true, hchunk]
      have hto : Min.min (ed.mColorRangeMin + colorChunk ed) ed.mColorRangeMax = chunkEnd ed :=
        rfl
      rw [hto, hout]
      have hfin2 : ¬ (ed.mColorRangeMax = chunkEnd ed) := fun h => hfin h.symm
      simp only [hfin2, if_false]
      rfl
    · intro l hl
      have h1 : out[l]? = lines1[l]? := hout2 l (by omega)
      refine ⟨h1, ?_⟩
      show (out[l]?).map styles = _
      rw [h1, ← List.getElem?_map, ← List.getElem?_map, hst]
    · rw [if_neg hfin]
      exact ⟨rfl, rfl⟩

set_option maxRecDepth 100000 in
/-- C30 (witness): the two lines `if x`, `7` as `SetText` leaves them: the range to
colorize is `[0, 2)`, the comment pass is due, and the chunk of 10000 lines ends at
`rangeMax`; the call returns the styles Keyword, Keyword, Default, Identifier for the
first line and Number for the second, which are the styles of the walk over the tokens. -/
theorem ColorizeInternal_chunk_witness :
    keywordLines.mColorizerEnabled = true ∧ keywordLines.mLines ≠ [] ∧
    0 ≤ keywordLines.mColorRangeMin ∧ keywordLines.mColorRangeMin < keywordLines.mColorRangeMax ∧
    checkedLines keywordLines =
      Except.ok (passResult keywordLines.mLanguageDefinition keywordLines.mLines) ∧
    (∀ line ∈ chunkLines keywordLines
        (passResult keywordLines.mLanguageDefinition keywordLines.mLines),
      (ColorizeLine keywordLines.mLanguageDefinition line).toBool = true) ∧
    (passResult keywordLines.mLanguageDefinition keywordLines.mLines).map
        (lineTokenStyles keywordLines.mLanguageDefinition) =
      [[PaletteIndex.Keyword, PaletteIndex.Keyword, PaletteIndex.Default,
        PaletteIndex.Identifier], [PaletteIndex.Number]] ∧
    (ColorizeInternal keywordLines).map (fun e => e.mLines.map styles) =
      Except.ok [[PaletteIndex.Keyword, PaletteIndex.Keyword, PaletteIndex.Default,
        PaletteIndex.Identifier], [PaletteIndex.Number]] ∧
    ∃ ed2, ColorizeInternal keywordLines = Except.ok ed2 ∧
      (∀ (l : Nat) (line : Line),
        (passResult keywordLines.mLanguageDefinition keywordLines.mLines)[l]? = some line →
        keywordLines.mColorRangeMin ≤ (l : Int) → (l : Int) < chunkEnd keywordLines →
        ∃ r, ed2.mLines[l]? = some r ∧
          ColorizeLine keywordLines.mLanguageDefinition line = Except.ok r ∧
          unstyled r = unstyled line ∧
          styles r = lineTokenStyles keywordLines.mLanguageDefinition line) ∧
      (∀ (l : Nat), ((l : Int) < keywordLines.mColorRangeMin ∨
          chunkEnd keywordLines ≤ (l : Int)) →
        ed2.mLines[l]? =
          (passResult keywordLines.mLanguageDefinition keywordLines.mLines)[l]? ∧
        (ed2.mLines[l]?).map styles = (keywordLines.mLines[l]?).map styles) ∧
      (if chunkEnd keywordLines = keywordLines.mColorRangeMax then
        ed2.mColorRangeMin = intMax ∧ ed2.mColorRangeMax = 0
       else ed2.mColorRangeMin = chunkEnd keywordLines ∧
        ed2.mColorRangeMax = keywordLines.mColorRangeMax) :=
  ⟨by decide, by decide, by decide, by decide, by decide, by decide, by decide, by decide,
    ColorizeInternal_chunk keywordLines _ (by decide) (by decide) (by decide) (by decide)
      (by decide) (by decide)⟩

set_option maxRecDepth 100000 in
/-- C29 (counterexample): with a language definition that is not case-sensitive and has
the one keyword `IF`, the token loop finds the identifier token `if` in the line `if`,
whose glyphs are not preprocessor-flagged, and paints it Keyword, although the text `if`
is in none of the three sets. -/
theorem case_folded_lookup :
    tokenAt caseFoldLanguage (lineChars ifLine) 0 = some (0, 2, PaletteIndex.Identifier) ∧
    (ColorizeLine caseFoldLanguage ifLine).map styles =
      Except.ok [PaletteIndex.Keyword, PaletteIndex.Keyword] ∧
    ifLine.map (fun g => g.mPreprocessor) = [false, false] ∧
    stdString (lineChars ifLine) ∉ caseFoldLanguage.mKeywords ∧
    stdString (lineChars ifLine) ∉ caseFoldLanguage.mIdentifiers ∧
    stdString (lineChars ifLine) ∉ caseFoldLanguage.mPreprocIdentifiers := by
  refine ⟨by decide, by decide, by decide, by decide, by decide, by decide⟩

/-- C29 (amended): when the token loop of `ColorizeRange`, at the offset `first` of a
line, finds a token of the identifier class, and the glyph at `first` (where the search
of the token starts) carries the same preprocessor flag as the first glyph of the token,
then in the line the loop returns every glyph of the token span has one style: the style
that the lookup of the text, upper-cased when the language is not case-sensitive, gives
(`specTokenStyle`): Keyword, KnownIdentifier, PreprocIdentifier or Identifier when the
first glyph of the token is not preprocessor-flagged, PreprocIdentifier or Identifier when
it is. -/
theorem identifier_token_style (ld : LanguageDefinition) (buffer : List Char8)
    (fuel first : Nat) (line final : Line) (tb te : Nat) (hfirst : first ≠ buffer.length)
    (htok : tokenAt ld buffer first = some (tb, te, PaletteIndex.Identifier))
    (hflag : ((line)[first]?).map (fun g => g.mPreprocessor) =
      ((line)[first + tb]?).map (fun g => g.mPreprocessor))
    (hrun : ColorizeLineLoop ld buffer (fuel + 1) first line = Except.ok final) :
    ∀ j, first + tb ≤ j → j < first + te →
      ∃ g0 g, (line)[first + tb]? = some g0 ∧ final[j]? = some g ∧
        g.mColorIndex = specTokenStyle ld
          (((buffer.drop first).drop tb).take (te - tb)) g0.mPreprocessor := by
  intro j hj1 hj2
  obtain ⟨_, _, _, color1, line1, hc, hp, hrun⟩ :=
    ColorizeLineLoop_token ld buffer fuel first line final tb te _ hfirst htok hrun
  simp only [if_true] at hc
  obtain ⟨g, hg, hc⟩ := bind_ok _ _ _ hc
  simp only [pure, Except.pure] at hc
  injection hc with hc
  obtain ⟨hin, _⟩ := paintToken_spec color1 _ _ _ _ hp
  obtain ⟨g0, hg0, _⟩ := hin (first + tb) (le_refl _) (by omega)
  obtain ⟨gj, _, hgj⟩ := hin j hj1 (by omega)
  obtain ⟨_, _, hget⟩ := vecAt_getElem? _ _ _ hg
  rw [Int.toNat_ofNat] at hget
  rw [hget, hg0] at hflag
  simp only [Option.map_some', Option.some.injEq] at hflag
  refine ⟨g0, { gj with mColorIndex := color1 }, hg0, ?_, ?_⟩
  · rw [ColorizeLineLoop_frame ld buffer fuel (first + te) line1 final hrun j hj2]
    exact hgj
  · show color1 = _
    rw [← hc, hflag]
    exact identifierColor_eq_spec ld _ _

set_option maxRecDepth 100000 in
/-- C29 (witness): the line of a space and `if` under the built-in language definition;
the search starts at the space, the token `if` begins one glyph further. -/
theorem identifier_token_style_witness :
    (0 : Nat) ≠ (lineChars blankIfLine).length ∧
    tokenAt LanguageDefinition.CPlusPlus (lineChars blankIfLine) 0 =
      some (1, 3, PaletteIndex.Identifier) ∧
    ((blankIfLine)[0]?).map (fun g => g.mPreprocessor) =
      ((blankIfLine)[0 + 1]?).map (fun g => g.mPreprocessor) ∧
    ColorizeLineLoop LanguageDefinition.CPlusPlus (lineChars blankIfLine) (3 + 1) 0 blankIfLine =
      Except.ok (lineOr (ColorizeLineLoop LanguageDefinition.CPlusPlus (lineChars blankIfLine)
        (3 + 1) 0 blankIfLine) blankIfLine) ∧
    ∀ j, 0 + 1 ≤ j → j < 0 + 3 →
      ∃ g0 g, (blankIfLine)[0 + 1]? = some g0 ∧
        (lineOr (ColorizeLineLoop LanguageDefinition.CPlusPlus (lineChars blankIfLine)
          (3 + 1) 0 blankIfLine) blankIfLine)[j]? = some g ∧
        g.mColorIndex = specTokenStyle LanguageDefinition.CPlusPlus
          ((((lineChars blankIfLine).drop 0).drop 1).take (3 - 1)) g0.mPreprocessor :=
  ⟨by decide, by decide, by decide, by decide,
    identifier_token_style LanguageDefinition.CPlusPlus (lineChars blankIfLine) 3 0 blankIfLine
      _ 1 3 (by decide) (by decide) (by decide) (by decide)⟩

theorem stringSkips_congr (line line2 : Line) (i : Int) (c : Char8)
    (h : lineChars line = lineChars line2) : stringSkips line i c = stringSkips line2 i c := by
  have hlen : line.length = line2.length := by
    rw [← lineChars_length line, ← lineChars_length line2, h]
  unfold stringSkips
  simp only [charAtD_eq, h, hlen]

theorem charAtD_congr (line line2 : Line) (i : Int)
    (h : lineChars line = lineChars line2) : charAtD line i = charAtD line2 i := by
  rw [charAtD_eq, charAtD_eq, h]

theorem commentRun_prefix (ld : LanguageDefinition) (m j : Nat) (b f : CommentScan)
    (h : commentRun ld (m + j) b = Except.ok f) :
    ∃ s, commentRun ld m b = Except.ok s ∧ commentRun ld j s = Except.ok f := by
  rw [commentRun_add] at h
  exact bind_ok _ _ _ h

theorem commentRun_length (ld : LanguageDefinition) (k : Nat) (b f : CommentScan)
    (h : commentRun ld k b = Except.ok f) : f.lines.length = b.lines.length := by
  have := congrArg List.length (commentRun_chars ld k b f h)
  simpa [charsOf] using this

/-- C31: `Colorize(from, count)` leaves `0 ≤ rangeMin ≤ rangeMax`; every line number of
the old range `[rangeMin, rangeMax)` is in the new range; and every line number in
`[max(0, from), min(lineCount, from + count))` is in the new range. -/
theorem Colorize_widens_range (ed : Editor) (aFromLine aLines : Int) :
    (0 ≤ (Colorize ed aFromLine aLines).mColorRangeMin ∧
      (Colorize ed aFromLine aLines).mColorRangeMin ≤
        (Colorize ed aFromLine aLines).mColorRangeMax) ∧
    (∀ l : Nat, ed.mColorRangeMin ≤ (l : Int) → (l : Int) < ed.mColorRangeMax →
      (Colorize ed aFromLine aLines).mColorRangeMin ≤ (l : Int) ∧
        (l : Int) < (Colorize ed aFromLine aLines).mColorRangeMax) ∧
    (∀ l : Nat, Max.max 0 aFromLine ≤ (l : Int) →
      (l : Int) < Min.min (ed.mLines.length : Int) (aFromLine + aLines) →
      (Colorize ed aFromLine aLines).mColorRangeMin ≤ (l : Int) ∧
        (l : Int) < (Colorize ed aFromLine aLines).mColorRangeMax) := by
  unfold Colorize
  simp only
  refine ⟨⟨?_, ?_⟩, fun l h1 h2 => ⟨?_, ?_⟩, fun l h1 h2 => ⟨?_, ?_⟩⟩
  · exact le_max_left _ _
  · exact le_max_left _ _
  · simp only [max_le_iff, min_le_iff]
    omega
  · simp only [lt_max_iff]
    omega
  · simp only [max_le_iff, min_le_iff] at h1 ⊢
    omega
  · simp only [lt_min_iff] at h2
    simp only [lt_max_iff]
    by_cases hq : aLines = -1
    · omega
    · rw [if_neg hq]
      simp only [lt_min_iff]
      omega

set_option maxRecDepth 100000 in
/-- C32: the letter `a` is typed into the empty buffer, undone and redone, with the buffer
colorized to the end in between. The record has the added text `a` from `(0, 0)` to
`(0, 1)`. `Redo` puts the text back in line 0 and calls `Colorize(-1, 1)`, which leaves
the range `[0, 0)`: line 0, which holds the re-inserted text, is not in it, and the next
`ColorizeInternal` leaves its glyph in the default style. `Undo` of the same kind of
record calls `Colorize` with a count one higher: the undo of the typing leaves the range
`[0, 1)`. -/
theorem Redo_range_misses_last_line :
    undoneAColorized.map Editor.dirty = Except.ok ([[]], intMax, 0) ∧
    undoneAColorized.map (fun e => e.mUndoIndex) = Except.ok 0 ∧
    undoneAColorized.map (fun e => e.mUndoBuffer.map fun u => (u.mAdded, u.mRemoved)) =
      Except.ok [([97], [])] ∧
    undoneAColorized.map (fun e => e.mUndoBuffer.map fun u => (u.mAddedStart, u.mAddedEnd)) =
      Except.ok [(⟨0, 0⟩, ⟨0, 1⟩)] ∧
    (undoneAColorized >>= fun e => Redo e 1).map Editor.dirty = Except.ok ([[97]], 0, 0) ∧
    (undoneAColorized >>= fun e => Redo e 1 >>= ColorizeInternal).map
        (fun e => e.mLines.map styles) = Except.ok [[PaletteIndex.Default]] ∧
    typedAColorized.map Editor.dirty = Except.ok ([[97]], intMax, 0) ∧
    typedAColorized.map (fun e => e.mLines.map styles) =
      Except.ok [[PaletteIndex.Identifier]] ∧
    (typedAColorized >>= fun e => Undo e 1).map Editor.dirty = Except.ok ([[]], 0, 1) :=
  ⟨by decide, by decide, by decide, by decide, by decide, by decide, by decide, by decide,
    by decide⟩

set_option maxRecDepth 100000 in
/-- C33: in the line `ab` the text of a tab and `x` is inserted at `(0, 1)`.
`InsertTextAt` counts one column for the tab and reports the end `(0, 3)`, which with tab
size 4 lies inside the span of the tab; `DeleteRange` from `(0, 1)` to the reported end
removes the tab alone and leaves `axb`, not `ab`. `Paste` of the same text at the start
of the line records the reported end, and `Undo` of the paste leaves `xab`. -/
theorem InsertTextAt_tab_reports_wrong_column :
    oneLineAb.mLines.map lineChars = [[97, 98]] ∧ oneLineAb.mTabSize = 4 ∧
    (InsertTextAt oneLineAb ⟨0, 1⟩ [9, 120]).map
        (fun r => (r.1.mLines.map lineChars, r.2.1)) =
      Except.ok ([[97, 9, 120, 98]], ⟨0, 3⟩) ∧
    (InsertTextAt oneLineAb ⟨0, 1⟩ [9, 120] >>= fun r => DeleteRange r.1 ⟨0, 1⟩ r.2.1).map
        (fun e => e.mLines.map lineChars) = Except.ok [[97, 120, 98]] ∧
    (Paste oneLineAb (some [9, 120]) >>= fun e => Undo e 1).map
        (fun e => e.mLines.map lineChars) = Except.ok [[120, 97, 98]] :=
  ⟨by decide, by decide, by decide, by decide, by decide⟩

set_option maxRecDepth 100000 in
/-- C36: on the one line `--` under the built-in language definition the comment pass
compares the start marker `--[[` with the glyphs from index 0 on, after the single-line
marker `--` has matched there: the comparison reads the glyph at index 2, the end of the
line. The same holds of the line `--[` and of the line `x --`. A line `-- x` is scanned
without such a read. -/
theorem comment_pass_reads_past_line_end :
    LanguageDefinition.CPlusPlus.mSingleLineComment = [45, 45] ∧
    LanguageDefinition.CPlusPlus.mCommentStart = [45, 45, 91, 91] ∧
    equalsAt [45, 45, 91, 91] (freshLine [45, 45]) 0 = Except.error Fault.outOfBounds ∧
    commentPass LanguageDefinition.CPlusPlus (textLines [45, 45]) =
      Except.error Fault.outOfBounds ∧
    commentPass LanguageDefinition.CPlusPlus (textLines [45, 45, 91]) =
      Except.error Fault.outOfBounds ∧
    commentPass LanguageDefinition.CPlusPlus (textLines [120, 32, 45, 45]) =
      Except.error Fault.outOfBounds ∧
    (commentPass LanguageDefinition.CPlusPlus (textLines [45, 45, 32, 120])).toBool = true :=
  ⟨by decide, by decide, by decide, by decide, by decide, by decide, by decide⟩

theorem UndoRecord_Undo_log (u : UndoRecord) (ed : Editor) :
    Res.sat (u.Undo ed) (fun r => r.log = ed.log) := by
  unfold UndoRecord.Undo
  refine Res.sat_bind (P := fun e => e.log = ed.log) ?_ (fun ed1 h1 =>
    Res.sat_bind (P := fun e => e.log = ed.log) ?_ (fun ed2 h2 => Res.sat_pure ?_))
  · exact Res.sat_ite (fun _ => Res.sat_bind (DeleteRange_log ed _ _)
      (fun e he => Res.sat_pure he)) (fun _ => Res.sat_pure rfl)
  · exact Res.sat_ite (fun _ => Res.sat_bind (InsertTextAt_log ed1 _ _)
      (fun r hr => Res.sat_pure (hr.trans h1))) (fun _ => Res.sat_pure h1)
  · rw [EnsureCursorVisible_log]
    exact h2

theorem UndoRecord_Redo_log (u : UndoRecord) (ed : Editor) :
    Res.sat (u.Redo ed) (fun r => r.log = ed.log) := by
  unfold UndoRecord.Redo
  refine Res.sat_bind (P := fun e => e.log = ed.log) ?_ (fun ed1 h1 =>
    Res.sat_bind (P := fun e => e.log = ed.log) ?_ (fun ed2 h2 => Res.sat_pure ?_))
  · exact Res.sat_ite (fun _ => Res.sat_bind (DeleteRange_log ed _ _)
      (fun e he => Res.sat_pure he)) (fun _ => Res.sat_pure rfl)
  · exact Res.sat_ite (fun _ => Res.sat_bind (InsertTextAt_log ed1 _ _)
      (fun r hr => Res.sat_pure (hr.trans h1))) (fun _ => Res.sat_pure h1)
  · rw [EnsureCursorVisible_log]
    exact h2

theorem UndoInv_of_log (ed e : Editor) (h : e.log = ed.log) (hi : UndoInv ed) : UndoInv e := by
  unfold Editor.log at h
  injection h with h1 h2
  unfold UndoInv at hi ⊢
  rw [h1, h2]
  exact hi

theorem UndoLoop_inv (n : Nat) : ∀ (ed : Editor), UndoInv ed →
    Res.sat (UndoLoop n ed) UndoInv := by
  induction n with
  | zero => intro ed h; exact Res.sat_pure h
  | succ k ih =>
    intro ed h
    simp only [UndoLoop]
    refine Res.sat_ite (fun hc => Res.sat_bind_any (fun u =>
      Res.sat_bind (UndoRecord_Undo_log u _) (fun ed2 h2 => ih ed2 ?_)))
      (fun _ => Res.sat_pure h)
    refine UndoInv_of_log _ ed2 h2 ?_
    simp only [CanUndo, Bool.and_eq_true, decide_eq_true_eq] at hc
    unfold UndoInv at h ⊢
    simp only
    omega

theorem RedoLoop_inv (n : Nat) : ∀ (ed : Editor), UndoInv ed →
    Res.sat (RedoLoop n ed) UndoInv := by
  induction n with
  | zero => intro ed h; exact Res.sat_pure h
  | succ k ih =>
    intro ed h
    simp only [RedoLoop]
    refine Res.sat_ite (fun hc => Res.sat_bind_any (fun u =>
      Res.sat_bind (UndoRecord_Redo_log u _) (fun ed2 h2 => ih ed2 ?_)))
      (fun _ => Res.sat_pure h)
    refine UndoInv_of_log _ ed2 h2 ?_
    simp only [CanRedo, Bool.and_eq_true, decide_eq_true_eq] at hc
    unfold UndoInv at h ⊢
    simp only
    omega

/-- The call `AddUndo` in an editor that is not read-only, with the cursor of the log
inside the log: the records from the cursor on are dropped and the new record is put at
the cursor. -/
theorem AddUndo_eq (ed : Editor) (u : UndoRecord) (hro : ed.mReadOnly = false)
    (hlog : UndoInv ed) :
    AddUndo ed u = Except.ok { ed with
      mUndoBuffer := ed.mUndoBuffer.take ed.mUndoIndex.toNat ++ [u]
      mUndoIndex := ed.mUndoIndex + 1 } := by
  obtain ⟨h0, h1⟩ := hlog
  have h2 : ¬ (ed.mUndoIndex + 1 < 0) := by omega
  have h3 : (ed.mUndoIndex + 1).toNat = ed.mUndoIndex.toNat + 1 := by omega
  obtain ⟨x, h4⟩ := vecResize_succ ed.mUndoBuffer ed.mUndoIndex.toNat UndoRecord.empty
    (by omega)
  have h5 : (List.take ed.mUndoIndex.toNat ed.mUndoBuffer ++ [x]).isEmpty = false := by
    cases List.take ed.mUndoIndex.toNat ed.mUndoBuffer <;> rfl
  unfold AddUndo
  simp only [hro, h2, h3, h4, h5, assertThat, Bool.not_false, if_true, if_false, bind,
    Except.bind, pure, Except.pure, Bool.false_eq_true, List.dropLast_concat]

/-- C37: the state the constructor leaves has `0 ≤ mUndoIndex ≤ mUndoBuffer.size()`; from
a state with that property, whatever `AddUndo`, `Undo(n)` and `Redo(n)` return has it, for
every record and every `n`, and `AddUndo` returns when the editor is not read-only;
`SetText` and `SetTextLines` leave the log empty with the cursor at 0, and `CanUndo()` and
`CanRedo()` are false then. -/
theorem undo_cursor_invariant (ed : Editor) (u : UndoRecord) (n : Int) (text : List Char8)
    (ls : List (List Char8)) (h : UndoInv ed) :
    UndoInv Editor.init ∧
    (ed.mReadOnly = false → ∃ e, AddUndo ed u = Except.ok e) ∧
    Res.sat (AddUndo ed u) UndoInv ∧
    Res.sat (Undo ed n) UndoInv ∧
    Res.sat (Redo ed n) UndoInv ∧
    ((SetText ed text).log = (0, []) ∧ UndoInv (SetText ed text) ∧
      CanUndo (SetText ed text) = false ∧ CanRedo (SetText ed text) = false) ∧
    ((SetTextLines ed ls).log = (0, []) ∧ UndoInv (SetTextLines ed ls) ∧
      CanUndo (SetTextLines ed ls) = false ∧ CanRedo (SetTextLines ed ls) = false) := by
  have hadd : ed.mReadOnly = false → ∃ e, AddUndo ed u = Except.ok e ∧ UndoInv e := by
    intro hro
    refine ⟨_, AddUndo_eq ed u hro h, ?_⟩
    obtain ⟨h0, h1⟩ := h
    unfold UndoInv
    simp only [List.length_append, List.length_take, List.length_singleton]
    push_cast
    omega
  refine ⟨⟨le_refl _, by decide⟩, fun hro => ?_, ?_, UndoLoop_inv _ ed h, RedoLoop_inv _ ed h,
    ⟨rfl, ⟨le_refl _, le_refl _⟩, ?_, ?_⟩, ⟨rfl, ⟨le_refl _, le_refl _⟩, ?_, ?_⟩⟩
  · obtain ⟨e, he, _⟩ := hadd hro
    exact ⟨e, he⟩
  · intro e he
    by_cases hro : ed.mReadOnly = false
    · obtain ⟨e2, he2, hinv⟩ := hadd hro
      rw [he] at he2
      injection he2 with he2
      rw [he2]
      exact hinv
    · unfold AddUndo at he
      have hro2 : ed.mReadOnly = true := by simpa using hro
      simp [hro2, assertThat, bind, Except.bind] at he
  · simp [CanUndo, SetText, Colorize]
  · simp [CanRedo, SetText, Colorize]
  · simp [CanUndo, SetTextLines, Colorize]
  · simp [CanRedo, SetTextLines, Colorize]

set_option maxRecDepth 100000 in
/-- C37 (witness): the editor after `x` and `y` are typed and one `Undo()`: the cursor of
the log is 1 and the log has two records; `AddUndo`, `Undo(1)` and `Redo(1)` return. -/
theorem undo_cursor_invariant_witness :
    UndoInv afterOneUndo ∧ afterOneUndo.mUndoIndex = 1 ∧
    afterOneUndo.mUndoBuffer.length = 2 ∧
    (Undo afterOneUndo 1).toBool = true ∧ (Redo afterOneUndo 1).toBool = true ∧
    (UndoInv Editor.init ∧
      (afterOneUndo.mReadOnly = false → ∃ e, AddUndo afterOneUndo UndoRecord.empty =
        Except.ok e) ∧
      Res.sat (AddUndo afterOneUndo UndoRecord.empty) UndoInv ∧
      Res.sat (Undo afterOneUndo 1) UndoInv ∧
      Res.sat (Redo afterOneUndo 1) UndoInv ∧
      ((SetText afterOneUndo [97]).log = (0, []) ∧ UndoInv (SetText afterOneUndo [97]) ∧
        CanUndo (SetText afterOneUndo [97]) = false ∧
        CanRedo (SetText afterOneUndo [97]) = false) ∧
      ((SetTextLines afterOneUndo [[97]]).log = (0, []) ∧
        UndoInv (SetTextLines afterOneUndo [[97]]) ∧
        CanUndo (SetTextLines afterOneUndo [[97]]) = false ∧
        CanRedo (SetTextLines afterOneUndo [[97]]) = false)) :=
  ⟨⟨by decide, by decide⟩, by decide, by decide, by decide, by decide,
    undo_cursor_invariant afterOneUndo UndoRecord.empty 1 [97] [[97]]
      ⟨by decide, by decide⟩⟩

theorem specBoundaries_upper (tabSize : Int) (l : List Char8) :
    ∀ (skip : Nat) (off col : Int) (q : Int × Int), wholeChars l skip = true →
      q ∈ specBoundaries tabSize l skip off col → q.1 ≤ off + (l.length : Int) := by
  induction l with
  | nil =>
    intro skip off col q hw hq
    simp only [specBoundaries, List.mem_singleton] at hq
    simp only [wholeChars, beq_iff_eq] at hw
    subst hq
    subst hw
    simp
  | cons b rest ih =>
    intro skip off col q hw hq
    cases skip with
    | zero =>
      simp only [specBoundaries, List.mem_cons] at hq
      simp only [wholeChars] at hw
      rcases hq with hq | hq
      · subst hq
        simp only [List.length_cons]
        push_cast
        omega
      · have := ih _ _ _ q hw hq
        simp only [List.length_cons]
        push_cast
        omega
    | succ k =>
      simp only [specBoundaries] at hq
      simp only [wholeChars] at hw
      have := ih _ _ _ q hw hq
      simp only [List.length_cons]
      push_cast
      omega

theorem boundaryIndex_mem (bs : List (Int × Int)) (h : bs ≠ []) (column : Int) :
    ∃ q, q ∈ bs ∧ boundaryIndex bs column = q.1 := by
  unfold boundaryIndex
  cases hf : bs.find? (fun q => decide (column ≤ q.2)) with
  | some q => exact ⟨q, List.mem_of_find?_eq_some hf, rfl⟩
  | none => exact ⟨bs.getLastD (0, 0), getLastD_mem bs _ h, rfl⟩

theorem GetCharacterColumnLoop_at_end (tabSize : Int) (line : Line) (fuel : Nat) :
    ∀ (i col : Int), GetCharacterColumnLoop tabSize line (line.length : Int) fuel i col =
      GetLineMaxColumnLoop tabSize line fuel i col := by
  induction fuel with
  | zero => intro i col; rfl
  | succ n ih =>
    intro i col
    rw [GetCharacterColumnLoop, GetLineMaxColumnLoop]
    by_cases h : i < (line.length : Int)
    · rw [if_pos ⟨h, h⟩, if_pos h]
      cases vecAt line i with
      | error e => rfl
      | ok g =>
        simp only [bind, Except.bind]
        by_cases h9 : g.mChar = 9
        · simp only [h9, if_true]
          cases tabStop tabSize col with
          | error e => rfl
          | ok c1 => exact ih _ _
        · simp only [if_neg h9, pure, Except.pure]
          exact ih _ _
    · rw [if_neg (fun hh => h hh.1), if_neg h]

/-- C40: for every tab size of at least 1, every line of the buffer in which each lead
byte is followed by all the bytes its table length announces, and every column,
`GetCharacterIndex` returns an offset in `[0, line length]`; and `GetLineMaxColumn` of the
line returns the value that `GetCharacterColumn` returns for the line and the index
`line length`. -/
theorem GetCharacterIndex_inside_line (ed : Editor) (l : Nat) (hl : l < ed.mLines.length)
    (ht : 1 ≤ ed.mTabSize)
    (hw : wholeChars (lineChars (ed.mLines.get ⟨l, hl⟩)) 0 = true) (column : Int) :
    (∃ i, GetCharacterIndex ed ⟨(l : Int), column⟩ = Except.ok i ∧ 0 ≤ i ∧
      i ≤ ((ed.mLines.get ⟨l, hl⟩).length : Int)) ∧
    (∃ m, GetLineMaxColumn ed (l : Int) = Except.ok m ∧
      GetCharacterColumn ed (l : Int) ((ed.mLines.get ⟨l, hl⟩).length : Int) = Except.ok m) := by
  refine ⟨?_, ?_⟩
  · obtain ⟨q, hq, hqi⟩ := boundaryIndex_mem (lineBoundaries ed.mTabSize (ed.mLines.get ⟨l, hl⟩))
      (specBoundaries_ne_nil _ _ _ _ _) column
    refine ⟨_, GetCharacterIndex_eq_spec ed l hl ht column, ?_, ?_⟩
    · unfold specCharacterIndex
      rw [hqi]
      exact (specBoundaries_lower ed.mTabSize ht _ 0 0 0 q hq).1
    · unfold specCharacterIndex
      rw [hqi]
      have := specBoundaries_upper ed.mTabSize _ 0 0 0 q hw hq
      rw [lineChars_length] at this
      omega
  · refine ⟨_, GetLineMaxColumn_eq_spec ed l hl ht, ?_⟩
    rw [← GetLineMaxColumn_eq_spec ed l hl ht]
    obtain ⟨hr, hv⟩ := line_at ed l hl
    simp only [GetCharacterColumn, GetLineMaxColumn, hr, if_false, hv, bind, Except.bind]
    exact GetCharacterColumnLoop_at_end _ _ _ _ _

/-- C40 (witness): the line of `a`, the two bytes of an accented letter, a tab and `b`
with tab size 4; column 2 has the byte index 3, and the maximal column is 5. -/
theorem GetCharacterIndex_inside_line_witness :
    (1 : Int) ≤ accentTabLine.mTabSize ∧
    wholeChars (lineChars (accentTabLine.mLines.get ⟨0, by decide⟩)) 0 = true ∧
    GetCharacterIndex accentTabLine ⟨0, 2⟩ = Except.ok 3 ∧
    GetLineMaxColumn accentTabLine 0 = Except.ok 5 ∧
    ((∃ i, GetCharacterIndex accentTabLine ⟨((0 : Nat) : Int), 2⟩ = Except.ok i ∧ 0 ≤ i ∧
        i ≤ ((accentTabLine.mLines.get ⟨0, by decide⟩).length : Int)) ∧
      (∃ m, GetLineMaxColumn accentTabLine ((0 : Nat) : Int) = Except.ok m ∧
        GetCharacterColumn accentTabLine ((0 : Nat) : Int)
          ((accentTabLine.mLines.get ⟨0, by decide⟩).length : Int) = Except.ok m)) :=
  ⟨by decide, by decide, by decide, by decide,
    GetCharacterIndex_inside_line accentTabLine 0 (by decide) (by decide) (by decide) 2⟩

theorem specBoundaries_lower_skip (tabSize : Int) (ht : 1 ≤ tabSize) (l : List Char8)
    (skip : Nat) (off col : Int) (q : Int × Int)
    (hq : q ∈ specBoundaries tabSize l skip off col) : off + (skip : Int) ≤ q.1 := by
  rw [specBoundaries_skip] at hq
  exact (specBoundaries_lower tabSize ht _ 0 _ _ q hq).1

theorem specBoundaries_head (tabSize : Int) (l : List Char8) (off col : Int) :
    ∃ T, specBoundaries tabSize l 0 off col = (off, col) :: T := by
  cases l with
  | nil => exact ⟨[], by simp [specBoundaries]⟩
  | cons b rest =>
    simp only [specBoundaries]
    exact ⟨_, rfl⟩

/-- The boundaries behind the first one lie at higher offsets and columns. -/
theorem specBoundaries_tail (tabSize : Int) (ht : 1 ≤ tabSize) (l : List Char8) (off col : Int)
    (T : List (Int × Int)) (h : specBoundaries tabSize l 0 off col = (off, col) :: T) :
    ∀ q ∈ T, off < q.1 ∧ col < q.2 := by
  intro q hq
  cases l with
  | nil =>
    simp only [specBoundaries, List.cons.injEq] at h
    rw [← h.2] at hq
    cases hq
  | cons b rest =>
    simp only [specBoundaries, List.cons.injEq, true_and] at h
    rw [← h] at hq
    have hl := specBoundaries_lower tabSize ht _ _ _ _ q hq
    have hgt := specNextTabColumn_gt tabSize col ht
    by_cases h9 : b = 9
    · simp only [if_pos h9] at hl
      omega
    · simp only [if_neg h9] at hl
      omega

/-- The walk over `A ++ R` that has a boundary at the end of `A` is, for every `Y` in the
place of `R`, the boundaries before the end of `A` followed by the walk over `Y`. -/
theorem specBoundaries_split (tabSize : Int) (ht : 1 ≤ tabSize) (R : List Char8) :
    ∀ (A : List Char8) (skip : Nat) (off col ck : Int),
      (off + (A.length : Int), ck) ∈ specBoundaries tabSize (A ++ R) skip off col →
      ∃ P : List (Int × Int), (∀ p ∈ P, p.1 < off + (A.length : Int)) ∧
        ∀ Y, specBoundaries tabSize (A ++ Y) skip off col =
          P ++ specBoundaries tabSize Y 0 (off + (A.length : Int)) ck := by
  intro A
  induction A with
  | nil =>
    intro skip off col ck h
    simp only [List.nil_append, List.length_nil, Nat.cast_zero, add_zero] at h ⊢
    have hs := specBoundaries_lower_skip tabSize ht _ _ _ _ _ h
    simp only at hs
    have hs0 : skip = 0 := by omega
    subst hs0
    obtain ⟨T, hT⟩ := specBoundaries_head tabSize R off col
    have htail := specBoundaries_tail tabSize ht R off col T hT
    rw [hT] at h
    have hck : ck = col := by
      rcases List.mem_cons.mp h with h1 | h1
      · injection h1
      · have := (htail _ h1).1
        simp at this
    subst hck
    exact ⟨[], fun p hp => absurd hp (List.not_mem_nil p), fun Y => rfl⟩
  | cons a A ih =>
    intro skip off col ck h
    have e : off + ((a :: A).length : Int) = (off + 1) + (A.length : Int) := by
      simp only [List.length_cons]
      push_cast
      ring
    rw [e] at h ⊢
    cases skip with
    | zero =>
      simp only [List.cons_append, specBoundaries, List.mem_cons, List.append_eq] at h
      rcases h with h | h
      · injection h with h1 _
        omega
      · obtain ⟨P, hP, hY⟩ := ih _ _ _ _ h
        refine ⟨(off, col) :: P, fun p hp => ?_, fun Y => ?_⟩
        · rcases List.mem_cons.mp hp with h1 | h1
          · rw [h1]
            simp only
            omega
          · exact hP p h1
        · simp only [List.cons_append, specBoundaries, List.append_eq]
          rw [hY Y]
    | succ s =>
      simp only [List.cons_append, specBoundaries, List.append_eq] at h
      obtain ⟨P, hP, hY⟩ := ih _ _ _ _ h
      refine ⟨P, hP, fun Y => ?_⟩
      simp only [List.cons_append, specBoundaries, List.append_eq]
      rw [hY Y]

theorem boundaryIndex_append (P Q : List (Int × Int)) (hQ : Q ≠ []) (c : Int)
    (hP : ∀ p ∈ P, p.2 < c) : boundaryIndex (P ++ Q) c = boundaryIndex Q c := by
  induction P with
  | nil => rfl
  | cons p P ih =>
    rw [List.cons_append, boundaryIndex_cons _ _ (by simp [hQ])]
    have := hP p (List.mem_cons_self _ _)
    rw [if_neg (by omega)]
    exact ih (fun x hx => hP x (List.mem_cons_of_mem _ hx))

theorem boundaryColumn_append (P Q : List (Int × Int)) (hQ : Q ≠ []) (i : Int)
    (hP : ∀ p ∈ P, p.1 < i) : boundaryColumn (P ++ Q) i = boundaryColumn Q i := by
  induction P with
  | nil => rfl
  | cons p P ih =>
    rw [List.cons_append, boundaryColumn_cons _ _ (by simp [hQ])]
    have := hP p (List.mem_cons_self _ _)
    rw [if_neg (by omega)]
    exact ih (fun x hx => hP x (List.mem_cons_of_mem _ hx))

/-- When the index of a column is behind all boundaries of `P`, the columns of `P` are
below that column. -/
theorem boundaryIndex_append_inv (P Q : List (Int × Int)) (hQ : Q ≠ []) (c k : Int)
    (hP : ∀ p ∈ P, p.1 < k) (h : boundaryIndex (P ++ Q) c = k) : ∀ p ∈ P, p.2 < c := by
  induction P with
  | nil => intro p hp; cases hp
  | cons p P ih =>
    rw [List.cons_append, boundaryIndex_cons _ _ (by simp [hQ])] at h
    have hp1 := hP p (List.mem_cons_self _ _)
    by_cases hc : c ≤ p.2
    · rw [if_pos hc] at h
      omega
    · rw [if_neg hc] at h
      intro x hx
      rcases List.mem_cons.mp hx with h1 | h1
      · rw [h1]
        omega
      · exact ih (fun y hy => hP y (List.mem_cons_of_mem _ hy)) h x h1

theorem getLastD_append_ne_nil {α : Type} (d : α) (P Q : List α) (hQ : Q ≠ []) :
    (P ++ Q).getLastD d = Q.getLastD d := by
  induction P with
  | nil => rfl
  | cons p P ih =>
    rw [List.cons_append, getLastD_cons_of_ne_nil _ _ _ (by simp [hQ])]
    exact ih

theorem index_at_split (P T : List (Int × Int)) (k ck c0 : Int) (hP : ∀ p ∈ P, p.2 < c0)
    (hc : c0 ≤ ck) : boundaryIndex (P ++ (k, ck) :: T) c0 = k := by
  rw [boundaryIndex_append P _ (by simp) c0 hP]
  cases T with
  | nil => exact boundaryIndex_singleton _ _
  | cons t T =>
    rw [boundaryIndex_cons _ _ (by simp), if_pos hc]

theorem second_at_split (P T : List (Int × Int)) (k ck k2 ck2 : Int)
    (hP : ∀ p ∈ P, p.1 < k2 ∧ p.2 < ck2) (hk : k < k2) (hc : ck < ck2) :
    boundaryColumn (P ++ (k, ck) :: (k2, ck2) :: T) k2 = ck2 ∧
      boundaryIndex (P ++ (k, ck) :: (k2, ck2) :: T) ck2 = k2 := by
  refine ⟨?_, ?_⟩
  · rw [boundaryColumn_append P _ (by simp) k2 (fun p hp => (hP p hp).1),
      boundaryColumn_cons _ _ (by simp), if_neg (by simp only; omega)]
    cases T with
    | nil => exact boundaryColumn_singleton _ _
    | cons t T => rw [boundaryColumn_cons _ _ (by simp), if_pos (le_refl _)]
  · rw [boundaryIndex_append P _ (by simp) ck2 (fun p hp => (hP p hp).2),
      boundaryIndex_cons _ _ (by simp), if_neg (by simp only; omega)]
    cases T with
    | nil => exact boundaryIndex_singleton _ _
    | cons t T => rw [boundaryIndex_cons _ _ (by simp), if_pos (le_refl _)]

/-- The walk over a text that starts with a whole character: the boundary before it and
the boundary behind it, one column further or at the next tab stop. -/
theorem specBoundaries_char (tabSize : Int) (b0 : Char8) (rest R : List Char8) (off col : Int)
    (hlen : UTF8CharLength b0 = (rest.length : Int) + 1) :
    ∃ T, specBoundaries tabSize (b0 :: rest ++ R) 0 off col =
      (off, col) :: (off + UTF8CharLength b0,
        if b0 = 9 then specNextTabColumn tabSize col else col + 1) :: T := by
  rw [List.cons_append, specBoundaries_cons]
  have e : (UTF8CharLength b0 - 1).toNat = rest.length := by omega
  rw [e, List.drop_left']
  · obtain ⟨T, hT⟩ := specBoundaries_head tabSize R (off + UTF8CharLength b0)
      (if b0 = 9 then specNextTabColumn tabSize col else col + 1)
    exact ⟨T, by rw [hT]⟩
  · rfl

/-- The boundary that `GetCharacterIndex` finds for a column that is at most the maximal
column of the line: the boundaries before it have lower columns, its own column reaches
the column, and the part of the line before it fixes the boundaries up to it. -/
theorem cursor_split (tabSize : Int) (ht : 1 ≤ tabSize) (chars : List Char8) (c0 : Int)
    (k : Nat) (hk : k ≤ chars.length)
    (hidx : boundaryIndex (specBoundaries tabSize chars 0 0 0) c0 = (k : Int))
    (hmax : c0 ≤ ((specBoundaries tabSize chars 0 0 0).getLastD (0, 0)).2) :
    ∃ (P : List (Int × Int)) (ck : Int), (∀ p ∈ P, p.1 < (k : Int) ∧ p.2 < c0) ∧ c0 ≤ ck ∧
      ∀ Y, specBoundaries tabSize (chars.take k ++ Y) 0 0 0 =
        P ++ specBoundaries tabSize Y 0 (k : Int) ck := by
  obtain ⟨q, hq, hqi⟩ := boundaryIndex_mem (specBoundaries tabSize chars 0 0 0)
    (specBoundaries_ne_nil _ _ _ _ _) c0
  rw [hidx] at hqi
  have hlen : (chars.take k).length = k := by
    rw [List.length_take]
    omega
  have hmem : ((0 : Int) + ((chars.take k).length : Int), q.2) ∈
      specBoundaries tabSize (chars.take k ++ chars.drop k) 0 0 0 := by
    rw [List.take_append_drop, hlen, zero_add, hqi]
    exact hq
  obtain ⟨P, hP, hY⟩ := specBoundaries_split tabSize ht (chars.drop k) (chars.take k) 0 0 0 q.2
    hmem
  rw [hlen, zero_add] at hP hY
  have hB := hY (chars.drop k)
  rw [List.take_append_drop] at hB
  have hQ : specBoundaries tabSize (chars.drop k) 0 (k : Int) q.2 ≠ [] :=
    specBoundaries_ne_nil _ _ _ _ _
  rw [hB] at hidx hmax
  have hPcol := boundaryIndex_append_inv P _ hQ c0 (k : Int) hP hidx
  refine ⟨P, q.2, fun p hp => ⟨hP p hp, hPcol p hp⟩, ?_, hY⟩
  by_contra hc
  obtain ⟨T, hT⟩ := specBoundaries_head tabSize (chars.drop k) (k : Int) q.2
  have htail := specBoundaries_tail tabSize ht _ _ _ T hT
  rw [boundaryIndex_append P _ hQ c0 hPcol, hT] at hidx
  rw [getLastD_append_ne_nil _ P _ hQ, hT] at hmax
  cases T with
  | nil =>
    simp only [List.getLastD] at hmax
    exact hc hmax
  | cons t T =>
    rw [boundaryIndex_cons _ _ (by simp), if_neg hc] at hidx
    obtain ⟨x, hx, hxi⟩ := boundaryIndex_mem (t :: T) (by simp) c0
    have := (htail x hx).1
    omega

theorem get_of_split {α : Type} (pre post : List α) (x : α) :
    ∀ (L : List α) (_ : L = pre ++ x :: post) (hlt : pre.length < L.length),
      L.get ⟨pre.length, hlt⟩ = x := by
  intro L h
  subst h
  intro hlt
  rw [List.get_eq_getElem]
  exact List.getElem_of_append rfl rfl

theorem length_of_split {α : Type} (pre post : List α) (x : α) (L : List α)
    (h : L = pre ++ x :: post) : pre.length < L.length := by
  rw [h, List.length_append, List.length_cons]
  omega

theorem GetCharacterIndex_at (e : Editor) (pre post : Lines) (line : Line) (c : Int)
    (hl : e.mLines = pre ++ line :: post) (ht : 1 ≤ e.mTabSize) :
    GetCharacterIndex e ⟨(pre.length : Int), c⟩ =
      Except.ok (specCharacterIndex e.mTabSize line c) := by
  have hlt := length_of_split pre post line _ hl
  rw [GetCharacterIndex_eq_spec e pre.length hlt ht c, get_of_split pre post line _ hl hlt]

theorem GetCharacterColumn_at (e : Editor) (pre post : Lines) (line : Line) (i : Int)
    (hl : e.mLines = pre ++ line :: post) (ht : 1 ≤ e.mTabSize) :
    GetCharacterColumn e (pre.length : Int) i =
      Except.ok (specCharacterColumn e.mTabSize line i) := by
  have hlt := length_of_split pre post line _ hl
  rw [GetCharacterColumn_eq_spec e pre.length hlt ht i, get_of_split pre post line _ hl hlt]

theorem GetLineMaxColumn_at (e : Editor) (pre post : Lines) (line : Line)
    (hl : e.mLines = pre ++ line :: post) (ht : 1 ≤ e.mTabSize) :
    GetLineMaxColumn e (pre.length : Int) = Except.ok (specLineMaxColumn e.mTabSize line) := by
  have hlt := length_of_split pre post line _ hl
  rw [GetLineMaxColumn_eq_spec e pre.length hlt ht, get_of_split pre post line _ hl hlt]

theorem SanitizeCoordinates_at (e : Editor) (pre post : Lines) (line : Line) (c : Int)
    (hl : e.mLines = pre ++ line :: post) (ht : 1 ≤ e.mTabSize)
    (hc : c ≤ specLineMaxColumn e.mTabSize line) :
    SanitizeCoordinates e ⟨(pre.length : Int), c⟩ = Except.ok ⟨(pre.length : Int), c⟩ := by
  have hlt := length_of_split pre post line _ hl
  refine SanitizeCoordinates_fixed e _ _ ?_ ?_ (GetLineMaxColumn_at e pre post line hl ht) hc
  · intro h
    rw [h] at hlt
    exact absurd hlt (by simp)
  · simp only
    omega

theorem vecAt_of_split {α : Type} (pre post : List α) (x : α) (L : List α)
    (h : L = pre ++ x :: post) : vecAt L (pre.length : Int) = Except.ok x := by
  rw [h]
  exact vecAt_append_length pre post x

/-- The overwrite loop of `EnterCharacter` erases the next `n` glyphs from the index on, as
many as the line has. -/
theorem overwriteErase_eq : ∀ (n : Nat) (line : Line) (k : Nat) (removed : List Char8),
    k ≤ line.length →
    overwriteErase n line (k : Int) removed =
      Except.ok (line.take k ++ line.drop (k + n),
        removed ++ lineChars ((line.drop k).take n)) := by
  intro n
  induction n with
  | zero =>
    intro line k removed _
    simp [overwriteErase, pure, Except.pure, lineChars]
  | succ n ih =>
    intro line k removed hk
    rw [overwriteErase]
    by_cases hlt : (k : Int) < (line.length : Int)
    · have hk2 : k < line.length := by omega
      rw [if_pos hlt, vecAt_natCast line k hk2]
      have he : vecErase line (k : Int) = Except.ok (line.take k ++ line.drop (k + 1)) := by
        unfold vecErase
        rw [if_neg (by omega)]
        simp [pure, Except.pure]
      simp only [bind, Except.bind, he]
      have hk3 : k ≤ (line.take k ++ line.drop (k + 1)).length := by
        rw [List.length_append, List.length_take]
        omega
      rw [ih _ k _ hk3]
      have htk : (line.take k).length = k := by
        rw [List.length_take]
        omega
      have e1 : (line.take k ++ line.drop (k + 1)).take k = line.take k := by
        rw [List.take_left' htk]
      have e2 : ∀ m, (line.take k ++ line.drop (k + 1)).drop (k + m) = line.drop (k + 1 + m) := by
        intro m
        rw [← List.drop_drop, List.drop_left' htk, List.drop_drop]
      have e3 : (line.take k ++ line.drop (k + 1)).drop k = line.drop (k + 1) := by
        rw [List.drop_left' htk]
      rw [e1, e2, e3]
      have e4 : line.drop k = line.get ⟨k, hk2⟩ :: line.drop (k + 1) :=
        List.drop_eq_getElem_cons hk2
      rw [e4]
      have a1 : k + 1 + n = k + (n + 1) := by omega
      rw [a1]
      simp only [List.take_succ_cons, lineChars, List.map_cons, List.append_assoc,
        List.singleton_append]
    · have hk2 : k = line.length := by omega
      rw [if_neg hlt]
      subst hk2
      simp [pure, Except.pure, lineChars]

/-- The insertion loop of `EnterCharacter` puts the bytes in at the index, in their
order. -/
theorem insertGlyphs_eq : ∀ (buf : List Char8) (line : Line) (k : Nat), k ≤ line.length →
    insertGlyphs buf line (k : Int) =
      Except.ok (line.take k ++ buf.map (fun c => Glyph.mk2 c PaletteIndex.Default) ++
        line.drop k, (k : Int) + (buf.length : Int)) := by
  intro buf
  induction buf with
  | nil =>
    intro line k _
    simp [insertGlyphs, pure, Except.pure]
  | cons c rest ih =>
    intro line k hk
    rw [insertGlyphs]
    have hv : vecInsert line (k : Int) (Glyph.mk2 c PaletteIndex.Default) =
        Except.ok (line.take k ++ Glyph.mk2 c PaletteIndex.Default :: line.drop k) := by
      unfold vecInsert
      rw [if_neg (by omega)]
      simp [pure, Except.pure]
    simp only [bind, Except.bind, hv]
    have htk : (line.take k).length = k := by
      rw [List.length_take]
      omega
    have hk3 : k + 1 ≤ (line.take k ++ Glyph.mk2 c PaletteIndex.Default :: line.drop k).length := by
      rw [List.length_append, List.length_cons, htk]
      omega
    have hcast : ((k : Int) + 1) = ((k + 1 : Nat) : Int) := by push_cast; rfl
    rw [hcast, ih _ (k + 1) hk3]
    have e1 : (line.take k ++ Glyph.mk2 c PaletteIndex.Default :: line.drop k).take (k + 1) =
        line.take k ++ [Glyph.mk2 c PaletteIndex.Default] := by
      rw [List.take_append_eq_append_take, htk, List.take_of_length_le (by omega)]
      simp
    have e2 : (line.take k ++ Glyph.mk2 c PaletteIndex.Default :: line.drop k).drop (k + 1) =
        line.drop k := by
      rw [List.drop_append_eq_append_drop, htk, List.drop_of_length_le (by omega)]
      simp
    rw [e1, e2]
    simp only [List.map_cons, List.append_assoc, List.singleton_append, List.length_cons]
    congr 2
    push_cast
    ring

/-- The inner loop of `InsertTextAt` on a text that starts with `d` bytes without a NUL:
it puts these bytes in at the index and returns the rest of the text. -/
theorem InsertTextAtBytes_eq : ∀ (D T : List Char8) (line : Line) (k : Nat),
    k ≤ line.length → (∀ x ∈ D, x ≠ 0) →
    InsertTextAtBytes D.length (D ++ T) line (k : Int) =
      Except.ok (line.take k ++ D.map (fun c => Glyph.mk2 c PaletteIndex.Default) ++
        line.drop k, (k : Int) + (D.length : Int), T) := by
  intro D
  induction D with
  | nil =>
    intro T line k _ _
    simp [InsertTextAtBytes, pure, Except.pure]
  | cons c rest ih =>
    intro T line k hk hnul
    have hc : c ≠ 0 := hnul c (List.mem_cons_self _ _)
    simp only [List.length_cons, List.cons_append, InsertTextAtBytes, if_neg hc]
    have hv : vecInsert line (k : Int) (Glyph.mk2 c PaletteIndex.Default) =
        Except.ok (line.take k ++ Glyph.mk2 c PaletteIndex.Default :: line.drop k) := by
      unfold vecInsert
      rw [if_neg (by omega)]
      simp [pure, Except.pure]
    simp only [bind, Except.bind, hv]
    have htk : (line.take k).length = k := by
      rw [List.length_take]
      omega
    have hk3 : k + 1 ≤ (line.take k ++ Glyph.mk2 c PaletteIndex.Default :: line.drop k).length := by
      rw [List.length_append, List.length_cons, htk]
      omega
    have hcast : ((k : Int) + 1) = ((k + 1 : Nat) : Int) := by push_cast; rfl
    rw [hcast, ih T _ (k + 1) hk3 (fun x hx => hnul x (List.mem_cons_of_mem _ hx))]
    have e1 : (line.take k ++ Glyph.mk2 c PaletteIndex.Default :: line.drop k).take (k + 1) =
        line.take k ++ [Glyph.mk2 c PaletteIndex.Default] := by
      rw [List.take_append_eq_append_take, htk, List.take_of_length_le (by omega)]
      simp
    have e2 : (line.take k ++ Glyph.mk2 c PaletteIndex.Default :: line.drop k).drop (k + 1) =
        line.drop k := by
      rw [List.drop_append_eq_append_drop, htk, List.drop_of_length_le (by omega)]
      simp
    rw [e1, e2]
    simp only [List.map_cons, List.append_assoc, List.singleton_append]
    congr 3
    push_cast
    ring

/-- The call `DeleteRange` inside one line, from the coordinate with the byte index `ks`
to the coordinate with the byte index `ke`: the glyphs from `ks` up to `ke` are taken out
of the line. -/
theorem DeleteRange_at (e : Editor) (pre post : Lines) (line : Line) (ks ke : Nat)
    (cs ce : Int) (hro : e.mReadOnly = false) (ht : 1 ≤ e.mTabSize)
    (hl : e.mLines = pre ++ line :: post)
    (his : specCharacterIndex e.mTabSize line cs = (ks : Int))
    (hie : specCharacterIndex e.mTabSize line ce = (ke : Int))
    (hks : ks ≤ ke) (hke : ke ≤ line.length) (hlt : cs < ce)
    (hend : specLineMaxColumn e.mTabSize line ≤ ce → ke = line.length) :
    DeleteRange e ⟨(pre.length : Int), cs⟩ ⟨(pre.length : Int), ce⟩ =
      Except.ok { e with
        mLines := pre ++ (line.take ks ++ line.drop ke) :: post
        mTextChanged := true } := by
  have h1 := GetCharacterIndex_at e pre post line cs hl ht
  have h2 := GetCharacterIndex_at e pre post line ce hl ht
  rw [his] at h1
  rw [hie] at h2
  have hmax := GetLineMaxColumn_at e pre post line hl ht
  have hat := vecAt_of_split pre post line _ hl
  have hge : (⟨(pre.length : Int), ce⟩ : Coordinates).ge ⟨(pre.length : Int), cs⟩ = true := by
    simp only [Coordinates.ge, ne_eq, not_true_eq_false, if_false, decide_eq_true_eq]
    omega
  have hneq : ¬ ((⟨(pre.length : Int), ce⟩ : Coordinates) = ⟨(pre.length : Int), cs⟩) := by
    intro h
    injection h with _ h2
    omega
  have herase : (if ce ≥ specLineMaxColumn e.mTabSize line then
        vecEraseRange line (ks : Int) (line.length : Int)
      else vecEraseRange line (ks : Int) (ke : Int))
      = Except.ok (line.take ks ++ line.drop ke) := by
    by_cases hc : ce ≥ specLineMaxColumn e.mTabSize line
    · rw [if_pos hc]
      have hkeq := hend hc
      rw [vecEraseRange_nat _ _ _ (by omega) (le_refl _), ← hkeq]
    · rw [if_neg hc]
      exact vecEraseRange_nat _ _ _ hks hke
  have hset := setLine_lines e pre post line (line.take ks ++ line.drop ke) (pre.length : Int)
    hl rfl
  simp only [DeleteRange, hge, hro, Bool.not_false, assertThat_true, bind, Except.bind, hneq,
    if_false, if_true, h1, h2, hat, hmax, herase, hset, pure, Except.pure]

theorem InsertTextAtLoop_nil (fuel : Nat) (e : Editor) (w : Coordinates) (k t : Int) :
    InsertTextAtLoop fuel [] e w k t = Except.ok (e, w, t) := by
  cases fuel <;> rfl

/-- The call `InsertTextAt` with a text of one whole character that is no carriage
return, no newline and has no NUL byte: the bytes are put in at the byte index of the
coordinate. -/
theorem InsertTextAt_char_at (e : Editor) (pre post : Lines) (line : Line) (c : Int) (k : Nat)
    (b0 : Char8) (rest : List Char8) (hlen : UTF8CharLength b0 = (rest.length : Int) + 1)
    (hnul : ∀ x ∈ b0 :: rest, x ≠ 0) (h13 : b0 ≠ 13) (h10 : b0 ≠ 10)
    (hro : e.mReadOnly = false) (ht : 1 ≤ e.mTabSize) (hl : e.mLines = pre ++ line :: post)
    (hidx : specCharacterIndex e.mTabSize line c = (k : Int)) (hk : k ≤ line.length) :
    ∃ w n, InsertTextAt e ⟨(pre.length : Int), c⟩ (b0 :: rest) =
      Except.ok ({ e with
        mLines := pre ++ (line.take k ++
          (b0 :: rest).map (fun x => Glyph.mk2 x PaletteIndex.Default) ++ line.drop k) :: post
        mTextChanged := true }, w, n) := by
  have h1 := GetCharacterIndex_at e pre post line c hl ht
  rw [hidx] at h1
  have hat := vecAt_of_split pre post line _ hl
  have hne : assertThat (!e.mLines.isEmpty) = Except.ok () := by
    rw [hl]
    cases pre <;> rfl
  have hassert : assertThat (!e.mReadOnly) = Except.ok () := by
    rw [hro]
    rfl
  have h0 : b0 ≠ 0 := hnul b0 (List.mem_cons_self _ _)
  have hd : (UTF8CharLength b0).toNat = rest.length + 1 := by
    rw [hlen]
    omega
  have hbytes := InsertTextAtBytes_eq (b0 :: rest) [] line k hk hnul
  rw [List.append_nil, List.length_cons] at hbytes
  have hset := setLine_lines e pre post line (line.take k ++
    (b0 :: rest).map (fun x => Glyph.mk2 x PaletteIndex.Default) ++ line.drop k)
    (pre.length : Int) hl rfl
  refine ⟨⟨(pre.length : Int), c + 1⟩, 0, ?_⟩
  unfold InsertTextAt
  rw [hassert, h1]
  show InsertTextAtLoop (rest.length + 1) (b0 :: rest) e _ _ 0 = _
  rw [InsertTextAtLoop]
  simp only [if_neg h0, hne, if_neg h13, if_neg h10, hat, hd, hbytes, hset, bind, Except.bind,
    InsertTextAtLoop_nil]

/-- The boundary `GetCharacterIndex` finds for a column (at most the maximal column of the
line) and a whole character put behind it: for every text with the same bytes before the
boundary the index of the column is the same; with a whole character right behind the
boundary, the boundary behind that character has the byte index `k + length` and the next
column (the next tab stop for a tab), which is above the column, at most the maximal
column, and equal to it only when the character ends the text. -/
theorem char_at_cursor (tabSize : Int) (ht : 1 ≤ tabSize) (chars : List Char8) (c0 : Int)
    (k : Nat) (hk : k ≤ chars.length)
    (hidx : boundaryIndex (specBoundaries tabSize chars 0 0 0) c0 = (k : Int))
    (hmax : c0 ≤ ((specBoundaries tabSize chars 0 0 0).getLastD (0, 0)).2) :
    ∃ ck : Int, c0 ≤ ck ∧
      (∀ Y, boundaryIndex (specBoundaries tabSize (chars.take k ++ Y) 0 0 0) c0 = (k : Int)) ∧
      (∀ Y, boundaryColumn (specBoundaries tabSize (chars.take k ++ Y) 0 0 0) (k : Int) = ck) ∧
      ∀ (b0 : Char8) (rest R : List Char8), UTF8CharLength b0 = (rest.length : Int) + 1 →
        boundaryColumn (specBoundaries tabSize (chars.take k ++ (b0 :: rest ++ R)) 0 0 0)
            ((k : Int) + UTF8CharLength b0) =
          (if b0 = 9 then specNextTabColumn tabSize ck else ck + 1) ∧
        boundaryIndex (specBoundaries tabSize (chars.take k ++ (b0 :: rest ++ R)) 0 0 0)
            (if b0 = 9 then specNextTabColumn tabSize ck else ck + 1) =
          (k : Int) + UTF8CharLength b0 ∧
        (if b0 = 9 then specNextTabColumn tabSize ck else ck + 1) ≤
          ((specBoundaries tabSize (chars.take k ++ (b0 :: rest ++ R)) 0 0 0).getLastD
            (0, 0)).2 ∧
        (((specBoundaries tabSize (chars.take k ++ (b0 :: rest ++ R)) 0 0 0).getLastD
            (0, 0)).2 ≤ (if b0 = 9 then specNextTabColumn tabSize ck else ck + 1) → R = []) ∧
        ck < (if b0 = 9 then specNextTabColumn tabSize ck else ck + 1) := by
  obtain ⟨P, ck, hP, hc, hY⟩ := cursor_split tabSize ht chars c0 k hk hidx hmax
  have hlen : (chars.take k).length = k := by
    rw [List.length_take]
    omega
  refine ⟨ck, hc, fun Y => ?_, fun Y => ?_, fun b0 rest R hb => ?_⟩
  · obtain ⟨T, hT⟩ := specBoundaries_head tabSize Y (k : Int) ck
    rw [hY Y, hT]
    exact index_at_split P T _ _ _ (fun p hp => (hP p hp).2) hc
  · obtain ⟨T, hT⟩ := specBoundaries_head tabSize Y (k : Int) ck
    rw [hY Y, hT, boundaryColumn_append P _ (by simp) _ (fun p hp => (hP p hp).1)]
    cases T with
    | nil => exact boundaryColumn_singleton _ _
    | cons t T => rw [boundaryColumn_cons _ _ (by simp), if_pos (le_refl _)]
  · obtain ⟨T, hT⟩ := specBoundaries_char tabSize b0 rest R (k : Int) ck hb
    have hpos := UTF8CharLength_pos b0
    have hgt : ck < (if b0 = 9 then specNextTabColumn tabSize ck else ck + 1) := by
      have := specNextTabColumn_gt tabSize ck ht
      split_ifs <;> omega
    have hB := hY (b0 :: rest ++ R)
    rw [hT] at hB
    obtain ⟨h1, h2⟩ := second_at_split P T (k : Int) ck ((k : Int) + UTF8CharLength b0)
      (if b0 = 9 then specNextTabColumn tabSize ck else ck + 1)
      (fun p hp => ⟨by have := (hP p hp).1; omega, by have := (hP p hp).2; omega⟩)
      (by omega) hgt
    have hmem : ((k : Int) + UTF8CharLength b0,
        (if b0 = 9 then specNextTabColumn tabSize ck else ck + 1)) ∈
        specBoundaries tabSize (chars.take k ++ (b0 :: rest ++ R)) 0 0 0 := by
      rw [hB]
      simp
    refine ⟨?_, ?_, ?_, ?_, hgt⟩
    · rw [hB]
      exact h1
    · rw [hB]
      exact h2
    · exact specBoundaries_le_last tabSize ht _ 0 0 0 _ hmem
    · intro hle
      have := specBoundaries_last tabSize ht _ 0 0 0 _ hmem hle
      simp only [List.length_append, List.length_cons, hlen] at this
      push_cast at this
      have hR : R.length = 0 := by omega
      exact List.length_eq_zero.mp hR

theorem core_fields (e : Editor) (a : Lines) (b : EditorState) (c : Int)
    (d : List UndoRecord) (f : Int) (g h : Bool) (hc : e.core = (a, b, c, d, f, g, h)) :
    e.mLines = a ∧ e.mState = b ∧ e.mUndoIndex = c ∧ e.mUndoBuffer = d ∧ e.mTabSize = f ∧
      e.mReadOnly = g ∧ e.mOverwrite = h := by
  unfold Editor.core at hc
  simp only [Prod.mk.injEq] at hc
  exact hc

@[simp] theorem EnsureCursorVisible_core (ed : Editor) :
    (EnsureCursorVisible ed).core = ed.core := by
  unfold EnsureCursorVisible
  split_ifs <;> rfl

@[simp] theorem Colorize_core (ed : Editor) (a b : Int) : (Colorize ed a b).core = ed.core :=
  rfl

theorem SetCursorPosition_core (ed : Editor) (p : Coordinates) :
    (SetCursorPosition ed p).core =
      (ed.mLines, { ed.mState with mCursorPosition := p }, ed.mUndoIndex, ed.mUndoBuffer,
        ed.mTabSize, ed.mReadOnly, ed.mOverwrite) := by
  unfold SetCursorPosition
  split_ifs with h
  · rw [EnsureCursorVisible_core]
    rfl
  · have h2 : ed.mState.mCursorPosition = p := by
      by_contra hne
      exact h hne
    unfold Editor.core
    rw [← h2]

theorem bind_pure_res {α : Type} (x : Res α) : (x >>= fun a => pure a) = x := by
  cases x <;> rfl

/-- One step of `Undo` in an editor whose log has the record `u` right before its
cursor. -/
theorem Undo_one (e : Editor) (u : UndoRecord) (B : List UndoRecord)
    (hro : e.mReadOnly = false) (hbuf : e.mUndoBuffer = B ++ [u])
    (hidx : e.mUndoIndex = (B.length : Int) + 1) :
    Undo e 1 = u.Undo { e with mUndoIndex := e.mUndoIndex - 1 } := by
  have hcan : CanUndo e = true := by
    simp only [CanUndo, hro, Bool.not_false, Bool.true_and, decide_eq_true_eq]
    omega
  have hat : vecAt e.mUndoBuffer (e.mUndoIndex - 1) = Except.ok u := by
    rw [hbuf, hidx]
    have : (B.length : Int) + 1 - 1 = (B.length : Int) := by omega
    rw [this]
    exact vecAt_append_length B [] u
  show UndoLoop 1 e = _
  simp only [UndoLoop, hcan, if_true, hat, bind, Except.bind, pure, Except.pure]
  cases u.Undo { e with mUndoIndex := e.mUndoIndex - 1 } <;> rfl

/-- One step of `Redo` in an editor whose log has the record `u` at its cursor. -/
theorem Redo_one (e : Editor) (u : UndoRecord) (B : List UndoRecord)
    (hro : e.mReadOnly = false) (hbuf : e.mUndoBuffer = B ++ [u])
    (hidx : e.mUndoIndex = (B.length : Int)) :
    Redo e 1 = u.Redo { e with mUndoIndex := e.mUndoIndex + 1 } := by
  have hcan : CanRedo e = true := by
    simp only [CanRedo, hro, Bool.not_false, Bool.true_and, decide_eq_true_eq, hbuf,
      List.length_append, List.length_singleton]
    push_cast
    omega
  have hat : vecAt e.mUndoBuffer e.mUndoIndex = Except.ok u := by
    rw [hbuf, hidx]
    exact vecAt_append_length B [] u
  show RedoLoop 1 e = _
  simp only [RedoLoop, hcan, if_true, hat, bind, Except.bind, pure, Except.pure]
  cases u.Redo { e with mUndoIndex := e.mUndoIndex + 1 } <;> rfl

theorem EnterCharacter_eq_typeChar (ed : Editor) (aChar : Nat) (aShift : Bool)
    (hro : ed.mReadOnly = false) (hsel : HasSelection ed = false) (h10 : aChar ≠ 10)
    (hbuf : (ImTextCharToUtf8 aChar).length > 0) :
    EnterCharacter ed aChar aShift = typeChar ed (ImTextCharToUtf8 aChar) := by
  have hassert : assertThat (!ed.mReadOnly) = Except.ok () := by
    rw [hro]
    rfl
  unfold EnterCharacter typeChar overwriteStep
  simp only [hassert, hsel, Bool.false_eq_true, false_and, if_false, h10, hbuf, if_true, bind,
    Except.bind, pure, Except.pure]
  cases GetActualCursorCoordinates ed with
  | error e => rfl
  | ok coord =>
    simp only
    cases assertThat (!ed.mLines.isEmpty) with
    | error e => rfl
    | ok x =>
      simp only
      cases vecAt ed.mLines coord.mLine with
      | error e => rfl
      | ok line =>
        simp only
        cases GetCharacterIndex ed coord with
        | error e => rfl
        | ok cindex =>
          simp only
          generalize (ite (ed.mOverwrite = true ∧ cindex < (line.length : Int)) _ _ :
            Res (Line × UndoRecord)) = lu
          cases lu with
          | error e => rfl
          | ok v =>
            simp only
            cases insertGlyphs (cString (ImTextCharToUtf8 aChar)) v.1 cindex with
            | error e => rfl
            | ok v1 =>
              simp only
              cases setLine ed coord.mLine v1.1 with
              | error e => rfl
              | ok v2 =>
                simp only
                cases GetCharacterColumn v2 coord.mLine v1.2 with
                | error e => rfl
                | ok v3 => rfl

theorem cString_of_no_nul (buf : List Char8) (h : ∀ x ∈ buf, x ≠ 0) : cString buf = buf := by
  unfold cString
  induction buf with
  | nil => rfl
  | cons a rest ih =>
    have ha : a ≠ 0 := h a (List.mem_cons_self _ _)
    rw [List.takeWhile_cons_of_pos (by simpa using ha),
      ih (fun x hx => h x (List.mem_cons_of_mem _ hx))]

theorem overwriteStep_insert (ed : Editor) (u2 : UndoRecord) (coord : Coordinates)
    (line : Line) (k : Int) (h : ¬ (ed.mOverwrite = true ∧ k < (line.length : Int))) :
    overwriteStep ed u2 coord line k = Except.ok (line, u2) := by
  unfold overwriteStep
  rw [if_neg h]
  rfl

theorem overwriteStep_over (ed : Editor) (u2 : UndoRecord) (pre post : Lines) (line : Line)
    (c : Int) (k : Nat) (how : ed.mOverwrite = true) (hkl : k < line.length)
    (hl : ed.mLines = pre ++ line :: post) (ht : 1 ≤ ed.mTabSize) :
    overwriteStep ed u2 ⟨(pre.length : Int), c⟩ line (k : Int) =
      Except.ok (line.take k ++
          line.drop (k + (UTF8CharLength (line.get ⟨k, hkl⟩).mChar).toNat),
        { u2 with
          mRemoved := u2.mRemoved ++ lineChars ((line.drop k).take
            (UTF8CharLength (line.get ⟨k, hkl⟩).mChar).toNat)
          mRemovedStart := ed.mState.mCursorPosition
          mRemovedEnd := ⟨(pre.length : Int), specCharacterColumn ed.mTabSize line
            ((k : Int) + UTF8CharLength (line.get ⟨k, hkl⟩).mChar)⟩ }) := by
  unfold overwriteStep
  have hc : ed.mOverwrite = true ∧ (k : Int) < (line.length : Int) := ⟨how, by omega⟩
  rw [if_pos hc]
  simp only [vecAt_natCast line k hkl, GetCharacterColumn_at ed pre post line _ hl ht,
    overwriteErase_eq _ line k _ (le_of_lt hkl), bind, Except.bind, pure, Except.pure]

theorem lineChars_take (a : Line) (k : Nat) : lineChars (a.take k) = (lineChars a).take k := by
  simp [lineChars, List.map_take]

theorem lineChars_glyphs (buf : List Char8) :
    lineChars (buf.map (fun x => Glyph.mk2 x PaletteIndex.Default)) = buf := by
  induction buf with
  | nil => rfl
  | cons a rest ih =>
    simp only [List.map_cons, lineChars] at ih ⊢
    rw [ih]
    rfl

theorem take_append_take {α : Type} (a b : List α) (k : Nat) (hk : k ≤ a.length) :
    (a.take k ++ b).take k = a.take k ∧ (a.take k ++ b).drop k = b := by
  have h : (a.take k).length = k := by
    rw [List.length_take]
    omega
  exact ⟨List.take_left' h, List.drop_left' h⟩

/-- The path of `EnterCharacter` for a whole character that is no tab, with the cursor's
line and the byte index of the cursor known: the bytes are put in at the index, the cursor
moves to the column behind them, and one record is added to the log. -/
theorem typeChar_result (ed : Editor) (pre post : Lines) (line rest2 : Line) (c0 : Int)
    (k : Nat) (b0 : Char8) (rest : List Char8) (uL : UndoRecord)
    (hro : ed.mReadOnly = false) (ht : 1 ≤ ed.mTabSize) (hlog : UndoInv ed)
    (hl : ed.mLines = pre ++ line :: post)
    (hcoord : GetActualCursorCoordinates ed = Except.ok ⟨(pre.length : Int), c0⟩)
    (hmax : c0 ≤ specLineMaxColumn ed.mTabSize line)
    (hidx : specCharacterIndex ed.mTabSize line c0 = (k : Int)) (hk : k ≤ line.length)
    (hnul : ∀ x ∈ b0 :: rest, x ≠ 0) (hlen : UTF8CharLength b0 = (rest.length : Int) + 1)
    (h9 : b0 ≠ 9)
    (hstep : overwriteStep ed
        { ({ UndoRecord.empty with mBefore := ed.mState } : UndoRecord) with
          mAddedStart := ⟨(pre.length : Int), c0⟩ }
        ⟨(pre.length : Int), c0⟩ line (k : Int) = Except.ok (line.take k ++ rest2, uL)) :
    ∃ e1, typeChar ed (b0 :: rest) = Except.ok e1 ∧
      e1.core = (pre ++ (line.take k ++
          (b0 :: rest).map (fun x => Glyph.mk2 x PaletteIndex.Default) ++ rest2) :: post,
        { ed.mState with
          mCursorPosition := ⟨(pre.length : Int), specCharacterColumn ed.mTabSize line k + 1⟩ },
        ed.mUndoIndex + 1,
        ed.mUndoBuffer.take ed.mUndoIndex.toNat ++ [{ uL with
          mAdded := b0 :: rest
          mAddedEnd := ⟨(pre.length : Int), specCharacterColumn ed.mTabSize line k + 1⟩
          mAfter := { ed.mState with
            mCursorPosition :=
              ⟨(pre.length : Int), specCharacterColumn ed.mTabSize line k + 1⟩ } }],
        ed.mTabSize, false, ed.mOverwrite) := by
  have hkc : k ≤ (lineChars line).length := by
    rw [lineChars_length]
    exact hk
  obtain ⟨ck, hc, hI, hC, hchar⟩ := char_at_cursor ed.mTabSize ht (lineChars line) c0 k hkc
    hidx hmax
  have hck : specCharacterColumn ed.mTabSize line k = ck := by
    have := hC ((lineChars line).drop k)
    rw [List.take_append_drop] at this
    exact this
  obtain ⟨hcol, hind, hle, _, hgt⟩ := hchar b0 rest (lineChars rest2) hlen
  simp only [if_neg h9] at hcol hind hle hgt
  have hchars2 : lineChars (line.take k ++
      (b0 :: rest).map (fun x => Glyph.mk2 x PaletteIndex.Default) ++ rest2) =
      (lineChars line).take k ++ (b0 :: rest ++ lineChars rest2) := by
    rw [lineChars_append, lineChars_append, lineChars_take, lineChars_glyphs,
      List.append_assoc]
  have hblen : (k : Int) + ((b0 :: rest).length : Int) = (k : Int) + UTF8CharLength b0 := by
    rw [hlen, List.length_cons]
    push_cast
    rfl
  have hne : assertThat (!ed.mLines.isEmpty) = Except.ok () := by
    rw [hl]
    cases pre <;> rfl
  have hat := vecAt_of_split pre post line _ hl
  have hindex := GetCharacterIndex_at ed pre post line c0 hl ht
  rw [hidx] at hindex
  have hcs := cString_of_no_nul (b0 :: rest) hnul
  obtain ⟨etk, edk⟩ := take_append_take line rest2 k hk
  have hins : insertGlyphs (b0 :: rest) (line.take k ++ rest2) (k : Int) =
      Except.ok (line.take k ++
        (b0 :: rest).map (fun x => Glyph.mk2 x PaletteIndex.Default) ++ rest2,
        (k : Int) + UTF8CharLength b0) := by
    rw [insertGlyphs_eq _ _ k (by rw [List.length_append, List.length_take]; omega), etk, edk,
      hblen]
  have hset := setLine_lines ed pre post line (line.take k ++
    (b0 :: rest).map (fun x => Glyph.mk2 x PaletteIndex.Default) ++ rest2) (pre.length : Int)
    hl rfl
  have hcolEq : GetCharacterColumn { ed with
        mLines := pre ++ (line.take k ++
          (b0 :: rest).map (fun x => Glyph.mk2 x PaletteIndex.Default) ++ rest2) :: post }
      (pre.length : Int) ((k : Int) + UTF8CharLength b0) = Except.ok (ck + 1) := by
    rw [GetCharacterColumn_at { ed with
        mLines := pre ++ (line.take k ++
          (b0 :: rest).map (fun x => Glyph.mk2 x PaletteIndex.Default) ++ rest2) :: post }
      pre post _ _ rfl ht]
    unfold specCharacterColumn lineBoundaries
    rw [hchars2]
    exact congrArg Except.ok hcol
  have hscp := SetCursorPosition_core { ed with
        mLines := pre ++ (line.take k ++
          (b0 :: rest).map (fun x => Glyph.mk2 x PaletteIndex.Default) ++ rest2) :: post }
      ⟨(pre.length : Int), ck + 1⟩
  obtain ⟨f1, f2, f3, f4, f5, f6, f7⟩ := core_fields _ _ _ _ _ _ _ _ hscp
  have hendEq : GetActualCursorCoordinates { SetCursorPosition { ed with
        mLines := pre ++ (line.take k ++
          (b0 :: rest).map (fun x => Glyph.mk2 x PaletteIndex.Default) ++ rest2) :: post }
        ⟨(pre.length : Int), ck + 1⟩ with mTextChanged := true } =
      Except.ok ⟨(pre.length : Int), ck + 1⟩ := by
    unfold GetActualCursorCoordinates
    simp only [f2]
    refine SanitizeCoordinates_at _ pre post _ (ck + 1) f1 (by simp only [f5]; exact ht) ?_
    simp only [f5]
    unfold specLineMaxColumn lineBoundaries
    rw [hchars2]
    exact hle
  have hadd := fun u => AddUndo_eq { SetCursorPosition { ed with
        mLines := pre ++ (line.take k ++
          (b0 :: rest).map (fun x => Glyph.mk2 x PaletteIndex.Default) ++ rest2) :: post }
        ⟨(pre.length : Int), ck + 1⟩ with mTextChanged := true } u
      (by simp only [f6]; exact hro)
      (by unfold UndoInv; simp only [f3, f4]; exact hlog)
  unfold typeChar
  simp only [hcoord, hne, hat, hindex, hstep, hcs, hins, hset, hcolEq, hendEq, hadd, bind,
    Except.bind, pure, Except.pure]
  refine ⟨_, rfl, ?_⟩
  rw [EnsureCursorVisible_core, Colorize_core]
  unfold Editor.core
  simp only [f1, f2, f3, f4, f5, f6, f7, hck]
  rw [hro]

theorem UndoRecord_Undo_steps (u : UndoRecord) (e eA eB : Editor)
    (h1 : (if !u.mAdded.isEmpty then
        (DeleteRange e u.mAddedStart u.mAddedEnd).map fun x =>
          Colorize x (u.mAddedStart.mLine - 1) (u.mAddedEnd.mLine - u.mAddedStart.mLine + 2)
      else Except.ok e) = Except.ok eA)
    (h2 : (if !u.mRemoved.isEmpty then
        (InsertTextAt eA u.mRemovedStart u.mRemoved).map fun r =>
          Colorize r.1 (u.mRemovedStart.mLine - 1)
            (u.mRemovedEnd.mLine - u.mRemovedStart.mLine + 2)
      else Except.ok eA) = Except.ok eB) :
    u.Undo e = Except.ok (EnsureCursorVisible { eB with mState := u.mBefore }) := by
  unfold UndoRecord.Undo
  by_cases ha : (!u.mAdded.isEmpty) = true
  · rw [if_pos ha] at h1
    simp only [ha, if_true, bind, Except.bind, pure, Except.pure]
    cases hd : DeleteRange e u.mAddedStart u.mAddedEnd with
    | error err =>
      rw [hd] at h1
      cases h1
    | ok x =>
      rw [hd] at h1
      simp only [Except.map] at h1
      injection h1 with h1
      simp only [h1]
      by_cases hr : (!u.mRemoved.isEmpty) = true
      · rw [if_pos hr] at h2
        simp only [hr, if_true]
        cases hi : InsertTextAt eA u.mRemovedStart u.mRemoved with
        | error err =>
          rw [hi] at h2
          cases h2
        | ok r =>
          rw [hi] at h2
          simp only [Except.map] at h2
          injection h2 with h2
          simp only [h2]
      · rw [if_neg hr] at h2
        injection h2 with h2
        simp only [hr, if_false, Bool.false_eq_true, h2]
  · rw [if_neg ha] at h1
    injection h1 with h1
    simp only [ha, if_false, Bool.false_eq_true, bind, Except.bind, pure, Except.pure, h1]
    by_cases hr : (!u.mRemoved.isEmpty) = true
    · rw [if_pos hr] at h2
      simp only [hr, if_true]
      cases hi : InsertTextAt eA u.mRemovedStart u.mRemoved with
      | error err =>
        rw [hi] at h2
        cases h2
      | ok r =>
        rw [hi] at h2
        simp only [Except.map] at h2
        injection h2 with h2
        simp only [h2]
    · rw [if_neg hr] at h2
      injection h2 with h2
      simp only [hr, if_false, Bool.false_eq_true, h2]

theorem UndoRecord_Redo_steps (u : UndoRecord) (e eA eB : Editor)
    (h1 : (if !u.mRemoved.isEmpty then
        (DeleteRange e u.mRemovedStart u.mRemovedEnd).map fun x =>
          Colorize x (u.mRemovedStart.mLine - 1)
            (u.mRemovedEnd.mLine - u.mRemovedStart.mLine + 1)
      else Except.ok e) = Except.ok eA)
    (h2 : (if !u.mAdded.isEmpty then
        (InsertTextAt eA u.mAddedStart u.mAdded).map fun r =>
          Colorize r.1 (u.mAddedStart.mLine - 1) (u.mAddedEnd.mLine - u.mAddedStart.mLine + 1)
      else Except.ok eA) = Except.ok eB) :
    u.Redo e = Except.ok (EnsureCursorVisible { eB with mState := u.mAfter }) := by
  unfold UndoRecord.Redo
  by_cases ha : (!u.mRemoved.isEmpty) = true
  · rw [if_pos ha] at h1
    simp only [ha, if_true, bind, Except.bind, pure, Except.pure]
    cases hd : DeleteRange e u.mRemovedStart u.mRemovedEnd with
    | error err =>
      rw [hd] at h1
      cases h1
    | ok x =>
      rw [hd] at h1
      simp only [Except.map] at h1
      injection h1 with h1
      simp only [h1]
      by_cases hr : (!u.mAdded.isEmpty) = true
      · rw [if_pos hr] at h2
        simp only [hr, if_true]
        cases hi : InsertTextAt eA u.mAddedStart u.mAdded with
        | error err =>
          rw [hi] at h2
          cases h2
        | ok r =>
          rw [hi] at h2
          simp only [Except.map] at h2
          injection h2 with h2
          simp only [h2]
      · rw [if_neg hr] at h2
        injection h2 with h2
        simp only [hr, if_false, Bool.false_eq_true, h2]
  · rw [if_neg ha] at h1
    injection h1 with h1
    simp only [ha, if_false, Bool.false_eq_true, bind, Except.bind, pure, Except.pure, h1]
    by_cases hr : (!u.mAdded.isEmpty) = true
    · rw [if_pos hr] at h2
      simp only [hr, if_true]
      cases hi : InsertTextAt eA u.mAddedStart u.mAdded with
      | error err =>
        rw [hi] at h2
        cases h2
      | ok r =>
        rw [hi] at h2
        simp only [Except.map] at h2
        injection h2 with h2
        simp only [h2]
    · rw [if_neg hr] at h2
      injection h2 with h2
      simp only [hr, if_false, Bool.false_eq_true, h2]

theorem typed_line_cut (line rest2 : Line) (k : Nat) (G : Line) (hk : k ≤ line.length) :
    (line.take k ++ G ++ rest2).take k ++ (line.take k ++ G ++ rest2).drop (k + G.length) =
      line.take k ++ rest2 := by
  have h : (line.take k).length = k := by
    rw [List.length_take]
    omega
  rw [List.append_assoc, List.take_left' h, ← List.drop_drop, List.drop_left' h,
    List.drop_left' rfl]

/-- `Undo` of the record of a typed character: the character is taken out again, the
character it overwrote (the bytes `D`, none in insert mode) is put back, and the state
before the typing is restored. -/
theorem Undo_typed (e1 : Editor) (u : UndoRecord) (B : List UndoRecord) (pre post : Lines)
    (line rest2 : Line) (c0 : Int) (k : Nat) (b0 : Char8) (rest D : List Char8)
    (st0 st1 : EditorState) (ts : Int) (ow : Bool)
    (hcore : e1.core = (pre ++ (line.take k ++
        (b0 :: rest).map (fun x => Glyph.mk2 x PaletteIndex.Default) ++ rest2) :: post,
      st1, (B.length : Int) + 1, B ++ [u], ts, false, ow))
    (ht : 1 ≤ ts) (hk : k ≤ line.length)
    (hidx : specCharacterIndex ts line c0 = (k : Int))
    (hmax : c0 ≤ specLineMaxColumn ts line)
    (hlen : UTF8CharLength b0 = (rest.length : Int) + 1) (h9 : b0 ≠ 9)
    (hu1 : u.mAdded = b0 :: rest) (hu2 : u.mAddedStart = ⟨(pre.length : Int), c0⟩)
    (hu3 : u.mAddedEnd = ⟨(pre.length : Int), specCharacterColumn ts line k + 1⟩)
    (hu4 : u.mRemoved = D) (hu5 : u.mBefore = st0)
    (hD : D = [] ∨ ∃ b1 rest1, D = b1 :: rest1 ∧
      UTF8CharLength b1 = (rest1.length : Int) + 1 ∧ (∀ x ∈ D, x ≠ 0) ∧ b1 ≠ 13 ∧ b1 ≠ 10 ∧
      u.mRemovedStart = ⟨(pre.length : Int), c0⟩) :
    ∃ e2, Undo e1 1 = Except.ok e2 ∧
      e2.core = (pre ++ (line.take k ++
          D.map (fun x => Glyph.mk2 x PaletteIndex.Default) ++ rest2) :: post,
        st0, (B.length : Int), B ++ [u], ts, false, ow) := by
  obtain ⟨g1, g2, g3, g4, g5, g6, g7⟩ := core_fields _ _ _ _ _ _ _ _ hcore
  subst g5
  have hkc : k ≤ (lineChars line).length := by
    rw [lineChars_length]
    exact hk
  obtain ⟨ck, hc, hI, hC, hchar⟩ := char_at_cursor e1.mTabSize ht (lineChars line) c0 k hkc
    hidx hmax
  have hck : specCharacterColumn e1.mTabSize line k = ck := by
    have := hC ((lineChars line).drop k)
    rw [List.take_append_drop] at this
    exact this
  rw [hck] at hu3
  obtain ⟨hcol, hind, hle, hatmax, hgt⟩ := hchar b0 rest (lineChars rest2) hlen
  simp only [if_neg h9] at hcol hind hle hatmax hgt
  have hchars2 : lineChars (line.take k ++
      (b0 :: rest).map (fun x => Glyph.mk2 x PaletteIndex.Default) ++ rest2) =
      (lineChars line).take k ++ (b0 :: rest ++ lineChars rest2) := by
    rw [lineChars_append, lineChars_append, lineChars_take, lineChars_glyphs,
      List.append_assoc]
  rw [Undo_one e1 u B g6 g4 g3]
  -- the added text is taken out
  have hdel := DeleteRange_at { e1 with mUndoIndex := e1.mUndoIndex - 1 } pre post
    (line.take k ++ (b0 :: rest).map (fun x => Glyph.mk2 x PaletteIndex.Default) ++ rest2)
    k (k + (rest.length + 1)) c0 (ck + 1) g6 ht g1
    (by
      unfold specCharacterIndex lineBoundaries
      rw [hchars2]
      exact hI _)
    (by
      unfold specCharacterIndex lineBoundaries
      rw [hchars2, hind, hlen]
      push_cast
      ring)
    (by omega)
    (by
      simp only [List.length_append, List.length_take, List.length_map, List.length_cons]
      omega)
    (by omega)
    (by
      intro hm
      have hr : lineChars rest2 = [] := by
        apply hatmax
        unfold specLineMaxColumn lineBoundaries at hm
        rw [hchars2] at hm
        exact hm
      have hr2 : rest2 = [] := by
        have := congrArg List.length hr
        rw [lineChars_length] at this
        exact List.length_eq_zero.mp this
      subst hr2
      simp only [List.length_append, List.length_take, List.length_map, List.length_cons,
        List.length_nil]
      omega)
  have hcut := typed_line_cut line rest2 k
    ((b0 :: rest).map (fun x => Glyph.mk2 x PaletteIndex.Default)) hk
  simp only [List.length_map, List.length_cons] at hcut
  rw [hcut] at hdel
  obtain ⟨eA, hA, hAcore⟩ : ∃ eA, (if !u.mAdded.isEmpty then
        (DeleteRange { e1 with mUndoIndex := e1.mUndoIndex - 1 } u.mAddedStart u.mAddedEnd).map
          fun x => Colorize x (u.mAddedStart.mLine - 1)
            (u.mAddedEnd.mLine - u.mAddedStart.mLine + 2)
      else Except.ok { e1 with mUndoIndex := e1.mUndoIndex - 1 }) = Except.ok eA ∧
      eA.core = (pre ++ (line.take k ++ rest2) :: post, st1, (B.length : Int), B ++ [u],
        e1.mTabSize, false, ow) := by
    rw [hu1, hu2, hu3, hdel]
    refine ⟨_, rfl, ?_⟩
    rw [Colorize_core]
    unfold Editor.core
    simp only [g2, g3, g4, g6, g7]
    congr 2
    congr 1
    omega
  obtain ⟨a1, a2, a3, a4, a5, a6, a7⟩ := core_fields _ _ _ _ _ _ _ _ hAcore
  -- the removed text is put back
  obtain ⟨eB, hB, hBcore⟩ : ∃ eB, (if !u.mRemoved.isEmpty then
        (InsertTextAt eA u.mRemovedStart u.mRemoved).map fun r =>
          Colorize r.1 (u.mRemovedStart.mLine - 1)
            (u.mRemovedEnd.mLine - u.mRemovedStart.mLine + 2)
      else Except.ok eA) = Except.ok eB ∧
      eB.core = (pre ++ (line.take k ++
          D.map (fun x => Glyph.mk2 x PaletteIndex.Default) ++ rest2) :: post,
        st1, (B.length : Int), B ++ [u], e1.mTabSize, false, ow) := by
    rcases hD with hD | ⟨b1, rest1, hD, hlen1, hnul1, h13, h10, hu6⟩
    · rw [hu4, hD]
      refine ⟨eA, rfl, ?_⟩
      rw [hAcore]
      simp
    · obtain ⟨etk, edk⟩ := take_append_take line rest2 k hk
      obtain ⟨w, n, hins⟩ := InsertTextAt_char_at eA pre post (line.take k ++ rest2) c0 k
        b1 rest1 hlen1 (by rw [← hD]; exact hnul1) h13 h10 a6 (by rw [a5]; exact ht) a1
        (by
          rw [a5]
          unfold specCharacterIndex lineBoundaries
          rw [lineChars_append, lineChars_take]
          exact hI _)
        (by
          rw [List.length_append, List.length_take]
          omega)
      rw [etk, edk] at hins
      rw [hu4, hu6, hD, hins]
      refine ⟨_, rfl, ?_⟩
      rw [Colorize_core]
      unfold Editor.core
      simp only [a2, a3, a4, a5, a6, a7]
  refine ⟨_, UndoRecord_Undo_steps u _ eA eB hA hB, ?_⟩
  obtain ⟨b1, b2, b3, b4, b5, b6, b7⟩ := core_fields _ _ _ _ _ _ _ _ hBcore
  rw [EnsureCursorVisible_core]
  unfold Editor.core
  simp only [b1, b3, b4, b5, b6, b7, hu5]

theorem wholeChars_split (tabSize : Int) (ht : 1 ≤ tabSize) (R : List Char8) :
    ∀ (A : List Char8) (skip : Nat) (off col ck : Int),
      (off + (A.length : Int), ck) ∈ specBoundaries tabSize (A ++ R) skip off col →
      wholeChars (A ++ R) skip = wholeChars R 0 := by
  intro A
  induction A with
  | nil =>
    intro skip off col ck h
    simp only [List.nil_append, List.length_nil, Nat.cast_zero, add_zero] at h ⊢
    have hs := specBoundaries_lower_skip tabSize ht _ _ _ _ _ h
    simp only at hs
    have hs0 : skip = 0 := by omega
    subst hs0
    rfl
  | cons a A ih =>
    intro skip off col ck h
    have e : off + ((a :: A).length : Int) = (off + 1) + (A.length : Int) := by
      simp only [List.length_cons]
      push_cast
      ring
    rw [e] at h
    cases skip with
    | zero =>
      simp only [List.cons_append, specBoundaries, List.mem_cons, List.append_eq] at h
      rcases h with h | h
      · injection h with h1 _
        omega
      · simp only [List.cons_append, wholeChars]
        exact ih _ _ _ _ h
    | succ s =>
      simp only [List.cons_append, specBoundaries, List.append_eq] at h
      simp only [List.cons_append, wholeChars]
      exact ih _ _ _ _ h

theorem wholeChars_skip_length : ∀ (l : List Char8) (skip : Nat),
    wholeChars l skip = true → skip ≤ l.length := by
  intro l
  induction l with
  | nil =>
    intro skip h
    simp only [wholeChars, beq_iff_eq] at h
    subst h
    exact le_refl _
  | cons b rest ih =>
    intro skip h
    cases skip with
    | zero => exact Nat.zero_le _
    | succ s =>
      simp only [wholeChars] at h
      have := ih s h
      simp only [List.length_cons]
      omega

/-- The byte index of a column in a line of whole characters: it lies inside the line, and
the character at it, if any, is whole. -/
theorem cursor_index (tabSize : Int) (ht : 1 ≤ tabSize) (line : Line)
    (hw : wholeChars (lineChars line) 0 = true) (c0 : Int) :
    ∃ k : Nat, specCharacterIndex tabSize line c0 = (k : Int) ∧ k ≤ line.length ∧
      (k < line.length → ∃ b1 rest1 R, (lineChars line).drop k = b1 :: rest1 ++ R ∧
        UTF8CharLength b1 = (rest1.length : Int) + 1) := by
  obtain ⟨q, hq, hqi⟩ := boundaryIndex_mem (lineBoundaries tabSize line)
    (specBoundaries_ne_nil _ _ _ _ _) c0
  have hlo := (specBoundaries_lower tabSize ht _ 0 0 0 q hq).1
  have hup := specBoundaries_upper tabSize _ 0 0 0 q hw hq
  rw [lineChars_length] at hup
  simp only [zero_add, Nat.cast_zero, add_zero] at hlo hup
  have hk : q.1 = ((q.1.toNat : Nat) : Int) := by omega
  refine ⟨q.1.toNat, ?_, by omega, fun hlt => ?_⟩
  · unfold specCharacterIndex
    rw [hqi]
    exact hk
  · have hkc : q.1.toNat ≤ (lineChars line).length := by
      rw [lineChars_length]
      omega
    have hlen : ((lineChars line).take q.1.toNat).length = q.1.toNat := by
      rw [List.length_take]
      omega
    have hmem : ((0 : Int) + (((lineChars line).take q.1.toNat).length : Int), q.2) ∈
        specBoundaries tabSize ((lineChars line).take q.1.toNat ++
          (lineChars line).drop q.1.toNat) 0 0 0 := by
      rw [List.take_append_drop, hlen, zero_add, ← hk]
      exact hq
    have hsp := wholeChars_split tabSize ht _ _ _ _ _ _ hmem
    rw [List.take_append_drop, hw] at hsp
    cases hd : (lineChars line).drop q.1.toNat with
    | nil =>
      have := congrArg List.length hd
      rw [List.length_drop, lineChars_length] at this
      simp only [List.length_nil] at this
      omega
    | cons b1 T =>
      rw [hd] at hsp
      simp only [wholeChars] at hsp
      have hle := wholeChars_skip_length _ _ hsp.symm
      have hpos := UTF8CharLength_pos b1
      refine ⟨b1, T.take (UTF8CharLength b1 - 1).toNat, T.drop (UTF8CharLength b1 - 1).toNat,
        ?_, ?_⟩
      · rw [List.cons_append, List.take_append_drop]
      · rw [List.length_take]
        omega

theorem coord_le_max (ed : Editor) (pre post : Lines) (line : Line) (c0 : Int)
    (ht : 1 ≤ ed.mTabSize) (hl : ed.mLines = pre ++ line :: post)
    (hcoord : GetActualCursorCoordinates ed = Except.ok ⟨(pre.length : Int), c0⟩) :
    c0 ≤ specLineMaxColumn ed.mTabSize line := by
  have hne : ed.mLines ≠ [] := by
    rw [hl]
    simp
  obtain ⟨_, m, hm, hle, _⟩ := (SanitizeCoordinates_spec ed _ _ hcoord).2 hne
  rw [GetLineMaxColumn_at ed pre post line hl ht] at hm
  injection hm with hm
  rw [hm]
  exact hle

/-- A sanitized cursor below the maximal column of its line is the cursor itself. -/
theorem cursor_is_coord (ed : Editor) (pre post : Lines) (line : Line) (c0 : Int)
    (ht : 1 ≤ ed.mTabSize) (hl : ed.mLines = pre ++ line :: post)
    (hcoord : GetActualCursorCoordinates ed = Except.ok ⟨(pre.length : Int), c0⟩)
    (hlt : c0 < specLineMaxColumn ed.mTabSize line) :
    ed.mState.mCursorPosition = ⟨(pre.length : Int), c0⟩ := by
  have hne : ed.mLines.isEmpty = false := by
    rw [hl]
    cases pre <;> rfl
  unfold GetActualCursorCoordinates SanitizeCoordinates at hcoord
  simp only [hne, Bool.false_eq_true, if_false, bind, Except.bind, pure, Except.pure]
    at hcoord
  split_ifs at hcoord with h0
  · cases hm : GetLineMaxColumn ed ((ed.mLines.length : Int) - 1) with
    | error err =>
      rw [hm] at hcoord
      cases hcoord
    | ok m =>
      rw [hm] at hcoord
      simp only [Except.ok.injEq, Coordinates.mk.injEq] at hcoord
      rw [hcoord.1, GetLineMaxColumn_at ed pre post line hl ht] at hm
      injection hm with hm
      omega
  · cases hm : GetLineMaxColumn ed ed.mState.mCursorPosition.mLine with
    | error err =>
      rw [hm] at hcoord
      cases hcoord
    | ok m =>
      rw [hm] at hcoord
      simp only [Except.ok.injEq, Coordinates.mk.injEq] at hcoord
      rw [hcoord.1, GetLineMaxColumn_at ed pre post line hl ht] at hm
      injection hm with hm
      cases hcp : ed.mState.mCursorPosition with
      | mk cl cc =>
        rw [hcp] at hcoord
        simp only at hcoord
        rw [Coordinates.mk.injEq]
        refine ⟨hcoord.1, ?_⟩
        have := hcoord.2
        rw [← hm] at this
        omega

/-- `Redo` of the record of a typed character in the state `Undo` left: the character
that was overwritten (the bytes `D`, none in insert mode) is taken out, the typed character
is put in again, and the state after the typing is restored. -/
theorem Redo_typed (e2 : Editor) (u : UndoRecord) (B : List UndoRecord) (pre post : Lines)
    (line rest2 : Line) (c0 : Int) (k : Nat) (b0 : Char8) (rest D : List Char8)
    (st0 st1 : EditorState) (ts : Int) (ow : Bool)
    (hcore : e2.core = (pre ++ (line.take k ++
        D.map (fun x => Glyph.mk2 x PaletteIndex.Default) ++ rest2) :: post,
      st0, (B.length : Int), B ++ [u], ts, false, ow))
    (ht : 1 ≤ ts) (hk : k ≤ line.length)
    (hidx : specCharacterIndex ts line c0 = (k : Int))
    (hmax : c0 ≤ specLineMaxColumn ts line)
    (hlen : UTF8CharLength b0 = (rest.length : Int) + 1) (hnul : ∀ x ∈ b0 :: rest, x ≠ 0)
    (h13 : b0 ≠ 13) (h10 : b0 ≠ 10)
    (hu1 : u.mAdded = b0 :: rest) (hu2 : u.mAddedStart = ⟨(pre.length : Int), c0⟩)
    (hu4 : u.mRemoved = D) (hu6 : u.mAfter = st1)
    (hD : D = [] ∨ ∃ b1 rest1, D = b1 :: rest1 ∧
      UTF8CharLength b1 = (rest1.length : Int) + 1 ∧
      u.mRemovedStart = ⟨(pre.length : Int), c0⟩ ∧
      u.mRemovedEnd = ⟨(pre.length : Int),
        specCharacterColumn ts line ((k : Int) + UTF8CharLength b1)⟩ ∧
      (lineChars line).drop k = D ++ lineChars rest2) :
    ∃ e3, Redo e2 1 = Except.ok e3 ∧
      e3.core = (pre ++ (line.take k ++
          (b0 :: rest).map (fun x => Glyph.mk2 x PaletteIndex.Default) ++ rest2) :: post,
        st1, (B.length : Int) + 1, B ++ [u], ts, false, ow) := by
  obtain ⟨g1, g2, g3, g4, g5, g6, g7⟩ := core_fields _ _ _ _ _ _ _ _ hcore
  subst g5
  have hkc : k ≤ (lineChars line).length := by
    rw [lineChars_length]
    exact hk
  obtain ⟨ck, hc, hI, hC, hchar⟩ := char_at_cursor e2.mTabSize ht (lineChars line) c0 k hkc
    hidx hmax
  rw [Redo_one e2 u B g6 g4 g3]
  -- the removed text is taken out again
  obtain ⟨eA, hA, hAcore⟩ : ∃ eA, (if !u.mRemoved.isEmpty then
        (DeleteRange { e2 with mUndoIndex := e2.mUndoIndex + 1 } u.mRemovedStart
            u.mRemovedEnd).map fun x =>
          Colorize x (u.mRemovedStart.mLine - 1)
            (u.mRemovedEnd.mLine - u.mRemovedStart.mLine + 1)
      else Except.ok { e2 with mUndoIndex := e2.mUndoIndex + 1 }) = Except.ok eA ∧
      eA.core = (pre ++ (line.take k ++ rest2) :: post, st0, (B.length : Int) + 1, B ++ [u],
        e2.mTabSize, false, ow) := by
    rcases hD with hD | ⟨b1, rest1, hD, hlen1, hs, he, hdrop⟩
    · rw [hu4, hD]
      refine ⟨_, rfl, ?_⟩
      unfold Editor.core
      simp only [g1, g2, g3, g4, g6, g7, hD, List.map_nil, List.append_nil]
    · subst hD
      have hline : lineChars line =
          (lineChars line).take k ++ (b1 :: rest1 ++ lineChars rest2) := by
        rw [← hdrop, List.take_append_drop]
      obtain ⟨hcol, hind, hle, hatmax, hgt⟩ := hchar b1 rest1 (lineChars rest2) hlen1
      rw [← hline] at hcol
      have hce : specCharacterColumn e2.mTabSize line ((k : Int) + UTF8CharLength b1) =
          (if b1 = 9 then specNextTabColumn e2.mTabSize ck else ck + 1) := hcol
      rw [hce] at he
      have hchars2 : lineChars (line.take k ++
          (b1 :: rest1).map (fun x => Glyph.mk2 x PaletteIndex.Default) ++ rest2) =
          (lineChars line).take k ++ (b1 :: rest1 ++ lineChars rest2) := by
        rw [lineChars_append, lineChars_append, lineChars_take, lineChars_glyphs,
          List.append_assoc]
      have hdel := DeleteRange_at { e2 with mUndoIndex := e2.mUndoIndex + 1 } pre post
        (line.take k ++ (b1 :: rest1).map (fun x => Glyph.mk2 x PaletteIndex.Default) ++ rest2)
        k (k + (rest1.length + 1)) c0
        (if b1 = 9 then specNextTabColumn e2.mTabSize ck else ck + 1) g6 ht g1
        (by
          unfold specCharacterIndex lineBoundaries
          rw [hchars2]
          exact hI _)
        (by
          unfold specCharacterIndex lineBoundaries
          rw [hchars2, hind, hlen1]
          push_cast
          ring)
        (by omega)
        (by
          simp only [List.length_append, List.length_take, List.length_map,
            List.length_cons]
          omega)
        (by omega)
        (by
          intro hm
          have hr : lineChars rest2 = [] := by
            apply hatmax
            unfold specLineMaxColumn lineBoundaries at hm
            rw [hchars2] at hm
            exact hm
          have hr2 : rest2 = [] := by
            have := congrArg List.length hr
            rw [lineChars_length] at this
            exact List.length_eq_zero.mp this
          subst hr2
          simp only [List.length_append, List.length_take, List.length_map,
            List.length_cons, List.length_nil]
          omega)
      have hcut := typed_line_cut line rest2 k
        ((b1 :: rest1).map (fun x => Glyph.mk2 x PaletteIndex.Default)) hk
      simp only [List.length_map, List.length_cons] at hcut
      rw [hcut] at hdel
      rw [hu4, hs, he, hdel]
      refine ⟨_, rfl, ?_⟩
      rw [Colorize_core]
      unfold Editor.core
      simp only [g2, g3, g4, g6, g7]
  obtain ⟨a1, a2, a3, a4, a5, a6, a7⟩ := core_fields _ _ _ _ _ _ _ _ hAcore
  -- the added text is put in again
  obtain ⟨eB, hB, hBcore⟩ : ∃ eB, (if !u.mAdded.isEmpty then
        (InsertTextAt eA u.mAddedStart u.mAdded).map fun r =>
          Colorize r.1 (u.mAddedStart.mLine - 1) (u.mAddedEnd.mLine - u.mAddedStart.mLine + 1)
      else Except.ok eA) = Except.ok eB ∧
      eB.core = (pre ++ (line.take k ++
          (b0 :: rest).map (fun x => Glyph.mk2 x PaletteIndex.Default) ++ rest2) :: post,
        st0, (B.length : Int) + 1, B ++ [u], e2.mTabSize, false, ow) := by
    obtain ⟨etk, edk⟩ := take_append_take line rest2 k hk
    obtain ⟨w, n, hins⟩ := InsertTextAt_char_at eA pre post (line.take k ++ rest2) c0 k
      b0 rest hlen hnul h13 h10 a6 (by rw [a5]; exact ht) a1
      (by
        rw [a5]
        unfold specCharacterIndex lineBoundaries
        rw [lineChars_append, lineChars_take]
        exact hI _)
      (by
        rw [List.length_append, List.length_take]
        omega)
    rw [etk, edk] at hins
    rw [hu1, hu2, hins]
    refine ⟨_, rfl, ?_⟩
    rw [Colorize_core]
    unfold Editor.core
    simp only [a2, a3, a4, a5, a6, a7]
  refine ⟨_, UndoRecord_Redo_steps u _ eA eB hA hB, ?_⟩
  obtain ⟨b1, b2, b3, b4, b5, b6, b7⟩ := core_fields _ _ _ _ _ _ _ _ hBcore
  rw [EnsureCursorVisible_core]
  unfold Editor.core
  simp only [b1, b3, b4, b5, b6, b7, hu6]

/-- Typing a whole character that is no tab, carriage return or newline, then `Undo`, then
`Redo`: with the overwrite step known to erase the bytes `D`, `Undo` restores the text and
the state, and `Redo` the lines and the state after the typing; the cursor after the typing
is one column behind the column of the byte index of the cursor. -/
theorem typeChar_round_trip (ed : Editor) (pre post : Lines) (line rest2 : Line) (c0 : Int)
    (k : Nat) (b0 : Char8) (rest D : List Char8) (uL : UndoRecord)
    (hro : ed.mReadOnly = false) (ht : 1 ≤ ed.mTabSize) (hlog : UndoInv ed)
    (hl : ed.mLines = pre ++ line :: post)
    (hcoord : GetActualCursorCoordinates ed = Except.ok ⟨(pre.length : Int), c0⟩)
    (hmax : c0 ≤ specLineMaxColumn ed.mTabSize line)
    (hidx : specCharacterIndex ed.mTabSize line c0 = (k : Int)) (hk : k ≤ line.length)
    (hnul : ∀ x ∈ b0 :: rest, x ≠ 0) (hlen : UTF8CharLength b0 = (rest.length : Int) + 1)
    (h9 : b0 ≠ 9) (h13 : b0 ≠ 13) (h10 : b0 ≠ 10)
    (hstep : overwriteStep ed
        { ({ UndoRecord.empty with mBefore := ed.mState } : UndoRecord) with
          mAddedStart := ⟨(pre.length : Int), c0⟩ }
        ⟨(pre.length : Int), c0⟩ line (k : Int) = Except.ok (line.take k ++ rest2, uL))
    (hB : uL.mBefore = ed.mState) (hS : uL.mAddedStart = ⟨(pre.length : Int), c0⟩)
    (hR : uL.mRemoved = D) (hchars : (lineChars line).drop k = D ++ lineChars rest2)
    (hD : D = [] ∨ ∃ b1 rest1, D = b1 :: rest1 ∧
      UTF8CharLength b1 = (rest1.length : Int) + 1 ∧ (∀ x ∈ D, x ≠ 0) ∧ b1 ≠ 13 ∧ b1 ≠ 10 ∧
      uL.mRemovedStart = ⟨(pre.length : Int), c0⟩ ∧
      uL.mRemovedEnd = ⟨(pre.length : Int),
        specCharacterColumn ed.mTabSize line ((k : Int) + UTF8CharLength b1)⟩) :
    ∃ e1 e2 e3, typeChar ed (b0 :: rest) = Except.ok e1 ∧ Undo e1 1 = Except.ok e2 ∧
      Redo e2 1 = Except.ok e3 ∧
      e2.mLines.map lineChars = ed.mLines.map lineChars ∧ e2.mState = ed.mState ∧
      e3.mLines = e1.mLines ∧ e3.mState = e1.mState := by
  obtain ⟨e1, he1, hcore1⟩ := typeChar_result ed pre post line rest2 c0 k b0 rest uL hro ht
    hlog hl hcoord hmax hidx hk hnul hlen h9 hstep
  obtain ⟨B, hBdef, hBl⟩ : ∃ B, ed.mUndoBuffer.take ed.mUndoIndex.toNat = B ∧
      ed.mUndoIndex = (B.length : Int) := by
    refine ⟨_, rfl, ?_⟩
    obtain ⟨h0, h1⟩ := hlog
    rw [List.length_take]
    omega
  rw [hBdef, hBl] at hcore1
  obtain ⟨e2, he2, hcore2⟩ := Undo_typed e1 _ B pre post line rest2 c0 k b0 rest D ed.mState
    _ ed.mTabSize ed.mOverwrite hcore1 ht hk hidx hmax hlen h9 rfl hS rfl hR hB
    (by
      rcases hD with hD | ⟨b1, rest1, hD, h1, h2, h3, h4, h5, _⟩
      · exact Or.inl hD
      · exact Or.inr ⟨b1, rest1, hD, h1, h2, h3, h4, h5⟩)
  obtain ⟨e3, he3, hcore3⟩ := Redo_typed e2 _ B pre post line rest2 c0 k b0 rest D ed.mState
    _ ed.mTabSize ed.mOverwrite hcore2 ht hk hidx hmax hlen hnul h13 h10 rfl hS hR rfl
    (by
      rcases hD with hD | ⟨b1, rest1, hD, h1, _, _, _, h5, h6⟩
      · exact Or.inl hD
      · exact Or.inr ⟨b1, rest1, hD, h1, h5, h6, hchars⟩)
  obtain ⟨a1, a2, _⟩ := core_fields _ _ _ _ _ _ _ _ hcore1
  obtain ⟨b1, b2, _⟩ := core_fields _ _ _ _ _ _ _ _ hcore2
  obtain ⟨c1, c2, _⟩ := core_fields _ _ _ _ _ _ _ _ hcore3
  refine ⟨e1, e2, e3, he1, he2, he3, ?_, b2, by rw [c1, a1], by rw [c2, a2]⟩
  rw [b1, hl]
  simp only [List.map_append, List.map_cons, lineChars_append, lineChars_take,
    lineChars_glyphs]
  rw [List.append_assoc, ← hchars, List.take_append_drop]

theorem UTF8CharLength_ascii : ∀ c : Nat, c < 128 → UTF8CharLength c = 1 := by
  decide

theorem ImTextCharToUtf8_ascii (c : Nat) (h : c < 128) : ImTextCharToUtf8 c = [c] := by
  unfold ImTextCharToUtf8
  rw [if_pos (by omega), Nat.mod_eq_of_lt (by omega)]

theorem mChar_of_drop (line : Line) (k : Nat) (hkl : k < line.length) (b1 : Char8)
    (T : List Char8) (h : (lineChars line).drop k = b1 :: T) :
    (line.get ⟨k, hkl⟩).mChar = b1 := by
  have h1 : (lineChars line)[k]? = some b1 := by
    rw [← List.head?_drop, h]
    rfl
  unfold lineChars at h1
  rw [List.getElem?_map, List.getElem?_eq_getElem hkl] at h1
  simp only [Option.map_some', Option.some.injEq] at h1
  rw [List.get_eq_getElem]
  exact h1

/-- C34 (amended): in an editor that is not read-only, with tab size at least 1, the
cursor of the undo log inside the log and no selection, let the cursor's line consist of
whole UTF-8 characters and, in overwrite mode, let the character under the cursor have no
NUL, carriage-return or newline byte. Then for every printable ASCII character `ch`,
`EnterCharacter(ch)`, `Undo()` and `Redo()` all return; after `Undo()` the text and the
`EditorState` are those before the call, and after `Redo()` the lines and the
`EditorState` are those right after the call. -/
theorem EnterCharacter_undo_redo (ed : Editor) (ch : Nat) (aShift : Bool) (pre post : Lines)
    (line : Line) (c0 : Int) (hro : ed.mReadOnly = false) (ht : 1 ≤ ed.mTabSize)
    (hch : 32 ≤ ch ∧ ch < 127) (hsel : HasSelection ed = false) (hlog : UndoInv ed)
    (hl : ed.mLines = pre ++ line :: post)
    (hcoord : GetActualCursorCoordinates ed = Except.ok ⟨(pre.length : Int), c0⟩)
    (hw : wholeChars (lineChars line) 0 = true)
    (hover : ∀ x ∈ overwritten ed line c0, x ≠ 0 ∧ x ≠ 10 ∧ x ≠ 13) :
    ∃ e1 e2 e3, EnterCharacter ed ch aShift = Except.ok e1 ∧ Undo e1 1 = Except.ok e2 ∧
      Redo e2 1 = Except.ok e3 ∧
      e2.mLines.map lineChars = ed.mLines.map lineChars ∧ e2.mState = ed.mState ∧
      e3.mLines = e1.mLines ∧ e3.mState = e1.mState := by
  obtain ⟨k, hidx, hk, hwhole⟩ := cursor_index ed.mTabSize ht line hw c0
  have hmax := coord_le_max ed pre post line c0 ht hl hcoord
  have hb := ImTextCharToUtf8_ascii ch (by omega)
  have hlen : UTF8CharLength ch = ((([] : List Char8).length : Nat) : Int) + 1 := by
    rw [UTF8CharLength_ascii ch (by omega)]
    rfl
  have h9 : (ch : Char8) ≠ 9 := fun h => by
    have h2 : ch = 9 := h
    omega
  have h13 : (ch : Char8) ≠ 13 := fun h => by
    have h2 : ch = 13 := h
    omega
  have h10 : (ch : Char8) ≠ 10 := fun h => by
    have h2 : ch = 10 := h
    omega
  have hnul : ∀ x ∈ [ch], x ≠ 0 := by
    intro x hx
    rw [List.mem_singleton] at hx
    omega
  rw [EnterCharacter_eq_typeChar ed ch aShift hro hsel (by omega) (by rw [hb]; simp), hb]
  by_cases hov : ed.mOverwrite = true ∧ k < line.length
  · obtain ⟨how, hkl⟩ := hov
    obtain ⟨b1, rest1, R, hdrop, hlen1⟩ := hwhole hkl
    have hget := mChar_of_drop line k hkl b1 _ hdrop
    have hd : (UTF8CharLength b1).toNat = rest1.length + 1 := by omega
    have hstep := overwriteStep_over ed
      { ({ UndoRecord.empty with mBefore := ed.mState } : UndoRecord) with
        mAddedStart := ⟨(pre.length : Int), c0⟩ } pre post line c0 k how hkl hl ht
    rw [hget, hd] at hstep
    have hDeq : lineChars ((line.drop k).take (rest1.length + 1)) = b1 :: rest1 := by
      rw [lineChars_take, ← lineChars_drop, hdrop]
      exact List.take_left' rfl
    have hrest2 : lineChars (line.drop (k + (rest1.length + 1))) = R := by
      rw [← lineChars_drop, ← List.drop_drop, hdrop]
      exact List.drop_left' rfl
    have hov2 : overwritten ed line c0 = b1 :: rest1 := by
      unfold overwritten
      rw [if_pos how, hidx, Int.toNat_natCast, hdrop]
      have e : (UTF8CharLength b1 - 1).toNat = rest1.length := by omega
      simp only [List.cons_append, e]
      rw [List.take_left' rfl]
    rw [hov2] at hover
    have hkc : k ≤ (lineChars line).length := by
      rw [lineChars_length]
      exact hk
    obtain ⟨ck, hc, _, _, hchar⟩ := char_at_cursor ed.mTabSize ht (lineChars line) c0 k hkc
      hidx hmax
    obtain ⟨_, _, hle, _, hgt⟩ := hchar b1 rest1 R hlen1
    rw [← hdrop, List.take_append_drop] at hle
    have hcur := cursor_is_coord ed pre post line c0 ht hl hcoord
      (lt_of_le_of_lt hc (lt_of_lt_of_le hgt hle))
    rw [hcur] at hstep
    exact typeChar_round_trip ed pre post line _ c0 k ch [] (b1 :: rest1) _ hro ht hlog hl
      hcoord hmax hidx hk hnul hlen h9 h13 h10 hstep rfl rfl
      (by
        show [] ++ lineChars ((line.drop k).take (rest1.length + 1)) = b1 :: rest1
        rw [hDeq]
        rfl)
      (by rw [hdrop, hrest2])
      (Or.inr ⟨b1, rest1, rfl, hlen1, fun x hx => (hover x hx).1,
        (hover b1 (List.mem_cons_self _ _)).2.2, (hover b1 (List.mem_cons_self _ _)).2.1,
        rfl, rfl⟩)
  · have hstep := overwriteStep_insert ed
      { ({ UndoRecord.empty with mBefore := ed.mState } : UndoRecord) with
        mAddedStart := ⟨(pre.length : Int), c0⟩ } ⟨(pre.length : Int), c0⟩ line (k : Int)
      (by
        intro h
        exact hov ⟨h.1, by omega⟩)
    have hstep2 : overwriteStep ed
        { ({ UndoRecord.empty with mBefore := ed.mState } : UndoRecord) with
          mAddedStart := ⟨(pre.length : Int), c0⟩ }
        ⟨(pre.length : Int), c0⟩ line (k : Int) =
        Except.ok (line.take k ++ line.drop k,
          { ({ UndoRecord.empty with mBefore := ed.mState } : UndoRecord) with
            mAddedStart := ⟨(pre.length : Int), c0⟩ }) := by
      rw [List.take_append_drop]
      exact hstep
    exact typeChar_round_trip ed pre post line _ c0 k ch [] [] _ hro ht hlog hl
      hcoord hmax hidx hk hnul hlen h9 h13 h10 hstep2 rfl rfl rfl
      (by rw [lineChars_drop]; rfl) (Or.inl rfl)

set_option maxRecDepth 100000 in
/-- C34 (witness): the line `é<TAB>b` in overwrite mode with the cursor on the accented
letter; `x` is typed over it. -/
theorem EnterCharacter_undo_redo_witness :
    overwriteAccent.mReadOnly = false ∧ overwritten overwriteAccent
      (overwriteAccent.mLines.headD []) 0 = [195, 169] ∧
    ∃ e1 e2 e3, EnterCharacter overwriteAccent 120 false = Except.ok e1 ∧
      Undo e1 1 = Except.ok e2 ∧ Redo e2 1 = Except.ok e3 ∧
      e2.mLines.map lineChars = overwriteAccent.mLines.map lineChars ∧
      e2.mState = overwriteAccent.mState ∧
      e3.mLines = e1.mLines ∧ e3.mState = e1.mState :=
  ⟨by decide, by decide,
    EnterCharacter_undo_redo overwriteAccent 120 false [] [] (overwriteAccent.mLines.headD [])
      0 (by decide) (by decide) (by decide) (by decide) ⟨by decide, by decide⟩ (by decide)
      (by decide) (by decide) (by decide)⟩

set_option maxRecDepth 100000 in
/-- C34 (counterexample): in overwrite mode `a` is typed over a carriage return (the line
of a carriage return and `b`, tab size 4, no selection); `Undo()` puts the removed text
back through `InsertTextAt`, which skips a carriage return, and leaves the line `b`. In
the line of the lone lead byte `0xC3` with the cursor at column 1 the byte index of the
cursor is 2, behind the end of the line, and `EnterCharacter` fails at the insertion. -/
theorem overwritten_control_byte_lost :
    overwriteCR.mLines.map lineChars = [[13, 98]] ∧ overwriteCR.mTabSize = 4 ∧
    overwriteCR.mReadOnly = false ∧ HasSelection overwriteCR = false ∧
    (EnterCharacter overwriteCR 97 false).map (fun e => e.mLines.map lineChars) =
      Except.ok [[97, 98]] ∧
    (EnterCharacter overwriteCR 97 false >>= fun e => Undo e 1).map
        (fun e => e.mLines.map lineChars) = Except.ok [[98]] ∧
    truncatedLead.mLines.map lineChars = [[195]] ∧
    GetCharacterIndex truncatedLead ⟨0, 1⟩ = Except.ok 2 ∧
    (EnterCharacter truncatedLead 97 false).toBool = false :=
  ⟨by decide, by decide, by decide, by decide, by decide, by decide, by decide, by decide,
    by decide⟩

theorem UTF8CharLength_lead2 : ∀ j : Nat, j < 32 → UTF8CharLength (0xc0 + j) = 2 := by
  decide

theorem UTF8CharLength_lead3 : ∀ j : Nat, j < 16 → UTF8CharLength (0xe0 + j) = 3 := by
  decide

theorem IsUTFSequence_cont : ∀ m : Nat, m < 64 → IsUTFSequence (0x80 + m) = true := by
  decide

/-- The bytes `ImTextCharToUtf8` writes for a code point from 32 up to `0xFFFF` outside
the surrogate range: a lead byte whose `UTF8CharLength` is the number of bytes, followed
by continuation bytes; no byte is NUL and the lead byte is no tab. -/
theorem ImTextCharToUtf8_whole (c : Nat) (h32 : 32 ≤ c) (hc : c < 0x10000)
    (hs : ¬ (0xD800 ≤ c ∧ c < 0xE000)) :
    ∃ b0 rest, ImTextCharToUtf8 c = b0 :: rest ∧
      UTF8CharLength b0 = (rest.length : Int) + 1 ∧
      (∀ x ∈ rest, IsUTFSequence x = true) ∧ (∀ x ∈ b0 :: rest, x ≠ 0) ∧ b0 ≠ 9 := by
  have hshift6 : c >>> 6 = c / 64 := Nat.shiftRight_eq_div_pow c 6
  have hshift12 : c >>> 12 = c / 4096 := Nat.shiftRight_eq_div_pow c 12
  have hand : ∀ x : Nat, x &&& 0x3f = x % 64 := fun x => Nat.and_pow_two_sub_one_eq_mod x 6
  by_cases h1 : c < 0x80
  · refine ⟨c, [], ImTextCharToUtf8_ascii c h1, ?_, ?_, ?_, ?_⟩
    · rw [UTF8CharLength_ascii c h1]
      rfl
    · intro x hx
      cases hx
    · intro x hx
      rw [List.mem_singleton] at hx
      intro h0
      have h2 : c = 0 := by
        rw [← hx]
        exact h0
      omega
    · intro h9
      have h2 : c = 9 := h9
      omega
  · by_cases h2 : c < 0x800
    · refine ⟨0xc0 + c / 64, [0x80 + c % 64], ?_, ?_, ?_, ?_, ?_⟩
      · unfold ImTextCharToUtf8
        rw [if_neg h1, if_pos h2, hshift6, hand,
          Nat.mod_eq_of_lt (show 0xc0 + c / 64 < 256 by omega),
          Nat.mod_eq_of_lt (show 0x80 + c % 64 < 256 by omega)]
      · rw [UTF8CharLength_lead2 _ (by omega)]
        rfl
      · intro x hx
        rw [List.mem_singleton] at hx
        rw [hx]
        exact IsUTFSequence_cont _ (Nat.mod_lt _ (by decide))
      · intro x hx h0
        simp only [List.mem_cons, List.mem_singleton, List.not_mem_nil, or_false] at hx
        rcases hx with hx | hx
        · rw [hx] at h0
          have h4 : 0xc0 + c / 64 = 0 := h0
          omega
        · rw [hx] at h0
          have h4 : 0x80 + c % 64 = 0 := h0
          omega
      · intro h9
        have h3 : 0xc0 + c / 64 = 9 := h9
        omega
    · refine ⟨0xe0 + c / 4096, [0x80 + (c / 64) % 64, 0x80 + c % 64], ?_, ?_, ?_, ?_, ?_⟩
      · unfold ImTextCharToUtf8
        rw [if_neg h1, if_neg h2, if_neg (by omega), if_neg (by omega), hshift6, hshift12,
          hand, hand, Nat.mod_eq_of_lt (show 0xe0 + c / 4096 < 256 by omega),
          Nat.mod_eq_of_lt (show 0x80 + c / 64 % 64 < 256 by omega),
          Nat.mod_eq_of_lt (show 0x80 + c % 64 < 256 by omega)]
      · rw [UTF8CharLength_lead3 _ (by omega)]
        rfl
      · intro x hx
        simp only [List.mem_cons, List.mem_singleton, List.not_mem_nil, or_false] at hx
        rcases hx with hx | hx
        · rw [hx]
          exact IsUTFSequence_cont _ (Nat.mod_lt _ (by decide))
        · rw [hx]
          exact IsUTFSequence_cont _ (Nat.mod_lt _ (by decide))
      · intro x hx h0
        simp only [List.mem_cons, List.mem_singleton, List.not_mem_nil, or_false] at hx
        rcases hx with hx | hx | hx
        · rw [hx] at h0
          have h4 : 0xe0 + c / 4096 = 0 := h0
          omega
        · rw [hx] at h0
          have h4 : 0x80 + (c / 64) % 64 = 0 := h0
          omega
        · rw [hx] at h0
          have h4 : 0x80 + c % 64 = 0 := h0
          omega
      · intro h9
        have h3 : 0xe0 + c / 4096 = 9 := h9
        omega

theorem boundaryColumn_mem (bs : List (Int × Int)) (h : bs ≠ []) (index : Int) :
    ∃ q, q ∈ bs ∧ boundaryColumn bs index = q.2 := by
  unfold boundaryColumn
  cases hf : bs.find? (fun q => decide (index ≤ q.1)) with
  | some q => exact ⟨q, List.mem_of_find?_eq_some hf, rfl⟩
  | none => exact ⟨bs.getLastD (0, 0), getLastD_mem bs _ h, rfl⟩

/-- C38 (amended): for every code point `c` with `32 ≤ c < 0x10000` outside the surrogate
range, `ImTextCharToUtf8` writes a lead byte whose `UTF8CharLength` is the number of bytes
written, followed by continuation bytes only; and in an editor that is not read-only, with
tab size at least 1, the cursor of the undo log inside the log and no selection, when the
cursor stands on a character boundary of its line whose byte index is inside the line,
`EnterCharacter(c)` returns and leaves the cursor in the same line exactly one column
further. -/
theorem EnterCharacter_advances_column (ed : Editor) (c : Nat) (aShift : Bool)
    (pre post : Lines) (line : Line) (c0 : Int)
    (hc : 32 ≤ c ∧ c < 0x10000 ∧ ¬ (0xD800 ≤ c ∧ c < 0xE000))
    (hro : ed.mReadOnly = false) (ht : 1 ≤ ed.mTabSize)
    (hsel : HasSelection ed = false) (hlog : UndoInv ed)
    (hl : ed.mLines = pre ++ line :: post)
    (hcur : ed.mState.mCursorPosition = ⟨(pre.length : Int), c0⟩)
    (hin : specCharacterIndex ed.mTabSize line c0 ≤ (line.length : Int))
    (hbd : specCharacterColumn ed.mTabSize line (specCharacterIndex ed.mTabSize line c0) =
      c0) :
    (∃ b0 rest, ImTextCharToUtf8 c = b0 :: rest ∧
      UTF8CharLength b0 = (rest.length : Int) + 1 ∧ ∀ x ∈ rest, IsUTFSequence x = true) ∧
    ∃ e1, EnterCharacter ed c aShift = Except.ok e1 ∧
      e1.mState.mCursorPosition = ⟨(pre.length : Int), c0 + 1⟩ := by
  obtain ⟨b0, rest, hb, hlen, hcont, hnul, h9⟩ := ImTextCharToUtf8_whole c hc.1 hc.2.1 hc.2.2
  refine ⟨⟨b0, rest, hb, hlen, hcont⟩, ?_⟩
  -- the cursor is its own sanitized coordinate
  obtain ⟨q, hq, hqc⟩ := boundaryColumn_mem (lineBoundaries ed.mTabSize line)
    (specBoundaries_ne_nil _ _ _ _ _) (specCharacterIndex ed.mTabSize line c0)
  have hmax : c0 ≤ specLineMaxColumn ed.mTabSize line := by
    have h1 := specBoundaries_le_last ed.mTabSize ht _ 0 0 0 q hq
    unfold specCharacterColumn at hbd
    rw [hqc] at hbd
    rw [← hbd]
    exact h1
  have hcoord : GetActualCursorCoordinates ed = Except.ok ⟨(pre.length : Int), c0⟩ := by
    unfold GetActualCursorCoordinates
    rw [hcur]
    exact SanitizeCoordinates_at ed pre post line c0 hl ht hmax
  -- the byte index of the cursor
  obtain ⟨p, hp, hpi⟩ := boundaryIndex_mem (lineBoundaries ed.mTabSize line)
    (specBoundaries_ne_nil _ _ _ _ _) c0
  have hlo := (specBoundaries_lower ed.mTabSize ht _ 0 0 0 p hp).1
  obtain ⟨k, hidx⟩ : ∃ k : Nat, specCharacterIndex ed.mTabSize line c0 = (k : Int) := by
    refine ⟨(specCharacterIndex ed.mTabSize line c0).toNat, ?_⟩
    unfold specCharacterIndex
    rw [hpi]
    omega
  have hk : k ≤ line.length := by
    rw [hidx] at hin
    omega
  rw [hidx] at hbd
  have h10 : c ≠ 10 := by omega
  rw [EnterCharacter_eq_typeChar ed c aShift hro hsel h10 (by rw [hb]; simp), hb]
  obtain ⟨rest2, uL, hstep⟩ : ∃ rest2 uL, overwriteStep ed
      { ({ UndoRecord.empty with mBefore := ed.mState } : UndoRecord) with
        mAddedStart := ⟨(pre.length : Int), c0⟩ }
      ⟨(pre.length : Int), c0⟩ line (k : Int) = Except.ok (line.take k ++ rest2, uL) := by
    by_cases hov : ed.mOverwrite = true ∧ k < line.length
    · exact ⟨_, _, overwriteStep_over ed _ pre post line c0 k hov.1 hov.2 hl ht⟩
    · have hins := overwriteStep_insert ed
        { ({ UndoRecord.empty with mBefore := ed.mState } : UndoRecord) with
          mAddedStart := ⟨(pre.length : Int), c0⟩ }
        ⟨(pre.length : Int), c0⟩ line k (fun h => hov ⟨h.1, by omega⟩)
      exact ⟨line.drop k, _, by rw [List.take_append_drop]; exact hins⟩
  obtain ⟨e1, he1, hcore⟩ := typeChar_result ed pre post line rest2 c0 k b0 rest uL hro ht
    hlog hl hcoord hmax hidx hk hnul hlen h9 hstep
  obtain ⟨_, g2, _⟩ := core_fields _ _ _ _ _ _ _ _ hcore
  refine ⟨e1, he1, ?_⟩
  rw [g2, hbd]

set_option maxRecDepth 100000 in
/-- C38 (witness): in the line of `a`, `é`, a tab and `b` with the cursor at column 2
(byte index 3, in front of the tab) the letter `é` (code point `0xE9`, two bytes) is
typed; the cursor is at column 3 then. -/
theorem EnterCharacter_advances_column_witness :
    ImTextCharToUtf8 0xE9 = [195, 169] ∧
    (EnterCharacter accentTabAt2 0xE9 false).map
        (fun e => (e.mLines.map lineChars, e.mState.mCursorPosition)) =
      Except.ok ([[97, 195, 169, 195, 169, 9, 98]], ⟨0, 3⟩) ∧
    ((∃ b0 rest, ImTextCharToUtf8 0xE9 = b0 :: rest ∧
        UTF8CharLength b0 = (rest.length : Int) + 1 ∧ ∀ x ∈ rest, IsUTFSequence x = true) ∧
      ∃ e1, EnterCharacter accentTabAt2 0xE9 false = Except.ok e1 ∧
        e1.mState.mCursorPosition = ⟨(([] : Lines).length : Int), 2 + 1⟩) :=
  ⟨by decide, by decide,
    EnterCharacter_advances_column accentTabAt2 0xE9 false [] []
      (accentTabAt2.mLines.headD []) 2 (by decide) (by decide) (by decide) (by decide)
      ⟨by decide, by decide⟩ (by decide) (by decide) (by decide) (by decide)⟩

set_option maxRecDepth 100000 in
/-- C38 (counterexample): with the cursor at column 2 of the line of one tab (tab size 4),
inside the span of the tab, `EnterCharacter('a')` puts `a` behind the tab and leaves the
cursor at column 5, three columns further; with the cursor at column 10 of the line `ab`
it puts `a` at the end of the line and leaves the cursor at column 3. -/
theorem EnterCharacter_cursor_off_boundary :
    cursorInTab.mLines.map lineChars = [[9]] ∧ cursorInTab.mTabSize = 4 ∧
    cursorInTab.mState.mCursorPosition = ⟨0, 2⟩ ∧ HasSelection cursorInTab = false ∧
    (EnterCharacter cursorInTab 97 false).map
        (fun e => (e.mLines.map lineChars, e.mState.mCursorPosition)) =
      Except.ok ([[9, 97]], ⟨0, 5⟩) ∧
    cursorPastEnd.mLines.map lineChars = [[97, 98]] ∧
    cursorPastEnd.mState.mCursorPosition = ⟨0, 10⟩ ∧ HasSelection cursorPastEnd = false ∧
    (EnterCharacter cursorPastEnd 97 false).map
        (fun e => (e.mLines.map lineChars, e.mState.mCursorPosition)) =
      Except.ok ([[97, 98, 97]], ⟨0, 3⟩) :=
  ⟨by decide, by decide, by decide, by decide, by decide, by decide, by decide, by decide,
    by decide⟩

theorem control_eq (b c : CommentScan) (h : c.control = b.control) :
    c = { b with lines := c.lines } := by
  cases b
  cases c
  simp only [CommentScan.control, Prod.mk.injEq] at h
  obtain ⟨h1, h2, h3, h4, h5, h6, h7, h8, h9⟩ := h
  subst h1 h2 h3 h4 h5 h6 h7 h8 h9
  rfl

theorem isEmpty_congr (a a2 : Line) (h : lineChars a2 = lineChars a) :
    a2.isEmpty = a.isEmpty := by
  have hlen : a2.length = a.length := by
    rw [← lineChars_length a2, ← lineChars_length a, h]
  cases a with
  | nil =>
    cases a2 with
    | nil => rfl
    | cons x xs => simp at hlen
  | cons y ys =>
    cases a2 with
    | nil => simp at hlen
    | cons x xs => rfl

/-- The scalar state a turn of the comment pass leaves depends on the scalar state before,
the number of lines and the characters of the line only. -/
theorem commentStepT_control (ld : LanguageDefinition) (b : CommentScan) (Ls : Lines)
    (a a2 : Line) (hch : lineChars a2 = lineChars a) (hlen : Ls.length = b.lines.length) :
    (commentStepT ld { b with lines := Ls } a2).control = (commentStepT ld b a).control := by
  have hl : a2.length = a.length := by
    rw [← lineChars_length a2, ← lineChars_length a, hch]
  have he := isEmpty_congr a a2 hch
  have hc : ∀ i, charAtD a2 i = charAtD a i := fun i => charAtD_congr a2 a i hch
  have hs : ∀ i c, stringSkips a2 i c = stringSkips a i c :=
    fun i c => stringSkips_congr a2 a i c hch
  unfold commentStepT
  rw [he]
  by_cases hemp : a.isEmpty = true
  · rw [if_pos hemp, if_pos hemp]
    rfl
  · rw [if_neg hemp, if_neg hemp]
    simp only [hc]
    unfold turnFinishT
    simp only [turnBranchT_length, hl, CommentScan.control]
    unfold turnBranchT
    by_cases hstr : b.withinString = true
    · simp [hstr, commentStringT, turnFirst, turnReset, hs, hl]
    · by_cases hq : charAtD a b.currentIndex = 34
      · simp [hstr, hq, turnPreproc, turnFirst, turnReset, hl]
      · simp [hstr, hq, commentDefaultT, turnPreproc, turnFirst, turnReset, hch, hl, hlen]

theorem turnBranchT_blockFlags (ld : LanguageDefinition) (s3 : CommentScan) (line : Line)
    (c : Char8) :
    (turnBranchT ld s3 line c).1.map (fun g => g.mMultiLineComment) =
      (if s3.withinString = true ∧ stringSkips line s3.currentIndex c = true then
        ((line.map (fun g => g.mMultiLineComment)).set s3.currentIndex.toNat
          (s3.inComment s3.currentIndex)).set (s3.currentIndex + 1).toNat
          (s3.inComment s3.currentIndex)
       else (line.map (fun g => g.mMultiLineComment)).set s3.currentIndex.toNat
        (if s3.withinString = false ∧ c ≠ 34 ∧
            turnOpens ld (lineChars line) s3.currentIndex s3.withinSingleLineComment = true
          then true else s3.inComment s3.currentIndex)) := by
  unfold turnBranchT
  by_cases hstr : s3.withinString = true
  · simp only [hstr, if_true, commentStringT, true_and, Bool.true_eq_false, false_and,
      if_false]
    by_cases hsk : stringSkips line s3.currentIndex c = true
    · rw [if_pos hsk, if_pos hsk,
        glyphMod_map_set (fun g => g.mMultiLineComment) _ _ _
          (s3.inComment s3.currentIndex) (fun _ => rfl),
        glyphMod_map_set (fun g => g.mMultiLineComment) _ _ _
          (s3.inComment s3.currentIndex) (fun _ => rfl)]
    · rw [if_neg hsk, if_neg hsk,
        glyphMod_map_set (fun g => g.mMultiLineComment) _ _ _
          (s3.inComment s3.currentIndex) (fun _ => rfl)]
  · have hstr2 : s3.withinString = false := by simpa using hstr
    simp only [hstr2, Bool.false_eq_true, if_false, false_and, true_and]
    by_cases hq : c = 34
    · simp only [hq, if_true, ne_eq, not_true_eq_false, false_and, if_false]
      exact glyphMod_map_set (fun g => g.mMultiLineComment) line _ _ _ (fun _ => rfl)
    · simp only [hq, if_false, ne_eq, not_false_eq_true, true_and, commentDefaultT]
      exact glyphMod_map_set (fun g => g.mMultiLineComment) line _ _ _ (fun _ => rfl)

/-- The writes of a turn of the comment pass to the flag `mMultiLineComment` of the
glyphs of its line: which glyphs, and which value, depends on the scalar state and the
characters of the line only. -/
theorem stepT_writes_block (ld : LanguageDefinition) (b : CommentScan) (a : Line)
    (hne : a.isEmpty = false) :
    ∃ ws : List (Nat × Bool), ∀ (Ls : Lines) (a2 : Line), lineChars a2 = lineChars a →
      Ls.length = b.lines.length →
      ∃ line2, (commentStepT ld { b with lines := Ls } a2).lines =
          Ls.set b.currentLine.toNat line2 ∧
        line2.map (fun g => g.mMultiLineComment) =
          flagWrites ws (a2.map (fun g => g.mMultiLineComment)) := by
  refine ⟨if b.withinString = true ∧
      stringSkips a b.currentIndex (charAtD a b.currentIndex) = true then
      [(b.currentIndex.toNat, b.inComment b.currentIndex),
        ((b.currentIndex + 1).toNat, b.inComment b.currentIndex)]
    else [(b.currentIndex.toNat,
      if b.withinString = false ∧ charAtD a b.currentIndex ≠ 34 ∧
          turnOpens ld (lineChars a) b.currentIndex
            (turnReset b).withinSingleLineComment = true
        then true else b.inComment b.currentIndex)], fun Ls a2 hch hlen => ?_⟩
  have hne2 : a2.isEmpty = false := by rw [isEmpty_congr a a2 hch]; exact hne
  refine ⟨_, commentStepT_lines ld _ a2 hne2, ?_⟩
  rw [glyphMod_map_keep]
  · rw [turnBranchT_blockFlags, charAtD_congr a2 a _ hch, stringSkips_congr a2 a _ _ hch,
      hch]
    simp only [turnFirst, turnReset, CommentScan.inComment, flagWrites]
    by_cases hsk : b.withinString = true ∧
        stringSkips a b.currentIndex (charAtD a b.currentIndex) = true
    · rw [if_pos hsk, if_pos hsk]
      rfl
    · rw [if_neg hsk, if_neg hsk]
      rfl
  · exact fun _ => rfl

theorem stepT_writes_comment (ld : LanguageDefinition) (b : CommentScan) (a : Line)
    (hne : a.isEmpty = false) :
    ∃ ws : List (Nat × Bool), ∀ (Ls : Lines) (a2 : Line), lineChars a2 = lineChars a →
      Ls.length = b.lines.length →
      ∃ line2, (commentStepT ld { b with lines := Ls } a2).lines =
          Ls.set b.currentLine.toNat line2 ∧
        line2.map (fun g => g.mComment) = flagWrites ws (a2.map (fun g => g.mComment)) := by
  refine ⟨if b.withinString = false ∧ charAtD a b.currentIndex ≠ 34 then
      [(b.currentIndex.toNat, turnSingle ld (lineChars a) b.currentIndex
        (turnReset b).withinSingleLineComment)]
    else [], fun Ls a2 hch hlen => ?_⟩
  have hne2 : a2.isEmpty = false := by rw [isEmpty_congr a a2 hch]; exact hne
  obtain ⟨line2, h1, h2⟩ := commentStepT_comFlags ld { b with lines := Ls } a2 hne2
  refine ⟨line2, h1, ?_⟩
  rw [h2, charAtD_congr a2 a _ hch, hch]
  split_ifs <;> rfl

theorem stepT_writes_preproc (ld : LanguageDefinition) (b : CommentScan) (a : Line)
    (hne : a.isEmpty = false) :
    ∃ ws : List (Nat × Bool), ∀ (Ls : Lines) (a2 : Line), lineChars a2 = lineChars a →
      Ls.length = b.lines.length →
      ∃ line2, (commentStepT ld { b with lines := Ls } a2).lines =
          Ls.set b.currentLine.toNat line2 ∧
        line2.map (fun g => g.mPreprocessor) =
          flagWrites ws (a2.map (fun g => g.mPreprocessor)) := by
  refine ⟨[((turnTarget b a).toNat, (commentStepT ld b a).withinPreproc)],
    fun Ls a2 hch hlen => ?_⟩
  have hne2 : a2.isEmpty = false := by rw [isEmpty_congr a a2 hch]; exact hne
  obtain ⟨line2, h1, h2⟩ := commentStepT_preFlags ld { b with lines := Ls } a2 hne2
  refine ⟨line2, h1, ?_⟩
  have hctl := commentStepT_control ld b Ls a a2 hch hlen
  simp only [CommentScan.control, Prod.mk.injEq] at hctl
  rw [h2, hctl.2.2.2.2.1]
  have ht : turnTarget { b with lines := Ls } a2 = turnTarget b a :=
    turnTarget_congr _ a2 a hch
  rw [ht]
  rfl

theorem flagWrites_length (ws : List (Nat × Bool)) :
    ∀ xs : List Bool, (flagWrites ws xs).length = xs.length := by
  induction ws with
  | nil => intro xs; rfl
  | cons w ws ih =>
    intro xs
    show (flagWrites ws (xs.set w.1 w.2)).length = xs.length
    rw [ih, List.length_set]

/-- The same writes to two lists of flags of one length: behind them the lists agree at
an index, or both have there the value they had. -/
theorem flagWrites_agree (ws : List (Nat × Bool)) :
    ∀ (x y : List Bool), x.length = y.length → ∀ j : Nat,
      (flagWrites ws x)[j]? = (flagWrites ws y)[j]? ∨
        ((flagWrites ws x)[j]? = x[j]? ∧ (flagWrites ws y)[j]? = y[j]?) := by
  induction ws with
  | nil => intro x y _ j; exact Or.inr ⟨rfl, rfl⟩
  | cons w ws ih =>
    intro x y hlen j
    have h := ih (x.set w.1 w.2) (y.set w.1 w.2) (by rw [List.length_set, List.length_set, hlen]) j
    show (flagWrites ws (x.set w.1 w.2))[j]? = (flagWrites ws (y.set w.1 w.2))[j]? ∨
      ((flagWrites ws (x.set w.1 w.2))[j]? = x[j]? ∧
        (flagWrites ws (y.set w.1 w.2))[j]? = y[j]?)
    rcases h with h | ⟨h1, h2⟩
    · exact Or.inl h
    · by_cases hj : w.1 = j
      · left
        rw [h1, h2, hj]
        by_cases hlt : j < x.length
        · rw [List.getElem?_set_self hlt, List.getElem?_set_self (by omega)]
        · rw [List.getElem?_eq_none (by rw [List.length_set]; omega),
            List.getElem?_eq_none (by rw [List.length_set]; omega)]
      · right
        rw [h1, h2, List.getElem?_set_ne hj, List.getElem?_set_ne hj]
        exact ⟨rfl, rfl⟩

theorem commentStepT_empty_lines (ld : LanguageDefinition) (b : CommentScan) (line : Line)
    (hemp : line.isEmpty = true) : (commentStepT ld b line).lines = b.lines := by
  unfold commentStepT
  rw [if_pos hemp]
  rfl

theorem charsOf_length (A B : Lines) (h : charsOf A = charsOf B) : A.length = B.length := by
  have := congrArg List.length h
  simpa [charsOf] using this

/-- Two turns of the comment pass from states with the same scalar members, on lines with
the same characters, leave states with the same scalar members. -/
theorem step_control (ld : LanguageDefinition) (b c b2 c2 : CommentScan)
    (h1 : commentStep ld b = Except.ok b2) (h2 : commentStep ld c = Except.ok c2)
    (hctl : c.control = b.control) (hch : charsOf c.lines = charsOf b.lines) :
    c2.control = b2.control ∧ charsOf c2.lines = charsOf b2.lines := by
  refine ⟨?_, ?_⟩
  · obtain ⟨line, _, _, hline, _, hb2⟩ := commentStep_eq ld b b2 h1
    obtain ⟨line2, _, _, hline2, _, hc2⟩ := commentStep_eq ld c c2 h2
    have hceq := control_eq b c hctl
    have hcl : c.currentLine = b.currentLine := by
      simp only [CommentScan.control, Prod.mk.injEq] at hctl
      exact hctl.2.2.2.2.2.2.2.1
    have hchars : lineChars line2 = lineChars line := by
      have e1 := charsOf_getElem? _ _ _ hline
      have e2 := charsOf_getElem? _ _ _ hline2
      rw [hcl, hch, e1] at e2
      injection e2 with e2
      exact e2.symm
    rw [hb2, hc2, hceq]
    exact commentStepT_control ld b c.lines line line2 hchars (charsOf_length _ _ hch)
  · have r1 : commentRun ld 1 b = Except.ok b2 := by
      rw [commentRun_succ, h1]
      rfl
    have r2 : commentRun ld 1 c = Except.ok c2 := by
      rw [commentRun_succ, h2]
      rfl
    rw [commentRun_chars ld 1 c c2 r2, commentRun_chars ld 1 b b2 r1]
    exact hch

/-- Two turns of the comment pass from states with the same scalar members, on lines with
the same characters: a flag whose writes depend on the scalar state and the characters
only agrees behind the turns wherever it agreed before, and wherever a turn wrote it. -/
theorem step_agree (p : Glyph → Bool) (ld : LanguageDefinition)
    (hw : ∀ (b : CommentScan) (a : Line), a.isEmpty = false →
      ∃ ws : List (Nat × Bool), ∀ (Ls : Lines) (a2 : Line), lineChars a2 = lineChars a →
        Ls.length = b.lines.length →
        ∃ line2, (commentStepT ld { b with lines := Ls } a2).lines =
            Ls.set b.currentLine.toNat line2 ∧
          line2.map p = flagWrites ws (a2.map p))
    (L1 L2 : Lines) (b c b2 c2 : CommentScan)
    (h1 : commentStep ld b = Except.ok b2) (h2 : commentStep ld c = Except.ok c2)
    (hctl : c.control = b.control) (hch : charsOf c.lines = charsOf b.lines)
    (hag : FlagsAgree p L1 L2 b.lines c.lines) :
    FlagsAgree p L1 L2 b2.lines c2.lines := by
  obtain ⟨line, hb0, hb1, hline, _, hb2⟩ := commentStep_eq ld b b2 h1
  obtain ⟨line2, _, hc1, hline2, _, hc2⟩ := commentStep_eq ld c c2 h2
  have hceq := control_eq b c hctl
  have hcl : c.currentLine = b.currentLine := by
    simp only [CommentScan.control, Prod.mk.injEq] at hctl
    exact hctl.2.2.2.2.2.2.2.1
  have hchars : lineChars line2 = lineChars line := by
    have e1 := charsOf_getElem? _ _ _ hline
    have e2 := charsOf_getElem? _ _ _ hline2
    rw [hcl, hch, e1] at e2
    injection e2 with e2
    exact e2.symm
  have hlen := charsOf_length _ _ hch
  by_cases hemp : line.isEmpty = true
  · have hemp2 : line2.isEmpty = true := by rw [isEmpty_congr line line2 hchars]; exact hemp
    rw [hb2, hc2, commentStepT_empty_lines ld b line hemp,
      commentStepT_empty_lines ld c line2 hemp2]
    exact hag
  · have hne : line.isEmpty = false := by simpa using hemp
    obtain ⟨ws, hws⟩ := hw b line hne
    obtain ⟨x, hx1, hx2⟩ := hws b.lines line rfl rfl
    obtain ⟨y, hy1, hy2⟩ := hws c.lines line2 hchars hlen
    have hbl : b2.lines = b.lines.set b.currentLine.toNat x := by
      rw [hb2]
      exact hx1
    have hcl2 : c2.lines = c.lines.set b.currentLine.toNat y := by
      rw [hc2, hceq]
      exact hy1
    intro l j
    rw [hbl, hcl2, projAt_set p _ _ _ (by omega) l j, projAt_set p _ _ _ (by omega) l j]
    by_cases hl : l = b.currentLine.toNat
    · rw [if_pos hl, if_pos hl, hx2, hy2]
      have hml : (line.map p).length = (line2.map p).length := by
        rw [List.length_map, List.length_map, ← lineChars_length line,
          ← lineChars_length line2, hchars]
      rcases flagWrites_agree ws _ _ hml j with h | ⟨ha, hb⟩
      · exact Or.inl h
      · rw [ha, hb]
        have hag2 := hag l j
        rw [hl, projAt_eq p _ _ j line hline,
          projAt_eq p _ _ j line2 (by rw [← hcl]; exact hline2)] at hag2
        rw [hl]
        exact hag2
    · rw [if_neg hl, if_neg hl]
      exact hag l j

theorem ScansAgree_run (ld : LanguageDefinition) (L1 L2 : Lines) (m : Nat) :
    ∀ (b c bf cf : CommentScan), ScansAgree L1 L2 b c → commentRun ld m b = Except.ok bf →
      commentRun ld m c = Except.ok cf → ScansAgree L1 L2 bf cf := by
  induction m with
  | zero =>
    intro b c bf cf h hb hc
    simp only [commentRun, pure, Except.pure] at hb hc
    injection hb with hb
    injection hc with hc
    rw [← hb, ← hc]
    exact h
  | succ n ih =>
    intro b c bf cf h hb hc
    rw [commentRun_succ] at hb hc
    obtain ⟨b1, hb1, hb⟩ := bind_ok _ _ _ hb
    obtain ⟨c1, hc1, hc⟩ := bind_ok _ _ _ hc
    obtain ⟨hctl, hch, f1, f2, f3⟩ := h
    obtain ⟨hctl1, hch1⟩ := step_control ld b c b1 c1 hb1 hc1 hctl hch
    exact ih b1 c1 bf cf ⟨hctl1, hch1,
      step_agree _ ld (stepT_writes_comment ld) L1 L2 b c b1 c1 hb1 hc1 hctl hch f1,
      step_agree _ ld (stepT_writes_block ld) L1 L2 b c b1 c1 hb1 hc1 hctl hch f2,
      step_agree _ ld (stepT_writes_preproc ld) L1 L2 b c b1 c1 hb1 hc1 hctl hch f3⟩ hb hc

theorem ScansAgree_start (L1 L2 : Lines) (hch : charsOf L2 = charsOf L1) :
    ScansAgree L1 L2 (CommentScan.start L1) (CommentScan.start L2) := by
  have hlen := charsOf_length _ _ hch
  refine ⟨?_, hch, fun l j => Or.inr ⟨rfl, rfl⟩, fun l j => Or.inr ⟨rfl, rfl⟩,
    fun l j => Or.inr ⟨rfl, rfl⟩⟩
  simp only [CommentScan.control, CommentScan.start, hlen]

/-- The comment pass on two buffers with the same text, when it ends on both: the lines
it leaves have each of the flags `mComment`, `mMultiLineComment` and `mPreprocessor` equal
at every glyph at which the pass wrote the flag; where the values differ, both are the
values the flag had before the pass. -/
theorem comment_flags_agree (ld : LanguageDefinition) (L1 L2 F1 F2 : Lines)
    (hch : charsOf L2 = charsOf L1) (h1 : commentPass ld L1 = Except.ok F1)
    (h2 : commentPass ld L2 = Except.ok F2) :
    charsOf F2 = charsOf F1 ∧ FlagsAgree (fun g => g.mComment) L1 L2 F1 F2 ∧
      FlagsAgree (fun g => g.mMultiLineComment) L1 L2 F1 F2 ∧
      FlagsAgree (fun g => g.mPreprocessor) L1 L2 F1 F2 := by
  obtain ⟨k1, f1, hk1, hf1, hend1, _⟩ := commentPass_run ld L1 F1 h1
  obtain ⟨k2, f2, hk2, hf2, hend2, _⟩ := commentPass_run ld L2 F2 h2
  have hlen := charsOf_length _ _ hch
  have hstart := ScansAgree_start L1 L2 hch
  have hline : ∀ b c : CommentScan, ScansAgree L1 L2 b c → c.currentLine = b.currentLine := by
    intro b c h
    have := h.1
    simp only [CommentScan.control, Prod.mk.injEq] at this
    exact this.2.2.2.2.2.2.2.1
  have hk : k1 = k2 := by
    rcases Nat.lt_trichotomy k1 k2 with hlt | heq | hgt
    · obtain ⟨j, rfl⟩ : ∃ j, k2 = k1 + (j + 1) := ⟨k2 - k1 - 1, by omega⟩
      obtain ⟨s, hs, hrest⟩ := commentRun_prefix ld k1 (j + 1) _ f2 hk2
      have hag := ScansAgree_run ld L1 L2 k1 _ _ f1 s hstart hk1 hs
      have hsl := hline _ _ hag
      have hslen : s.lines.length = L2.length := commentRun_length ld k1 _ s hs
      rw [commentRun_succ, commentStep_at_end ld s (by rw [hslen, hsl, hlen]; exact hend1)]
        at hrest
      cases hrest
    · exact heq
    · obtain ⟨j, rfl⟩ : ∃ j, k1 = k2 + (j + 1) := ⟨k1 - k2 - 1, by omega⟩
      obtain ⟨s, hs, hrest⟩ := commentRun_prefix ld k2 (j + 1) _ f1 hk1
      have hag := ScansAgree_run ld L1 L2 k2 _ _ s f2 hstart hs hk2
      have hsl := hline _ _ hag
      have hslen : s.lines.length = L1.length := commentRun_length ld k2 _ s hs
      rw [commentRun_succ, commentStep_at_end ld s (by rw [hslen, ← hsl, ← hlen]; exact hend2)]
        at hrest
      cases hrest
  subst hk
  obtain ⟨_, hc, g1, g2, g3⟩ := ScansAgree_run ld L1 L2 k1 _ _ f1 f2 hstart hk1 hk2
  rw [← hf1, ← hf2]
  exact ⟨hc, g1, g2, g3⟩

set_option maxRecDepth 100000 in
/-- C35: the line `//a` is set and colorized, which flags its three glyphs `mComment`;
then a quote is typed at the start of the line and the buffer is colorized again. The
comment pass is in the string state from the quote on and writes `mComment` in no turn of
that state: the glyphs of `//a` keep the flag. In the buffer in which the same text is set
at once, no glyph has the flag. -/
theorem stale_comment_flag_in_string :
    quoteTypedBeforeComment.map (fun e => e.mLines.map lineChars) =
      Except.ok [[34, 47, 47, 97]] ∧
    quoteCommentSet.map (fun e => e.mLines.map lineChars) = Except.ok [[34, 47, 47, 97]] ∧
    quoteTypedBeforeComment.map (fun e => e.mLines.map (List.map fun g => g.mComment)) =
      Except.ok [[false, true, true, true]] ∧
    quoteCommentSet.map (fun e => e.mLines.map (List.map fun g => g.mComment)) =
      Except.ok [[false, false, false, false]] ∧
    charsOf staleCommentLines = charsOf (textLines [34, 47, 47, 97]) ∧
    (commentPass LanguageDefinition.CPlusPlus staleCommentLines).map
        (fun ls => ls.map (List.map fun g => g.mComment)) =
      Except.ok [[false, true, true, true]] ∧
    (commentPass LanguageDefinition.CPlusPlus (textLines [34, 47, 47, 97])).map
        (fun ls => ls.map (List.map fun g => g.mComment)) =
      Except.ok [[false, false, false, false]] :=
  ⟨by decide, by decide, by decide, by decide, by decide, by decide, by decide⟩

theorem readAt_some (text : List Char8) (p : Nat) (c : Char8) (h : text[p]? = some c) :
    readAt text p = Except.ok c := by
  unfold readAt
  rw [h]
  rfl

theorem drop_of_getElem? {α : Type} (text : List α) (p : Nat) (c : α)
    (h : text[p]? = some c) : text.drop p = c :: text.drop (p + 1) := by
  obtain ⟨hlt, hval⟩ := List.getElem?_eq_some_iff.mp h
  rw [← hval]
  exact List.drop_eq_getElem_cons hlt

theorem lt_of_getElem? {α : Type} (text : List α) (p : Nat) (c : α)
    (h : text[p]? = some c) : p < text.length :=
  (List.getElem?_eq_some_iff.mp h).1

theorem scanReads_eq (pred : Char8 → Bool) (text : List Char8) :
    ∀ (fuel p : Nat), text.length ≤ p + fuel →
      scanReads pred text fuel p = Except.ok (spanFrom pred text p) := by
  intro fuel
  induction fuel with
  | zero =>
    intro p h
    have hd : text.drop p = [] := List.drop_eq_nil_of_le (by omega)
    simp [scanReads, spanFrom, hd, pure, Except.pure]
  | succ n ih =>
    intro p h
    unfold scanReads
    cases hc : text[p]? with
    | none =>
      have hp : ¬ p < text.length := by
        have := List.getElem?_eq_none_iff.mp hc
        omega
      rw [if_neg hp]
      have hd : text.drop p = [] := List.drop_eq_nil_of_le (by omega)
      simp [spanFrom, hd, pure, Except.pure]
    | some c =>
      have hp := lt_of_getElem? text p c hc
      have hd := drop_of_getElem? text p c hc
      rw [if_pos hp, readAt_some text p c hc]
      simp only [bind, Except.bind]
      by_cases hpc : pred c = true
      · rw [if_pos hpc, ih (p + 1) (by omega)]
        simp only [spanFrom, hd, List.takeWhile_cons_of_pos hpc, List.length_cons]
        congr 1
        omega
      · rw [if_neg hpc]
        simp only [spanFrom, hd, List.takeWhile_cons_of_neg hpc, List.length_nil, pure,
          Except.pure, Nat.add_zero]

theorem quotedReads_eq (q : Char8) (text : List Char8) :
    ∀ (fuel p : Nat), text.length ≤ p + fuel →
      quotedReads q text fuel p = Except.ok (quotedEnd q (text.drop p) p) := by
  intro fuel
  induction fuel with
  | zero =>
    intro p h
    have hd : text.drop p = [] := List.drop_eq_nil_of_le (by omega)
    rw [hd]
    rfl
  | succ n ih =>
    intro p h
    unfold quotedReads
    cases hc : text[p]? with
    | none =>
      have hp : ¬ p < text.length := by
        have := List.getElem?_eq_none_iff.mp hc
        omega
      rw [if_neg hp]
      have hd : text.drop p = [] := List.drop_eq_nil_of_le (by omega)
      rw [hd]
      rfl
    | some c =>
      have hp := lt_of_getElem? text p c hc
      have hd := drop_of_getElem? text p c hc
      rw [if_pos hp, readAt_some text p c hc, hd]
      simp only [bind, Except.bind]
      by_cases hq : c = q
      · rw [if_pos hq]
        cases text.drop (p + 1) with
        | nil => simp only [quotedEnd, hq, if_true, pure, Except.pure]
        | cons d rest => simp only [quotedEnd, hq, if_true, pure, Except.pure]
      · rw [if_neg hq]
        cases hc1 : text[p + 1]? with
        | none =>
          have hp1 : ¬ p + 1 < text.length := by
            have := List.getElem?_eq_none_iff.mp hc1
            omega
          have hd1 : text.drop (p + 1) = [] := List.drop_eq_nil_of_le (by omega)
          rw [if_neg (fun h => hp1 h.2)]
          simp only [pure, Except.pure, Bool.false_eq_true, if_false]
          rw [ih (p + 1) (by omega), hd1]
          simp only [quotedEnd, hq, if_false]
        | some d =>
          have hp1 := lt_of_getElem? text (p + 1) d hc1
          have hd1 := drop_of_getElem? text (p + 1) d hc1
          by_cases h92 : c = 92
          · subst h92
            rw [if_pos ⟨rfl, hp1⟩, readAt_some text (p + 1) d hc1]
            simp only [pure, Except.pure]
            by_cases hdq : d = q
            · simp only [hdq, decide_True, if_true]
              rw [ih (p + 2) (by omega), hd1]
              simp only [quotedEnd, hq, if_false, hdq, and_self, if_true]
            · simp only [hdq, decide_False, Bool.false_eq_true, if_false]
              rw [ih (p + 1) (by omega), hd1]
              simp only [quotedEnd, hq, if_false, hdq, and_false]
          · rw [if_neg (fun h => h92 h.1)]
            simp only [pure, Except.pure, Bool.false_eq_true, if_false]
            rw [ih (p + 1) (by omega), hd1]
            simp only [quotedEnd, hq, if_false, h92, false_and]

theorem TokenizeCStyleStringReads_eq (c0 : Char8) (rest : List Char8) :
    TokenizeCStyleStringReads (c0 :: rest) = Except.ok (TokenizeCStyleString (c0 :: rest)) := by
  unfold TokenizeCStyleStringReads TokenizeCStyleString
  rw [readAt_some (c0 :: rest) 0 c0 List.getElem?_cons_zero]
  simp only [bind, Except.bind]
  by_cases h : c0 = 34
  · rw [if_pos h, if_pos h, quotedReads_eq 34 (c0 :: rest) _ 1 (by omega)]
    rfl
  · rw [if_neg h, if_neg h]
    rfl

theorem TokenizeCStyleCharacterLiteralReads_eq (c0 : Char8) (rest : List Char8) :
    TokenizeCStyleCharacterLiteralReads (c0 :: rest) =
      Except.ok (TokenizeCStyleCharacterLiteral (c0 :: rest)) := by
  unfold TokenizeCStyleCharacterLiteralReads TokenizeCStyleCharacterLiteral
  rw [readAt_some (c0 :: rest) 0 c0 List.getElem?_cons_zero]
  simp only [bind, Except.bind]
  by_cases h : c0 = 39
  · rw [if_pos h, if_pos h, quotedReads_eq 39 (c0 :: rest) _ 1 (by omega)]
    rfl
  · rw [if_neg h, if_neg h]
    rfl

theorem TokenizeCStyleIdentifierReads_eq (c0 : Char8) (rest : List Char8) :
    TokenizeCStyleIdentifierReads (c0 :: rest) =
      Except.ok (TokenizeCStyleIdentifier (c0 :: rest)) := by
  unfold TokenizeCStyleIdentifierReads TokenizeCStyleIdentifier
  rw [readAt_some (c0 :: rest) 0 c0 List.getElem?_cons_zero]
  simp only [bind, Except.bind]
  by_cases h : isIdentStart c0 = true
  · rw [if_pos h, if_pos h, scanReads_eq isIdentChar (c0 :: rest) _ 1 (by omega)]
    rfl
  · rw [if_neg h, if_neg h]
    rfl

theorem TokenizeCStylePunctuationReads_eq (c0 : Char8) (rest : List Char8) :
    TokenizeCStylePunctuationReads (c0 :: rest) =
      Except.ok (TokenizeCStylePunctuation (c0 :: rest)) := by
  unfold TokenizeCStylePunctuationReads TokenizeCStylePunctuation
  rw [readAt_some (c0 :: rest) 0 c0 List.getElem?_cons_zero]
  rfl

theorem numberTailReads_eq (text : List Char8) (p1 : Nat) :
    numberTailReads text p1 = Except.ok (numberTail text p1) := by
  unfold numberTail
  unfold numberTailReads
  cases hc : text[p1]? with
  | none =>
    have hp : ¬ p1 < text.length := by
      have := List.getElem?_eq_none_iff.mp hc
      omega
    rw [if_neg hp]
    rfl
  | some d =>
    rw [if_pos (lt_of_getElem? text p1 d hc), readAt_some text p1 d hc]
    simp only [bind, Except.bind, scanReads_eq _ text text.length _ (Nat.le_add_left _ _)]
    split_ifs <;> rfl

theorem numberExponentReads_eq (text : List Char8) (isFloat : Bool) (p2 : Nat) :
    numberExponentReads text isFloat p2 = Except.ok (numberExponent text isFloat p2) := by
  unfold numberExponent
  unfold numberExponentReads
  cases hc : text[p2]? with
  | none =>
    have hp : ¬ p2 < text.length := by
      have := List.getElem?_eq_none_iff.mp hc
      omega
    rw [if_neg hp]
    rfl
  | some e =>
    rw [if_pos (lt_of_getElem? text p2 e hc), readAt_some text p2 e hc]
    simp only [bind, Except.bind]
    by_cases he : e = 101 ∨ e = 69
    · rw [if_pos he, if_pos he]
      cases hs : text[p2 + 1]? with
      | none =>
        have hp : ¬ p2 + 1 < text.length := by
          have := List.getElem?_eq_none_iff.mp hs
          omega
        rw [if_neg hp]
        simp only [pure, Except.pure,
          scanReads_eq _ text text.length _ (Nat.le_add_left _ _)]
      | some sgn =>
        rw [if_pos (lt_of_getElem? text (p2 + 1) sgn hs),
          readAt_some text (p2 + 1) sgn hs]
        simp only [pure, Except.pure,
          scanReads_eq _ text text.length _ (Nat.le_add_left _ _)]
    · rw [if_neg he, if_neg he]
      rfl

theorem floatSuffixReads_eq (text : List Char8) (p : Nat) :
    floatSuffixReads text p = Except.ok (if text[p]? = some 102 then p + 1 else p) := by
  unfold floatSuffixReads
  cases hc : text[p]? with
  | none =>
    have hp : ¬ p < text.length := by
      have := List.getElem?_eq_none_iff.mp hc
      omega
    rw [if_neg hp]
    rfl
  | some c =>
    rw [if_pos (lt_of_getElem? text p c hc), readAt_some text p c hc]
    simp only [bind, Except.bind, pure, Except.pure, Option.some.injEq]

theorem TokenizeCStyleNumber_unfold (c0 : Char8) (rest : List Char8) :
    TokenizeCStyleNumber (c0 :: rest) =
      (if c0 ≠ 43 ∧ c0 ≠ 45 ∧ isDigit c0 = false then none
       else if (isDigit c0 || decide (1 < spanFrom isDigit (c0 :: rest) 1)) = false then none
       else
        (if (numberTail (c0 :: rest) (spanFrom isDigit (c0 :: rest) 1)).2.1 = false ∧
            (numberTail (c0 :: rest) (spanFrom isDigit (c0 :: rest) 1)).2.2.1 = false then
          (numberExponent (c0 :: rest)
              (numberTail (c0 :: rest) (spanFrom isDigit (c0 :: rest) 1)).1
              (numberTail (c0 :: rest) (spanFrom isDigit (c0 :: rest) 1)).2.2.2).map
            fun q => (q.1, if (c0 :: rest)[q.2]? = some 102 then q.2 + 1 else q.2)
         else some ((numberTail (c0 :: rest) (spanFrom isDigit (c0 :: rest) 1)).1,
           (numberTail (c0 :: rest) (spanFrom isDigit (c0 :: rest) 1)).2.2.2)).map
          fun q => if q.1 = false then spanFrom isSizeSuffix (c0 :: rest) q.2 else q.2) := rfl

theorem TokenizeCStyleNumberReads_eq (c0 : Char8) (rest : List Char8) :
    TokenizeCStyleNumberReads (c0 :: rest) =
      Except.ok (TokenizeCStyleNumber (c0 :: rest)) := by
  rw [TokenizeCStyleNumber_unfold]
  unfold TokenizeCStyleNumberReads
  rw [readAt_some (c0 :: rest) 0 c0 List.getElem?_cons_zero]
  simp only [bind, Except.bind]
  by_cases h0 : c0 ≠ 43 ∧ c0 ≠ 45 ∧ isDigit c0 = false
  · rw [if_pos h0, if_pos h0]
    rfl
  · rw [if_neg h0, if_neg h0,
      scanReads_eq isDigit (c0 :: rest) _ 1 (by omega)]
    simp only
    by_cases hn : (isDigit c0 || decide (1 < spanFrom isDigit (c0 :: rest) 1)) = false
    · rw [if_pos hn, if_pos hn]
      rfl
    · rw [if_neg hn, if_neg hn, numberTailReads_eq]
      simp only
      generalize numberTail (c0 :: rest) (spanFrom isDigit (c0 :: rest) 1) = r1
      by_cases hx : r1.2.1 = false ∧ r1.2.2.1 = false
      · rw [if_pos hx, if_pos hx, numberExponentReads_eq]
        simp only
        generalize numberExponent (c0 :: rest) r1.1 r1.2.2.2 = r
        cases r with
        | none => rfl
        | some q =>
          simp only [floatSuffixReads_eq, Option.map_some']
          by_cases hq : q.1 = false
          · simp only [hq, if_true,
              scanReads_eq _ (c0 :: rest) _ _ (Nat.le_add_left _ _)]
            rfl
          · simp only [hq, if_false]
            rfl
      · rw [if_neg hx, if_neg hx]
        simp only [Option.map_some']
        by_cases hq : r1.1 = false
        · simp only [hq, if_true,
            scanReads_eq _ (c0 :: rest) _ _ (Nat.le_add_left _ _)]
          rfl
        · simp only [hq, if_false]
          rfl

theorem spanFrom_ge (pred : Char8 → Bool) (text : List Char8) (p : Nat) :
    p ≤ spanFrom pred text p := by
  unfold spanFrom
  omega

theorem takeWhile_length_le {α : Type} (pred : α → Bool) :
    ∀ l : List α, (l.takeWhile pred).length ≤ l.length := by
  intro l
  induction l with
  | nil => exact le_refl _
  | cons a rest ih =>
    by_cases h : pred a = true
    · rw [List.takeWhile_cons_of_pos h]
      simp only [List.length_cons]
      omega
    · rw [List.takeWhile_cons_of_neg h]
      simp only [List.length_nil, List.length_cons]
      omega

theorem spanFrom_le (pred : Char8 → Bool) (text : List Char8) (p : Nat)
    (h : p ≤ text.length) : spanFrom pred text p ≤ text.length := by
  unfold spanFrom
  have h1 := takeWhile_length_le pred (text.drop p)
  rw [List.length_drop] at h1
  omega

theorem quotedEnd_bounds (q : Char8) : ∀ (n : Nat) (l : List Char8) (p e : Nat),
    l.length ≤ n → quotedEnd q l p = some e → p < e ∧ e ≤ p + l.length := by
  intro n
  induction n with
  | zero =>
    intro l p e hl h
    have : l = [] := List.length_eq_zero.mp (by omega)
    subst this
    simp [quotedEnd] at h
  | succ m ih =>
    intro l p e hl h
    cases l with
    | nil => simp [quotedEnd] at h
    | cons c rest =>
      cases rest with
      | nil =>
        simp only [quotedEnd] at h
        split_ifs at h
        injection h with h
        simp only [List.length_cons, List.length_nil]
        omega
      | cons d rest2 =>
        simp only [quotedEnd] at h
        simp only [List.length_cons] at hl ⊢
        split_ifs at h
        · injection h with h
          omega
        · have := ih rest2 (p + 2) e (by omega) h
          omega
        · have := ih (d :: rest2) (p + 1) e (by simp only [List.length_cons]; omega) h
          simp only [List.length_cons] at this
          omega

theorem TokenizeCStyleString_bounds (t : List Char8) (e : Nat)
    (h : TokenizeCStyleString t = some e) : 0 < e ∧ e ≤ t.length := by
  unfold TokenizeCStyleString at h
  cases t with
  | nil => cases h
  | cons c rest =>
    simp only at h
    split_ifs at h
    have := quotedEnd_bounds 34 rest.length rest 1 e (le_refl _) h
    simp only [List.length_cons]
    omega

theorem TokenizeCStyleCharacterLiteral_bounds (t : List Char8) (e : Nat)
    (h : TokenizeCStyleCharacterLiteral t = some e) : 0 < e ∧ e ≤ t.length := by
  unfold TokenizeCStyleCharacterLiteral at h
  cases t with
  | nil => cases h
  | cons c rest =>
    simp only at h
    split_ifs at h
    have := quotedEnd_bounds 39 rest.length rest 1 e (le_refl _) h
    simp only [List.length_cons]
    omega

theorem TokenizeCStyleIdentifier_bounds (t : List Char8) (e : Nat)
    (h : TokenizeCStyleIdentifier t = some e) : 0 < e ∧ e ≤ t.length := by
  unfold TokenizeCStyleIdentifier at h
  cases t with
  | nil => cases h
  | cons c rest =>
    simp only at h
    split_ifs at h
    injection h with h
    have h1 := spanFrom_ge isIdentChar (c :: rest) 1
    have h2 := spanFrom_le isIdentChar (c :: rest) 1 (by simp only [List.length_cons]; omega)
    omega

theorem TokenizeCStylePunctuation_bounds (t : List Char8) (e : Nat)
    (h : TokenizeCStylePunctuation t = some e) : 0 < e ∧ e ≤ t.length := by
  unfold TokenizeCStylePunctuation at h
  cases t with
  | nil => cases h
  | cons c rest =>
    simp only at h
    split_ifs at h
    injection h with h
    simp only [List.length_cons]
    omega

theorem numberTail_bounds (text : List Char8) (p1 : Nat) (h : p1 ≤ text.length) :
    p1 ≤ (numberTail text p1).2.2.2 ∧ (numberTail text p1).2.2.2 ≤ text.length := by
  unfold numberTail
  cases hc : text[p1]? with
  | none => exact ⟨le_refl _, h⟩
  | some d =>
    have hlt := lt_of_getElem? text p1 d hc
    have a1 := spanFrom_ge isDigit text (p1 + 1)
    have a2 := spanFrom_le isDigit text (p1 + 1) hlt
    have b1 := spanFrom_ge isHexDigit text (p1 + 1)
    have b2 := spanFrom_le isHexDigit text (p1 + 1) hlt
    have c1 := spanFrom_ge isBinDigit text (p1 + 1)
    have c2 := spanFrom_le isBinDigit text (p1 + 1) hlt
    simp only
    split_ifs <;> simp only <;> omega

theorem numberExponent_bounds (text : List Char8) (isFloat : Bool) (p2 : Nat)
    (h : p2 ≤ text.length) (q : Bool × Nat) (hq : numberExponent text isFloat p2 = some q) :
    p2 ≤ q.2 ∧ q.2 ≤ text.length := by
  unfold numberExponent at hq
  cases hc : text[p2]? with
  | none =>
    rw [hc] at hq
    simp only [Option.some.injEq] at hq
    rw [← hq]
    exact ⟨le_refl _, h⟩
  | some e =>
    rw [hc] at hq
    have hlt := lt_of_getElem? text p2 e hc
    simp only at hq
    by_cases he : e = 101 ∨ e = 69
    · rw [if_pos he] at hq
      have hp4 : p2 + 1 ≤ (match text[p2 + 1]? with
          | none => p2 + 1
          | some sgn => if sgn = 43 ∨ sgn = 45 then p2 + 1 + 1 else p2 + 1) ∧
          (match text[p2 + 1]? with
          | none => p2 + 1
          | some sgn => if sgn = 43 ∨ sgn = 45 then p2 + 1 + 1 else p2 + 1) ≤ text.length := by
        cases hs : text[p2 + 1]? with
        | none => exact ⟨le_refl _, hlt⟩
        | some sgn =>
          have hlt2 := lt_of_getElem? text (p2 + 1) sgn hs
          simp only
          by_cases hsg : sgn = 43 ∨ sgn = 45
          · rw [if_pos hsg]
            exact ⟨by omega, by omega⟩
          · rw [if_neg hsg]
            exact ⟨by omega, by omega⟩
      generalize (match text[p2 + 1]? with
          | none => p2 + 1
          | some sgn => if sgn = 43 ∨ sgn = 45 then p2 + 1 + 1 else p2 + 1) = p4 at hq hp4
      have a1 := spanFrom_ge isDigit text p4
      have a2 := spanFrom_le isDigit text p4 hp4.2
      split_ifs at hq
      simp only [Option.some.injEq] at hq
      rw [← hq]
      simp only
      omega
    · rw [if_neg he] at hq
      simp only [Option.some.injEq] at hq
      rw [← hq]
      exact ⟨le_refl _, h⟩

theorem TokenizeCStyleNumber_bounds (t : List Char8) (e : Nat)
    (h : TokenizeCStyleNumber t = some e) : 0 < e ∧ e ≤ t.length := by
  cases t with
  | nil => cases h
  | cons c0 rest =>
    rw [TokenizeCStyleNumber_unfold] at h
    have hp1a := spanFrom_ge isDigit (c0 :: rest) 1
    have hp1b := spanFrom_le isDigit (c0 :: rest) 1 (by simp only [List.length_cons]; omega)
    obtain ⟨ht1, ht2⟩ := numberTail_bounds (c0 :: rest) _ hp1b
    split_ifs at h with h1 h2 h3
    · cases hr : numberExponent (c0 :: rest)
          (numberTail (c0 :: rest) (spanFrom isDigit (c0 :: rest) 1)).1
          (numberTail (c0 :: rest) (spanFrom isDigit (c0 :: rest) 1)).2.2.2 with
      | none =>
        rw [hr] at h
        cases h
      | some q =>
        rw [hr] at h
        obtain ⟨hq1, hq2⟩ := numberExponent_bounds _ _ _ ht2 q hr
        simp only [Option.map_some', Option.some.injEq] at h
        have hf : q.2 ≤ (if (c0 :: rest)[q.2]? = some 102 then q.2 + 1 else q.2) ∧
            (if (c0 :: rest)[q.2]? = some 102 then q.2 + 1 else q.2) ≤ (c0 :: rest).length := by
          by_cases h102 : (c0 :: rest)[q.2]? = some 102
          · have := lt_of_getElem? _ _ _ h102
            rw [if_pos h102]
            omega
          · rw [if_neg h102]
            omega
        generalize (if (c0 :: rest)[q.2]? = some 102 then q.2 + 1 else q.2) = p at h hf
        have a1 := spanFrom_ge isSizeSuffix (c0 :: rest) p
        have a2 := spanFrom_le isSizeSuffix (c0 :: rest) p hf.2
        split_ifs at h <;> omega
    · simp only [Option.map_some', Option.some.injEq] at h
      have a1 := spanFrom_ge isSizeSuffix (c0 :: rest)
        (numberTail (c0 :: rest) (spanFrom isDigit (c0 :: rest) 1)).2.2.2
      have a2 := spanFrom_le isSizeSuffix (c0 :: rest)
        (numberTail (c0 :: rest) (spanFrom isDigit (c0 :: rest) 1)).2.2.2 ht2
      split_ifs at h <;> omega

/-- The built-in tokenizer with its reads returns on every text, with the value of
`CPlusPlusTokenize`: no read is at or past the end of the text. -/
theorem CPlusPlusTokenizeReads_eq (text : List Char8) :
    CPlusPlusTokenizeReads text = Except.ok (CPlusPlusTokenize text) := by
  unfold CPlusPlusTokenizeReads CPlusPlusTokenize
  rw [scanReads_eq _ text text.length 0 (by omega)]
  simp only [bind, Except.bind]
  have hle := spanFrom_le (fun c => isascii c && isblank c) text 0 (Nat.zero_le _)
  by_cases hs : spanFrom (fun c => isascii c && isblank c) text 0 = text.length
  · rw [if_pos hs]
    have hd : text.drop (spanFrom (fun c => isascii c && isblank c) text 0) = [] :=
      List.drop_eq_nil_of_le (by omega)
    rw [hd]
    rfl
  · rw [if_neg hs]
    cases hd : text.drop (spanFrom (fun c => isascii c && isblank c) text 0) with
    | nil =>
      have := congrArg List.length hd
      rw [List.length_drop] at this
      simp only [List.length_nil] at this
      omega
    | cons c0 rest =>
      simp only [List.isEmpty_cons, Bool.false_eq_true, if_false]
      rw [TokenizeCStyleStringReads_eq]
      simp only
      cases TokenizeCStyleString (c0 :: rest) with
      | some e => rfl
      | none =>
        simp only
        rw [TokenizeCStyleCharacterLiteralReads_eq]
        simp only
        cases TokenizeCStyleCharacterLiteral (c0 :: rest) with
        | some e => rfl
        | none =>
          simp only
          rw [TokenizeCStyleIdentifierReads_eq]
          simp only
          cases TokenizeCStyleIdentifier (c0 :: rest) with
          | some e => rfl
          | none =>
            simp only
            rw [TokenizeCStyleNumberReads_eq]
            simp only
            cases TokenizeCStyleNumber (c0 :: rest) with
            | some e => rfl
            | none =>
              simp only
              rw [TokenizeCStylePunctuationReads_eq]
              simp only
              cases TokenizeCStylePunctuation (c0 :: rest) with
              | some e => rfl
              | none => rfl

/-- A token of the built-in tokenizer on a text that is not empty: it lies inside the
text and its end is behind the start of the text; when only blanks are left its end is
the end of the text. -/
theorem CPlusPlusTokenize_bounds (text : List Char8) (b e : Nat) (c : PaletteIndex)
    (hne : text ≠ []) (h : CPlusPlusTokenize text = some (b, e, c)) :
    b ≤ e ∧ 0 < e ∧ e ≤ text.length ∧
      ((∀ x ∈ text, (isascii x && isblank x) = true) → e = text.length) := by
  have hpos : 0 < text.length := List.length_pos.mpr hne
  unfold CPlusPlusTokenize at h
  simp only at h
  have hle := spanFrom_le (fun c => isascii c && isblank c) text 0 (Nat.zero_le _)
  have hall : (∀ x ∈ text, (isascii x && isblank x) = true) →
      text.drop (spanFrom (fun c => isascii c && isblank c) text 0) = [] := by
    intro hx
    apply List.drop_eq_nil_of_le
    unfold spanFrom
    rw [List.drop_zero, List.takeWhile_eq_self_iff.mpr hx]
    omega
  cases hd : text.drop (spanFrom (fun c => isascii c && isblank c) text 0) with
  | nil =>
    rw [hd] at h
    simp only [List.isEmpty_nil, if_true, Option.some.injEq, Prod.mk.injEq] at h
    obtain ⟨h1, h2, _⟩ := h
    subst h1 h2
    exact ⟨le_refl _, hpos, le_refl _, fun _ => rfl⟩
  | cons c0 rest =>
    rw [hd] at h
    simp only [List.isEmpty_cons, Bool.false_eq_true, if_false] at h
    have hlen : (spanFrom (fun c => isascii c && isblank c) text 0) + (c0 :: rest).length =
        text.length := by
      rw [← hd, List.length_drop]
      omega
    have hfin : ∀ e0, 0 < e0 ∧ e0 ≤ (c0 :: rest).length →
        b = spanFrom (fun c => isascii c && isblank c) text 0 →
        e = spanFrom (fun c => isascii c && isblank c) text 0 + e0 →
        b ≤ e ∧ 0 < e ∧ e ≤ text.length ∧
          ((∀ x ∈ text, (isascii x && isblank x) = true) → e = text.length) := by
      intro e0 he0 hb he
      refine ⟨by omega, by omega, by omega, fun hx => ?_⟩
      rw [hall hx] at hd
      cases hd
    cases h1 : TokenizeCStyleString (c0 :: rest) with
    | some e0 =>
      rw [h1] at h
      simp only [Option.some.injEq, Prod.mk.injEq] at h
      exact hfin e0 (TokenizeCStyleString_bounds _ _ h1) h.1.symm h.2.1.symm
    | none =>
      rw [h1] at h
      simp only at h
      cases h2 : TokenizeCStyleCharacterLiteral (c0 :: rest) with
      | some e0 =>
        rw [h2] at h
        simp only [Option.some.injEq, Prod.mk.injEq] at h
        exact hfin e0 (TokenizeCStyleCharacterLiteral_bounds _ _ h2) h.1.symm h.2.1.symm
      | none =>
        rw [h2] at h
        simp only at h
        cases h3 : TokenizeCStyleIdentifier (c0 :: rest) with
        | some e0 =>
          rw [h3] at h
          simp only [Option.some.injEq, Prod.mk.injEq] at h
          exact hfin e0 (TokenizeCStyleIdentifier_bounds _ _ h3) h.1.symm h.2.1.symm
        | none =>
          rw [h3] at h
          simp only at h
          cases h4 : TokenizeCStyleNumber (c0 :: rest) with
          | some e0 =>
            rw [h4] at h
            simp only [Option.some.injEq, Prod.mk.injEq] at h
            exact hfin e0 (TokenizeCStyleNumber_bounds _ _ h4) h.1.symm h.2.1.symm
          | none =>
            rw [h4] at h
            simp only at h
            cases h5 : TokenizeCStylePunctuation (c0 :: rest) with
            | some e0 =>
              rw [h5] at h
              simp only [Option.some.injEq, Prod.mk.injEq] at h
              exact hfin e0 (TokenizeCStylePunctuation_bounds _ _ h5) h.1.symm h.2.1.symm
            | none =>
              rw [h5] at h
              cases h

theorem paintToken_ok (color : PaletteIndex) :
    ∀ (n i : Nat) (line : Line), i + n ≤ line.length →
      ∃ out, paintToken color n line (i : Int) = Except.ok out ∧ out.length = line.length := by
  intro n
  induction n with
  | zero =>
    intro i line _
    exact ⟨line, rfl, rfl⟩
  | succ m ih =>
    intro i line h
    have hi : i < line.length := by omega
    unfold paintToken glyphUpdate
    rw [vecAt_natCast line i hi]
    have hset : ∀ x : Glyph, vecSet line (i : Int) x = Except.ok (line.set i x) := by
      intro x
      unfold vecSet
      rw [if_neg (by omega)]
      rfl
    simp only [bind, Except.bind]
    rw [hset]
    simp only
    have hc : ((i : Int) + 1) = ((i + 1 : Nat) : Int) := by omega
    rw [hc]
    obtain ⟨out, hout, hlen⟩ := ih (i + 1)
      (line.set i { line.get ⟨i, hi⟩ with mColorIndex := color })
      (by rw [List.length_set]; omega)
    exact ⟨out, hout, by rw [hlen, List.length_set]⟩

theorem tokenAt_builtin (ld : LanguageDefinition)
    (hT : ld.mTokenize = some CPlusPlusTokenize) (hR : ld.mTokenRegexStrings = [])
    (buffer : List Char8) (first : Nat) :
    tokenAt ld buffer first = CPlusPlusTokenize (buffer.drop first) := by
  unfold tokenAt
  rw [hT, hR]
  cases h : CPlusPlusTokenize (buffer.drop first) with
  | some t => simp only [h]
  | none => simp only [h, regexSearch]

/-- The budget of the token loop is never used up: with more turns than the buffer has
characters from `first` on, the loop gives the same result for every number of turns. -/
theorem ColorizeLineLoop_budget (ld : LanguageDefinition) (buffer : List Char8) :
    ∀ (n first : Nat) (line : Line), buffer.length - first ≤ n →
      ∀ fuel, n < fuel →
        ColorizeLineLoop ld buffer fuel first line =
          ColorizeLineLoop ld buffer (n + 1) first line := by
  intro n
  induction n with
  | zero =>
    intro first line hn fuel hfuel
    obtain ⟨f, rfl⟩ : ∃ f, fuel = f + 1 := ⟨fuel - 1, by omega⟩
    rw [ColorizeLineLoop_unfold, ColorizeLineLoop_unfold]
    by_cases hend : first = buffer.length
    · rw [if_pos hend, if_pos hend]
    · rw [if_neg hend, if_neg hend, if_pos (by omega), if_pos (by omega)]
  | succ m ih =>
    intro first line hn fuel hfuel
    obtain ⟨f, rfl⟩ : ∃ f, fuel = f + 1 := ⟨fuel - 1, by omega⟩
    rw [ColorizeLineLoop_unfold, ColorizeLineLoop_unfold]
    by_cases hend : first = buffer.length
    · rw [if_pos hend, if_pos hend]
    · rw [if_neg hend, if_neg hend]
      by_cases hlt : buffer.length < first
      · rw [if_pos hlt, if_pos hlt]
      · rw [if_neg hlt, if_neg hlt]
        cases htok : tokenAt ld buffer first with
        | none =>
          exact ih (first + 1) line (by omega) f (by omega)
        | some t =>
          obtain ⟨b, e, c⟩ := t
          simp only
          by_cases h2 : e < b
          · rw [if_pos h2, if_pos h2]
          · rw [if_neg h2, if_neg h2]
            by_cases h3 : e = 0
            · rw [if_pos h3, if_pos h3]
            · rw [if_neg h3, if_neg h3]
              cases (if c = PaletteIndex.Identifier then do
                  let g ← vecAt line (first : Int)
                  pure (identifierColor ld (((buffer.drop first).drop b).take (e - b))
                    g.mPreprocessor)
                else pure c : Res PaletteIndex) with
              | error err => rfl
              | ok color1 =>
                simp only [bind, Except.bind]
                cases paintToken color1 (e - b) line ((first + b : Nat) : Int) with
                | error err => rfl
                | ok line1 =>
                  simp only
                  exact ih (first + e) line1 (by omega) f (by omega)

/-- The token loop with the built-in tokenizer and no regular expressions ends: from the
offset `first` it returns, within as many turns as the buffer has characters left. -/
theorem ColorizeLineLoop_halts (ld : LanguageDefinition)
    (hT : ld.mTokenize = some CPlusPlusTokenize) (hR : ld.mTokenRegexStrings = [])
    (buffer : List Char8) :
    ∀ (n first : Nat) (line : Line), line.length = buffer.length → first ≤ buffer.length →
      buffer.length - first ≤ n →
      ∃ out, ∀ fuel, n < fuel → ColorizeLineLoop ld buffer fuel first line = Except.ok out := by
  intro n
  induction n with
  | zero =>
    intro first line _ hf hn
    refine ⟨line, fun fuel hfuel => ?_⟩
    obtain ⟨f, rfl⟩ : ∃ f, fuel = f + 1 := ⟨fuel - 1, by omega⟩
    rw [ColorizeLineLoop_unfold, if_pos (by omega)]
    rfl
  | succ m ih =>
    intro first line hlen hf hn
    by_cases hend : first = buffer.length
    · refine ⟨line, fun fuel hfuel => ?_⟩
      obtain ⟨f, rfl⟩ : ∃ f, fuel = f + 1 := ⟨fuel - 1, by omega⟩
      rw [ColorizeLineLoop_unfold, if_pos hend]
      rfl
    · have hlt : first < buffer.length := by omega
      have hne : buffer.drop first ≠ [] := by
        intro h
        have := congrArg List.length h
        rw [List.length_drop] at this
        simp only [List.length_nil] at this
        omega
      cases htok : tokenAt ld buffer first with
      | none =>
        obtain ⟨out, hout⟩ := ih (first + 1) line hlen (by omega) (by omega)
        refine ⟨out, fun fuel hfuel => ?_⟩
        obtain ⟨f, rfl⟩ : ∃ f, fuel = f + 1 := ⟨fuel - 1, by omega⟩
        rw [ColorizeLineLoop_unfold, if_neg hend, if_neg (by omega), htok]
        exact hout f (by omega)
      | some t =>
        obtain ⟨b, e, c⟩ := t
        have htok2 := htok
        rw [tokenAt_builtin ld hT hR] at htok2
        obtain ⟨hbe, he0, hel, _⟩ := CPlusPlusTokenize_bounds _ b e c hne htok2
        rw [List.length_drop] at hel
        obtain ⟨g, hg⟩ := vecAt_ok line (first : Int) (by omega) (by omega)
        obtain ⟨color1, hcolor⟩ : ∃ color1, (if c = PaletteIndex.Identifier then do
              let g ← vecAt line (first : Int)
              pure (identifierColor ld
                (((buffer.drop first).drop b).take (e - b)) g.mPreprocessor)
            else pure c : Res PaletteIndex) = Except.ok color1 := by
          by_cases hc : c = PaletteIndex.Identifier
          · rw [if_pos hc, hg]
            exact ⟨_, rfl⟩
          · rw [if_neg hc]
            exact ⟨_, rfl⟩
        obtain ⟨line1, hpaint, hlen1⟩ := paintToken_ok color1 (e - b) (first + b) line
          (by omega)
        obtain ⟨out, hout⟩ := ih (first + e) line1 (by rw [hlen1, hlen]) (by omega) (by omega)
        refine ⟨out, fun fuel hfuel => ?_⟩
        obtain ⟨f, rfl⟩ : ∃ f, fuel = f + 1 := ⟨fuel - 1, by omega⟩
        rw [ColorizeLineLoop_unfold, if_neg hend, if_neg (by omega), htok]
        simp only
        rw [if_neg (by omega), if_neg (by omega), hcolor]
        simp only [bind, Except.bind]
        rw [hpaint]
        exact hout f (by omega)

/-- C39: for every line, the token loop of `ColorizeRange` with the built-in language
definition ends: it returns (the loop of the model returns only from a turn with `first`
at `last`; a turn that leaves `first` where it is, or a budget of turns that is used up,
is reported as a fault), with at least one turn more than the line has glyphs, and
`ColorizeLine` returns. At every offset `first` before the end of the buffer the tokenizer
reads no character at or past the end (with its reads it returns, the value of
`CPlusPlusTokenize`); a token it returns has its begin at most its end, its end strictly
behind `first` and at most the end of the buffer, its end is the end of the buffer when
only blanks are left, and the turn paints the token and goes on at the token's end,
`first + e`; when no token is returned, the loop goes on at `first + 1`. -/
theorem token_loop_halts (line : Line) :
    (∃ out, (∀ fuel, line.length < fuel →
        ColorizeLineLoop LanguageDefinition.CPlusPlus (lineChars line) fuel 0
          (line.map fun g => { g with mColorIndex := PaletteIndex.Default }) =
            Except.ok out) ∧
      (line.isEmpty = false → ColorizeLine LanguageDefinition.CPlusPlus line = Except.ok out)) ∧
    ∀ first, first < (lineChars line).length →
      CPlusPlusTokenizeReads ((lineChars line).drop first) =
        Except.ok (tokenAt LanguageDefinition.CPlusPlus (lineChars line) first) ∧
      (∀ b e c, tokenAt LanguageDefinition.CPlusPlus (lineChars line) first = some (b, e, c) →
        b ≤ e ∧ 0 < e ∧ first + e ≤ (lineChars line).length ∧
        ((∀ x ∈ (lineChars line).drop first, (isascii x && isblank x) = true) →
          first + e = (lineChars line).length) ∧
        ∀ fuel l, ColorizeLineLoop LanguageDefinition.CPlusPlus (lineChars line) (fuel + 1)
            first l =
          (do
            let color1 ← (if c = PaletteIndex.Identifier then do
                let g ← vecAt l (first : Int)
                pure (identifierColor LanguageDefinition.CPlusPlus
                  ((((lineChars line).drop first).drop b).take (e - b)) g.mPreprocessor)
              else pure c)
            let line1 ← paintToken color1 (e - b) l ((first + b : Nat) : Int)
            ColorizeLineLoop LanguageDefinition.CPlusPlus (lineChars line) fuel (first + e)
              line1)) ∧
      (tokenAt LanguageDefinition.CPlusPlus (lineChars line) first = none →
        ∀ fuel l, ColorizeLineLoop LanguageDefinition.CPlusPlus (lineChars line) (fuel + 1)
            first l =
          ColorizeLineLoop LanguageDefinition.CPlusPlus (lineChars line) fuel (first + 1) l) := by
  refine ⟨?_, fun first hfirst => ⟨?_, fun b e c htok => ?_, fun htok fuel l => ?_⟩⟩
  · obtain ⟨out, hout⟩ := ColorizeLineLoop_halts LanguageDefinition.CPlusPlus rfl rfl
      (lineChars line) line.length 0
      (line.map fun g => { g with mColorIndex := PaletteIndex.Default })
      (by rw [List.length_map, lineChars_length]) (Nat.zero_le _)
      (by rw [lineChars_length]; omega)
    refine ⟨out, hout, fun hne => ?_⟩
    unfold ColorizeLine
    rw [if_neg (by rw [hne]; exact Bool.false_ne_true)]
    exact hout (line.length + 1) (by omega)
  · rw [tokenAt_builtin LanguageDefinition.CPlusPlus rfl rfl]
    exact CPlusPlusTokenizeReads_eq _
  · have htok0 := htok
    rw [tokenAt_builtin LanguageDefinition.CPlusPlus rfl rfl] at htok
    have hne : (lineChars line).drop first ≠ [] := by
      intro h
      have := congrArg List.length h
      rw [List.length_drop] at this
      simp only [List.length_nil] at this
      omega
    obtain ⟨h1, h2, h3, h4⟩ := CPlusPlusTokenize_bounds _ b e c hne htok
    rw [List.length_drop] at h3 h4
    refine ⟨h1, h2, by omega, fun hx => by have := h4 hx; omega, fun fuel l => ?_⟩
    rw [ColorizeLineLoop_unfold, if_neg (by omega), if_neg (by omega), htok0]
    simp only
    rw [if_neg (by omega), if_neg (by omega)]
  · rw [ColorizeLineLoop_unfold, if_neg (by omega), if_neg (by omega), htok]

/-- In the walk over the bytes of a line, the boundary behind a boundary that lies before
the end of the line is further by the length that the byte at the boundary announces. -/
theorem specBoundaries_next (tabSize : Int) (ht : 1 ≤ tabSize) (l : List Char8) :
    ∀ (skip : Nat) (off col : Int) (front back : List (Int × Int)) (q : Int × Int),
      specBoundaries tabSize l skip off col = front ++ q :: back →
      q.1 < off + (l.length : Int) →
      ∃ (b : Char8) (q' : Int × Int) (back' : List (Int × Int)),
        l[(q.1 - off).toNat]? = some b ∧ back = q' :: back' ∧
          q'.1 = q.1 + UTF8CharLength b := by
  induction l with
  | nil =>
    intro skip off col front back q h hlt
    simp only [specBoundaries] at h
    cases front with
    | nil =>
      simp only [List.nil_append, List.cons.injEq] at h
      rw [← h.1] at hlt
      simp only [List.length_nil, Nat.cast_zero, add_zero] at hlt
      omega
    | cons f front' =>
      simp only [List.cons_append, List.cons.injEq] at h
      have h2 := congrArg List.length h.2
      simp only [List.length_nil, List.length_append, List.length_cons] at h2
      omega
  | cons b rest ih =>
    intro skip off col front back q h hlt
    have hpos := UTF8CharLength_pos b
    cases skip with
    | zero =>
      simp only [specBoundaries] at h
      cases front with
      | nil =>
        simp only [List.nil_append, List.cons.injEq] at h
        obtain ⟨hq, hback⟩ := h
        rw [specBoundaries_skip] at hback
        obtain ⟨T, hT⟩ := specBoundaries_head tabSize
          (rest.drop (UTF8CharLength b - 1).toNat)
          (off + 1 + ((UTF8CharLength b - 1).toNat : Nat))
          (if b = 9 then specNextTabColumn tabSize col else col + 1)
        rw [hT] at hback
        refine ⟨b, _, T, ?_, hback.symm, ?_⟩
        · rw [← hq]
          simp
        · rw [← hq]
          simp only
          omega
      | cons f front' =>
        simp only [List.cons_append, List.cons.injEq] at h
        obtain ⟨_, htail⟩ := h
        have hmem : q ∈ specBoundaries tabSize rest (UTF8CharLength b - 1).toNat (off + 1)
            (if b = 9 then specNextTabColumn tabSize col else col + 1) := by
          rw [htail]
          simp
        have hlow := specBoundaries_lower_skip tabSize ht _ _ _ _ q hmem
        obtain ⟨b', q', back', hb, hback, hq'⟩ := ih _ _ _ front' back q htail (by
          simp only [List.length_cons, Nat.cast_add, Nat.cast_one] at hlt
          omega)
        refine ⟨b', q', back', ?_, hback, hq'⟩
        have hidx : (q.1 - off).toNat = (q.1 - (off + 1)).toNat + 1 := by omega
        rw [hidx, List.getElem?_cons_succ]
        exact hb
    | succ s =>
      simp only [specBoundaries] at h
      have hmem : q ∈ specBoundaries tabSize rest s (off + 1) col := by
        rw [h]
        simp
      have hlow := specBoundaries_lower_skip tabSize ht _ _ _ _ q hmem
      obtain ⟨b', q', back', hb, hback, hq'⟩ := ih _ _ _ front back q h (by
        simp only [List.length_cons, Nat.cast_add, Nat.cast_one] at hlt
        omega)
      refine ⟨b', q', back', ?_, hback, hq'⟩
      have hidx : (q.1 - off).toNat = (q.1 - (off + 1)).toNat + 1 := by omega
      rw [hidx, List.getElem?_cons_succ]
      exact hb

/-- The byte offsets of the boundaries of a walk go up. -/
theorem specBoundaries_sorted (tabSize : Int) (ht : 1 ≤ tabSize) (l : List Char8) :
    ∀ (skip : Nat) (off col : Int),
      (specBoundaries tabSize l skip off col).Pairwise (fun a b => a.1 < b.1) := by
  induction l with
  | nil =>
    intro skip off col
    simp only [specBoundaries]
    exact List.pairwise_singleton _ _
  | cons b rest ih =>
    intro skip off col
    cases skip with
    | zero =>
      simp only [specBoundaries]
      rw [List.pairwise_cons]
      refine ⟨fun p hp => ?_, ih _ _ _⟩
      have := specBoundaries_lower_skip tabSize ht _ _ _ _ p hp
      simp only
      omega
    | succ s =>
      simp only [specBoundaries]
      exact ih _ _ _

theorem boundaryColumn_between (front back : List (Int × Int)) (q q' : Int × Int) (idx : Int)
    (hfront : ∀ p ∈ front, p.1 < idx) (hq : q.1 < idx) (hq' : idx ≤ q'.1) :
    boundaryColumn (front ++ q :: q' :: back) idx = q'.2 := by
  unfold boundaryColumn
  have h1 : (front ++ q :: q' :: back).find? (fun p => decide (idx ≤ p.1)) = some q' := by
    rw [List.find?_append]
    have hnone : front.find? (fun p => decide (idx ≤ p.1)) = none := by
      rw [List.find?_eq_none]
      intro p hp
      have := hfront p hp
      simp only [decide_eq_true_eq]
      omega
    rw [hnone]
    simp only [Option.none_or]
    rw [List.find?_cons_of_neg, List.find?_cons_of_pos]
    · simp only [decide_eq_true_eq]
      exact hq'
    · simp only [decide_eq_true_eq]
      omega
  rw [h1]

theorem GetCharacterColumn_zero (ed : Editor) (aLine : Int) :
    GetCharacterColumn ed aLine 0 = Except.ok 0 := by
  unfold GetCharacterColumn
  by_cases hr : aLine < 0 ∨ (ed.mLines.length : Int) ≤ aLine
  · rw [if_pos hr]
    rfl
  · rw [if_neg hr]
    obtain ⟨line, hline⟩ := vecAt_ok ed.mLines aLine (by omega) (by omega)
    rw [hline]
    show GetCharacterColumnLoop ed.mTabSize line 0 line.length 0 0 = Except.ok 0
    cases line.length with
    | zero => rfl
    | succ n =>
      unfold GetCharacterColumnLoop
      rw [if_neg (by omega)]
      rfl

/-- C24 (amended): for every coordinate on a character boundary of a line of the buffer
(tab size at least 1; `q` is the boundary, with its byte offset and its column, in the
list of the boundaries of the line), `Advance` returns; when the byte offset of the
boundary is below the offset of the last byte of the line, it yields the coordinate of the
next boundary of the same line, one character further; otherwise, at the end of the line
and also in front of the last byte of the line, it yields `(line + 1, 0)`. -/
theorem Advance_steps (ed : Editor) (l : Nat) (hl : l < ed.mLines.length)
    (ht : 1 ≤ ed.mTabSize) (front back : List (Int × Int)) (q : Int × Int)
    (hq : lineBoundaries ed.mTabSize (ed.mLines.get ⟨l, hl⟩) = front ++ q :: back) :
    (q.1 + 1 < ((ed.mLines.get ⟨l, hl⟩).length : Int) ∧
      ∃ (q' : Int × Int) (back' : List (Int × Int)), back = q' :: back' ∧
        Advance ed ⟨(l : Int), q.2⟩ = Except.ok ⟨(l : Int), q'.2⟩) ∨
    (((ed.mLines.get ⟨l, hl⟩).length : Int) ≤ q.1 + 1 ∧
      Advance ed ⟨(l : Int), q.2⟩ = Except.ok ⟨(l : Int) + 1, 0⟩) := by
  have hmem : q ∈ lineBoundaries ed.mTabSize (ed.mLines.get ⟨l, hl⟩) := by
    rw [hq]
    simp
  have hidx := GetCharacterIndex_boundary ed l hl ht q hmem
  obtain ⟨_, hline⟩ := line_at ed l hl
  have hlow := (specBoundaries_lower ed.mTabSize ht _ 0 0 0 q hmem).1
  have hrun : Advance ed ⟨(l : Int), q.2⟩ =
      (if q.1 + 1 < ((ed.mLines.get ⟨l, hl⟩).length : Int) then do
        let g ← vecAt (ed.mLines.get ⟨l, hl⟩) q.1
        let col ← GetCharacterColumn ed (l : Int)
          (Min.min (q.1 + UTF8CharLength g.mChar)
            (((ed.mLines.get ⟨l, hl⟩).length : Int) - 1))
        pure ⟨(l : Int), col⟩
      else do
        let col ← GetCharacterColumn ed ((l : Int) + 1) 0
        pure ⟨(l : Int) + 1, col⟩) := by
    unfold Advance
    simp only
    rw [if_pos (by omega), hline, hidx]
    rfl
  by_cases hin : q.1 + 1 < ((ed.mLines.get ⟨l, hl⟩).length : Int)
  · left
    refine ⟨hin, ?_⟩
    unfold lineBoundaries at hq
    obtain ⟨b, q', back', hb, hback, hq'⟩ := specBoundaries_next ed.mTabSize ht _ 0 0 0
      front back q hq (by rw [lineChars_length]; omega)
    refine ⟨q', back', hback, ?_⟩
    have hk : q.1.toNat < (ed.mLines.get ⟨l, hl⟩).length := by omega
    have hg : vecAt (ed.mLines.get ⟨l, hl⟩) q.1 =
        Except.ok ((ed.mLines.get ⟨l, hl⟩).get ⟨q.1.toNat, hk⟩) := by
      have := vecAt_natCast (ed.mLines.get ⟨l, hl⟩) q.1.toNat hk
      rw [Int.toNat_of_nonneg (by omega)] at this
      exact this
    have hbyte : ((ed.mLines.get ⟨l, hl⟩).get ⟨q.1.toNat, hk⟩).mChar = b := by
      simp only [sub_zero] at hb
      unfold lineChars at hb
      rw [List.getElem?_map, List.getElem?_eq_getElem hk] at hb
      simp only [Option.map_some', Option.some.injEq] at hb
      exact hb
    rw [hrun, if_pos hin, hg]
    simp only [bind, Except.bind]
    rw [hbyte, GetCharacterColumn_eq_spec ed l hl ht]
    have hpos := UTF8CharLength_pos b
    have hsorted := specBoundaries_sorted ed.mTabSize ht
      (lineChars (ed.mLines.get ⟨l, hl⟩)) 0 0 0
    rw [hq, hback, List.pairwise_append] at hsorted
    have hcol : specCharacterColumn ed.mTabSize (ed.mLines.get ⟨l, hl⟩)
        (Min.min (q.1 + UTF8CharLength b)
          (((ed.mLines.get ⟨l, hl⟩).length : Int) - 1)) = q'.2 := by
      unfold specCharacterColumn lineBoundaries
      rw [hq, hback]
      refine boundaryColumn_between front back' q q' _ (fun p hp => ?_) ?_ ?_
      · have := hsorted.2.2 p hp q (by simp)
        have h2 : q.1 < Min.min (q.1 + UTF8CharLength b)
            (((ed.mLines.get ⟨l, hl⟩).length : Int) - 1) := lt_min (by omega) (by omega)
        omega
      · exact lt_min (by omega) (by omega)
      · rw [hq']
        exact min_le_left _ _
    rw [hcol]
    rfl
  · right
    refine ⟨by omega, ?_⟩
    rw [hrun, if_neg hin, GetCharacterColumn_zero]
    rfl

set_option maxRecDepth 100000 in
/-- C24 (witness): in the two lines `ab`, `cd`, the boundary of the first line at byte
offset 0 and column 0: its offset is below the offset 1 of the last byte, and `Advance`
yields the coordinate (0, 1) of the next boundary. -/
theorem Advance_steps_witness :
    1 ≤ twoLinesAbCd.mTabSize ∧
    lineBoundaries twoLinesAbCd.mTabSize (twoLinesAbCd.mLines.get ⟨0, by decide⟩) =
      [] ++ (0, 0) :: [(1, 1), (2, 2)] ∧
    Advance twoLinesAbCd ⟨0, 0⟩ = Except.ok ⟨0, 1⟩ ∧
    ((((0, 0) : Int × Int).1 + 1 < ((twoLinesAbCd.mLines.get ⟨0, by decide⟩).length : Int) ∧
      ∃ (q' : Int × Int) (back' : List (Int × Int)), [(1, 1), (2, 2)] = q' :: back' ∧
        Advance twoLinesAbCd ⟨((0 : Nat) : Int), ((0, 0) : Int × Int).2⟩ =
          Except.ok ⟨((0 : Nat) : Int), q'.2⟩) ∨
    (((twoLinesAbCd.mLines.get ⟨0, by decide⟩).length : Int) ≤ ((0, 0) : Int × Int).1 + 1 ∧
      Advance twoLinesAbCd ⟨((0 : Nat) : Int), ((0, 0) : Int × Int).2⟩ =
        Except.ok ⟨((0 : Nat) : Int) + 1, 0⟩)) :=
  ⟨by decide, by decide, by decide,
    Advance_steps twoLinesAbCd 0 (by decide) (by decide) [] [(1, 1), (2, 2)] (0, 0)
      (by decide)⟩

end TextEditor
